import Mathlib

/-!
CIMA: recovery from memory-safety faults, with taint tracking.

A verification development over two parts of the repository:

* `src/cimapass/cima_runtime.cpp`: the runtime helper that searches the
  checker's shadow memory for the nearest valid address;
* `src/cimapass/cimapass_tainted.cpp`: the taint-aware instrumentation
  pipeline (recovery injection, SSA taint propagation, store guarding).

Machine integers are natural numbers reduced modulo `2 ^ 64`; the memory the
runtime helper reads is a partial function from addresses to bytes, a read
outside of which faults.
-/

namespace Cima

/-! ## Runtime helper (`cima_runtime.cpp`) -/

/-- The `SHADOW_OFFSET` constant, `0x7FFF8000`. -/
def SHADOW_OFFSET : Nat := 2147450880

/-- The `MAX_SEARCH_DISTANCE` constant, in granules. -/
def MAX_SEARCH_DISTANCE : Nat := 512

/-- The modulus of `uint64_t` arithmetic. -/
def U64 : Nat := 2 ^ 64

/-- Memory as seen by a single-byte read: the byte stored at each mapped
address, and `none` at an address that is not mapped, where the read faults
and the program receives a segmentation fault. -/
abbrev Memory := Nat → Option Nat

/-- The shadow address of `addr`: `(addr >> 3) + SHADOW_OFFSET` in `uint64_t`. -/
def shadowAddr (addr : Nat) : Nat :=
  ((addr % U64) / 8 + SHADOW_OFFSET) % U64

/-- `is_valid_access(addr, size)`: one volatile byte read of the shadow of
`addr`, then the three-way test of the source.  The result is `none` when the
read faults. -/
def is_valid_access (mem : Memory) (addr size : Nat) : Option Bool :=
  let shadow_addr := shadowAddr addr
  match mem shadow_addr with
  | none => none
  | some v =>
    let shadow_byte := v % 256
    if shadow_byte = 0 then some true
    else if shadow_byte ≥ 0xF1 then some false
    else
      let offset := (addr % U64) % 8
      some (decide ((offset + size % U64) % U64 ≤ shadow_byte))

/-- The forward candidate of the loop body at distance `offset`:
`(base_granule + offset) << 3`. -/
def fwdAddr (base_granule offset : Nat) : Nat :=
  (((base_granule + offset) % U64) * 8) % U64

/-- The backward candidate of the loop body at distance `offset`:
`(base_granule - offset) << 3`, the subtraction wrapping. -/
def bwdAddr (base_granule offset : Nat) : Nat :=
  (((base_granule + U64 - offset % U64) % U64) * 8) % U64

/-- The `for` loop of `__cima_find_nearest_valid`, with `remaining`
iterations left and the loop variable at `offset`.  The result is the
returned pointer as an integer, `0` being `nullptr`, or `none` when a shadow
read faults. -/
def searchLoop (mem : Memory) (base_granule access_size : Nat) :
    (remaining : Nat) → (offset : Nat) → Option Nat
  | 0, _ => some 0
  | remaining + 1, offset =>
    match is_valid_access mem (fwdAddr base_granule offset) access_size with
    | none => none
    | some true => some (fwdAddr base_granule offset)
    | some false =>
      if 0 < offset then
        match is_valid_access mem (bwdAddr base_granule offset) access_size with
        | none => none
        | some true => some (bwdAddr base_granule offset)
        | some false => searchLoop mem base_granule access_size remaining (offset + 1)
      else searchLoop mem base_granule access_size remaining (offset + 1)

/-- `__cima_find_nearest_valid(invalid_ptr, access_size)`: the loop runs for
`offset = 0, …, MAX_SEARCH_DISTANCE - 1`; falling out of it returns null. -/
def __cima_find_nearest_valid (mem : Memory) (invalid_ptr access_size : Nat) : Option Nat :=
  let invalid_addr := invalid_ptr % U64
  let base_granule := invalid_addr / 8
  searchLoop mem base_granule access_size MAX_SEARCH_DISTANCE 0

/-! ### The specification's vocabulary for the runtime helper -/

/-- The validity test as the specification words it, on a shadow byte `b`:
`b = 0x00`, or `b` in `0x01..0x07` with `(A mod 8) + W ≤ b`. -/
def specValid (b A W : Nat) : Bool :=
  decide (b = 0 ∨ (1 ≤ b ∧ b ≤ 7 ∧ A % 8 + W ≤ b))

/-- The specification's forward candidate `((A>>3) + d) << 3`. -/
def fwd (A d : Nat) : Nat := fwdAddr ((A % U64) / 8) d

/-- The specification's backward candidate `((A>>3) - d) << 3`. -/
def bwd (A d : Nat) : Nat := bwdAddr ((A % U64) / 8) d

/-- The candidates at distances `d, d+1, …, d+n-1`, forward before backward,
the backward one only for a positive distance. -/
def candidatesFrom (A : Nat) : (n : Nat) → (d : Nat) → List Nat
  | 0, _ => []
  | n + 1, d =>
    (if 0 < d then [fwd A d, bwd A d] else [fwd A d]) ++ candidatesFrom A n (d + 1)

/-- The sequence `fwd(0), fwd(1), bwd(1), …, fwd(511), bwd(511)`. -/
def candidates (A : Nat) : List Nat := candidatesFrom A 512 0

/-- A single byte at address `a` is addressable under the shadow encoding:
the shadow byte of its granule is mapped and is `0x00`, or is `N` in
`0x01..0x07` with the byte's offset inside the granule less than `N`. -/
def byteAddressable (mem : Memory) (a : Nat) : Bool :=
  match mem (shadowAddr a) with
  | none => false
  | some v => decide (v % 256 = 0 ∨ (1 ≤ v % 256 ∧ v % 256 ≤ 7 ∧ (a % U64) % 8 < v % 256))

/-- The outcome of testing the candidates `cs` in order, as the
specification words the search: the first candidate that passes the validity
test, null (`0`) when the list is exhausted, and a fault when the shadow read
of a candidate faults before any candidate has passed. -/
def firstPassing (mem : Memory) (W : Nat) : List Nat → Option Nat
  | [] => some 0
  | c :: cs =>
    match is_valid_access mem c W with
    | none => none
    | some true => some c
    | some false => firstPassing mem W cs

/-- Shadow memory in which granule `0x200` is valid and all else is a heap
redzone (`0xFA`). -/
def memOneGranule : Memory := fun a => if a = 0x7FFF8200 then some 0 else some 0xFA

/-- Shadow memory filled with the checker's alloca-redzone byte `0xCA`. -/
def memAllocaRedzone : Memory := fun _ => some 0xCA

/-- Memory in which every byte is mapped and zero. -/
def memZero : Memory := fun _ => some 0

/-- The user half of the x86-64 address space filled with the heap-redzone
byte `0xFA`; addresses from `2 ^ 47` on are not mapped. -/
def memRedzone : Memory := fun a => if a < 2 ^ 47 then some 0xFA else none

/-- As `memRedzone`, with granule `2` (addresses `16..23`) valid. -/
def memGranule2 : Memory :=
  fun a => if a < 2 ^ 47 then (if a = 0x7FFF8002 then some 0 else some 0xFA) else none

/-! ## The intermediate representation seen by the pass

Only what `cimapass_tainted.cpp` inspects is represented: the kind of each
instruction, its operands, its name, the terminator of each block and the
order of blocks and instructions. -/

abbrev InstId := Nat
abbrev BlockId := Nat

/-- An SSA value.  `orOf a b` is the result of the `or` instruction that
`IRBuilder::CreateOr` emits for the operands `a` and `b`; such an instruction
is identified by its operands. -/
inductive Value where
  | cbool (b : Bool)
  | cint (n : Nat)
  | undef
  | arg (n : Nat)
  | inst (id : InstId)
  | orOf (a b : Value)
  deriving DecidableEq, Repr, Inhabited

/-- Instruction kinds, one per `isa<>` / `dyn_cast<>` test of the pass.
`cast` stands for every `CastInst` of the program other than `bitcast`;
`truncTaint` is the pass's `CreateTrunc(ShadowLoad, i1)` and `zextTaint` its
`CreateZExt` of an `i1` taint, both `CastInst`s as well; `intToPtr` is an
`inttoptr` cast and `isNull` the comparison `icmp eq p, null` that
`CreateIsNull` emits.  `atomicrmw` and `cmpxchg` are `AtomicRMWInst` and
`AtomicCmpXchgInst`.  An `alloca` carries its allocated type and its array
size operand.  A direct call names its callee, an indirect one has none. -/
inductive Op where
  | alloca (ty : String) (count : Value)
  | load (ptr : Value)
  | store (val ptr : Value)
  | binop (a b : Value)
  | cmp (a b : Value)
  | cast (a : Value)
  | bitcast (a : Value)
  | truncTaint (a : Value)
  | zextTaint (a : Value)
  | intToPtr (a : Value)
  | isNull (a : Value)
  | atomicrmw (ptr val : Value)
  | cmpxchg (ptr cmp new : Value)
  | gep (ptr : Value) (idx : List Value)
  | select (c a b : Value)
  | call (callee : Option String) (args : List Value) (isVoid : Bool)
  | phi (incoming : List (Value × BlockId))
  | other (ops : List Value) (isVoid : Bool)
  deriving DecidableEq, Repr, Inhabited

/-- A non-terminator instruction. -/
structure Inst where
  id : InstId
  name : String
  op : Op
  deriving DecidableEq, Repr, Inhabited

/-- Block terminators.  Successor `0` of a conditional branch is `t`. -/
inductive Term where
  | br (t : BlockId)
  | condBr (c : Value) (t f : BlockId)
  | switch (c : Value) (dflt : BlockId) (cases : List BlockId)
  | ret (v : Option Value)
  | unreachable
  deriving DecidableEq, Repr, Inhabited

structure Block where
  id : BlockId
  insts : List Inst
  term : Term
  deriving DecidableEq, Repr, Inhabited

/-- A function: its blocks in layout order, the first being the entry block,
and the next unused instruction and block identifiers. -/
structure Func where
  blocks : List Block
  nextInst : InstId
  nextBlock : BlockId
  deriving DecidableEq, Repr, Inhabited

/-- `StringRef::starts_with`. -/
def starts_with (s p : String) : Bool := p.toList.isPrefixOf s.toList

def Op.isPhi : Op → Bool
  | .phi _ => true
  | _ => false

/-- `I.getType()->isVoidTy()`. -/
def Op.isVoid : Op → Bool
  | .store _ _ => true
  | .call _ _ v => v
  | .other _ v => v
  | _ => false

/-- `I.operands()` for the kinds whose operands the pass walks. -/
def Op.operands : Op → List Value
  | .alloca _ count => [count]
  | .load p => [p]
  | .store v p => [v, p]
  | .binop a b => [a, b]
  | .cmp a b => [a, b]
  | .cast a => [a]
  | .bitcast a => [a]
  | .truncTaint a => [a]
  | .zextTaint a => [a]
  | .intToPtr a => [a]
  | .isNull a => [a]
  | .atomicrmw p v => [p, v]
  | .cmpxchg p c n => [p, c, n]
  | .gep p idx => p :: idx
  | .select c a b => [c, a, b]
  | .call _ args _ => args
  | .phi inc => inc.map Prod.fst
  | .other ops _ => ops

/-- The test `isa<BinaryOperator> || isa<CmpInst> || isa<CastInst> ||
isa<GetElementPtrInst> || isa<SelectInst>`. -/
def Op.isDataOp : Op → Bool
  | .binop _ _ => true
  | .cmp _ _ => true
  | .cast _ => true
  | .bitcast _ => true
  | .truncTaint _ => true
  | .zextTaint _ => true
  | .intToPtr _ => true
  | .isNull _ => true
  | .gep _ _ => true
  | .select _ _ _ => true
  | _ => false

/-- The successors of a terminator, one entry per edge. -/
def Term.successors : Term → List BlockId
  | .br t => [t]
  | .condBr _ t f => [t, f]
  | .switch _ d cs => d :: cs
  | .ret _ => []
  | .unreachable => []

def Func.getBlock (F : Func) (b : BlockId) : Option Block :=
  F.blocks.find? (fun B => B.id == b)

/-- The entry block's identifier. -/
def Func.entry (F : Func) : Option BlockId :=
  F.blocks.head?.map (·.id)

/-- `I->getParent()` for the instruction `id`: the block holding it. -/
def Func.parentOf (F : Func) (id : InstId) : Option BlockId :=
  (F.blocks.find? (fun B => B.insts.any (fun I => I.id == id))).map (·.id)

/-- `predecessors(BB)`: one entry per incoming edge. -/
def Func.predecessors (F : Func) (b : BlockId) : List BlockId :=
  F.blocks.flatMap (fun P => (P.term.successors.filter (· == b)).map (fun _ => P.id))

/-! ## Pass state -/

/-- `ValTaintMap` and `PtrToShadowPtr`: maps keyed by values. -/
abbrev ValueMap := Value → Option Value

/-- `BlockExecTaintMap`. -/
abbrev BlockMap := BlockId → Option Value

def ValueMap.empty : ValueMap := fun _ => none

def ValueMap.set (m : ValueMap) (k v : Value) : ValueMap :=
  fun x => if x = k then some v else m x

def BlockMap.empty : BlockMap := fun _ => none

def BlockMap.set (m : BlockMap) (k : BlockId) (v : Value) : BlockMap :=
  fun x => if x = k then some v else m x

/-- `IRBuilder::CreateOr`: two constant operands are folded, anything else
becomes an `or` instruction.  The only constants that occur as taints are the
`i1` literals. -/
def createOr (a b : Value) : Value :=
  match a, b with
  | .cbool x, .cbool y => .cbool (x || y)
  | _, _ => .orOf a b

/-- `isa<Constant>(V) && cast<Constant>(V)->isZeroValue()`. -/
def isZeroConst : Value → Bool
  | .cbool false => true
  | .cint 0 => true
  | _ => false

/-- `getTaint(V, B)`: the mapped taint, or false when `V` is not mapped or the
mapped taint is an instruction without a parent block. -/
def getTaint (F : Func) (ValTaintMap : ValueMap) (V : Value) : Value :=
  match ValTaintMap V with
  | some (.inst id) =>
    if (F.parentOf id).isNone then .cbool false else .inst id
  | some t => t
  | none => .cbool false

/-- `getBlockTaint(BB, F)`. -/
def getBlockTaint (F : Func) (BlockExecTaintMap : BlockMap) (BB : BlockId) : Value :=
  if F.entry = some BB then .cbool false
  else match BlockExecTaintMap BB with
    | some t => t
    | none => .cbool false

/-- `getTerminatorConditionTaint(BB)`; `none` is the null pointer. -/
def getTerminatorConditionTaint (ValTaintMap : ValueMap) (BB : Block) : Option Value :=
  let Cond : Option Value :=
    match BB.term with
    | .condBr c _ _ => some c
    | .switch c _ _ => some c
    | _ => none
  match Cond with
  | some c => ValTaintMap c
  | none => none

/-- The operand loop of `propagateSSA` (lines 287 to 292 and 299 to 304): a
taint that is a zero constant is skipped, the first other one starts the
accumulator, later ones are or-ed in. -/
def orOperandTaints (F : Func) (ValTaintMap : ValueMap) :
    Option Value → List Value → Option Value
  | NewTaint, [] => NewTaint
  | NewTaint, Op :: rest =>
    let OpT := getTaint F ValTaintMap Op
    if isZeroConst OpT then orOperandTaints F ValTaintMap NewTaint rest
    else match NewTaint with
      | none => orOperandTaints F ValTaintMap (some OpT) rest
      | some t => orOperandTaints F ValTaintMap (some (createOr t OpT)) rest

/-- The taint before the implicit-flow step for one instruction (lines 282 to
307): the pre-existing entry, extended over the operands of a data operation
or the arguments of a direct call to an `llvm.` function. -/
def dataTaint (F : Func) (ValTaintMap : ValueMap) (I : Inst) : Option Value :=
  let NewTaint := ValTaintMap (.inst I.id)
  if I.op.isDataOp then orOperandTaints F ValTaintMap NewTaint I.op.operands
  else match I.op with
    | .call (some FuncName) args _ =>
      if starts_with FuncName "llvm." then orOperandTaints F ValTaintMap NewTaint args
      else NewTaint
    | _ => NewTaint

/-- The taint recorded for a non-phi, non-void instruction of a block whose
execution taint is `CurrentBlockTaint` (lines 282 to 316). -/
def instTaint (F : Func) (ValTaintMap : ValueMap) (I : Inst)
    (CurrentBlockTaint : Value) : Value :=
  match dataTaint F ValTaintMap I with
  | some NewTaint =>
    if NewTaint ≠ CurrentBlockTaint then createOr NewTaint CurrentBlockTaint
    else NewTaint
  | none => CurrentBlockTaint

/-- The value wired into a block's execution-taint phi for the edge from
`Pred` (lines 325 to 332). -/
def edgeTaint (F : Func) (ValTaintMap : ValueMap) (BlockExecTaintMap : BlockMap)
    (Pred : Block) : Value :=
  let PredExecTaint := getBlockTaint F BlockExecTaintMap Pred.id
  match getTerminatorConditionTaint ValTaintMap Pred with
  | some CondTaint =>
    if CondTaint ≠ .cbool false then createOr PredExecTaint CondTaint
    else PredExecTaint
  | none => PredExecTaint

/-- The taint of a store (lines 368 to 377). -/
def storeTaint (F : Func) (ValTaintMap : ValueMap) (ValOp PtrOp : Value) : Value :=
  let ValTaint := getTaint F ValTaintMap ValOp
  let PtrTaint := getTaint F ValTaintMap PtrOp
  if PtrTaint ≠ .cbool false then createOr ValTaint PtrTaint else ValTaint

/-! ## Graph edits -/

/-- `PHINode::replaceIncomingBlockWith(old, new)` on one instruction. -/
def replaceIncomingBlockWith (old new : BlockId) (I : Inst) : Inst :=
  match I.op with
  | .phi inc => { I with op := .phi (inc.map (fun e => if e.2 = old then (e.1, new) else e)) }
  | _ => I

/-- `BasicBlock::replaceSuccessorsPhiUsesWith(old, new)` seen from a block
`X`: when `X` is one of the successors `succs`, its phis name `new` instead
of `old`. -/
def Block.replacePhiUses (succs : List BlockId) (old new : BlockId) (X : Block) : Block :=
  if X.id ∈ succs then
    { X with insts := X.insts.map (replaceIncomingBlockWith old new) }
  else X

/-- `SplitBlock(Old, SplitPt)` with `SplitPt` the instruction at index `k` of
`Old`: the instructions from `k` on and the terminator move to a new block
placed right after `Old`, `Old` branches to it, and the phis of the new
block's successors name it instead of `Old`.  Returns the new block. -/
def Func.splitBlock (F : Func) (old : BlockId) (k : Nat) : Func × BlockId :=
  let new := F.nextBlock
  match F.getBlock old with
  | none => (F, new)
  | some B =>
    let newB : Block := { id := new, insts := B.insts.drop k, term := B.term }
    let oldB : Block := { id := old, insts := B.insts.take k, term := .br new }
    let blocks1 := F.blocks.flatMap (fun X => if X.id = old then [oldB, newB] else [X])
    let blocks2 := blocks1.map (Block.replacePhiUses B.term.successors old new)
    ({ F with blocks := blocks2, nextBlock := new + 1 }, new)

/-- Replace the terminator of block `b`. -/
def Func.setTerm (F : Func) (b : BlockId) (t : Term) : Func :=
  { F with blocks := F.blocks.map (fun X => if X.id = b then { X with term := t } else X) }

/-- The index of instruction `id` inside its block. -/
def Block.indexOf (B : Block) (id : InstId) : Nat :=
  B.insts.findIdx (fun I => I.id == id)

/-- One iteration of the second loop of `instrumentStores` (lines 396 to 431,
the debug prints left out): the store `SI` is split into a block of its own
and the original block ends in `br IsTainted, ContBB, ExecBB`. -/
def guardStore (F : Func) (SI : InstId) (IsTainted : Value) : Func :=
  match F.parentOf SI with
  | none => F
  | some OrigBB =>
    match F.getBlock OrigBB with
    | none => F
    | some B =>
      let (F1, ExecBB) := F.splitBlock OrigBB (B.indexOf SI)
      let (F2, ContBB) := F1.splitBlock ExecBB 1
      F2.setTerm OrigBB (.condBr IsTainted ContBB ExecBB)

/-! ## Execution -/

/-- The run-time state: the value of each instruction result, the arguments
and the memory. -/
structure State where
  regs : InstId → Nat
  args : Nat → Nat
  mem : Nat → Nat

/-- The truth of an `i1` value: its low bit; an `or` is the disjunction of
its operands. -/
def truth (σ : State) : Value → Bool
  | .cbool b => b
  | .cint n => n % 2 == 1
  | .undef => false
  | .arg n => σ.args n % 2 == 1
  | .inst id => σ.regs id % 2 == 1
  | .orOf a b => truth σ a || truth σ b

/-- The run-time value of an operand. -/
def evalV (σ : State) : Value → Nat
  | .cbool b => if b then 1 else 0
  | .cint n => n
  | .undef => 0
  | .arg n => σ.args n
  | .inst id => σ.regs id
  | .orOf a b => if truth σ a || truth σ b then 1 else 0

def State.setReg (σ : State) (id : InstId) (v : Nat) : State :=
  { σ with regs := fun x => if x = id then v else σ.regs x }

def State.write (σ : State) (addr v : Nat) : State :=
  { σ with mem := fun x => if x = addr then v else σ.mem x }

/-- The meaning of the operations the pass does not interpret: the result of
an instruction from the values of its operands. -/
abbrev Oracle := Inst → List Nat → Nat

/-- Execute one non-phi instruction: a store writes memory, a load reads it,
the casts and the null test that the passes emit are computed, and any other
instruction defines its result through the oracle. -/
def execInst (sem : Oracle) (σ : State) (I : Inst) : State :=
  match I.op with
  | .store v p => σ.write (evalV σ p) (evalV σ v)
  | .load p => σ.setReg I.id (σ.mem (evalV σ p))
  | .truncTaint a => σ.setReg I.id (evalV σ a % 2)
  | .zextTaint a => σ.setReg I.id (if truth σ a then 1 else 0)
  | .intToPtr a => σ.setReg I.id (evalV σ a)
  | .isNull a => σ.setReg I.id (if evalV σ a = 0 then 1 else 0)
  | .phi _ => σ
  | op => σ.setReg I.id (sem I (op.operands.map (evalV σ)))

/-- Execute the phis of a block entered from `pred`: each takes its incoming
value for `pred`, all read in the state `σ0` at the end of `pred`. -/
def execPhis (σ0 : State) (pred : BlockId) : State → List Inst → State
  | σ, [] => σ
  | σ, I :: rest =>
    match I.op with
    | .phi inc =>
      match inc.find? (fun e => e.2 == pred) with
      | some e => execPhis σ0 pred (σ.setReg I.id (evalV σ0 e.1)) rest
      | none => execPhis σ0 pred σ rest
    | _ => execPhis σ0 pred σ rest

/-- Execute the non-phi instructions of a block in order. -/
def execInsts (sem : Oracle) : State → List Inst → State
  | σ, [] => σ
  | σ, I :: rest => execInsts sem (execInst sem σ I) rest

/-- The block a terminator transfers control to, if any. -/
def Term.next (σ : State) : Term → Option BlockId
  | .br t => some t
  | .condBr c t f => if truth σ c then some t else some f
  | .switch c d cs => (cs.get? (evalV σ c)).orElse (fun _ => some d)
  | .ret _ => none
  | .unreachable => none

/-- Execute block `B`, entered from `pred` (none for the function entry):
the state at its terminator and the next block. -/
def execBlock (sem : Oracle) (σ : State) (pred : Option BlockId) (B : Block) :
    State × Option BlockId :=
  let σ1 := match pred with
    | some p => execPhis σ p σ B.insts
    | none => σ
  let σ2 := execInsts sem σ1 B.insts
  (σ2, B.term.next σ2)

/-- Run from block `cur` for at most `fuel` blocks; the result is the state
in which the function leaves (at a `ret` or an `unreachable`), with the block
it left from. -/
def run (sem : Oracle) (F : Func) : Nat → Option BlockId → BlockId → State →
    Option (BlockId × State)
  | 0, _, _, _ => none
  | fuel + 1, pred, cur, σ =>
    match F.getBlock cur with
    | none => none
    | some B =>
      match execBlock sem σ pred B with
      | (σ', some nxt) => run sem F fuel (some cur) nxt σ'
      | (σ', none) => some (cur, σ')

/-- What the guard of one store must achieve, in the words of the
specification.  `F'` is the instrumented function, `B` the block that held the
store `SI` (a store of `v` through `p`) between the instructions `pre` and
`post`, `t` the store's taint, `ExecBB` and `ContBB` the two new blocks.

* the block `B.id` still runs `pre` and then branches on `t`;
* `ExecBB` holds the store alone and `ContBB` runs `post` and ends in the
  terminator `B` had;
* when `t` is true at the branch, control reaches `ContBB` with the state (so
  the memory) unchanged: the store did not execute;
* when `t` is false, control reaches `ContBB` through `ExecBB` with the store
  performed. -/
def StoreGuarded (sem : Oracle) (F' : Func) (B : Block) (pre post : List Inst)
    (SI : Inst) (v p t : Value) (ExecBB ContBB : BlockId) : Prop :=
  ∃ O C : Block,
    F'.getBlock B.id = some O ∧
    O.term = .condBr t ContBB ExecBB ∧
    (∀ σ, execInsts sem σ O.insts = execInsts sem σ pre) ∧
    F'.getBlock ExecBB = some ⟨ExecBB, [SI], .br ContBB⟩ ∧
    F'.getBlock ContBB = some C ∧
    C.term = B.term ∧
    (∀ σ, execInsts sem σ C.insts = execInsts sem σ post) ∧
    ∀ (σ : State) (pred : Option BlockId) (fuel : Nat),
      (truth (execBlock sem σ pred O).1 t = true →
        run sem F' (fuel + 2) pred B.id σ =
          run sem F' (fuel + 1) (some B.id) ContBB (execBlock sem σ pred O).1) ∧
      (truth (execBlock sem σ pred O).1 t = false →
        run sem F' (fuel + 2) pred B.id σ =
          run sem F' fuel (some ExecBB) ContBB
            ((execBlock sem σ pred O).1.write
              (evalV (execBlock sem σ pred O).1 p) (evalV (execBlock sem σ pred O).1 v)))

/-! ## The instrumentation phases that edit the function -/

/-- The state of the pass object between phases. -/
structure Pass where
  F : Func
  ValTaintMap : ValueMap
  PtrToShadowPtr : ValueMap
  BlockExecTaintMap : BlockMap

/-- `Value::replaceAllUsesWith` on one operand. -/
def Value.replace (old new : Value) : Value → Value
  | .orOf a b =>
    if Value.orOf a b = old then new else .orOf (Value.replace old new a) (Value.replace old new b)
  | v => if v = old then new else v

/-- Apply `f` to every operand of an instruction. -/
def Op.mapValues (f : Value → Value) : Op → Op
  | .alloca ty count => .alloca ty (f count)
  | .load p => .load (f p)
  | .store v p => .store (f v) (f p)
  | .binop a b => .binop (f a) (f b)
  | .cmp a b => .cmp (f a) (f b)
  | .cast a => .cast (f a)
  | .bitcast a => .bitcast (f a)
  | .truncTaint a => .truncTaint (f a)
  | .zextTaint a => .zextTaint (f a)
  | .intToPtr a => .intToPtr (f a)
  | .isNull a => .isNull (f a)
  | .atomicrmw p v => .atomicrmw (f p) (f v)
  | .cmpxchg p c n => .cmpxchg (f p) (f c) (f n)
  | .gep p idx => .gep (f p) (idx.map f)
  | .select c a b => .select (f c) (f a) (f b)
  | .call n args v => .call n (args.map f) v
  | .phi inc => .phi (inc.map (fun e => (f e.1, e.2)))
  | .other ops v => .other (ops.map f) v

/-- Apply `f` to every operand of a terminator. -/
def Term.mapValues (f : Value → Value) : Term → Term
  | .br t => .br t
  | .condBr c t e => .condBr (f c) t e
  | .switch c d cs => .switch (f c) d cs
  | .ret v => .ret (v.map f)
  | .unreachable => .unreachable

/-- `Old->replaceUsesWithIf(New, user != Except)`. -/
def Func.replaceUsesExcept (F : Func) (old new : Value) (except : InstId) : Func :=
  { F with blocks := F.blocks.map (fun B =>
      { B with
        insts := B.insts.map (fun I =>
          if I.id = except then I else { I with op := I.op.mapValues (Value.replace old new) }),
        term := B.term.mapValues (Value.replace old new) }) }

/-- Apply `f` to the instructions of block `b`. -/
def Func.updateInsts (F : Func) (b : BlockId) (f : List Inst → List Inst) : Func :=
  { F with blocks := F.blocks.map (fun X => if X.id = b then { X with insts := f X.insts } else X) }

/-- `PHINode::addIncoming(v, b)`. -/
def addIncoming (v : Value) (b : BlockId) (I : Inst) : Inst :=
  match I.op with
  | .phi inc => { I with op := .phi (inc ++ [(v, b)]) }
  | _ => I

/-- `Phi.getBasicBlockIndex(b) != -1`. -/
def hasIncomingFrom (I : Inst) (b : BlockId) : Bool :=
  match I.op with
  | .phi inc => inc.any (fun e => e.2 == b)
  | _ => false

/-- A direct call whose callee's name starts with `__asan_report`. -/
def isAsanReportCall (I : Inst) : Bool :=
  match I.op with
  | .call (some n) _ _ => starts_with n "__asan_report"
  | _ => false

/-- The names of the `MemIntrinsic` family: `llvm.memcpy`, `llvm.memmove`,
`llvm.memset` and their `.inline` forms, not the element-wise atomic ones. -/
def isMemIntrinsicName (n : String) : Bool :=
  (starts_with n "llvm.memcpy." || starts_with n "llvm.memmove." ||
    starts_with n "llvm.memset.") &&
  !(starts_with n "llvm.memcpy.element." || starts_with n "llvm.memmove.element." ||
    starts_with n "llvm.memset.element.")

/-- The test `isa<LoadInst> || isa<StoreInst> || isa<MemIntrinsic>`. -/
def isMemInst (I : Inst) : Bool :=
  match I.op with
  | .load _ => true
  | .store _ _ => true
  | .call (some n) _ _ => isMemIntrinsicName n
  | _ => false

/-- The collected `AsanCalls`, in block and instruction order. -/
def Func.asanCalls (F : Func) : List InstId :=
  F.blocks.flatMap (fun B => (B.insts.filter isAsanReportCall).map (·.id))

/-- `BB->getSinglePredecessor()`. -/
def Func.getSinglePredecessor (F : Func) (b : BlockId) : Option BlockId :=
  match F.predecessors b with
  | [p] => some p
  | _ => none

/-- `BI->setSuccessor(idx, target)` on a conditional branch. -/
def Term.setSuccessor (idx : Nat) (target : BlockId) : Term → Term
  | .condBr c t e => if idx = 0 then .condBr c target e else .condBr c t target
  | t => t

/-- The loop over `TargetBB->phis()` (lines 231 to 238): every leading phi
without an entry for `CheckBB` gets one, `true` for a phi whose name starts
with `cima.taint`, `undef` otherwise. -/
def addFaultEdge (CheckBB : BlockId) : List Inst → List Inst
  | [] => []
  | I :: rest =>
    if I.op.isPhi then
      (if hasIncomingFrom I CheckBB then I
        else if starts_with I.name "cima.taint" then addIncoming (.cbool true) CheckBB I
        else addIncoming .undef CheckBB I) :: addFaultEdge CheckBB rest
    else I :: rest

/-- The body of the loop over `AsanCalls` in `injectRecovery` (lines 183 to
240) for the call `CI`; `MemInstToTargetBB` is threaded through.  After a
split the branch instruction `BI` sits in the block that received the tail of
its old block, which is `TargetBB` when `CheckBB` and `SafeBB` coincide. -/
def injectOne (st : Pass) (MemInstToTargetBB : InstId → Option BlockId) (CI : InstId) :
    Pass × (InstId → Option BlockId) :=
  match st.F.parentOf CI with
  | none => (st, MemInstToTargetBB)
  | some CrashBB =>
  match st.F.getSinglePredecessor CrashBB with
  | none => (st, MemInstToTargetBB)
  | some CheckBB =>
  match ((st.F.getBlock CheckBB).map (fun X => X.term) : Option Term) with
  | some (Term.condBr _ s0 s1) =>
    let SafeBB := if s0 = CrashBB then s1 else s0
    let CrashIdx := if s0 = CrashBB then 0 else 1
    match st.F.getBlock SafeBB with
    | none => (st, MemInstToTargetBB)
    | some SB =>
    match SB.insts.find? isMemInst with
    | none => (st, MemInstToTargetBB)
    | some MemInst =>
      let r : Pass × (InstId → Option BlockId) × BlockId × BlockId :=
        match MemInstToTargetBB MemInst.id with
        | some TargetBB => (st, MemInstToTargetBB, TargetBB, CheckBB)
        | none =>
          let (F1, TargetBB) := st.F.splitBlock SafeBB (SB.indexOf MemInst.id + 1)
          let memo := fun x => if x = MemInst.id then some TargetBB else MemInstToTargetBB x
          let BIblock := if CheckBB = SafeBB then TargetBB else CheckBB
          if MemInst.op.isVoid then ({ st with F := F1 }, memo, TargetBB, BIblock)
          else
            let ValPhi : Inst :=
              { id := F1.nextInst, name := "cima.val",
                op := .phi [(.inst MemInst.id, SafeBB), (.undef, CheckBB)] }
            let ExistingTaint :=
              match st.ValTaintMap (.inst MemInst.id) with
              | some t => t
              | none => .cbool false
            let TaintPhi : Inst :=
              { id := F1.nextInst + 1, name := "cima.taint",
                op := .phi [(ExistingTaint, SafeBB), (.cbool true, CheckBB)] }
            let F2 := F1.updateInsts TargetBB (fun insts => ValPhi :: TaintPhi :: insts)
            let F3 := { F2 with nextInst := F1.nextInst + 2 }
            let F4 := F3.replaceUsesExcept (.inst MemInst.id) (.inst ValPhi.id) ValPhi.id
            ({ st with F := F4,
                       ValTaintMap := st.ValTaintMap.set (.inst ValPhi.id) (.inst TaintPhi.id) },
              memo, TargetBB, BIblock)
      let st1 := r.1
      let TargetBB := r.2.2.1
      let BIblock := r.2.2.2
      let F5 : Func :=
        { st1.F with blocks := st1.F.blocks.map (fun X =>
            if X.id = BIblock then { X with term := X.term.setSuccessor CrashIdx TargetBB }
            else X) }
      let F6 := F5.updateInsts TargetBB (addFaultEdge CheckBB)
      ({ st1 with F := F6 }, r.2.1)
  | _ => (st, MemInstToTargetBB)

/-- The loop over `AsanCalls`. -/
def injectLoop (st : Pass) (MemInstToTargetBB : InstId → Option BlockId) :
    List InstId → Pass
  | [] => st
  | CI :: rest =>
    let r := injectOne st MemInstToTargetBB CI
    injectLoop r.1 r.2 rest

/-- PHASE 3, `injectRecovery`. -/
def injectRecovery (st : Pass) : Pass :=
  injectLoop st (fun _ => none) st.F.asanCalls

/-- The first loop of `propagateSSA` (lines 248 to 253) over the blocks after
the entry: an empty `exec.taint` phi is put at the head of each and entered in
`BlockExecTaintMap`.  `next` is the next unused instruction identifier. -/
def createExecPhis : List Block → InstId → BlockMap → List Block × InstId × BlockMap
  | [], next, m => ([], next, m)
  | BB :: rest, next, m =>
    let ExecPhi : Inst := { id := next, name := "exec.taint", op := .phi [] }
    let r := createExecPhis rest (next + 1) (m.set BB.id (.inst next))
    ({ BB with insts := ExecPhi :: BB.insts } :: r.1, r.2.1, r.2.2)

/-- The second loop of `propagateSSA` (lines 255 to 267) inside one block:
every phi that has no taint yet and is not one of the pass's own taint phis
gets an empty shadow phi in front of it. -/
def createShadowPhis : List Inst → InstId → ValueMap → List Inst × InstId × ValueMap
  | [], next, m => ([], next, m)
  | I :: rest, next, m =>
    if I.op.isPhi && (m (.inst I.id)).isNone && !starts_with I.name "exec.taint" &&
        !starts_with I.name "cima.taint" then
      let ShadowPhi : Inst := { id := next, name := I.name ++ ".taint", op := .phi [] }
      let r := createShadowPhis rest (next + 1) (m.set (.inst I.id) (.inst next))
      (ShadowPhi :: I :: r.1, r.2.1, r.2.2)
    else
      let r := createShadowPhis rest next m
      (I :: r.1, r.2.1, r.2.2)

/-- The second loop of `propagateSSA` over all blocks. -/
def createShadowPhisAll : List Block → InstId → ValueMap → List Block × InstId × ValueMap
  | [], next, m => ([], next, m)
  | BB :: rest, next, m =>
    let r := createShadowPhis BB.insts next m
    let r2 := createShadowPhisAll rest r.2.1 r.2.2
    ({ BB with insts := r.1 } :: r2.1, r2.2.1, r2.2.2)

/-- Depth-first post-order from block `b`, successors in terminator order;
the pair is the visited set and the post-order so far.  The fuel bounds the
depth and is the number of blocks plus one at the call site. -/
def postOrder (F : Func) : Nat → BlockId → List BlockId × List BlockId →
    List BlockId × List BlockId
  | 0, _, acc => acc
  | fuel + 1, b, (visited, out) =>
    if b ∈ visited then (visited, out)
    else
      match F.getBlock b with
      | none => (visited, out)
      | some B =>
        let r := B.term.successors.foldl (fun acc s => postOrder F fuel s acc)
          (b :: visited, out)
        (r.1, r.2 ++ [b])

/-- `ReversePostOrderTraversal<Function*>`: the blocks reachable from the
entry, in reverse post-order. -/
def Func.rpo (F : Func) : List BlockId :=
  match F.entry with
  | none => []
  | some e => (postOrder F (F.blocks.length + 1) e ([], [])).2.reverse

/-- The worklist loop of `propagateSSA` for one block (lines 275 to 317). -/
def propagateInsts (F : Func) (CurrentBlockTaint : Value) : ValueMap → List Inst → ValueMap
  | m, [] => m
  | m, I :: rest =>
    if I.op.isPhi then propagateInsts F CurrentBlockTaint m rest
    else if I.op.isVoid then propagateInsts F CurrentBlockTaint m rest
    else
      propagateInsts F CurrentBlockTaint
        (m.set (.inst I.id) (instTaint F m I CurrentBlockTaint)) rest

/-- The reverse post-order loop of `propagateSSA` (lines 269 to 318). -/
def propagateBlocks (F : Func) (BlockExecTaintMap : BlockMap) : ValueMap → List BlockId → ValueMap
  | m, [] => m
  | m, b :: rest =>
    match F.getBlock b with
    | none => propagateBlocks F BlockExecTaintMap m rest
    | some BB =>
      propagateBlocks F BlockExecTaintMap
        (propagateInsts F (getBlockTaint F BlockExecTaintMap b) m BB.insts) rest

/-- `predecessors(BB)` as blocks, one entry per incoming edge. -/
def Func.predBlocks (F : Func) (b : BlockId) : List Block :=
  F.blocks.flatMap (fun P => (P.term.successors.filter (· == b)).map (fun _ => P))

/-- The incoming list built for the execution-taint phi of block `BB` (lines
324 to 334): one entry per predecessor edge. -/
def execIncoming (F : Func) (ValTaintMap : ValueMap) (BlockExecTaintMap : BlockMap)
    (BB : BlockId) : List (Value × BlockId) :=
  (F.predBlocks BB).map (fun Pred => (edgeTaint F ValTaintMap BlockExecTaintMap Pred, Pred.id))

/-- Replace the instruction `id` of a function by `f` of it. -/
def Func.updateInst (F : Func) (id : InstId) (f : Inst → Inst) : Func :=
  { F with blocks := F.blocks.map (fun B =>
      { B with insts := B.insts.map (fun I => if I.id = id then f I else I) }) }

def Func.getInst (F : Func) (id : InstId) : Option Inst :=
  (F.blocks.flatMap (·.insts)).find? (fun I => I.id == id)

/-- The fourth loop of `propagateSSA` (lines 320 to 335): wire the
execution-taint phi of every block that has one. -/
def wireExecPhis (ValTaintMap : ValueMap) (BlockExecTaintMap : BlockMap) :
    Func → List BlockId → Func
  | F, [] => F
  | F, b :: rest =>
    match BlockExecTaintMap b with
    | some (.inst ExecPhi) =>
      let inc := execIncoming F ValTaintMap BlockExecTaintMap b
      wireExecPhis ValTaintMap BlockExecTaintMap
        (F.updateInst ExecPhi (fun I =>
          match I.op with
          | .phi old => { I with op := .phi (old ++ inc) }
          | _ => I)) rest
    | _ => wireExecPhis ValTaintMap BlockExecTaintMap F rest

/-- The inner loop of the backfill (lines 346 to 353): the incoming entries
of `PN` whose block the shadow phi does not name yet are added to `acc`, the
incoming list of the shadow phi. -/
def backfillIncoming (F : Func) (ValTaintMap : ValueMap) :
    List (Value × BlockId) → List (Value × BlockId) → List (Value × BlockId)
  | acc, [] => acc
  | acc, (v, IncBB) :: rest =>
    if acc.any (fun e => e.2 == IncBB) then backfillIncoming F ValTaintMap acc rest
    else backfillIncoming F ValTaintMap (acc ++ [(getTaint F ValTaintMap v, IncBB)]) rest

/-- The backfill loop of `propagateSSA` (lines 337 to 355) over the phis
`PNs` of the function. -/
def backfill (ValTaintMap : ValueMap) : Func → List Inst → Func
  | F, [] => F
  | F, PN :: rest =>
    match PN.op, ValTaintMap (.inst PN.id) with
    | .phi inc, some (.inst sid) =>
      if starts_with PN.name "cima." then backfill ValTaintMap F rest
      else
        match ((F.getInst sid).map (fun S => S.op) : Option Op) with
        | some (Op.phi _) =>
          backfill ValTaintMap
            (F.updateInst sid (fun S =>
              match S.op with
              | .phi old => { S with op := .phi (backfillIncoming F ValTaintMap old inc) }
              | _ => S)) rest
        | _ => backfill ValTaintMap F rest
    | _, _ => backfill ValTaintMap F rest

/-- PHASE 4, `propagateSSA`. -/
def propagateSSA (st : Pass) : Pass :=
  match st.F.blocks with
  | [] => st
  | entry :: others =>
    let r1 := createExecPhis others st.F.nextInst BlockMap.empty
    let r2 := createShadowPhisAll (entry :: r1.1) r1.2.1 st.ValTaintMap
    let F2 : Func := { st.F with blocks := r2.1, nextInst := r2.2.1 }
    let exec := r1.2.2
    let m := propagateBlocks F2 exec r2.2.2 F2.rpo
    let F3 := wireExecPhis m exec F2 (F2.blocks.map (·.id))
    let F4 := backfill m F3 (F3.blocks.flatMap (·.insts))
    { st with F := F4, ValTaintMap := m, BlockExecTaintMap := exec }

/-- The shadow write of lines 380 to 381, emitted at instruction identifier
`next`: `CreateZExt` folds a constant taint, so a literal is stored as the
constant `0` or `1`; any other taint gets a `zext` whose result is stored.
Returns the instructions and the next unused identifier. -/
def shadowWrite (TotalTaint ShadowPtr : Value) (next : InstId) : List Inst × InstId :=
  match TotalTaint with
  | .cbool b =>
    ([{ id := next, name := "", op := .store (.cint (if b then 1 else 0)) ShadowPtr }],
      next + 1)
  | t =>
    ([{ id := next, name := "", op := .zextTaint t },
      { id := next + 1, name := "", op := .store (.inst next) ShadowPtr }], next + 2)

/-- The first loop of `instrumentStores` (lines 364 to 394) inside one block,
the debug prints left out: before each store whose pointer has a shadow
address the taint bit is written to the shadow byte, and each store whose
taint is not the literal false is queued. -/
def collectStores (F : Func) (ValTaintMap PtrToShadowPtr : ValueMap) :
    List Inst → InstId → List Inst × InstId × List (InstId × Value)
  | [], next => ([], next, [])
  | I :: rest, next =>
    match I.op with
    | .store ValOp PtrOp =>
      let TotalTaint := storeTaint F ValTaintMap ValOp PtrOp
      let item := if TotalTaint ≠ .cbool false then [(I.id, TotalTaint)] else []
      match PtrToShadowPtr PtrOp with
      | some ShadowPtr =>
        let w := shadowWrite TotalTaint ShadowPtr next
        let r := collectStores F ValTaintMap PtrToShadowPtr rest w.2
        (w.1 ++ I :: r.1, r.2.1, item ++ r.2.2)
      | none =>
        let r := collectStores F ValTaintMap PtrToShadowPtr rest next
        (I :: r.1, r.2.1, item ++ r.2.2)
    | _ =>
      let r := collectStores F ValTaintMap PtrToShadowPtr rest next
      (I :: r.1, r.2.1, r.2.2)

/-- The first loop of `instrumentStores` over all blocks; taints are read in
the function `F` as it was handed to the phase. -/
def collectStoresAll (F : Func) (ValTaintMap PtrToShadowPtr : ValueMap) :
    List Block → InstId → List Block × InstId × List (InstId × Value)
  | [], next => ([], next, [])
  | BB :: rest, next =>
    let r := collectStores F ValTaintMap PtrToShadowPtr BB.insts next
    let r2 := collectStoresAll F ValTaintMap PtrToShadowPtr rest r.2.1
    ({ BB with insts := r.1 } :: r2.1, r2.2.1, r.2.2 ++ r2.2.2)

/-- The second loop of `instrumentStores`. -/
def guardStores : Func → List (InstId × Value) → Func
  | F, [] => F
  | F, (SI, IsTainted) :: rest => guardStores (guardStore F SI IsTainted) rest

/-- PHASE 5, `instrumentStores`. -/
def instrumentStores (st : Pass) : Pass :=
  let r := collectStoresAll st.F st.ValTaintMap st.PtrToShadowPtr st.F.blocks st.F.nextInst
  let F1 : Func := { st.F with blocks := r.1, nextInst := r.2.1 }
  { st with F := guardStores F1 r.2.2 }

/-! ## The specification's vocabulary for taints -/

/-- The run-time truth of the taint the map holds for the instruction `id`,
false when it holds none (the "pre-existing taint", read as line 283 does). -/
def existingTaintTruth (σ : State) (ValTaintMap : ValueMap) (id : InstId) : Bool :=
  match ValTaintMap (.inst id) with
  | some t => truth σ t
  | none => false

/-- The run-time truth of the taint of a terminator's branch or switch
condition, false when the block has no such condition or it is not in the
Taint Map. -/
def condTaintTruth (σ : State) (ValTaintMap : ValueMap) (BB : Block) : Bool :=
  match getTerminatorConditionTaint ValTaintMap BB with
  | some t => truth σ t
  | none => false

/-- A direct call to a function whose name starts with `llvm.`. -/
def isIntrinsicCall : Op → Bool
  | .call (some n) _ _ => starts_with n "llvm."
  | _ => false

/-- The data-flow part of the taint rule as the specification states it, for
an instruction `I`: the disjunction of the operand taints for a data
operation, of the argument taints for an intrinsic call, and the pre-existing
taint otherwise.  Operand taints are read in the map `m`, the pre-existing
taint in the map `mPre` as it was before propagation. -/
def specDataTaint (σ : State) (F : Func) (mPre m : ValueMap) (I : Inst) : Bool :=
  if I.op.isDataOp then I.op.operands.any (fun op => truth σ (getTaint F m op))
  else if isIntrinsicCall I.op then I.op.operands.any (fun op => truth σ (getTaint F m op))
  else existingTaintTruth σ mPre I.id

/-- The instructions of the blocks `bs`, in order. -/
def Func.instsOf (F : Func) (bs : List BlockId) : List Inst :=
  bs.flatMap (fun b =>
    match F.getBlock b with
    | some B => B.insts
    | none => [])

/-- A diamond on a recovered value.  Block `0` stands for the checker's test of
the address `arg 0` and branches to the fault report (block `1`) or to the
load (block `2`); the loaded value decides between the arms `3` and `4`, which
rejoin in block `5`, where the phi of the constants `25` and `9` is stored
through `arg 2`. -/
def diamond : Func :=
  { blocks :=
      [ { id := 0, insts := [⟨1, "bad", .cmp (.arg 1) (.cint 0)⟩],
          term := .condBr (.inst 1) 1 2 },
        { id := 1, insts := [⟨2, "", .call (some "__asan_report_load4") [.arg 0] true⟩],
          term := .unreachable },
        { id := 2, insts := [⟨3, "trigger", .load (.arg 0)⟩,
                             ⟨4, "gt", .cmp (.inst 3) (.cint 50)⟩],
          term := .condBr (.inst 4) 3 4 },
        { id := 3, insts := [], term := .br 5 },
        { id := 4, insts := [], term := .br 5 },
        { id := 5, insts := [⟨5, "calc", .phi [(.cint 25, 3), (.cint 9, 4)]⟩,
                             ⟨6, "", .store (.inst 5) (.arg 2)⟩],
          term := .ret none } ],
    nextInst := 7, nextBlock := 6 }

/-- The pass state handed to recovery injection for a function without stack
allocation: load instrumentation has mapped nothing. -/
def startPass (F : Func) : Pass :=
  { F := F, ValTaintMap := ValueMap.empty, PtrToShadowPtr := ValueMap.empty,
    BlockExecTaintMap := BlockMap.empty }

/-- The pipeline after load instrumentation: recovery injection, SSA taint
propagation, store instrumentation.  On a function without stack allocation
the earlier phases find nothing to do and leave the maps empty. -/
def instrument (F : Func) : Pass :=
  instrumentStores (propagateSSA (injectRecovery (startPass F)))

/-- Comparisons of the examples: instruction `1` tests `≠`, instruction `4`
tests `>`. -/
def exampleSem : Oracle := fun I vals =>
  match I.id, vals with
  | 1, [a, b] => if a ≠ b then 1 else 0
  | 4, [a, b] => if a > b then 1 else 0
  | _, _ => 0

/-- The checker's test fails (`arg 1 = 1`); the variable at address `200`
holds `100`. -/
def faultState : State :=
  { regs := fun _ => 0,
    args := fun n => if n = 0 then 100 else if n = 1 then 1 else 200,
    mem := fun a => if a = 200 then 100 else 0 }

/-- A guard whose check block is its own Safe Block.  Block `1` loads through
`arg 0`, stores the loaded value through `arg 2`, then tests the address for
the next round and branches to the fault report (block `2`) or back to
itself. -/
def selfLoop : Func :=
  { blocks :=
      [ { id := 0, insts := [], term := .br 1 },
        { id := 1, insts := [⟨1, "v", .load (.arg 0)⟩,
                             ⟨2, "", .store (.inst 1) (.arg 2)⟩,
                             ⟨3, "bad", .cmp (.arg 1) (.cint 0)⟩],
          term := .condBr (.inst 3) 2 1 },
        { id := 2, insts := [⟨4, "", .call (some "__asan_report_load4") [.arg 0] true⟩],
          term := .unreachable } ],
    nextInst := 5, nextBlock := 3 }

/-- A block that loads a value, stores it and compares it. -/
def storeBlock : Block :=
  { id := 0,
    insts := [⟨1, "x", .load (.arg 0)⟩, ⟨2, "", .store (.inst 1) (.arg 2)⟩,
              ⟨4, "gt", .cmp (.inst 1) (.cint 50)⟩],
    term := .ret none }

/-- The one-block function of `storeBlock`. -/
def storeFunc : Func := { blocks := [storeBlock], nextInst := 5, nextBlock := 1 }

/-- A Taint Map in which the value `inst 7` carries the taint `inst 8`. -/
def recoveredMap : ValueMap := ValueMap.empty.set (.inst 7) (.inst 8)

/-- A block of two additions on the recovered value `7`, whose taint is the
phi `8`; `11` is the execution-taint phi of the block. -/
def chainBlock : Block :=
  { id := 1,
    insts := [⟨11, "exec.taint", .phi []⟩, ⟨7, "cima.val", .phi []⟩,
              ⟨8, "cima.taint", .phi []⟩,
              ⟨9, "sum", .binop (.inst 7) (.cint 50)⟩,
              ⟨10, "twice", .binop (.inst 9) (.cint 2)⟩],
    term := .ret none }

/-- An entry block followed by `chainBlock`. -/
def chainFunc : Func :=
  { blocks := [{ id := 0, insts := [], term := .br 1 }, chainBlock],
    nextInst := 12, nextBlock := 2 }

/-- The execution-taint map of `chainFunc`. -/
def chainExec : BlockMap := BlockMap.empty.set 1 (.inst 11)

/-- A state in which the taint instruction `8` is true. -/
def taintedState : State :=
  { regs := fun id => if id = 8 then 1 else 0, args := fun _ => 0, mem := fun _ => 0 }

/-- The shape of `taint1.c`: block `0` stands for the checker's test and
branches to the fault report (block `1`) or to block `2`, which loads through
`arg 0` and stores the loaded value through `arg 2`. -/
def straight : Func :=
  { blocks :=
      [ { id := 0, insts := [⟨1, "bad", .cmp (.arg 1) (.cint 0)⟩],
          term := .condBr (.inst 1) 1 2 },
        { id := 1, insts := [⟨2, "", .call (some "__asan_report_load4") [.arg 0] true⟩],
          term := .unreachable },
        { id := 2, insts := [⟨3, "v", .load (.arg 0)⟩,
                             ⟨4, "", .store (.inst 3) (.arg 2)⟩],
          term := .ret none } ],
    nextInst := 5, nextBlock := 3 }

/-- The checker's test passes (`arg 1 = 0`); address `100` holds `42` and the
variable at address `200` holds `100`. -/
def passState : State :=
  { regs := fun _ => 0,
    args := fun n => if n = 0 then 100 else if n = 1 then 0 else 200,
    mem := fun a => if a = 200 then 100 else if a = 100 then 42 else 0 }

/-! ## The runtime helper with its memory accesses -/

/-- A memory access: a single-byte read or a write. -/
inductive MemEvent where
  | read (addr : Nat)
  | write (addr val : Nat)
  deriving DecidableEq, Repr

/-- `is_valid_access` together with the accesses it makes: the one volatile
byte read of line 13, logged whether or not it faults. -/
def is_valid_accessT (mem : Memory) (addr size : Nat) : Option Bool × List MemEvent :=
  (is_valid_access mem addr size, [.read (shadowAddr addr)])

/-- The loop of `__cima_find_nearest_valid` together with the accesses made,
in order; the last access is the faulting one when the result is `none`. -/
def searchLoopT (mem : Memory) (base_granule access_size : Nat) :
    (remaining : Nat) → (offset : Nat) → Option Nat × List MemEvent
  | 0, _ => (some 0, [])
  | remaining + 1, offset =>
    let f := is_valid_accessT mem (fwdAddr base_granule offset) access_size
    match f.1 with
    | none => (none, f.2)
    | some true => (some (fwdAddr base_granule offset), f.2)
    | some false =>
      if 0 < offset then
        let b := is_valid_accessT mem (bwdAddr base_granule offset) access_size
        match b.1 with
        | none => (none, f.2 ++ b.2)
        | some true => (some (bwdAddr base_granule offset), f.2 ++ b.2)
        | some false =>
          let r := searchLoopT mem base_granule access_size remaining (offset + 1)
          (r.1, f.2 ++ b.2 ++ r.2)
      else
        let r := searchLoopT mem base_granule access_size remaining (offset + 1)
        (r.1, f.2 ++ r.2)

/-- `__cima_find_nearest_valid` together with the accesses made. -/
def findNearestValidT (mem : Memory) (invalid_ptr access_size : Nat) :
    Option Nat × List MemEvent :=
  searchLoopT mem ((invalid_ptr % U64) / 8) access_size MAX_SEARCH_DISTANCE 0

/-! ## The nearest-valid pass (`cimapass_nearest_valid.cpp`) -/

/-- `StringRef::contains`: `p` occurs in `s`. -/
def contains (s p : String) : Bool :=
  s.toList.tails.any (fun t => p.toList.isPrefixOf t)

/-- `getAccessSizeFromAsanReport(FuncName)`, the tests in the order of the
source. -/
def getAccessSizeFromAsanReport (FuncName : String) : Nat :=
  if contains FuncName "1" then 1
  else if contains FuncName "2" then 2
  else if contains FuncName "4" then 4
  else if contains FuncName "8" then 8
  else if contains FuncName "16" then 16
  else 8

/-! ## The plain recovery pass (`cimapass.cpp`) -/

/-- `MemInstToTargetBB`. -/
abbrev TargetMap := InstId → Option BlockId

def TargetMap.set (m : TargetMap) (k : InstId) (v : BlockId) : TargetMap :=
  fun x => if x = k then some v else m x

/-- The scan test of `cimapass.cpp` (lines 74 to 84): a load, a store, an
atomic read-modify-write, a compare-exchange or a `MemIntrinsic`. -/
def isMemInstPlain (I : Inst) : Bool :=
  match I.op with
  | .load _ => true
  | .store _ _ => true
  | .atomicrmw _ _ => true
  | .cmpxchg _ _ _ => true
  | .call (some n) _ _ => isMemIntrinsicName n
  | _ => false

/-- `if (PHINode* Phi = dyn_cast<PHINode>(&TargetBB->front()))
Phi->addIncoming(v, b)`, on the instructions of `TargetBB`. -/
def addIncomingFront (v : Value) (b : BlockId) : List Inst → List Inst
  | [] => []
  | I :: rest => if I.op.isPhi then addIncoming v b I :: rest else I :: rest

/-- Set successor `idx` of the terminator of block `b` to `target`. -/
def Func.setSuccessorOf (F : Func) (b : BlockId) (idx : Nat) (target : BlockId) : Func :=
  { F with blocks := F.blocks.map (fun X =>
      if X.id = b then { X with term := X.term.setSuccessor idx target } else X) }

/-- What the head of the loop body finds for one predecessor: the Safe
Block, the index of the successor that is the report block, and the first
memory instruction of the Safe Block. -/
structure Guard where
  SafeBB : BlockId
  CrashSuccIdx : Nat
  SB : Block
  MemInst : Inst

/-- The head of the loop body over `Preds` in `cimapass.cpp` (lines 57 to
86): `none` stands for `continue`. -/
def plainLocate (F : Func) (CrashBB CheckBB : BlockId) : Option Guard :=
  match ((F.getBlock CheckBB).map (fun X => X.term) : Option Term) with
  | some (Term.condBr _ s0 s1) =>
    if s0 = CrashBB ∨ s1 = CrashBB then
      match F.getBlock (if s0 = CrashBB then s1 else s0) with
      | none => none
      | some SB =>
        match SB.insts.find? isMemInstPlain with
        | none => none
        | some MemInst =>
          some { SafeBB := if s0 = CrashBB then s1 else s0,
                 CrashSuccIdx := if s0 = CrashBB then 0 else 1,
                 SB := SB, MemInst := MemInst }
    else none
  | _ => none

/-- The choice of `TargetBB` (lines 88 to 105): the memoized block, or the
tail of the Safe Block split off after `MemInst`, with the phi
`cima.skipped` in front when `MemInst` has a value.  Returns the function,
the memo table, `TargetBB` and the block in which the branch instruction
`BI` now sits: after a split it sits in the block that received the tail of
its old block, which is `TargetBB` when `CheckBB` and `SafeBB` coincide. -/
def plainTarget (F : Func) (MemInstToTargetBB : TargetMap) (CheckBB : BlockId) (g : Guard) :
    Func × TargetMap × BlockId × BlockId :=
  match MemInstToTargetBB g.MemInst.id with
  | some TargetBB => (F, MemInstToTargetBB, TargetBB, CheckBB)
  | none =>
    let F1 := (F.splitBlock g.SafeBB (g.SB.indexOf g.MemInst.id + 1)).1
    let TargetBB := (F.splitBlock g.SafeBB (g.SB.indexOf g.MemInst.id + 1)).2
    let memo := MemInstToTargetBB.set g.MemInst.id TargetBB
    let BIblock := if CheckBB = g.SafeBB then TargetBB else CheckBB
    if g.MemInst.op.isVoid then (F1, memo, TargetBB, BIblock)
    else
      let Phi : Inst :=
        { id := F1.nextInst, name := "cima.skipped",
          op := .phi [(.inst g.MemInst.id, g.SafeBB)] }
      let F2 := F1.updateInsts TargetBB (fun insts => Phi :: insts)
      let F3 := { F2 with nextInst := F1.nextInst + 1 }
      (F3.replaceUsesExcept (.inst g.MemInst.id) (.inst Phi.id) Phi.id,
        memo, TargetBB, BIblock)

/-- The body of the loop over `Preds` in `cimapass.cpp` (lines 56 to 117) for
the predecessor `CheckBB` of `CrashBB`. -/
def plainOne (F : Func) (MemInstToTargetBB : TargetMap) (CrashBB CheckBB : BlockId) :
    Func × TargetMap :=
  match plainLocate F CrashBB CheckBB with
  | none => (F, MemInstToTargetBB)
  | some g =>
    let r := plainTarget F MemInstToTargetBB CheckBB g
    let F5 := r.1.setSuccessorOf r.2.2.2 g.CrashSuccIdx r.2.2.1
    let F6 :=
      if g.MemInst.op.isVoid then F5
      else F5.updateInsts r.2.2.1 (addIncomingFront .undef CheckBB)
    (F6, r.2.1)

/-- The loop over the snapshot `Preds` of the predecessors of `CrashBB`. -/
def plainPreds (CrashBB : BlockId) : Func → TargetMap → List BlockId → Func × TargetMap
  | F, memo, [] => (F, memo)
  | F, memo, CheckBB :: rest =>
    let r := plainOne F memo CrashBB CheckBB
    plainPreds CrashBB r.1 r.2 rest

/-- The loop over `AsanCalls` in `cimapass.cpp` (lines 52 to 118). -/
def plainCalls : Func → TargetMap → List InstId → Func
  | F, _, [] => F
  | F, memo, CI :: rest =>
    match F.parentOf CI with
    | none => plainCalls F memo rest
    | some CrashBB =>
      let r := plainPreds CrashBB F memo (F.predecessors CrashBB)
      plainCalls r.1 r.2 rest

/-- The plain recovery pass: `CIMAPass::run` of `cimapass.cpp`. -/
def cimaPlain (F : Func) : Func :=
  plainCalls F (fun _ => none) F.asanCalls

/-- The scan test of `cimapass_nearest_valid.cpp` (lines 144 to 154). -/
def isMemInstNearest (I : Inst) : Bool :=
  match I.op with
  | .load _ => true
  | .store _ _ => true
  | .atomicrmw _ _ => true
  | .cmpxchg _ _ _ => true
  | .call (some n) _ _ => isMemIntrinsicName n
  | _ => false

/-- `isa<LoadInst>`. -/
def Op.isLoad : Op → Bool
  | .load _ => true
  | _ => false

/-- `isa<Constant>`. -/
def Value.isConstant : Value → Bool
  | .cbool _ => true
  | .cint _ => true
  | .undef => true
  | _ => false

/-- `NearestValidResult`. -/
structure NearestValidResult where
  value : Value
  entryBlock : BlockId
  exitBlock : BlockId

/-- `AsanReportCall->getArgOperand(0)`: the faulting address.  The report call
is a fixed instruction object: its operand is read where it now stands in
`F`. -/
def reportAddress (F : Func) (AsanReportCall : InstId) : Value :=
  match ((F.getInst AsanReportCall).map (fun I => I.op) : Option Op) with
  | some (Op.call _ (a :: _) _) => a
  | _ => Value.undef

/-- `AsanReportCall->getCalledFunction()->getName()`. -/
def reportName (F : Func) (AsanReportCall : InstId) : String :=
  match ((F.getInst AsanReportCall).map (fun I => I.op) : Option Op) with
  | some (Op.call (some n) _ _) => n
  | _ => ""

/-- `generateNearestValidLoad(AsanReportCall, MemInst, F)` (lines 51 to 95).
Four blocks are appended to the function: the entry block calls the helper
on the report call's first argument and the access size and branches on the
null test, the found block loads from the returned pointer, the not-found
block is empty, and the exit block holds the phi of the loaded value and the
zero value.  `CreateIntToPtr` folds a constant address and `CreateBitCast` to
the same pointer type returns its operand.  The exit block has no terminator
yet, which `unreachable` stands for. -/
def generateNearestValidLoad (AsanReportCall : InstId) (F : Func) :
    Func × NearestValidResult :=
  let EntryBB := F.nextBlock
  let FoundBB := F.nextBlock + 1
  let NotFoundBB := F.nextBlock + 2
  let ExitBB := F.nextBlock + 3
  let InvalidAddr : Value := reportAddress F AsanReportCall
  let FuncName : String := reportName F AsanReportCall
  let AccessSize := getAccessSizeFromAsanReport FuncName
  let castInsts : List Inst :=
    if InvalidAddr.isConstant then []
    else [{ id := F.nextInst, name := "", op := .intToPtr InvalidAddr }]
  let InvalidPtr : Value := if InvalidAddr.isConstant then InvalidAddr else .inst F.nextInst
  let NearestPtr : Inst :=
    { id := F.nextInst + 1, name := "",
      op := .call (some "__cima_find_nearest_valid") [InvalidPtr, .cint AccessSize] false }
  let IsNull : Inst := { id := F.nextInst + 2, name := "", op := .isNull (.inst NearestPtr.id) }
  let LoadedValue : Inst :=
    { id := F.nextInst + 3, name := "nearest.load", op := .load (.inst NearestPtr.id) }
  let ResultPhi : Inst :=
    { id := F.nextInst + 4, name := "nearest.value",
      op := .phi [(.inst LoadedValue.id, FoundBB), (.cint 0, NotFoundBB)] }
  let newBlocks : List Block :=
    [ { id := EntryBB, insts := castInsts ++ [NearestPtr, IsNull],
        term := .condBr (.inst IsNull.id) NotFoundBB FoundBB },
      { id := FoundBB, insts := [LoadedValue], term := .br ExitBB },
      { id := NotFoundBB, insts := [], term := .br ExitBB },
      { id := ExitBB, insts := [ResultPhi], term := .unreachable } ]
  ({ blocks := F.blocks ++ newBlocks, nextInst := F.nextInst + 5,
     nextBlock := F.nextBlock + 4 },
   { value := .inst ResultPhi.id, entryBlock := EntryBB, exitBlock := ExitBB })

/-- The substitution branch of the loop body (lines 183 to 192) on the
function `F` in which the branch `BI` sits in block `BIblock`. -/
def nearestRewrite (F : Func) (CI : InstId) (BIblock : BlockId) (CrashSuccIdx : Nat)
    (TargetBB : BlockId) : Func :=
  let g := generateNearestValidLoad CI F
  let F1 := g.1.setSuccessorOf BIblock CrashSuccIdx g.2.entryBlock
  let F2 := F1.setTerm g.2.exitBlock (.br TargetBB)
  F2.updateInsts TargetBB (addIncomingFront g.2.value g.2.exitBlock)

/-- The head of the loop body over `Preds` in `cimapass_nearest_valid.cpp`
(lines 127 to 156): `none` stands for `continue`. -/
def nearestLocate (F : Func) (CrashBB CheckBB : BlockId) : Option Guard :=
  match ((F.getBlock CheckBB).map (fun X => X.term) : Option Term) with
  | some (Term.condBr _ s0 s1) =>
    if s0 = CrashBB ∨ s1 = CrashBB then
      match F.getBlock (if s0 = CrashBB then s1 else s0) with
      | none => none
      | some SB =>
        match SB.insts.find? isMemInstNearest with
        | none => none
        | some MemInst =>
          some { SafeBB := if s0 = CrashBB then s1 else s0,
                 CrashSuccIdx := if s0 = CrashBB then 0 else 1,
                 SB := SB, MemInst := MemInst }
    else none
  | _ => none

/-- The choice of `TargetBB` in `cimapass_nearest_valid.cpp` (lines 158 to
178); the results are those of `plainTarget`. -/
def nearestTarget (F : Func) (MemInstToTargetBB : TargetMap) (CheckBB : BlockId) (g : Guard) :
    Func × TargetMap × BlockId × BlockId :=
  match MemInstToTargetBB g.MemInst.id with
  | some TargetBB => (F, MemInstToTargetBB, TargetBB, CheckBB)
  | none =>
    let F1 := (F.splitBlock g.SafeBB (g.SB.indexOf g.MemInst.id + 1)).1
    let TargetBB := (F.splitBlock g.SafeBB (g.SB.indexOf g.MemInst.id + 1)).2
    let memo := MemInstToTargetBB.set g.MemInst.id TargetBB
    let BIblock := if CheckBB = g.SafeBB then TargetBB else CheckBB
    if g.MemInst.op.isVoid then (F1, memo, TargetBB, BIblock)
    else
      let Phi : Inst :=
        { id := F1.nextInst, name := "cima.skipped",
          op := .phi [(.inst g.MemInst.id, g.SafeBB)] }
      let F2 := F1.updateInsts TargetBB (fun insts => Phi :: insts)
      let F3 := { F2 with nextInst := F1.nextInst + 1 }
      (F3.replaceUsesExcept (.inst g.MemInst.id) (.inst Phi.id) Phi.id,
        memo, TargetBB, BIblock)

/-- The body of the loop over `Preds` in `cimapass_nearest_valid.cpp` (lines
126 to 204) for the report call `CI` and the predecessor `CheckBB` of
`CrashBB`, with the option `-cima-use-nearest-valid` as `UseNearestValid`. -/
def nearestOne (UseNearestValid : Bool) (F : Func) (MemInstToTargetBB : TargetMap)
    (CI : InstId) (CrashBB CheckBB : BlockId) : Func × TargetMap :=
  match nearestLocate F CrashBB CheckBB with
  | none => (F, MemInstToTargetBB)
  | some g =>
    let r := nearestTarget F MemInstToTargetBB CheckBB g
    if UseNearestValid && !g.MemInst.op.isVoid && g.MemInst.op.isLoad then
      (nearestRewrite r.1 CI r.2.2.2 g.CrashSuccIdx r.2.2.1, r.2.1)
    else
      let F5 := r.1.setSuccessorOf r.2.2.2 g.CrashSuccIdx r.2.2.1
      let F6 :=
        if g.MemInst.op.isVoid then F5
        else F5.updateInsts r.2.2.1 (addIncomingFront .undef CheckBB)
      (F6, r.2.1)

/-- The loop over the snapshot `Preds`. -/
def nearestPreds (UseNearestValid : Bool) (CI : InstId) (CrashBB : BlockId) :
    Func → TargetMap → List BlockId → Func × TargetMap
  | F, memo, [] => (F, memo)
  | F, memo, CheckBB :: rest =>
    let r := nearestOne UseNearestValid F memo CI CrashBB CheckBB
    nearestPreds UseNearestValid CI CrashBB r.1 r.2 rest

/-- The loop over `AsanCalls` (lines 122 to 205). -/
def nearestCalls (UseNearestValid : Bool) : Func → TargetMap → List InstId → Func
  | F, _, [] => F
  | F, memo, CI :: rest =>
    match F.parentOf CI with
    | none => nearestCalls UseNearestValid F memo rest
    | some CrashBB =>
      let r := nearestPreds UseNearestValid CI CrashBB F memo (F.predecessors CrashBB)
      nearestCalls UseNearestValid r.1 r.2 rest

/-- The nearest-valid pass: `CIMAPass::run` of `cimapass_nearest_valid.cpp`. -/
def cimaNearest (UseNearestValid : Bool) (F : Func) : Func :=
  nearestCalls UseNearestValid F (fun _ => none) F.asanCalls

/-! ## The specification's vocabulary for guards -/

/-- The operations a guard can protect, in the specification's words: a
load, a store, an atomic read-modify-write or compare-exchange, or a
block-memory intrinsic. -/
def isProtectable : Op → Bool
  | .load _ => true
  | .store _ _ => true
  | .atomicrmw _ _ => true
  | .cmpxchg _ _ _ => true
  | .call (some n) _ _ => isMemIntrinsicName n
  | _ => false

/-- The Protected Operation of the guard in block `P` for the fault-report
block `CrashBB`: `P` ends in a two-way conditional branch with `CrashBB` as
one target, and the operation is the first protectable one of the other
target, the Safe Block. -/
def protectedOp (F : Func) (CrashBB P : BlockId) : Option Inst :=
  match ((F.getBlock P).map (fun X => X.term) : Option Term) with
  | some (Term.condBr _ s0 s1) =>
    if s0 = CrashBB ∨ s1 = CrashBB then
      (F.getBlock (if s0 = CrashBB then s1 else s0)).bind
        (fun SB => SB.insts.find? (fun I => isProtectable I.op))
    else none
  | _ => none

/-- A predecessor that is no guard: there is no Protected Operation for it. -/
def guardSkipped (F : Func) (CrashBB P : BlockId) : Bool :=
  (protectedOp F CrashBB P).isNone

/-- A guard whose Safe Block starts with an atomic read-modify-write followed
by a load. -/
def atomicFunc : Func :=
  { blocks :=
      [ { id := 0, insts := [{ id := 1, name := "bad", op := .cmp (.arg 1) (.cint 0) }],
          term := .condBr (.inst 1) 1 2 },
        { id := 1,
          insts := [{ id := 2, name := "", op := .call (some "__asan_report_store4") [.arg 0] true }],
          term := .unreachable },
        { id := 2,
          insts := [ { id := 3, name := "old", op := .atomicrmw (.arg 0) (.arg 3) },
                     { id := 4, name := "v", op := .load (.arg 0) },
                     { id := 5, name := "", op := .store (.inst 4) (.arg 2) } ],
          term := .ret none } ],
    nextInst := 6, nextBlock := 3 }

/-- A report block reached by an unconditional branch and by a guard whose
Safe Block holds no memory operation. -/
def skipFunc : Func :=
  { blocks :=
      [ { id := 0, insts := [{ id := 1, name := "bad", op := .cmp (.arg 1) (.cint 0) }],
          term := .condBr (.inst 1) 1 2 },
        { id := 1,
          insts := [{ id := 2, name := "", op := .call (some "__asan_report_load4") [.arg 0] true }],
          term := .unreachable },
        { id := 2, insts := [{ id := 3, name := "s", op := .binop (.arg 1) (.cint 1) }],
          term := .br 3 },
        { id := 3, insts := [], term := .br 1 } ],
    nextInst := 4, nextBlock := 4 }

/-- A guard whose Protected Operation is a store. -/
def storeGuardFunc : Func :=
  { blocks :=
      [ { id := 0, insts := [{ id := 1, name := "bad", op := .cmp (.arg 1) (.cint 0) }],
          term := .condBr (.inst 1) 1 2 },
        { id := 1,
          insts := [{ id := 2, name := "", op := .call (some "__asan_report_store4") [.arg 0] true }],
          term := .unreachable },
        { id := 2, insts := [{ id := 3, name := "", op := .store (.arg 3) (.arg 0) }],
          term := .ret none } ],
    nextInst := 4, nextBlock := 3 }

/-- The effect of `Func.replaceUsesExcept` on one instruction. -/
def Inst.replaceUsesExcept (old new : Value) (except : InstId) (I : Inst) : Inst :=
  if I.id = except then I else { I with op := I.op.mapValues (Value.replace old new) }

/-- The effect of `Func.replaceUsesExcept` on one block. -/
def Block.replaceUsesExcept (old new : Value) (except : InstId) (B : Block) : Block :=
  { B with
    insts := B.insts.map (Inst.replaceUsesExcept old new except),
    term := B.term.mapValues (Value.replace old new) }

/-- A guard branch with its fault-arm successor set to `T`: successor 0 when
it is the report block `CrashBB`, successor 1 otherwise. -/
def retarget (CrashBB T : BlockId) : Term → Term
  | .condBr c s0 s1 => if s0 = CrashBB then .condBr c T s1 else .condBr c s0 T
  | t => t

/-- Block `P` of `F` ends in a guard branch for the report block `CrashBB`
whose other target is `SafeBB`. -/
def isGuardOf (F : Func) (CrashBB SafeBB P : BlockId) : Prop :=
  ∃ c s0 s1, (F.getBlock P).map (fun X => X.term) = some (Term.condBr c s0 s1) ∧
    (s0 = CrashBB ∨ s1 = CrashBB) ∧ (if s0 = CrashBB then s1 else s0) = SafeBB

/-- Two guards, in the blocks 1 and 2, of the same report block 4 and the
same Safe Block 3, whose first memory operation is the load `v`. -/
def twoGuards : Func :=
  { blocks :=
      [ { id := 0, insts := [{ id := 1, name := "c", op := .cmp (.arg 3) (.cint 0) }],
          term := .condBr (.inst 1) 1 2 },
        { id := 1, insts := [{ id := 2, name := "bad1", op := .cmp (.arg 1) (.cint 0) }],
          term := .condBr (.inst 2) 4 3 },
        { id := 2, insts := [{ id := 3, name := "bad2", op := .cmp (.arg 1) (.cint 1) }],
          term := .condBr (.inst 3) 3 4 },
        { id := 3,
          insts := [ { id := 4, name := "v", op := .load (.arg 0) },
                     { id := 5, name := "", op := .store (.inst 4) (.arg 2) } ],
          term := .ret none },
        { id := 4,
          insts := [{ id := 6, name := "", op := .call (some "__asan_report_load4") [.arg 0] true }],
          term := .unreachable } ],
    nextInst := 7, nextBlock := 5 }

/-! ## The specification's vocabulary for executions -/

/-- The value `v` reads the result of instruction `id`. -/
def Value.uses (id : InstId) : Value → Bool
  | .inst j => j == id
  | .orOf a b => Value.uses id a || Value.uses id b
  | _ => false

/-- The operands of a terminator. -/
def Term.operands : Term → List Value
  | .condBr c _ _ => [c]
  | .switch c _ _ => [c]
  | .ret (some v) => [v]
  | _ => []

/-- The incoming pairs of a phi. -/
def Op.incoming : Op → List (Value × BlockId)
  | .phi inc => inc
  | _ => []

/-- The identifiers in use are below the counters of the function: those of
the blocks, of the blocks named by phis and of the instructions, and no
operand reads the result of the next instruction to be created. -/
def Func.WellFormed (F : Func) : Prop :=
  ∀ B ∈ F.blocks, B.id < F.nextBlock ∧
    (∀ v ∈ B.term.operands, Value.uses F.nextInst v = false) ∧
    ∀ I ∈ B.insts, I.id < F.nextInst ∧
      (∀ v ∈ I.op.operands, Value.uses F.nextInst v = false) ∧
      ∀ e ∈ I.op.incoming, e.2 < F.nextBlock

instance (F : Func) : Decidable F.WellFormed := by
  unfold Func.WellFormed
  infer_instance

/-- The two states hold the same memory, arguments and instruction results,
the result `Phi` apart. -/
def AgreeExcept (Phi : InstId) (σ σ' : State) : Prop :=
  σ'.mem = σ.mem ∧ σ'.args = σ.args ∧ ∀ id, id ≠ Phi → σ'.regs id = σ.regs id

/-- The state `σ'` of the rewritten function matches the state `σ` of the
original one: they agree on everything the original function has, and the
merge node `Phi` holds the result of the Protected Operation `M`. -/
def SameUpTo (M Phi : InstId) (σ σ' : State) : Prop :=
  AgreeExcept Phi σ σ' ∧ σ'.regs Phi = σ.regs M
/-- Rename the incoming blocks of a phi by `g`. -/
def renameIncoming (g : BlockId → BlockId) (I : Inst) : Inst :=
  match I.op with
  | .phi inc => { I with op := .phi (inc.map (fun e => (e.1, g e.2))) }
  | _ => I

/-- The setting of the first rewrite of a guard by the plain pass: the
function is well formed, block `P` ends in the guard branch `condBr c s0 s1`
for the report block `CrashBB`, the other target is the Safe Block `SafeBB`
(not `P` itself), whose instructions are `pre`, the Protected Operation `M`
and `post`; `M` has a value, no memo entry and an identifier of its own, no
phi follows it, and the report block ends in `unreachable`. -/
structure FirstRewrite (F : Func) (memo : TargetMap) (CrashBB P SafeBB : BlockId) (SB : Block)
    (pre post : List Inst) (M : Inst) (c : Value) (s0 s1 : BlockId) : Prop where
  wf : F.WellFormed
  hP : (F.getBlock P).map (fun X => X.term) = some (Term.condBr c s0 s1)
  hcr : s0 = CrashBB ∨ s1 = CrashBB
  hsafe : (if s0 = CrashBB then s1 else s0) = SafeBB
  hS : F.getBlock SafeBB = some SB
  hinsts : SB.insts = pre ++ M :: post
  hpre : ∀ I ∈ pre, isProtectable I.op = false
  hM : isProtectable M.op = true
  hv : M.op.isVoid = false
  hmemo : memo M.id = none
  hne : P ≠ SafeBB
  huniq : (∀ I ∈ pre ++ post, I.id ≠ M.id) ∧
    ∀ B ∈ F.blocks, B.id ≠ SafeBB → ∀ I ∈ B.insts, I.id ≠ M.id
  hpost : ∀ I ∈ post, I.op.isPhi = false
  hcrash : (F.getBlock CrashBB).map (fun X => X.term) = some .unreachable

/-- `isa<AllocaInst>`. -/
def Op.isAlloca : Op → Bool
  | .alloca _ _ => true
  | _ => false

/-- The loop of `createShadowAllocas` over the entry block: one shadow
alloca of the original's allocated type and array size, named after the
original with the suffix `.shadow`, per alloca, in order, and the entry of
`PtrToShadowPtr` for it. -/
def shadowAllocas : List Inst → InstId → ValueMap → List Inst × InstId × ValueMap
  | [], next, m => ([], next, m)
  | I :: rest, next, m =>
    match I.op with
    | .alloca ty count =>
      let r := shadowAllocas rest (next + 1) (m.set (.inst I.id) (.inst next))
      ({ id := next, name := I.name ++ ".shadow", op := .alloca ty count } :: r.1, r.2.1, r.2.2)
    | _ => shadowAllocas rest next m

/-- Phase 1, `createShadowAllocas` (lines 104 to 118).  The builder inserts
before the instruction that was first in the entry block, so the shadow
allocas lead the block and the loop does not visit them. -/
def createShadowAllocas (st : Pass) : Pass :=
  match st.F.blocks with
  | [] => st
  | EntryBB :: rest =>
    let r := shadowAllocas EntryBB.insts st.F.nextInst st.PtrToShadowPtr
    { st with
      F := { st.F with
             blocks := { EntryBB with insts := r.1 ++ EntryBB.insts } :: rest,
             nextInst := r.2.1 },
      PtrToShadowPtr := r.2.2 }

/-- The instructions emitted after a `getelementptr` whose pointer operand
has a shadow (lines 132 to 136): the two `ptrtoint`, their difference and the
byte-wise `getelementptr` from the shadow base. -/
def shadowGep (GEP : Inst) (PtrOp ShadowBase : Value) (next : InstId) : List Inst :=
  [ { id := next, name := "", op := .cast PtrOp },
    { id := next + 1, name := "", op := .cast (.inst GEP.id) },
    { id := next + 2, name := "", op := .binop (.inst (next + 1)) (.inst next) },
    { id := next + 3, name := GEP.name ++ ".shadow",
      op := .gep ShadowBase [.inst (next + 2)] } ]

/-- The inner loop of `propagateShadowPointers` (lines 127 to 145) over the
instructions of one block.  The instructions emitted after a
`getelementptr` are visited by the loop in their turn, hence the fuel. -/
def propagateShadowInsts : Nat → List Inst → InstId → ValueMap → List Inst × InstId × ValueMap
  | 0, insts, next, m => (insts, next, m)
  | _ + 1, [], next, m => ([], next, m)
  | fuel + 1, I :: rest, next, m =>
    match I.op with
    | .gep PtrOp _ =>
      match m PtrOp with
      | some ShadowBase =>
        let r := propagateShadowInsts fuel (shadowGep I PtrOp ShadowBase next ++ rest)
          (next + 4) (m.set (.inst I.id) (.inst (next + 3)))
        (I :: r.1, r.2.1, r.2.2)
      | none =>
        let r := propagateShadowInsts fuel rest next m
        (I :: r.1, r.2.1, r.2.2)
    | .bitcast a =>
      match m a with
      | some s =>
        let r := propagateShadowInsts fuel rest next (m.set (.inst I.id) s)
        (I :: r.1, r.2.1, r.2.2)
      | none =>
        let r := propagateShadowInsts fuel rest next m
        (I :: r.1, r.2.1, r.2.2)
    | _ =>
      let r := propagateShadowInsts fuel rest next m
      (I :: r.1, r.2.1, r.2.2)

/-- The outer loop of `propagateShadowPointers` over the blocks.  Five visits
per instruction of the block suffice when no shadow pointer is itself a key
of `PtrToShadowPtr`. -/
def propagateShadowBlocks : List Block → InstId → ValueMap → List Block × InstId × ValueMap
  | [], next, m => ([], next, m)
  | B :: rest, next, m =>
    let r := propagateShadowInsts (5 * B.insts.length + 1) B.insts next m
    let r2 := propagateShadowBlocks rest r.2.1 r.2.2
    ({ B with insts := r.1 } :: r2.1, r2.2.1, r2.2.2)

/-- Phase 1.5, `propagateShadowPointers` (lines 121 to 147). -/
def propagateShadowPointers (st : Pass) : Pass :=
  let r := propagateShadowBlocks st.F.blocks st.F.nextInst st.PtrToShadowPtr
  { st with F := { st.F with blocks := r.1, nextInst := r.2.1 }, PtrToShadowPtr := r.2.2 }

/-- The inner loop of `instrumentLoads` (lines 152 to 163): a load whose
pointer has a shadow gets, in front of it, the read `load.taint` of the
shadow byte and its truncation to `i1`, which becomes the load's taint. -/
def instrumentLoadInsts (PtrToShadowPtr : ValueMap) :
    List Inst → InstId → ValueMap → List Inst × InstId × ValueMap
  | [], next, vt => ([], next, vt)
  | I :: rest, next, vt =>
    match I.op with
    | .load Ptr =>
      match PtrToShadowPtr Ptr with
      | some sp =>
        let r := instrumentLoadInsts PtrToShadowPtr rest (next + 2)
          (vt.set (.inst I.id) (.inst (next + 1)))
        ({ id := next, name := "load.taint", op := .load sp } ::
          { id := next + 1, name := "", op := .truncTaint (.inst next) } :: I :: r.1,
          r.2.1, r.2.2)
      | none =>
        let r := instrumentLoadInsts PtrToShadowPtr rest next vt
        (I :: r.1, r.2.1, r.2.2)
    | _ =>
      let r := instrumentLoadInsts PtrToShadowPtr rest next vt
      (I :: r.1, r.2.1, r.2.2)

/-- The outer loop of `instrumentLoads` over the blocks. -/
def instrumentLoadBlocks (PtrToShadowPtr : ValueMap) :
    List Block → InstId → ValueMap → List Block × InstId × ValueMap
  | [], next, vt => ([], next, vt)
  | B :: rest, next, vt =>
    let r := instrumentLoadInsts PtrToShadowPtr B.insts next vt
    let r2 := instrumentLoadBlocks PtrToShadowPtr rest r.2.1 r.2.2
    ({ B with insts := r.1 } :: r2.1, r2.2.1, r2.2.2)

/-- Phase 2, `instrumentLoads` (lines 150 to 165). -/
def instrumentLoads (st : Pass) : Pass :=
  let r := instrumentLoadBlocks st.PtrToShadowPtr st.F.blocks st.F.nextInst st.ValTaintMap
  { st with F := { st.F with blocks := r.1, nextInst := r.2.1 }, ValTaintMap := r.2.2 }

/-- `CIMAPass::run` of `cimapass_tainted.cpp` (lines 434 to 450): the six
phases in order, from empty maps. -/
def cimaTainted (F : Func) : Pass :=
  instrumentStores (propagateSSA (injectRecovery (instrumentLoads
    (propagateShadowPointers (createShadowAllocas (startPass F))))))

/-- The shape of `taint_simpl_br.c` around its out-of-bounds read: the entry
block allocates the array, computes the address of element 10 and tests it,
branching to the fault report (block `1`) or to block `2`, which loads the
element and stores it through `arg 2`. -/
def stackLoad : Func :=
  { blocks :=
      [ { id := 0,
          insts := [ ⟨1, "stack_arr", .alloca "[4 x i32]" (.cint 1)⟩,
                     ⟨2, "arrayidx", .gep (.inst 1) [.cint 10]⟩,
                     ⟨3, "bad", .cmp (.inst 2) (.cint 0)⟩ ],
          term := .condBr (.inst 3) 1 2 },
        { id := 1, insts := [⟨4, "", .call (some "__asan_report_load4") [.inst 2] true⟩],
          term := .unreachable },
        { id := 2, insts := [⟨5, "tainted_condition", .load (.inst 2)⟩,
                             ⟨6, "", .store (.inst 5) (.arg 2)⟩],
          term := .ret none } ],
    nextInst := 7, nextBlock := 3 }

/-- An oracle and a state for `stackLoad`: the element address (instruction
`2`) is `100`, its test (instruction `3`) fails, the shadow address
(instruction `11`) is `300`; address `100` holds `77` and the shadow byte is
clear. -/
def stackSem : Oracle := fun I _ =>
  if I.id = 2 then 100 else if I.id = 3 then 1 else if I.id = 11 then 300 else 0

def stackState : State :=
  { regs := fun _ => 0, args := fun _ => 200,
    mem := fun a => if a = 100 then 77 else 0 }
/-- A merge block reached from block `0` by two edges of a switch and from
block `1` by one: its phi `x` has three incoming pairs. -/
def twoEdges : Func :=
  { blocks :=
      [ { id := 0, insts := [], term := .switch (.arg 0) 1 [2, 2] },
        { id := 1, insts := [], term := .br 2 },
        { id := 2,
          insts := [ ⟨1, "x", .phi [(.cint 10, 0), (.cint 10, 0), (.cint 20, 1)]⟩,
                     ⟨2, "", .store (.inst 1) (.arg 2)⟩ ],
          term := .ret none } ],
    nextInst := 3, nextBlock := 3 }

/-- Outside the instruction `Phi`, no operand of the function `G` reads the
result of instruction `M`. -/
def NoUseOutside (M Phi : InstId) (G : Func) : Prop :=
  ∀ Q X, G.getBlock Q = some X →
    (∀ I ∈ X.insts, I.id ≠ Phi → ∀ v ∈ I.op.operands, Value.uses M v = false) ∧
    ∀ v ∈ X.term.operands, Value.uses M v = false

/-- Three checks of one loop that share the report block `3`.  The entry
block tests the first address and branches to the report block or to block
`1`; block `1` loads through `arg 0`, tests the next address and branches to
the report block or to block `2`; block `2` loads through `arg 2`, tests again
and branches to the report block or back to block `1`.  The check blocks `1`
and `2` are each the Safe Block of the other one's guard. -/
def pingPong : Func :=
  { blocks :=
      [ { id := 0, insts := [⟨1, "bad0", .cmp (.arg 1) (.cint 0)⟩],
          term := .condBr (.inst 1) 3 1 },
        { id := 1, insts := [⟨2, "a", .load (.arg 0)⟩, ⟨3, "bad1", .cmp (.arg 3) (.cint 0)⟩],
          term := .condBr (.inst 3) 3 2 },
        { id := 2, insts := [⟨4, "b", .load (.arg 2)⟩, ⟨5, "bad2", .cmp (.arg 1) (.cint 1)⟩],
          term := .condBr (.inst 5) 3 1 },
        { id := 3, insts := [⟨6, "", .call (some "__asan_report_load4") [.arg 0] true⟩],
          term := .unreachable } ],
    nextInst := 7, nextBlock := 4 }

/-- A guard in block `0` for the report block `1` whose Safe Block `2`
itself ends in a report: it loads through `arg 0`, then calls the sink and is
left through `unreachable`. -/
def reportAfterLoad : Func :=
  { blocks :=
      [ { id := 0, insts := [⟨1, "bad", .cmp (.arg 1) (.cint 0)⟩],
          term := .condBr (.inst 1) 1 2 },
        { id := 1, insts := [⟨2, "", .call (some "__asan_report_load4") [.arg 0] true⟩],
          term := .unreachable },
        { id := 2, insts := [⟨3, "v", .load (.arg 0)⟩,
                             ⟨4, "", .call (some "__asan_report_load4") [.arg 2] true⟩],
          term := .unreachable } ],
    nextInst := 5, nextBlock := 3 }

/-- The two instructions that load instrumentation puts in front of a load
whose pointer has the shadow address `sp` (lines 158 to 159), emitted at the
instruction identifier `next`: the read `load.taint` of the shadow byte and its
truncation to `i1`. -/
def loadTaintCode (sp : Value) (next : InstId) : List Inst :=
  [ { id := next, name := "load.taint", op := .load sp },
    { id := next + 1, name := "", op := .truncTaint (.inst next) } ]

/-- The Shadow-Pointer Map of the example after `taint_struct.c`: the field
addresses `2` (field `a`) and `3` (field `b`) have the shadow addresses `12`
and `13`. -/
def structShadow : ValueMap :=
  (ValueMap.empty.set (.inst 2) (.inst 12)).set (.inst 3) (.inst 13)

/-- A state for the example after `taint_struct.c`: field `a` is at address
`200` and holds `100`, field `b` is at `204` and holds `200`, their shadow
bytes are at `300` and `304`, and the taint `8` of the recovered value `7` is
true. -/
def structState : State :=
  { regs := fun id =>
      if id = 8 then 1 else if id = 2 then 200 else if id = 3 then 204
      else if id = 12 then 300 else if id = 13 then 304 else 0,
    args := fun _ => 0,
    mem := fun a => if a = 200 then 100 else if a = 204 then 200 else 0 }

/-- `isa<StoreInst>`. -/
def Op.isStore : Op → Bool
  | .store _ _ => true
  | _ => false
/-- The shape of `taint_store_skip.c` when store instrumentation starts: the
entry block allocates `crucial_flag` (instruction `2`) and its shadow
(instruction `12`); block `1` holds the recovered value `7` with its taint `8`
and stores it to `crucial_flag`. -/
def flagFunc : Func :=
  { blocks :=
      [ { id := 0,
          insts := [ ⟨12, "crucial_flag.shadow", .alloca "i32" (.cint 1)⟩,
                     ⟨2, "crucial_flag", .alloca "i32" (.cint 1)⟩ ],
          term := .br 1 },
        { id := 1,
          insts := [ ⟨11, "exec.taint", .phi []⟩, ⟨7, "cima.val", .phi []⟩,
                     ⟨8, "cima.taint", .phi []⟩,
                     ⟨9, "", .store (.inst 7) (.inst 2)⟩ ],
          term := .ret none } ],
    nextInst := 14, nextBlock := 2 }

/-- The function `flagFunc` as the first loop of `instrumentStores` leaves it
for the Taint Map `recoveredMap` and the Shadow-Pointer Map `structShadow`. -/
def flagShadowed : Func :=
  { flagFunc with
    blocks := (collectStoresAll flagFunc recoveredMap structShadow flagFunc.blocks
      flagFunc.nextInst).1,
    nextInst := (collectStoresAll flagFunc recoveredMap structShadow flagFunc.blocks
      flagFunc.nextInst).2.1 }

/-- Subtraction of 64-bit machine integers. -/
def subU64 (x y : Nat) : Nat := (x + 2 ^ 64 - y % 2 ^ 64) % 2 ^ 64

/-- The pointer `p` derives from the pointer `a` through the instructions
`chain`, listed from `p` back to `a`: each is a `getelementptr` or a `bitcast`
whose pointer operand is the result of the next one, and the pointer operand
of the last one is `a`. -/
def derives (a : InstId) : List Inst → InstId → Bool
  | [], p => p == a
  | I :: rest, p =>
    I.id == p &&
      match I.op with
      | .gep (.inst q) _ => derives a rest q
      | .bitcast (.inst q) => derives a rest q
      | _ => false

/-- The state `σ` holds, as the result of the instruction `I`, the value that
`I` computes from its operands in `σ`: the definition of `I` is current. -/
def Inst.holdsIn (sem : Oracle) (σ : State) (I : Inst) : Prop :=
  (execInst sem σ I).regs I.id = σ.regs I.id

/-- The oracle gives the address arithmetic that `propagateShadowPointers`
emits (instructions with an identifier from `bound` on) its meaning on a
64-bit target: `ptrtoint` is the address as a 64-bit integer, `sub` the
difference modulo `2 ^ 64`, the byte-wise `getelementptr` the sum modulo
`2 ^ 64`; and a `bitcast` returns its operand. -/
def PointerArith (bound : InstId) (sem : Oracle) : Prop :=
  (∀ (J : Inst) (a : Value) (x : Nat), bound ≤ J.id → J.op = .cast a →
    sem J [x] = x % 2 ^ 64) ∧
  (∀ (J : Inst) (a b : Value) (x y : Nat), bound ≤ J.id → J.op = .binop a b →
    sem J [x, y] = subU64 x y) ∧
  (∀ (J : Inst) (b o : Value) (x y : Nat), bound ≤ J.id → J.op = .gep b [o] →
    sem J [x, y] = (x + y) % 2 ^ 64) ∧
  (∀ (J : Inst) (a : Value) (x : Nat), J.op = .bitcast a → sem J [x] = x)

/-- An upper bound of the number of visits the loop of
`propagateShadowPointers` makes in a block: an instruction of the input
function (identifier below `bound`) may be followed by four emitted ones. -/
def visitCost (bound : InstId) : List Inst → Nat
  | [] => 0
  | I :: rest => (if I.id < bound then 5 else 1) + visitCost bound rest

/-- What the loop of `propagateShadowPointers` may meet among the
instructions the pass itself created: no `bitcast`, and a `getelementptr`
only from a shadow address. -/
def emittedOK (bound : InstId) (I : Inst) : Prop :=
  match I.op with
  | .gep p _ => ∃ j, p = .inst j ∧ bound ≤ j
  | .bitcast _ => False
  | _ => True

/-- The keys of the Shadow-Pointer Map are results of the input function and
its values results the pass created. -/
def MapOK (bound next : InstId) (m : ValueMap) : Prop :=
  ∀ k s, m k = some s →
    (∃ i, k = .inst i ∧ i < bound) ∧ ∃ j, s = .inst j ∧ bound ≤ j ∧ j < next

/-- `isa<GetElementPtrInst> || isa<BitCastInst>`. -/
def Op.isGepOrBitcast : Op → Bool
  | .gep _ _ => true
  | .bitcast _ => true
  | _ => false

/-- Why the Shadow-Pointer Map `m` holds `s` for the key `k`, given the
instructions `origs` of the input function and `all` of the output: `k` is an
alloca and `s` its shadow alloca, of the same type and array size; or `k` is
a `getelementptr` whose pointer operand has a shadow and `s` is the last of
the four instructions emitted for it; or `k` is a `bitcast` and `s` the shadow
of its operand.  The emitted instructions have identifiers from `bound` on. -/
def Justified (bound : InstId) (origs all : List Inst) (m : ValueMap) (k s : Value) : Prop :=
  (∃ (A : Inst) (ty : String) (c : Value) (sa : InstId), A ∈ origs ∧ A.op = .alloca ty c ∧
    k = .inst A.id ∧ s = .inst sa ∧
    ({ id := sa, name := A.name ++ ".shadow", op := .alloca ty c } : Inst) ∈ all) ∨
  (∃ (G : Inst) (PtrOp : Value) (idx : List Value) (ShadowBase : Value) (n : InstId),
    G ∈ origs ∧ bound ≤ n ∧ G.op = .gep PtrOp idx ∧ k = .inst G.id ∧
    m PtrOp = some ShadowBase ∧
    s = .inst (n + 3) ∧ ∀ J ∈ shadowGep G PtrOp ShadowBase n, J ∈ all) ∨
  (∃ (BC : Inst) (a : Value), BC ∈ origs ∧ BC.op = .bitcast a ∧ k = .inst BC.id ∧
    m a = some s)

/-- What one run of the loop of `propagateShadowPointers` over the
instructions `insts`, from the counter `next` and the map `m`, achieves in its
result `r`: the map stays well formed and only grows, the instructions are
kept, every new entry is that of a `getelementptr` with the code emitted for
it or of a `bitcast` with the shadow of its operand, and only keys of such
instructions change. -/
structure ShadowLoopOK (bound : InstId) (insts : List Inst) (next : InstId) (m : ValueMap)
    (r : List Inst × InstId × ValueMap) : Prop where
  ok : MapOK bound r.2.1 r.2.2
  le : next ≤ r.2.1
  mono : ∀ k s, m k = some s → r.2.2 k = some s
  keep : ∀ I ∈ insts, I ∈ r.1
  just : ∀ k s, r.2.2 k = some s → m k = some s ∨
    ∃ G ∈ insts, G.id < bound ∧ k = .inst G.id ∧
      ((∃ (PtrOp : Value) (idx : List Value) (ShadowBase : Value) (n : InstId),
          bound ≤ n ∧ G.op = .gep PtrOp idx ∧ r.2.2 PtrOp = some ShadowBase ∧
          s = .inst (n + 3) ∧
          ∀ J ∈ shadowGep G PtrOp ShadowBase n, J ∈ r.1) ∨
        ∃ a : Value, G.op = .bitcast a ∧ r.2.2 a = some s)
  frame : ∀ k, (∀ I ∈ insts, I.id < bound → I.op.isGepOrBitcast = true → k ≠ .inst I.id) →
    r.2.2 k = m k

/-- The definitions along a chain of derived pointers are current in the
state `σ`: it holds every `bitcast` of the chain and, for every
`getelementptr` of the chain, the four instructions emitted for it. -/
def chainCurrent (sem : Oracle) (σ : State) (m : ValueMap) (chain : List Inst) : Prop :=
  ∀ I ∈ chain,
    (∀ a, I.op = .bitcast a → I.holdsIn sem σ) ∧
    ∀ (PtrOp : Value) (idx : List Value) (ShadowBase : Value) (n : InstId),
      I.op = .gep PtrOp idx → m PtrOp = some ShadowBase →
      m (.inst I.id) = some (.inst (n + 3)) →
      ∀ J ∈ shadowGep I PtrOp ShadowBase n, J.holdsIn sem σ

instance (sem : Oracle) (σ : State) (I : Inst) : Decidable (I.holdsIn sem σ) := by
  unfold Inst.holdsIn
  infer_instance
/-- A chain of derived pointers in one block: the array `arr`, the address
`p` of one of its elements, the reinterpretation `q` of `p`, and the address
`r` computed from `q`. -/
def ptrChain : Func :=
  { blocks :=
      [ { id := 0,
          insts := [ ⟨1, "arr", .alloca "[4 x i32]" (.cint 1)⟩,
                     ⟨2, "p", .gep (.inst 1) [.cint 8]⟩,
                     ⟨3, "q", .bitcast (.inst 2)⟩,
                     ⟨4, "r", .gep (.inst 3) [.arg 0]⟩ ],
          term := .ret none } ],
    nextInst := 5, nextBlock := 1 }

/-- An oracle for `ptrChain`: an alloca returns a thousand times its
identifier as its address, a `ptrtoint` the address, a subtraction the
difference and a `getelementptr` the sum of base and offset modulo `2 ^ 64`,
and a `bitcast` its operand. -/
def ptrSem : Oracle := fun I vals =>
  match I.op, vals with
  | .alloca _ _, _ => 1000 * I.id
  | .cast _, [x] => x % 2 ^ 64
  | .binop _ _, [x, y] => subU64 x y
  | .gep _ _, [x, y] => (x + y) % 2 ^ 64
  | .bitcast _, [x] => x
  | _, _ => 0

/-- The state at the end of the entry block of `ptrChain` after the phases 1
and 1.5, run with `arg 0 = 3` from cleared registers. -/
def ptrChainState : State :=
  execInsts ptrSem { regs := fun _ => 0, args := fun _ => 3, mem := fun _ => 0 }
    ((propagateShadowPointers (createShadowAllocas (startPass ptrChain))).F.blocks.flatMap
      (fun B => B.insts))

/-- The blocks a run executes, in order, each with the state at its
terminator; the run starts in block `cur`, entered from `pred`, and takes at
most `fuel` blocks. -/
def runTrace (sem : Oracle) (F : Func) :
    Nat → Option BlockId → BlockId → State → List (BlockId × State)
  | 0, _, _, _ => []
  | fuel + 1, pred, cur, σ =>
    match F.getBlock cur with
    | none => []
    | some B =>
      match execBlock sem σ pred B with
      | (σ', some nxt) => (cur, σ') :: runTrace sem F fuel (some cur) nxt σ'
      | (σ', none) => [(cur, σ')]

/-- What the first loop of `propagateSSA` (lines 248 to 253) leaves at the
head of a block after the entry: an empty phi, entered in
`BlockExecTaintMap` for the block. -/
def hasExecPhi (exec : BlockMap) (B : Block) : Bool :=
  match B.insts with
  | I :: _ => I.op == .phi [] && exec B.id == some (.inst I.id)
  | [] => false

/-- Append the incoming pairs `inc` to a phi. -/
def appendIncoming (inc : List (Value × BlockId)) (I : Inst) : Inst :=
  match I.op with
  | .phi old => { I with op := .phi (old ++ inc) }
  | _ => I

/-- The effect of the wiring loop of `propagateSSA` (lines 320 to 335), run
over the blocks `ids` of the function `F`, on one instruction: the
execution-taint phi of a visited block receives the block's incoming list. -/
def wireInst (F : Func) (ValTaintMap : ValueMap) (BlockExecTaintMap : BlockMap) :
    List BlockId → Inst → Inst
  | [], I => I
  | b :: rest, I =>
    match BlockExecTaintMap b with
    | some (.inst ExecPhi) =>
      wireInst F ValTaintMap BlockExecTaintMap rest
        (if I.id = ExecPhi then
          appendIncoming (execIncoming F ValTaintMap BlockExecTaintMap b) I
          else I)
    | _ => wireInst F ValTaintMap BlockExecTaintMap rest I

/-- The function after the first two loops of `propagateSSA` (lines 248 to
267), with the Block Execution-Taint Map and the Taint Map they leave. -/
def execPhiStage (st : Pass) : Func × BlockMap × ValueMap :=
  match st.F.blocks with
  | [] => (st.F, BlockMap.empty, st.ValTaintMap)
  | entry :: others =>
    let r1 := createExecPhis others st.F.nextInst BlockMap.empty
    let r2 := createShadowPhisAll (entry :: r1.1) r1.2.1 st.ValTaintMap
    ({ st.F with blocks := r2.1, nextInst := r2.2.1 }, r1.2.2, r2.2.2)

/-- The Taint Map that the traversal of `propagateSSA` (lines 269 to 318)
computes. -/
def stageTaints (st : Pass) : ValueMap :=
  propagateBlocks (execPhiStage st).1 (execPhiStage st).2.1 (execPhiStage st).2.2
    (execPhiStage st).1.rpo

/-- The function after the wiring loop of `propagateSSA` (lines 320 to
335). -/
def stageWired (st : Pass) : Func :=
  wireExecPhis (stageTaints st) (execPhiStage st).2.1 (execPhiStage st).1
    ((execPhiStage st).1.blocks.map (fun B => B.id))

/-- The identifier list `out` arises from `inp` by inserting identifiers
taken from `next` upwards, `next2` being the first identifier left unused:
every identifier of `out` is one of `inp` or lies between the two bounds, and
`out` has no duplicates when `inp` has none and lies below `next`. -/
def FreshIds (inp : List InstId) (next : InstId) (out : List InstId) (next2 : InstId) : Prop :=
  next ≤ next2 ∧ (∀ id ∈ out, id ∈ inp ∨ (next ≤ id ∧ id < next2)) ∧
    ((∀ id ∈ inp, id < next) → inp.Nodup → out.Nodup)

/-- Identifiers of the instructions of a list of blocks, in layout order. -/
def instIds (L : List Block) : List InstId :=
  (L.flatMap (fun B => B.insts)).map (fun I => I.id)

/-- The function `H` has the blocks of `F` with the same terminators; each
block other than `E` starts with its execution-taint phi, whose incoming list
begins with the list that the wiring loop builds for the block, and no other
instruction of the block has the identifier of that phi; and every non-phi
instruction of `H` is an instruction of the same block of `F`. -/
def ExecWired (F : Func) (m : ValueMap) (exec : BlockMap) (E : BlockId) (H : Func) : Prop :=
  H.blocks.map (fun B => (B.id, B.term)) = F.blocks.map (fun B => (B.id, B.term)) ∧
  (∀ B ∈ H.blocks, B.id ≠ E →
    ∃ (e : InstId) (name : String) (extra : List (Value × BlockId)) (rest : List Inst),
      exec B.id = some (.inst e) ∧
      B.insts = ⟨e, name, .phi (execIncoming F m exec B.id ++ extra)⟩ :: rest ∧
      ∀ I ∈ rest, I.id ≠ e) ∧
  ∀ B ∈ H.blocks, ∀ I ∈ B.insts, I.op.isPhi = false →
    ∃ B0 ∈ F.blocks, B0.id = B.id ∧ I ∈ B0.insts

/-- The Taint Map `m` records for instruction `I` of block `b` a taint that is
true in every state in which the execution taint of `b` is true. -/
def TaintCovers (F : Func) (exec : BlockMap) (m : ValueMap) (b : BlockId) (I : Inst) : Prop :=
  ∃ T, m (.inst I.id) = some T ∧
    ∀ σ : State, truth σ (getBlockTaint F exec b) = true → truth σ T = true

/-- The function `diamond` with a sum of two constants in the join block: the
sum has no tainted operand, and it is computed after the branch on the
recovered value. -/
def stickyDiamond : Func :=
  { blocks :=
      [ { id := 0, insts := [⟨1, "bad", .cmp (.arg 1) (.cint 0)⟩],
          term := .condBr (.inst 1) 1 2 },
        { id := 1, insts := [⟨2, "", .call (some "__asan_report_load4") [.arg 0] true⟩],
          term := .unreachable },
        { id := 2, insts := [⟨3, "trigger", .load (.arg 0)⟩,
                             ⟨4, "gt", .cmp (.inst 3) (.cint 50)⟩],
          term := .condBr (.inst 4) 3 4 },
        { id := 3, insts := [], term := .br 5 },
        { id := 4, insts := [], term := .br 5 },
        { id := 5, insts := [⟨5, "calc", .phi [(.cint 25, 3), (.cint 9, 4)]⟩,
                             ⟨6, "sum", .binop (.cint 2) (.cint 3)⟩,
                             ⟨7, "", .store (.inst 6) (.arg 2)⟩],
          term := .ret none } ],
    nextInst := 8, nextBlock := 6 }

/-- The function `straight` with the loaded value negated before it is
stored: instruction `4` is the unary `fneg`, a `UnaryOperator`, which is none
of the kinds the pass tests for. -/
def negStore : Func :=
  { blocks :=
      [ { id := 0, insts := [⟨1, "bad", .cmp (.arg 1) (.cint 0)⟩],
          term := .condBr (.inst 1) 1 2 },
        { id := 1, insts := [⟨2, "", .call (some "__asan_report_load4") [.arg 0] true⟩],
          term := .unreachable },
        { id := 2, insts := [⟨3, "v", .load (.arg 0)⟩,
                             ⟨4, "neg", .other [.inst 3] false⟩,
                             ⟨5, "", .store (.inst 4) (.arg 2)⟩],
          term := .ret none } ],
    nextInst := 6, nextBlock := 3 }

/-- The function `negStore` with the negation written as the binary
subtraction from zero. -/
def subStore : Func :=
  { blocks :=
      [ { id := 0, insts := [⟨1, "bad", .cmp (.arg 1) (.cint 0)⟩],
          term := .condBr (.inst 1) 1 2 },
        { id := 1, insts := [⟨2, "", .call (some "__asan_report_load4") [.arg 0] true⟩],
          term := .unreachable },
        { id := 2, insts := [⟨3, "v", .load (.arg 0)⟩,
                             ⟨4, "neg", .binop (.cint 0) (.inst 3)⟩,
                             ⟨5, "", .store (.inst 4) (.arg 2)⟩],
          term := .ret none } ],
    nextInst := 6, nextBlock := 3 }

/-- An oracle for `negStore` and `subStore`: instruction `1` tests `≠`,
instruction `4` negates modulo `2 ^ 64`. -/
def negSem : Oracle := fun I vals =>
  match I.id, vals with
  | 1, [a, b] => if a ≠ b then 1 else 0
  | 4, [x] => (2 ^ 64 - x % 2 ^ 64) % 2 ^ 64
  | 4, [a, b] => (a + 2 ^ 64 - b % 2 ^ 64) % 2 ^ 64
  | _, _ => 0

/-- A variable-length array in the entry block: the element count `n` is
computed from `arg 0` by instruction `1`, the array `vla` is allocated with
that count by instruction `2`. -/
def vlaFunc : Func :=
  { blocks :=
      [ { id := 0,
          insts := [ ⟨1, "n", .binop (.arg 0) (.cint 1)⟩,
                     ⟨2, "vla", .alloca "i32" (.inst 1)⟩ ],
          term := .ret none } ],
    nextInst := 3, nextBlock := 1 }

/-- An oracle for `vlaFunc`: the addition adds, and an alloca returns the
element count it is executed with. -/
def vlaSem : Oracle := fun I vals =>
  match I.op, vals with
  | .binop _ _, [a, b] => a + b
  | .alloca _ _, [n] => n
  | _, _ => 0

/-- Cleared registers and `arg 0 = 4`. -/
def vlaState : State := { regs := fun _ => 0, args := fun _ => 4, mem := fun _ => 0 }

/-! # Theorems -/

/-! ## Theorems: runtime helper -/

/-- The loop returns the outcome of testing the remaining candidates in
order. -/
theorem searchLoop_eq_firstPassing (mem : Memory) (A W : Nat) (n d : Nat) :
    searchLoop mem ((A % U64) / 8) W n d = firstPassing mem W (candidatesFrom A n d) := by
  induction n generalizing d with
  | zero => simp [searchLoop, candidatesFrom, firstPassing]
  | succ n ih =>
    rw [searchLoop, candidatesFrom]
    by_cases hd : 0 < d
    · simp only [hd, if_true, List.cons_append, List.nil_append, firstPassing, fwd, bwd]
      cases hf : is_valid_access mem (fwdAddr ((A % U64) / 8) d) W with
      | none => rfl
      | some b =>
        cases b with
        | true => rfl
        | false =>
          simp only
          cases hb : is_valid_access mem (bwdAddr ((A % U64) / 8) d) W with
          | none => rfl
          | some b2 =>
            cases b2 with
            | true => rfl
            | false => exact ih (d + 1)
    · simp only [hd, if_false, List.cons_append, List.nil_append, firstPassing, fwd]
      cases hf : is_valid_access mem (fwdAddr ((A % U64) / 8) d) W with
      | none => rfl
      | some b =>
        cases b with
        | true => rfl
        | false => exact ih (d + 1)

theorem find_eq_firstPassing (mem : Memory) (A W : Nat) :
    __cima_find_nearest_valid mem A W = firstPassing mem W (candidates A) := by
  unfold __cima_find_nearest_valid candidates
  exact searchLoop_eq_firstPassing mem A W MAX_SEARCH_DISTANCE 0

theorem firstPassing_append (mem : Memory) (W : Nat) (pre l : List Nat)
    (h : ∀ x ∈ pre, is_valid_access mem x W = some false) :
    firstPassing mem W (pre ++ l) = firstPassing mem W l := by
  induction pre with
  | nil => rfl
  | cons x pre ih =>
    simp only [List.cons_append, firstPassing, h x (List.mem_cons_self _ _)]
    exact ih (fun y hy => h y (List.mem_cons_of_mem _ hy))

/-- The three outcomes of testing a list of candidates. -/
theorem firstPassing_cases (mem : Memory) (W : Nat) (l : List Nat) :
    ((∀ x ∈ l, is_valid_access mem x W = some false) ∧ firstPassing mem W l = some 0) ∨
    ∃ pre c post, l = pre ++ c :: post ∧ (∀ x ∈ pre, is_valid_access mem x W = some false) ∧
      ((is_valid_access mem c W = none ∧ firstPassing mem W l = none) ∨
        (is_valid_access mem c W = some true ∧ firstPassing mem W l = some c)) := by
  induction l with
  | nil => left; exact ⟨fun x hx => by simp at hx, rfl⟩
  | cons c l ih =>
    cases hc : is_valid_access mem c W with
    | none =>
      right
      exact ⟨[], c, l, rfl, fun x hx => by simp at hx, Or.inl ⟨hc, by simp [firstPassing, hc]⟩⟩
    | some b =>
      cases b with
      | true =>
        right
        exact ⟨[], c, l, rfl, fun x hx => by simp at hx,
          Or.inr ⟨hc, by simp [firstPassing, hc]⟩⟩
      | false =>
        have hstep : firstPassing mem W (c :: l) = firstPassing mem W l := by
          simp [firstPassing, hc]
        rcases ih with ⟨hall, h0⟩ | ⟨pre, c2, post, hl, hpre, hout⟩
        · left
          refine ⟨?_, by rw [hstep, h0]⟩
          intro x hx
          rcases List.mem_cons.mp hx with rfl | hx
          · exact hc
          · exact hall x hx
        · right
          refine ⟨c :: pre, c2, post, by rw [hl]; rfl, ?_, ?_⟩
          · intro x hx
            rcases List.mem_cons.mp hx with rfl | hx
            · exact hc
            · exact hpre x hx
          · rw [hstep]
            exact hout

theorem fwd_mem_candidatesFrom (A : Nat) (n d0 d : Nat) (hlo : d0 ≤ d) (hhi : d < d0 + n) :
    fwd A d ∈ candidatesFrom A n d0 := by
  induction n generalizing d0 with
  | zero => omega
  | succ n ih =>
    rw [candidatesFrom]
    rcases Nat.eq_or_lt_of_le hlo with heq | hlt
    · subst heq
      apply List.mem_append_left
      split <;> simp
    · exact List.mem_append_right _ (ih (d0 + 1) (by omega) (by omega))

/-- C8: the search from address `0` in `memGranule2`.  The candidate `fwd(2)`,
address `16`, passes the validity test and is the only one of the sequence
that does so among those before it, but the call does not return it: at
distance `1` the backward granule `0 - 1` wraps to `2 ^ 64 - 1`, its shadow
address `0x200000007FFF7FFF` is not mapped, and the read faults. -/
theorem find_nearest_valid_faults_before_passing :
    fwd 0 2 = 16 ∧ fwd 0 2 ∈ candidates 0 ∧
    is_valid_access memGranule2 (fwd 0 0) 8 = some false ∧
    is_valid_access memGranule2 (fwd 0 1) 8 = some false ∧
    is_valid_access memGranule2 (fwd 0 2) 8 = some true ∧
    shadowAddr (bwd 0 1) = 0x200000007FFF7FFF ∧
    is_valid_access memGranule2 (bwd 0 1) 8 = none ∧
    __cima_find_nearest_valid memGranule2 0 8 = none := by
  refine ⟨by decide, fwd_mem_candidatesFrom 0 512 0 2 (by decide) (by decide), by decide,
    by decide, by decide, by decide, by decide, by decide⟩

/-- C9, as stated, fails: with every shadow byte `0x00` the candidate `fwd(0)`
of address `0` passes the validity test, and the search returns null. -/
theorem find_nearest_valid_null_counterexample :
    fwd 0 0 ∈ candidates 0 ∧
    is_valid_access memZero (fwd 0 0) 1 = some true ∧
    __cima_find_nearest_valid memZero 0 1 = some 0 := by
  refine ⟨fwd_mem_candidatesFrom 0 512 0 0 (by decide) (by decide), by decide, by decide⟩

/-- C9, amended.  The call returns null exactly when the shadow byte of every
candidate is read and no candidate passes the validity test, or the earliest
passing candidate is the address `0` and no read before it faults; it faults
exactly when the shadow read of a candidate faults and no candidate before it
passes; and when a candidate passes, no candidate before it passes and no read
before it faults, the call returns that candidate, which is a non-null result
unless the candidate is the address `0`. -/
theorem find_nearest_valid_null_iff (mem : Memory) (A W : Nat) :
    (__cima_find_nearest_valid mem A W = some 0 ↔
      ((∀ c ∈ candidates A, is_valid_access mem c W = some false) ∨
        ∃ pre post, candidates A = pre ++ 0 :: post ∧
          (∀ x ∈ pre, is_valid_access mem x W = some false) ∧
          is_valid_access mem 0 W = some true)) ∧
    (__cima_find_nearest_valid mem A W = none ↔
      ∃ pre c post, candidates A = pre ++ c :: post ∧
        (∀ x ∈ pre, is_valid_access mem x W = some false) ∧
        is_valid_access mem c W = none) ∧
    (∀ pre c post, candidates A = pre ++ c :: post →
      (∀ x ∈ pre, is_valid_access mem x W = some false) →
      is_valid_access mem c W = some true →
      __cima_find_nearest_valid mem A W = some c ∧
        (c ≠ 0 → __cima_find_nearest_valid mem A W ≠ some 0)) := by
  rw [find_eq_firstPassing]
  have hdec : ∀ pre c post, candidates A = pre ++ c :: post →
      (∀ x ∈ pre, is_valid_access mem x W = some false) →
      firstPassing mem W (candidates A) = firstPassing mem W (c :: post) := by
    intro pre c post hl hpre
    rw [hl, firstPassing_append mem W pre _ hpre]
  have hpass : ∀ pre c post, candidates A = pre ++ c :: post →
      (∀ x ∈ pre, is_valid_access mem x W = some false) →
      is_valid_access mem c W = some true →
      firstPassing mem W (candidates A) = some c := by
    intro pre c post hl hpre hc
    rw [hdec pre c post hl hpre]
    simp [firstPassing, hc]
  have hfault : ∀ pre c post, candidates A = pre ++ c :: post →
      (∀ x ∈ pre, is_valid_access mem x W = some false) →
      is_valid_access mem c W = none →
      firstPassing mem W (candidates A) = none := by
    intro pre c post hl hpre hc
    rw [hdec pre c post hl hpre]
    simp [firstPassing, hc]
  refine ⟨⟨?_, ?_⟩, ⟨?_, ?_⟩, ?_⟩
  · intro h
    rcases firstPassing_cases mem W (candidates A) with ⟨hall, _⟩ |
        ⟨pre, c, post, hl, hpre, ⟨_, hn⟩ | ⟨hc, hs⟩⟩
    · exact Or.inl hall
    · rw [hn] at h
      exact absurd h (by simp)
    · rw [hs] at h
      injection h with h
      subst h
      exact Or.inr ⟨pre, post, hl, hpre, hc⟩
  · rintro (hall | ⟨pre, post, hl, hpre, hc⟩)
    · rcases firstPassing_cases mem W (candidates A) with ⟨_, h0⟩ |
          ⟨pre, c, post, hl, _, ⟨hc, _⟩ | ⟨hc, _⟩⟩
      · exact h0
      · rw [hall c (by rw [hl]; simp)] at hc
        exact absurd hc (by simp)
      · rw [hall c (by rw [hl]; simp)] at hc
        exact absurd hc (by simp)
    · exact hpass pre 0 post hl hpre hc
  · intro h
    rcases firstPassing_cases mem W (candidates A) with ⟨_, h0⟩ |
        ⟨pre, c, post, hl, hpre, ⟨hc, _⟩ | ⟨_, hs⟩⟩
    · rw [h0] at h
      exact absurd h (by simp)
    · exact ⟨pre, c, post, hl, hpre, hc⟩
    · rw [hs] at h
      exact absurd h (by simp)
  · rintro ⟨pre, c, post, hl, hpre, hc⟩
    exact hfault pre c post hl hpre hc
  · intro pre c post hl hpre hc
    refine ⟨hpass pre c post hl hpre hc, ?_⟩
    intro hne h
    rw [hpass pre c post hl hpre hc] at h
    injection h with h
    exact hne h

/-- C7: on the shadow byte `0xCA` (in `0x08..0xF0`) the code's test accepts an
8-byte access that the stated rule rejects. -/
theorem is_valid_access_accepts_0xCA :
    is_valid_access memAllocaRedzone 0x1000 8 = some true ∧
    (memAllocaRedzone (shadowAddr 0x1000)).map (fun b => specValid (b % 256) 0x1000 8) =
      some false := by
  decide

/-- C10: for a 16-byte access only the first granule's shadow byte is read;
with granule `0x200` valid and granule `0x201` a redzone, the search from
`0x1000` returns `0x1000` although byte `0x1008` is not addressable. -/
theorem find_nearest_valid_16_second_granule :
    __cima_find_nearest_valid memOneGranule 0x1000 16 = some 0x1000 ∧
    memOneGranule (shadowAddr (0x1000 + 8)) = some 0xFA ∧
    byteAddressable memOneGranule (0x1000 + 8) = false := by
  decide

/-- C11: the search from address `0` in `memRedzone`, where no candidate
passes.  The call does not run through its candidates: after the reads of the
shadow bytes of `fwd(0)` and `fwd(1)` the third read, of the shadow byte of the
wrapped backward candidate `bwd(1)`, is at `0x200000007FFF7FFF`, which is not
mapped, and the call ends in a fault instead of returning. -/
theorem find_nearest_valid_faults_at_wrap :
    findNearestValidT memRedzone 0 8 =
      (none, [.read 0x7FFF8000, .read 0x7FFF8001, .read 0x200000007FFF7FFF]) ∧
    memRedzone 0x7FFF8000 = some 0xFA ∧ memRedzone 0x7FFF8001 = some 0xFA ∧
    memRedzone 0x200000007FFF7FFF = none ∧
    bwd 0 1 = 0xFFFFFFFFFFFFFFF8 ∧
    __cima_find_nearest_valid memRedzone 0 8 = none := by
  decide

/-! ## Theorems: store guarding -/

theorem find?_map_id (L : List Block) (f : Block → Block) (hf : ∀ X, (f X).id = X.id)
    (q : BlockId) :
    (L.map f).find? (fun X => X.id == q) = (L.find? (fun X => X.id == q)).map f := by
  induction L with
  | nil => rfl
  | cons X L ih =>
    simp only [List.map_cons, List.find?_cons, hf]
    cases h : (X.id == q) <;> simp [ih]

theorem replacePhiUses_id (succs : List BlockId) (old new : BlockId) (X : Block) :
    (X.replacePhiUses succs old new).id = X.id := by
  unfold Block.replacePhiUses
  split <;> rfl

theorem replacePhiUses_term (succs : List BlockId) (old new : BlockId) (X : Block) :
    (X.replacePhiUses succs old new).term = X.term := by
  unfold Block.replacePhiUses
  split <;> rfl

theorem find?_split_other (L : List Block) (old q : BlockId) (oldB newB : Block)
    (hold : oldB.id = old) (hq : q ≠ old) (hq2 : q ≠ newB.id) :
    (L.flatMap (fun X => if X.id = old then [oldB, newB] else [X])).find?
        (fun X => X.id == q) = L.find? (fun X => X.id == q) := by
  induction L with
  | nil => rfl
  | cons Y L ih =>
    have h1 : (oldB.id == q) = false := by rw [hold]; simpa using fun h => hq h.symm
    have h2 : (newB.id == q) = false := by simpa using fun h => hq2 h.symm
    by_cases hY : Y.id = old
    · have h0 : (old == q) = false := by simpa using fun h => hq h.symm
      simp [List.flatMap_cons, hY, List.find?_cons, h1, h2, h0, ih]
    · simp [List.flatMap_cons, hY, List.find?_cons, ih]

theorem find?_split_old (L : List Block) (old : BlockId) (oldB newB : Block)
    (hold : oldB.id = old) (hmem : ∃ X ∈ L, X.id = old) :
    (L.flatMap (fun X => if X.id = old then [oldB, newB] else [X])).find?
        (fun X => X.id == old) = some oldB := by
  induction L with
  | nil => obtain ⟨X, hX, _⟩ := hmem; cases hX
  | cons Y L ih =>
    by_cases hY : Y.id = old
    · simp [List.flatMap_cons, hY, List.find?_cons, hold]
    · have hmem' : ∃ X ∈ L, X.id = old := by
        obtain ⟨X, hX, hXo⟩ := hmem
        rcases List.mem_cons.mp hX with h | h
        · exact absurd (h ▸ hXo) hY
        · exact ⟨X, h, hXo⟩
      simp [List.flatMap_cons, hY, List.find?_cons, ih hmem']

theorem find?_split_new (L : List Block) (old : BlockId) (oldB newB : Block)
    (hold : oldB.id = old) (hne : newB.id ≠ old)
    (hfresh : ∀ X ∈ L, X.id ≠ newB.id) (hmem : ∃ X ∈ L, X.id = old) :
    (L.flatMap (fun X => if X.id = old then [oldB, newB] else [X])).find?
        (fun X => X.id == newB.id) = some newB := by
  induction L with
  | nil => obtain ⟨X, hX, _⟩ := hmem; cases hX
  | cons Y L ih =>
    have h1 : (oldB.id == newB.id) = false := by rw [hold]; simpa using fun h => hne h.symm
    by_cases hY : Y.id = old
    · simp [List.flatMap_cons, hY, List.find?_cons, h1]
    · have hmem' : ∃ X ∈ L, X.id = old := by
        obtain ⟨X, hX, hXo⟩ := hmem
        rcases List.mem_cons.mp hX with h | h
        · exact absurd (h ▸ hXo) hY
        · exact ⟨X, h, hXo⟩
      have hYn : (Y.id == newB.id) = false := by
        simpa using hfresh Y (List.mem_cons_self _ _)
      simp [List.flatMap_cons, hY, List.find?_cons, hYn,
        ih (fun X hX => hfresh X (List.mem_cons_of_mem _ hX)) hmem']

theorem getBlock_some {F : Func} {b : BlockId} {B : Block} (h : F.getBlock b = some B) :
    B ∈ F.blocks ∧ B.id = b := by
  unfold Func.getBlock at h
  exact ⟨List.mem_of_find?_eq_some h, by simpa using List.find?_some h⟩

/-- The blocks of a function after `SplitBlock`. -/
theorem splitBlock_eq (F : Func) (old : BlockId) (k : Nat) (B : Block)
    (hB : F.getBlock old = some B) :
    F.splitBlock old k =
      ({ F with
          blocks := (F.blocks.flatMap (fun X =>
              if X.id = old then
                [{ id := old, insts := B.insts.take k, term := .br F.nextBlock },
                 { id := F.nextBlock, insts := B.insts.drop k, term := B.term }]
              else [X])).map (Block.replacePhiUses B.term.successors old F.nextBlock),
          nextBlock := F.nextBlock + 1 }, F.nextBlock) := by
  simp [Func.splitBlock, hB]

theorem splitBlock_getBlock_old (F : Func) (old : BlockId) (k : Nat) (B : Block)
    (hB : F.getBlock old = some B) :
    (F.splitBlock old k).1.getBlock old =
      some (Block.replacePhiUses B.term.successors old F.nextBlock
        { id := old, insts := B.insts.take k, term := .br F.nextBlock }) := by
  rw [splitBlock_eq F old k B hB]
  simp only [Func.getBlock]
  have := find?_split_old F.blocks old
    { id := old, insts := B.insts.take k, term := .br F.nextBlock }
    { id := F.nextBlock, insts := B.insts.drop k, term := B.term } rfl
    ⟨B, (getBlock_some hB).1, (getBlock_some hB).2⟩
  rw [find?_map_id _ _ (replacePhiUses_id _ _ _), this]
  rfl

theorem splitBlock_getBlock_new (F : Func) (old : BlockId) (k : Nat) (B : Block)
    (hB : F.getBlock old = some B) (hfresh : ∀ X ∈ F.blocks, X.id < F.nextBlock) :
    (F.splitBlock old k).1.getBlock F.nextBlock =
      some (Block.replacePhiUses B.term.successors old F.nextBlock
        { id := F.nextBlock, insts := B.insts.drop k, term := B.term }) := by
  rw [splitBlock_eq F old k B hB]
  simp only [Func.getBlock]
  have hlt : old < F.nextBlock := by
    have := hfresh B (getBlock_some hB).1
    rw [(getBlock_some hB).2] at this
    exact this
  rw [find?_map_id _ _ (replacePhiUses_id _ _ _)]
  have := find?_split_new F.blocks old
    { id := old, insts := B.insts.take k, term := .br F.nextBlock }
    { id := F.nextBlock, insts := B.insts.drop k, term := B.term } rfl
    (Nat.ne_of_gt hlt) (fun X hX => Nat.ne_of_lt (hfresh X hX))
    ⟨B, (getBlock_some hB).1, (getBlock_some hB).2⟩
  simp only at this
  rw [this]
  rfl

theorem splitBlock_getBlock_other (F : Func) (old : BlockId) (k : Nat) (B : Block)
    (hB : F.getBlock old = some B) (q : BlockId) (hq : q ≠ old) (hq2 : q ≠ F.nextBlock) :
    (F.splitBlock old k).1.getBlock q =
      (F.getBlock q).map (Block.replacePhiUses B.term.successors old F.nextBlock) := by
  rw [splitBlock_eq F old k B hB]
  simp only [Func.getBlock]
  have := find?_split_other F.blocks old q
    { id := old, insts := B.insts.take k, term := .br F.nextBlock }
    { id := F.nextBlock, insts := B.insts.drop k, term := B.term } rfl hq hq2
  rw [find?_map_id _ _ (replacePhiUses_id _ _ _), this]

theorem splitBlock_fresh (F : Func) (old : BlockId) (k : Nat) (B : Block)
    (hB : F.getBlock old = some B) (hfresh : ∀ X ∈ F.blocks, X.id < F.nextBlock) :
    ∀ X ∈ (F.splitBlock old k).1.blocks, X.id < (F.splitBlock old k).1.nextBlock := by
  rw [splitBlock_eq F old k B hB]
  intro X hX
  simp only [List.mem_map, List.mem_flatMap] at hX
  obtain ⟨Y, ⟨Z, hZ, hY⟩, rfl⟩ := hX
  rw [replacePhiUses_id]
  have hZlt := hfresh Z hZ
  by_cases hZo : Z.id = old
  · simp only [hZo, if_true, List.mem_cons, List.mem_singleton, List.not_mem_nil, or_false] at hY
    rcases hY with rfl | rfl
    · exact Nat.lt_succ_of_lt (hZo ▸ hZlt)
    · exact Nat.lt_succ_self _
  · simp only [hZo, if_false, List.mem_singleton] at hY
    subst hY
    exact Nat.lt_succ_of_lt hZlt

theorem getBlock_setTerm (F : Func) (b q : BlockId) (t : Term) :
    (F.setTerm b t).getBlock q =
      (F.getBlock q).map (fun X => if X.id = b then { X with term := t } else X) := by
  simp only [Func.getBlock, Func.setTerm]
  exact find?_map_id _ _ (fun X => by split <;> rfl) q

/-- Execution skips phis, so renaming the incoming blocks of phis does not
change what the instructions of a block compute. -/
theorem execInsts_replaceIncoming (sem : Oracle) (old new : BlockId) (L : List Inst)
    (σ : State) :
    execInsts sem σ (L.map (replaceIncomingBlockWith old new)) = execInsts sem σ L := by
  induction L generalizing σ with
  | nil => rfl
  | cons I L ih =>
    simp only [List.map_cons, execInsts]
    have h : execInst sem σ (replaceIncomingBlockWith old new I) = execInst sem σ I := by
      unfold replaceIncomingBlockWith
      cases hop : I.op <;> simp [execInst, hop]
    rw [h, ih]

theorem execInsts_replacePhiUses (sem : Oracle) (succs : List BlockId) (old new : BlockId)
    (X : Block) (σ : State) :
    execInsts sem σ (X.replacePhiUses succs old new).insts = execInsts sem σ X.insts := by
  unfold Block.replacePhiUses
  split
  · exact execInsts_replaceIncoming sem old new X.insts σ
  · rfl

theorem replaceIncoming_nonphi (old new : BlockId) (I : Inst) (h : I.op.isPhi = false) :
    replaceIncomingBlockWith old new I = I := by
  unfold replaceIncomingBlockWith
  cases hop : I.op <;> simp_all [Op.isPhi]

theorem replacePhiUses_insts (succs : List BlockId) (old new : BlockId) (X : Block) :
    (X.replacePhiUses succs old new).insts = X.insts ∨
    (X.replacePhiUses succs old new).insts =
      X.insts.map (replaceIncomingBlockWith old new) := by
  unfold Block.replacePhiUses
  split
  · right; rfl
  · left; rfl

theorem indexOf_append (B : Block) (pre post : List Inst) (SI : Inst)
    (hinsts : B.insts = pre ++ SI :: post) (hpre : ∀ I ∈ pre, I.id ≠ SI.id) :
    B.indexOf SI.id = pre.length := by
  unfold Block.indexOf
  rw [hinsts]
  clear hinsts
  induction pre with
  | nil => simp [List.findIdx_cons]
  | cons J pre ih =>
    have hJ : (J.id == SI.id) = false := by simpa using hpre J (List.mem_cons_self _ _)
    simp only [List.cons_append, List.findIdx_cons, hJ, cond_false, List.length_cons]
    rw [ih (fun I hI => hpre I (List.mem_cons_of_mem _ hI))]

/-- The three blocks `guardStore` leaves in place of the block of a store. -/
theorem guardStore_blocks (F : Func) (B : Block) (pre post : List Inst) (SI : Inst)
    (v p t : Value)
    (hB : F.getBlock B.id = some B) (hpar : F.parentOf SI.id = some B.id)
    (hinsts : B.insts = pre ++ SI :: post) (hpre : ∀ I ∈ pre, I.id ≠ SI.id)
    (hop : SI.op = .store v p) (hfresh : ∀ X ∈ F.blocks, X.id < F.nextBlock) :
    ∃ O C : Block,
      (guardStore F SI.id t).getBlock B.id = some O ∧
      O.term = .condBr t (F.nextBlock + 1) F.nextBlock ∧
      (∀ sem σ, execInsts sem σ O.insts = execInsts sem σ pre) ∧
      (guardStore F SI.id t).getBlock F.nextBlock =
        some ⟨F.nextBlock, [SI], .br (F.nextBlock + 1)⟩ ∧
      (guardStore F SI.id t).getBlock (F.nextBlock + 1) = some C ∧
      C.term = B.term ∧
      (∀ sem σ, execInsts sem σ C.insts = execInsts sem σ post) := by
  have hk := indexOf_append B pre post SI hinsts hpre
  have hblt : B.id < F.nextBlock := hfresh B (getBlock_some hB).1
  have hSI : ∀ o n, replaceIncomingBlockWith o n SI = SI := fun o n =>
    replaceIncoming_nonphi o n SI (by simp [hop, Op.isPhi])
  -- first split
  have h1o := splitBlock_getBlock_old F B.id pre.length B hB
  have h1n := splitBlock_getBlock_new F B.id pre.length B hB hfresh
  have h1f := splitBlock_fresh F B.id pre.length B hB hfresh
  have h1next : (F.splitBlock B.id pre.length).1.nextBlock = F.nextBlock + 1 := by
    rw [splitBlock_eq F B.id pre.length B hB]
  have h1ret : (F.splitBlock B.id pre.length).2 = F.nextBlock := by
    rw [splitBlock_eq F B.id pre.length B hB]
  generalize hF1 : (F.splitBlock B.id pre.length).1 = F1 at h1o h1n h1f h1next
  generalize hE1 : Block.replacePhiUses B.term.successors B.id F.nextBlock
    { id := F.nextBlock, insts := B.insts.drop pre.length, term := B.term } = E1 at h1n
  generalize hO1 : Block.replacePhiUses B.term.successors B.id F.nextBlock
    { id := B.id, insts := B.insts.take pre.length, term := .br F.nextBlock } = O1 at h1o
  have hE1term : E1.term = B.term := by rw [← hE1, replacePhiUses_term]
  have hE1id : E1.id = F.nextBlock := by rw [← hE1, replacePhiUses_id]
  have hO1id : O1.id = B.id := by rw [← hO1, replacePhiUses_id]
  -- second split
  have h2o := splitBlock_getBlock_old F1 F.nextBlock 1 E1 h1n
  have h2n := splitBlock_getBlock_new F1 F.nextBlock 1 E1 h1n h1f
  have h2x := splitBlock_getBlock_other F1 F.nextBlock 1 E1 h1n B.id
    (Nat.ne_of_lt hblt) (by rw [h1next]; exact Nat.ne_of_lt (Nat.lt_succ_of_lt hblt))
  have h2ret : (F1.splitBlock F.nextBlock 1).2 = F.nextBlock + 1 := by
    rw [splitBlock_eq F1 F.nextBlock 1 E1 h1n, h1next]
  rw [h1next] at h2n
  rw [h1o] at h2x
  rw [h1next, hE1term] at h2o h2x
  rw [hE1term] at h2n
  -- the instructions of the two halves
  have hdrop : B.insts.drop pre.length = SI :: post := by
    rw [hinsts, List.drop_left]
  have htake : B.insts.take pre.length = pre := by
    rw [hinsts, List.take_left]
  have hE1insts : E1.insts = SI :: post ∨
      E1.insts = SI :: post.map (replaceIncomingBlockWith B.id F.nextBlock) := by
    rcases replacePhiUses_insts B.term.successors B.id F.nextBlock
      { id := F.nextBlock, insts := B.insts.drop pre.length, term := B.term } with h | h
    · left; rw [← hE1, h, hdrop]
    · right; rw [← hE1, h]; simp only [hdrop, List.map_cons, hSI]
  have htake1 : E1.insts.take 1 = [SI] := by
    rcases hE1insts with h | h <;> rw [h] <;> rfl
  have hdropE : ∀ sem σ, execInsts sem σ (E1.insts.drop 1) = execInsts sem σ post := by
    intro sem σ
    rcases hE1insts with h | h <;> rw [h]
    · rfl
    · exact execInsts_replaceIncoming sem _ _ post σ
  have hO1insts : ∀ sem σ, execInsts sem σ O1.insts = execInsts sem σ pre := by
    intro sem σ
    rw [← hO1, execInsts_replacePhiUses]
    simp only [htake]
  -- assemble
  unfold guardStore
  simp only [hpar, hB, hk, hF1, h1ret]
  simp only [h2ret, getBlock_setTerm, h2o, h2n, h2x, Option.map_some']
  refine ⟨_, _, rfl, ?_, ?_, ?_, rfl, ?_, ?_⟩
  · simp [replacePhiUses_id, hO1id]
  · intro sem σ
    have : ∀ (X : Block) (t' : Term),
        (if X.id = B.id then { X with term := t' } else X).insts = X.insts := by
      intro X t'; split <;> rfl
    rw [this, execInsts_replacePhiUses, hO1insts]
  · have hne : ¬ F.nextBlock = B.id := Nat.ne_of_gt hblt
    have hins : (Block.replacePhiUses B.term.successors F.nextBlock (F.nextBlock + 1)
        { id := F.nextBlock, insts := E1.insts.take 1, term := .br (F.nextBlock + 1) })
        = ⟨F.nextBlock, [SI], .br (F.nextBlock + 1)⟩ := by
      unfold Block.replacePhiUses
      split
      · simp [htake1, hSI]
      · simp [htake1]
    rw [hins]
    simp [hne]
  · have hne : ¬ (F.nextBlock + 1 = B.id) := Nat.ne_of_gt (Nat.lt_succ_of_lt hblt)
    simp [replacePhiUses_id, replacePhiUses_term, hne]
  · intro sem σ
    have hne : ¬ (F.nextBlock + 1 = B.id) := Nat.ne_of_gt (Nat.lt_succ_of_lt hblt)
    simp only [replacePhiUses_id, hne, if_false]
    rw [execInsts_replacePhiUses]
    exact hdropE sem σ

theorem splitBlock_ret (F : Func) (old : BlockId) (k : Nat) :
    (F.splitBlock old k).2 = F.nextBlock := by
  unfold Func.splitBlock
  split <;> rfl

/-- Every iteration of the guarding loop leaves the block counter above all
block identifiers, so the next iteration starts from a function of the same
kind. -/
theorem guardStore_fresh (F : Func) (SI : InstId) (t : Value)
    (hfresh : ∀ X ∈ F.blocks, X.id < F.nextBlock) :
    ∀ X ∈ (guardStore F SI t).blocks, X.id < (guardStore F SI t).nextBlock := by
  unfold guardStore
  split
  · exact hfresh
  · rename_i OrigBB _
    split
    · exact hfresh
    · rename_i B hB
      simp only []
      have h1 := splitBlock_fresh F OrigBB (B.indexOf SI) B hB hfresh
      have h1n := splitBlock_getBlock_new F OrigBB (B.indexOf SI) B hB hfresh
      have hret := splitBlock_ret F OrigBB (B.indexOf SI)
      rw [hret]
      intro X hX
      have h2 := splitBlock_fresh (F.splitBlock OrigBB (B.indexOf SI)).1 F.nextBlock 1 _ h1n h1
      simp only [Func.setTerm, List.mem_map] at hX ⊢
      obtain ⟨Y, hY, rfl⟩ := hX
      have := h2 Y hY
      split <;> exact this

/-- C1: one iteration of the guarding loop of `instrumentStores`, applied to
any function in which the store `SI` sits in block `B` between `pre` and
`post`.  Afterwards the store executes exactly when its taint `t` is false at
the branch; when `t` is true the state, hence the target memory location, is
what it was before the guarded region; and in both cases control continues
with the instructions `post` that followed the store and the block's original
terminator. -/
theorem guardStore_suppresses (sem : Oracle) (F : Func) (B : Block)
    (pre post : List Inst) (SI : Inst) (v p t : Value)
    (hB : F.getBlock B.id = some B) (hpar : F.parentOf SI.id = some B.id)
    (hinsts : B.insts = pre ++ SI :: post) (hpre : ∀ I ∈ pre, I.id ≠ SI.id)
    (hop : SI.op = .store v p) (hfresh : ∀ X ∈ F.blocks, X.id < F.nextBlock) :
    StoreGuarded sem (guardStore F SI.id t) B pre post SI v p t
      F.nextBlock (F.nextBlock + 1) := by
  obtain ⟨O, C, hO, hOt, hOi, hE, hC, hCt, hCi⟩ :=
    guardStore_blocks F B pre post SI v p t hB hpar hinsts hpre hop hfresh
  refine ⟨O, C, hO, hOt, fun σ => hOi sem σ, hE, hC, hCt, fun σ => hCi sem σ, ?_⟩
  intro σ pred fuel
  have hnext : ∀ σ', O.term.next σ' =
      if truth σ' t then some (F.nextBlock + 1) else some F.nextBlock := by
    intro σ'; rw [hOt]; rfl
  have hstep : execBlock sem σ pred O =
      ((execBlock sem σ pred O).1, O.term.next (execBlock sem σ pred O).1) := rfl
  constructor
  · intro ht
    rw [run, hO]
    simp only []
    rw [hstep, hnext, ht]
    rfl
  · intro ht
    rw [run, hO]
    simp only []
    rw [hstep, hnext, ht]
    simp only [Bool.false_eq_true, if_false]
    rw [run, hE]
    simp [execBlock, execPhis, execInsts, execInst, hop, Term.next]

/-! ## Theorems: taint rules -/

theorem truth_createOr (σ : State) (a b : Value) :
    truth σ (createOr a b) = (truth σ a || truth σ b) := by
  unfold createOr
  split <;> simp [truth]

theorem truth_isZeroConst (σ : State) (v : Value) (h : isZeroConst v = true) :
    truth σ v = false := by
  unfold isZeroConst at h
  split at h <;> simp_all [truth]

theorem truth_orOperandTaints (σ : State) (F : Func) (m : ValueMap)
    (acc : Option Value) (ops : List Value) :
    (match orOperandTaints F m acc ops with
      | some t => truth σ t
      | none => false) =
    ((match acc with
      | some t => truth σ t
      | none => false) || ops.any (fun op => truth σ (getTaint F m op))) := by
  induction ops generalizing acc with
  | nil => simp [orOperandTaints]
  | cons op rest ih =>
    simp only [orOperandTaints]
    by_cases hz : isZeroConst (getTaint F m op) = true
    · simp only [hz, if_true, ih, List.any_cons, truth_isZeroConst σ _ hz, Bool.false_or]
    · simp only [hz, Bool.false_eq_true, if_false]
      cases acc with
      | none => simp [ih, List.any_cons]
      | some t => simp [ih, List.any_cons, truth_createOr, Bool.or_assoc]

/-- The taint before the implicit-flow step: the pre-existing taint joined
with the operand taints of a data operation or intrinsic call. -/
theorem truth_dataTaint (σ : State) (F : Func) (m : ValueMap) (I : Inst) :
    (match dataTaint F m I with
      | some t => truth σ t
      | none => false) =
    (existingTaintTruth σ m I.id ||
      ((I.op.isDataOp || isIntrinsicCall I.op) &&
        I.op.operands.any (fun op => truth σ (getTaint F m op)))) := by
  unfold dataTaint existingTaintTruth
  by_cases hd : I.op.isDataOp = true
  · simp only [hd, if_true, truth_orOperandTaints, Bool.true_or, Bool.true_and]
  · simp only [hd, Bool.false_eq_true, if_false, Bool.false_or]
    cases hop : I.op with
    | call callee args isVoid =>
      cases callee with
      | none => simp [isIntrinsicCall]
      | some n =>
        by_cases hn : starts_with n "llvm." = true
        · simp [isIntrinsicCall, hn, truth_orOperandTaints, Op.operands]
        · simp [isIntrinsicCall, hn]
    | _ => simp [isIntrinsicCall]

theorem truth_instTaint (σ : State) (F : Func) (m : ValueMap) (I : Inst) (cur : Value) :
    truth σ (instTaint F m I cur) =
      ((existingTaintTruth σ m I.id ||
        ((I.op.isDataOp || isIntrinsicCall I.op) &&
          I.op.operands.any (fun op => truth σ (getTaint F m op)))) || truth σ cur) := by
  rw [← truth_dataTaint]
  unfold instTaint
  cases h : dataTaint F m I with
  | none => simp
  | some t =>
    by_cases ht : t = cur
    · simp [ht]
    · simp [ht, truth_createOr]

/-- The rule for one step of the traversal, read against the map `m` the
step finds. -/
theorem instTaint_step (σ : State) (F : Func) (m : ValueMap) (I : Inst) (cur : Value)
    (hfresh : (I.op.isDataOp || isIntrinsicCall I.op) = true → m (.inst I.id) = none) :
    truth σ (instTaint F m I cur) = (specDataTaint σ F m m I || truth σ cur) := by
  rw [truth_instTaint]
  unfold specDataTaint
  by_cases hd : I.op.isDataOp = true
  · have := hfresh (by simp [hd])
    simp [hd, existingTaintTruth, this]
  · by_cases hi : isIntrinsicCall I.op = true
    · have := hfresh (by simp [hi])
      simp [hd, hi, existingTaintTruth, this]
    · simp [hd, hi]

/-! ## Theorems: the traversal of `propagateSSA` -/

theorem propagateInsts_append (F : Func) (cur : Value) (m : ValueMap) (a b : List Inst) :
    propagateInsts F cur m (a ++ b) = propagateInsts F cur (propagateInsts F cur m a) b := by
  induction a generalizing m with
  | nil => rfl
  | cons I a ih =>
    simp only [List.cons_append, propagateInsts]
    split
    · exact ih m
    · split
      · exact ih m
      · exact ih _

/-- The traversal of a list of instructions changes the map at their results
only. -/
theorem propagateInsts_frame (F : Func) (cur : Value) (m : ValueMap) (insts : List Inst)
    (v : Value) (hv : ∀ J ∈ insts, v ≠ .inst J.id) :
    propagateInsts F cur m insts v = m v := by
  induction insts generalizing m with
  | nil => rfl
  | cons I rest ih =>
    have hrest : ∀ J ∈ rest, v ≠ .inst J.id := fun J hJ => hv J (List.mem_cons_of_mem _ hJ)
    simp only [propagateInsts]
    split
    · exact ih m hrest
    · split
      · exact ih m hrest
      · rw [ih _ hrest]
        simp [ValueMap.set, hv I (List.mem_cons_self _ _)]

theorem propagateBlocks_append (F : Func) (exec : BlockMap) (m : ValueMap)
    (a b : List BlockId) :
    propagateBlocks F exec m (a ++ b) = propagateBlocks F exec (propagateBlocks F exec m a) b := by
  induction a generalizing m with
  | nil => rfl
  | cons x a ih =>
    simp only [List.cons_append, propagateBlocks]
    split
    · exact ih m
    · exact ih _

theorem propagateBlocks_frame (F : Func) (exec : BlockMap) (m : ValueMap)
    (bs : List BlockId) (v : Value) (hv : ∀ J ∈ F.instsOf bs, v ≠ .inst J.id) :
    propagateBlocks F exec m bs v = m v := by
  induction bs generalizing m with
  | nil => rfl
  | cons b rest ih =>
    have hrest : ∀ J ∈ F.instsOf rest, v ≠ .inst J.id := by
      intro J hJ
      apply hv J
      simp only [Func.instsOf, List.flatMap_cons, List.mem_append]
      exact Or.inr hJ
    simp only [propagateBlocks]
    cases hB : F.getBlock b with
    | none => exact ih m hrest
    | some B =>
      simp only []
      rw [ih _ hrest]
      apply propagateInsts_frame
      intro J hJ
      apply hv J
      simp only [Func.instsOf, List.flatMap_cons, List.mem_append, hB]
      exact Or.inl hJ

theorem getTaint_congr (F : Func) (m m' : ValueMap) (v : Value) (h : m v = m' v) :
    getTaint F m v = getTaint F m' v := by
  unfold getTaint
  rw [h]

theorem any_getTaint_congr (σ : State) (F : Func) (m m' : ValueMap) (ops : List Value)
    (h : ∀ op ∈ ops, m op = m' op) :
    ops.any (fun op => truth σ (getTaint F m op)) =
      ops.any (fun op => truth σ (getTaint F m' op)) := by
  induction ops with
  | nil => rfl
  | cons op rest ih =>
    simp only [List.any_cons]
    rw [getTaint_congr F m m' op (h op (List.mem_cons_self _ _)),
      ih (fun o ho => h o (List.mem_cons_of_mem _ ho))]

/-- The taint rule for the instruction kinds that the traversal tests: the
taint that the traversal of `propagateSSA` (lines 269 to 318) leaves in the
Taint Map for a non-merge, value-producing instruction `I` of a traversed
block `b`.  The function is in SSA form as far as `I` is concerned:
no other traversed instruction has its identifier, and none of its operands
is defined by `I` or by an instruction traversed after it; and load
instrumentation has mapped no data operation or intrinsic call.  At run time
the recorded taint is (a) the disjunction of the taints of the operands of a
binary operation, comparison, cast, address computation or select, (b)
the disjunction of the argument taints of an intrinsic call, (c) the
pre-existing taint, false if none, otherwise; each or-ed with the execution
taint of `b`.  So one tainted operand of a data operation taints its
result. -/
theorem taint_rule_tested_kinds (σ : State) (F : Func) (exec : BlockMap) (m0 : ValueMap)
    (bs1 bs2 : List BlockId) (b : BlockId) (B : Block) (pre post : List Inst) (I : Inst)
    (hB : F.getBlock b = some B) (hinsts : B.insts = pre ++ I :: post)
    (hphi : I.op.isPhi = false) (hvoid : I.op.isVoid = false)
    (huniq : ∀ J ∈ F.instsOf bs1 ++ pre ++ post ++ F.instsOf bs2, J.id ≠ I.id)
    (hdef : ∀ op ∈ I.op.operands, ∀ J ∈ I :: post ++ F.instsOf bs2, op ≠ .inst J.id)
    (hnone : (I.op.isDataOp || isIntrinsicCall I.op) = true → m0 (.inst I.id) = none) :
    ∃ T, propagateBlocks F exec m0 (bs1 ++ b :: bs2) (.inst I.id) = some T ∧
      truth σ T =
        (specDataTaint σ F m0 (propagateBlocks F exec m0 (bs1 ++ b :: bs2)) I ||
          truth σ (getBlockTaint F exec b)) ∧
      (I.op.isDataOp = true →
        (∃ op ∈ I.op.operands,
          truth σ (getTaint F (propagateBlocks F exec m0 (bs1 ++ b :: bs2)) op) = true) →
        truth σ T = true) := by
  -- the map when the traversal reaches `I`, and the map it leaves
  let cur := getBlockTaint F exec b
  let mAt := propagateInsts F cur (propagateBlocks F exec m0 bs1) pre
  have hne : ∀ J : Inst, J.id ≠ I.id → (Value.inst I.id) ≠ .inst J.id := by
    intro J hJ h
    injection h with h
    exact hJ h.symm
  have hfin : ∀ v, (∀ J ∈ post ++ F.instsOf bs2, v ≠ .inst J.id) →
      propagateBlocks F exec m0 (bs1 ++ b :: bs2) v =
        (mAt.set (.inst I.id) (instTaint F mAt I cur)) v := by
    intro v hv
    rw [propagateBlocks_append]
    simp only [propagateBlocks, hB]
    rw [propagateBlocks_frame F exec _ bs2 v
      (fun J hJ => hv J (List.mem_append.mpr (Or.inr hJ)))]
    rw [hinsts, propagateInsts_append]
    simp only [propagateInsts, hphi, hvoid, Bool.false_eq_true, if_false]
    exact propagateInsts_frame F cur _ post v
      (fun J hJ => hv J (List.mem_append.mpr (Or.inl hJ)))
  have hrec : propagateBlocks F exec m0 (bs1 ++ b :: bs2) (.inst I.id) =
      some (instTaint F mAt I cur) := by
    rw [hfin]
    · simp [ValueMap.set]
    · intro J hJ
      apply hne J
      apply huniq J
      simp only [List.mem_append] at hJ ⊢
      rcases hJ with h | h
      · exact Or.inl (Or.inr h)
      · exact Or.inr h
  have hpre : mAt (.inst I.id) = m0 (.inst I.id) := by
    show propagateInsts F cur (propagateBlocks F exec m0 bs1) pre (.inst I.id) = _
    rw [propagateInsts_frame F cur _ pre _ (fun J hJ => hne J (huniq J (by
      simp only [List.mem_append]; exact Or.inl (Or.inl (Or.inr hJ))))),
      propagateBlocks_frame F exec m0 bs1 _ (fun J hJ => hne J (huniq J (by
      simp only [List.mem_append]; exact Or.inl (Or.inl (Or.inl hJ)))))]
  have hops : ∀ op ∈ I.op.operands,
      mAt op = propagateBlocks F exec m0 (bs1 ++ b :: bs2) op := by
    intro op hop
    have hd := hdef op hop
    rw [hfin op (fun J hJ => hd J (List.mem_cons_of_mem _ hJ))]
    simp [ValueMap.set, hd I (List.mem_cons_self _ _)]
  have key : truth σ (instTaint F mAt I cur) =
      (specDataTaint σ F m0 (propagateBlocks F exec m0 (bs1 ++ b :: bs2)) I ||
        truth σ cur) := by
    rw [instTaint_step σ F mAt I cur (fun h => by rw [hpre]; exact hnone h)]
    unfold specDataTaint existingTaintTruth
    rw [any_getTaint_congr σ F mAt _ I.op.operands hops, hpre]
  refine ⟨_, hrec, key, ?_⟩
  intro hd ⟨op, hop, htrue⟩
  rw [key]
  unfold specDataTaint
  simp only [hd, if_true, Bool.or_eq_true, List.any_eq_true]
  exact Or.inl ⟨op, hop, htrue⟩

theorem truth_storeTaint (σ : State) (F : Func) (m : ValueMap) (ValOp PtrOp : Value) :
    truth σ (storeTaint F m ValOp PtrOp) =
      (truth σ (getTaint F m ValOp) || truth σ (getTaint F m PtrOp)) := by
  unfold storeTaint
  by_cases h : getTaint F m PtrOp = .cbool false
  · simp [h, truth]
  · simp [h, truth_createOr]

/-- The shadow write stores the taint bit, as `0` or `1`, and nothing else in
memory changes before it. -/
theorem shadowWrite_exec (sem : Oracle) (σ : State) (T ShadowPtr : Value) (next : InstId) :
    ∃ σ₁ : State, σ₁.mem = σ.mem ∧ σ₁.args = σ.args ∧
      execInsts sem σ (shadowWrite T ShadowPtr next).1 =
        σ₁.write (evalV σ₁ ShadowPtr) (if truth σ T then 1 else 0) := by
  cases T with
  | cbool b =>
    refine ⟨σ, rfl, rfl, ?_⟩
    cases b <;> simp [shadowWrite, execInsts, execInst, evalV, truth]
  | cint n =>
    exact ⟨σ.setReg next (if truth σ (.cint n) then 1 else 0), rfl, rfl, by
      simp [shadowWrite, execInsts, execInst, evalV, State.setReg]⟩
  | undef =>
    exact ⟨σ.setReg next (if truth σ .undef then 1 else 0), rfl, rfl, by
      simp [shadowWrite, execInsts, execInst, evalV, State.setReg]⟩
  | arg n =>
    exact ⟨σ.setReg next (if truth σ (.arg n) then 1 else 0), rfl, rfl, by
      simp [shadowWrite, execInsts, execInst, evalV, State.setReg]⟩
  | inst id =>
    exact ⟨σ.setReg next (if truth σ (.inst id) then 1 else 0), rfl, rfl, by
      simp [shadowWrite, execInsts, execInst, evalV, State.setReg]⟩
  | orOf a b =>
    exact ⟨σ.setReg next (if truth σ (.orOf a b) then 1 else 0), rfl, rfl, by
      simp [shadowWrite, execInsts, execInst, evalV, State.setReg]⟩

/-- C6: the taint of a store evaluates to the taint of its value operand or-ed
with the taint of its pointer operand.  It is what the first loop of
`instrumentStores` queues for the guard of the store whenever it is not the
literal false, and, for a pointer with a shadow address, what the shadow write
stores as `0` or `1`.  So a tainted pointer alone makes the store guarded with
a true condition, whatever the stored value. -/
theorem storeTaint_rule (σ : State) (F : Func) (m shadow : ValueMap) (ValOp PtrOp : Value) :
    truth σ (storeTaint F m ValOp PtrOp) =
      (truth σ (getTaint F m ValOp) || truth σ (getTaint F m PtrOp)) ∧
    (∀ (id : InstId) (name : String) (rest : List Inst) (next : InstId),
      ∃ items, (collectStores F m shadow (⟨id, name, .store ValOp PtrOp⟩ :: rest) next).2.2 =
        (if storeTaint F m ValOp PtrOp ≠ .cbool false
          then [(id, storeTaint F m ValOp PtrOp)] else []) ++ items) ∧
    (∀ (sem : Oracle) (ShadowPtr : Value) (id : InstId) (name : String) (rest : List Inst)
      (next : InstId), shadow PtrOp = some ShadowPtr →
      (∃ insts, (collectStores F m shadow (⟨id, name, .store ValOp PtrOp⟩ :: rest) next).1 =
        (shadowWrite (storeTaint F m ValOp PtrOp) ShadowPtr next).1 ++
          ⟨id, name, .store ValOp PtrOp⟩ :: insts) ∧
      ∃ σ₁ : State, σ₁.mem = σ.mem ∧ σ₁.args = σ.args ∧
        execInsts sem σ (shadowWrite (storeTaint F m ValOp PtrOp) ShadowPtr next).1 =
          σ₁.write (evalV σ₁ ShadowPtr)
            (if truth σ (getTaint F m ValOp) || truth σ (getTaint F m PtrOp) then 1 else 0)) ∧
    (truth σ (getTaint F m PtrOp) = true →
      storeTaint F m ValOp PtrOp ≠ .cbool false ∧
      truth σ (storeTaint F m ValOp PtrOp) = true) := by
  have key := truth_storeTaint σ F m ValOp PtrOp
  refine ⟨key, ?_, ?_, ?_⟩
  · intro id name rest next
    cases hs : shadow PtrOp with
    | none => exact ⟨_, by simp only [collectStores, hs]; rfl⟩
    | some sp => exact ⟨_, by simp only [collectStores, hs]; rfl⟩
  · intro sem sp id name rest next hs
    refine ⟨⟨_, by simp only [collectStores, hs]; rfl⟩, ?_⟩
    rw [← key]
    exact shadowWrite_exec sem σ _ sp next
  · intro hp
    have ht : truth σ (storeTaint F m ValOp PtrOp) = true := by rw [key, hp]; simp
    refine ⟨?_, ht⟩
    intro heq
    rw [heq] at ht
    simp [truth] at ht

theorem truth_edgeTaint (σ : State) (F : Func) (m : ValueMap) (exec : BlockMap) (P : Block) :
    truth σ (edgeTaint F m exec P) =
      (truth σ (getBlockTaint F exec P.id) || condTaintTruth σ m P) := by
  unfold edgeTaint condTaintTruth
  cases h : getTerminatorConditionTaint m P with
  | none => simp
  | some ct =>
    by_cases hc : ct = .cbool false
    · simp [hc, truth]
    · simp [hc, truth_createOr]

theorem truth_evalV (σ : State) (v : Value) : (evalV σ v % 2 == 1) = truth σ v := by
  cases v with
  | cbool b => cases b <;> simp [evalV, truth]
  | orOf a b =>
    simp only [evalV, truth]
    split <;> simp_all
  | _ => simp [evalV, truth]

/-- Witness for C1: the store of `storeFunc` between a load and a
comparison, guarded by the taint `inst 8`. -/
theorem guardStore_suppresses_witness :
    StoreGuarded exampleSem (guardStore storeFunc 2 (.inst 8)) storeBlock
      [⟨1, "x", .load (.arg 0)⟩] [⟨4, "gt", .cmp (.inst 1) (.cint 50)⟩]
      ⟨2, "", .store (.inst 1) (.arg 2)⟩ (.inst 1) (.arg 2) (.inst 8) 1 2 :=
  guardStore_suppresses exampleSem storeFunc storeBlock
    [⟨1, "x", .load (.arg 0)⟩] [⟨4, "gt", .cmp (.inst 1) (.cint 50)⟩]
    ⟨2, "", .store (.inst 1) (.arg 2)⟩ (.inst 1) (.arg 2) (.inst 8)
    (by decide) (by decide) (by decide) (by decide) rfl (by decide)

/-- The rule on `chainFunc`: the addition `sum` on the recovered value
`7`, whose taint is true, is recorded with a taint that is true. -/
theorem taint_rule_tested_kinds_example :
    ∃ T, propagateBlocks chainFunc chainExec recoveredMap [0, 1] (.inst 9) = some T ∧
      truth taintedState T = true :=
  match taint_rule_tested_kinds taintedState chainFunc chainExec recoveredMap [0] [] 1
      chainBlock
      [⟨11, "exec.taint", .phi []⟩, ⟨7, "cima.val", .phi []⟩, ⟨8, "cima.taint", .phi []⟩]
      [⟨10, "twice", .binop (.inst 9) (.cint 2)⟩]
      ⟨9, "sum", .binop (.inst 7) (.cint 50)⟩
      (by decide) (by decide) rfl rfl (by decide) (by decide) (fun _ => by decide) with
  | ⟨T, h1, _, h3⟩ => ⟨T, h1, h3 rfl ⟨.inst 7, by decide, by decide!⟩⟩

/-- Witness for C6: a store of the constant `999` through the pointer `7`,
whose taint is true, has a taint that is not the literal false and is true. -/
theorem storeTaint_rule_witness :
    storeTaint chainFunc recoveredMap (.cint 999) (.inst 7) ≠ .cbool false ∧
    truth taintedState (storeTaint chainFunc recoveredMap (.cint 999) (.inst 7)) = true :=
  (storeTaint_rule taintedState chainFunc recoveredMap ValueMap.empty
    (.cint 999) (.inst 7)).2.2.2 (by decide)

/-- The pipeline on `straight`: with a failing check the store of the
recovered value is skipped and the variable at address `200` keeps `100`;
with a passing check the loaded `42` is stored. -/
theorem straight_recovered_store :
    (run exampleSem (instrument straight).F 20 none 0 faultState).map
      (fun r => r.2.mem 200) = some 100 ∧
    (run exampleSem (instrument straight).F 20 none 0 passState).map
      (fun r => r.2.mem 200) = some 42 := by
  decide!

/-- C2: recovery injection on `selfLoop`.  The split moves the guard branch
into the Merge Block `3`, so the redirected edge runs from block `3` to
itself, while both entries of the taint-merge node `6` name block `1`: the
predecessors of the Merge Block are `1` and `3`, and no incoming value, true
or other, belongs to the fault-arm edge. -/
theorem selfLoop_fault_edge_unwired :
    (injectRecovery (startPass selfLoop)).ValTaintMap (.inst 5) = some (.inst 6) ∧
    ((injectRecovery (startPass selfLoop)).F.getBlock 3).map (fun B => B.term) =
      some (.condBr (.inst 3) 3 1) ∧
    (injectRecovery (startPass selfLoop)).F.predecessors 3 = [1, 3] ∧
    ((injectRecovery (startPass selfLoop)).F.getInst 6).map (fun I => I.op) =
      some (.phi [(.cbool false, 1), (.cbool true, 1)]) := by
  decide!

/-- C4: the pipeline on `diamond`, run with a failing check.  The taint of
the branch condition (instruction `4`) is true, the taint-merge node of the
joined value (instruction `5`) receives the literal false from both arms, its
taint is false, and the guarded store executes: the variable at address `200`
changes from `100` to `9`. -/
theorem diamond_constant_phi_not_tainted :
    ((instrument diamond).ValTaintMap (.inst 5)) = some (.inst 15) ∧
    ((instrument diamond).F.getInst 15).map (fun I => I.op) =
      some (.phi [(.cbool false, 3), (.cbool false, 4)]) ∧
    (run exampleSem (instrument diamond).F 20 none 0 faultState).map
      (fun r =>
        (truth r.2 (getTaint (instrument diamond).F (instrument diamond).ValTaintMap (.inst 4)),
         truth r.2 (getTaint (instrument diamond).F (instrument diamond).ValTaintMap (.inst 5)),
         faultState.mem 200, r.2.mem 200)) =
      some (true, false, 100, 9) := by
  decide!

/-! ## Theorems: the nearest-valid pass -/

/-- C12: the sinks of width 16 are given width 1, because the test for the
digit `1` comes first; the other named widths and the variable-width sinks
get the width the claim states. -/
theorem getAccessSize_16_is_1 :
    getAccessSizeFromAsanReport "__asan_report_load16" = 1 ∧
    getAccessSizeFromAsanReport "__asan_report_store16" = 1 ∧
    getAccessSizeFromAsanReport "__asan_report_load1" = 1 ∧
    getAccessSizeFromAsanReport "__asan_report_load2" = 2 ∧
    getAccessSizeFromAsanReport "__asan_report_load4" = 4 ∧
    getAccessSizeFromAsanReport "__asan_report_store8" = 8 ∧
    getAccessSizeFromAsanReport "__asan_report_load_n" = 8 ∧
    getAccessSizeFromAsanReport "__asan_report_store_n" = 8 := by
  decide!

/-! ## Theorems: the recovery rewriter -/

theorem isMemInstPlain_eq (I : Inst) : isMemInstPlain I = isProtectable I.op := by
  unfold isMemInstPlain isProtectable
  cases I.op <;> rfl

theorem isMemInstNearest_eq (I : Inst) : isMemInstNearest I = isProtectable I.op := by
  unfold isMemInstNearest isProtectable
  cases I.op <;> rfl

theorem isMemInstNearest_eq_plain : isMemInstNearest = isMemInstPlain := by
  funext I
  rw [isMemInstNearest_eq, isMemInstPlain_eq]

/-- C16: on a Safe Block that starts with an atomic read-modify-write
followed by a load, the plain and the nearest-valid scans select the atomic
operation and the scan of the taint-aware recovery injection selects the
load; the plain and nearest-valid passes split the Safe Block after the
atomic operation, recovery injection splits it after the load. -/
theorem tainted_scan_skips_atomic :
    (atomicFunc.getBlock 2).map (fun B => (B.insts.find? isMemInstPlain).map (fun I => I.id))
      = some (some 3) ∧
    (atomicFunc.getBlock 2).map (fun B => (B.insts.find? isMemInstNearest).map (fun I => I.id))
      = some (some 3) ∧
    (atomicFunc.getBlock 2).map (fun B => (B.insts.find? isMemInst).map (fun I => I.id))
      = some (some 4) ∧
    ((cimaPlain atomicFunc).getBlock 2).map (fun B => B.insts.map (fun I => I.id)) = some [3] ∧
    ((cimaNearest true atomicFunc).getBlock 2).map (fun B => B.insts.map (fun I => I.id))
      = some [3] ∧
    ((injectRecovery (startPass atomicFunc)).F.getBlock 2).map
      (fun B => B.insts.map (fun I => I.id)) = some [3, 4] := by
  decide!

theorem find?_isMemInstPlain (L : List Inst) :
    L.find? isMemInstPlain = L.find? (fun I => isProtectable I.op) := by
  congr 1

theorem plainLocate_skipped (F : Func) (CrashBB P : BlockId)
    (h : guardSkipped F CrashBB P = true) : plainLocate F CrashBB P = none := by
  unfold guardSkipped protectedOp at h
  unfold plainLocate
  split
  · rename_i c s0 s1 hterm
    rw [hterm] at h
    simp only at h
    by_cases hc : s0 = CrashBB ∨ s1 = CrashBB
    · rw [if_pos hc] at h ⊢
      cases hS : F.getBlock (if s0 = CrashBB then s1 else s0) with
      | none => rfl
      | some SB =>
        rw [hS] at h
        simp only [Option.some_bind, Option.isNone_iff_eq_none] at h
        simp only
        rw [find?_isMemInstPlain, h]
    · rw [if_neg hc]
  · rfl

theorem plainOne_skipped (F : Func) (memo : TargetMap) (CrashBB P : BlockId)
    (h : guardSkipped F CrashBB P = true) : plainOne F memo CrashBB P = (F, memo) := by
  unfold plainOne
  rw [plainLocate_skipped F CrashBB P h]

theorem plainPreds_skipped (F : Func) (memo : TargetMap) (CrashBB : BlockId)
    (preds : List BlockId) (h : ∀ P ∈ preds, guardSkipped F CrashBB P = true) :
    plainPreds CrashBB F memo preds = (F, memo) := by
  induction preds with
  | nil => rfl
  | cons P rest ih =>
    simp only [plainPreds]
    rw [plainOne_skipped F memo CrashBB P (h P (List.mem_cons_self _ _))]
    exact ih (fun Q hQ => h Q (List.mem_cons_of_mem _ hQ))

theorem plainCalls_skipped (F : Func) (calls : List InstId)
    (h : ∀ CI ∈ calls, ∀ CrashBB, F.parentOf CI = some CrashBB →
      ∀ P ∈ F.predecessors CrashBB, guardSkipped F CrashBB P = true) (memo : TargetMap) :
    plainCalls F memo calls = F := by
  induction calls generalizing memo with
  | nil => rfl
  | cons CI rest ih =>
    simp only [plainCalls]
    cases hp : F.parentOf CI with
    | none => exact ih (fun C hC => h C (List.mem_cons_of_mem _ hC)) memo
    | some CrashBB =>
      simp only
      rw [plainPreds_skipped F memo CrashBB _ (h CI (List.mem_cons_self _ _) CrashBB hp)]
      exact ih (fun C hC => h C (List.mem_cons_of_mem _ hC)) memo

/-- C17: a predecessor `P` of a fault-report block that is no guard (its
terminator is not a two-way conditional branch with the report block as one
target, or the Safe Block holds no load, store, atomic or block-memory
operation) is skipped: the loop body of the plain pass returns the function
and the memo table as they were, so `P` still reaches the report block, no
block is split and no merge node is made; when every predecessor of every
fault-report call is skipped the pass returns the function unchanged. -/
theorem plain_skips_non_guards (F : Func) :
    (∀ (memo : TargetMap) (CrashBB P : BlockId), guardSkipped F CrashBB P = true →
      plainOne F memo CrashBB P = (F, memo) ∧
      (P ∈ F.predecessors CrashBB → P ∈ (plainOne F memo CrashBB P).1.predecessors CrashBB)) ∧
    ((∀ CI ∈ F.asanCalls, ∀ CrashBB, F.parentOf CI = some CrashBB →
        ∀ P ∈ F.predecessors CrashBB, guardSkipped F CrashBB P = true) →
      cimaPlain F = F) := by
  refine ⟨fun memo CrashBB P h => ⟨plainOne_skipped F memo CrashBB P h, fun hP => ?_⟩, fun h => ?_⟩
  · rw [plainOne_skipped F memo CrashBB P h]; exact hP
  · exact plainCalls_skipped F _ h _

/-- C17 at `skipFunc`: the report block 1 has the predecessors 0 (a guard
whose Safe Block holds no memory operation) and 3 (an unconditional branch). -/
theorem plain_skips_non_guards_witness :
    skipFunc.asanCalls = [2] ∧ skipFunc.predecessors 1 = [0, 3] ∧
    guardSkipped skipFunc 1 0 = true ∧ guardSkipped skipFunc 1 3 = true ∧
    plainOne skipFunc (fun _ => none) 1 0 = (skipFunc, fun _ => none) ∧
    plainOne skipFunc (fun _ => none) 1 3 = (skipFunc, fun _ => none) ∧
    cimaPlain skipFunc = skipFunc :=
  ⟨by decide, by decide, by decide, by decide,
   ((plain_skips_non_guards skipFunc).1 _ 1 0 (by decide)).1,
   ((plain_skips_non_guards skipFunc).1 _ 1 3 (by decide)).1,
   (plain_skips_non_guards skipFunc).2 (by decide!)⟩

theorem nearestLocate_eq (F : Func) (CrashBB P : BlockId) :
    nearestLocate F CrashBB P = plainLocate F CrashBB P := by
  unfold nearestLocate plainLocate
  rw [isMemInstNearest_eq_plain]

theorem nearestTarget_eq (F : Func) (memo : TargetMap) (P : BlockId) (g : Guard) :
    nearestTarget F memo P g = plainTarget F memo P g := rfl

theorem nearestOne_off (F : Func) (memo : TargetMap) (CI : InstId) (CrashBB P : BlockId) :
    nearestOne false F memo CI CrashBB P = plainOne F memo CrashBB P := by
  unfold nearestOne plainOne
  rw [nearestLocate_eq]
  cases plainLocate F CrashBB P with
  | none => rfl
  | some g => simp [nearestTarget_eq]

theorem nearestPreds_off (CI : InstId) (CrashBB : BlockId) (preds : List BlockId) :
    ∀ (F : Func) (memo : TargetMap),
      nearestPreds false CI CrashBB F memo preds = plainPreds CrashBB F memo preds := by
  induction preds with
  | nil => intro F memo; rfl
  | cons P rest ih =>
    intro F memo
    simp only [nearestPreds, plainPreds]
    rw [nearestOne_off]
    exact ih _ _

theorem nearestCalls_off (calls : List InstId) :
    ∀ (F : Func) (memo : TargetMap),
      nearestCalls false F memo calls = plainCalls F memo calls := by
  induction calls with
  | nil => intro F memo; rfl
  | cons CI rest ih =>
    intro F memo
    simp only [nearestCalls, plainCalls]
    cases F.parentOf CI with
    | none => exact ih _ _
    | some CrashBB =>
      simp only
      rw [nearestPreds_off]
      exact ih _ _

theorem protectedOp_eq (F : Func) (CrashBB P : BlockId) :
    protectedOp F CrashBB P = (plainLocate F CrashBB P).map (fun g => g.MemInst) := by
  unfold protectedOp plainLocate
  split
  · rename_i c s0 s1 hterm
    by_cases hc : s0 = CrashBB ∨ s1 = CrashBB
    · rw [if_pos hc, if_pos hc]
      cases hS : F.getBlock (if s0 = CrashBB then s1 else s0) with
      | none => rfl
      | some SB =>
        simp only [Option.some_bind]
        rw [find?_isMemInstPlain]
        cases List.find? (fun I => isProtectable I.op) SB.insts <;> rfl
    · rw [if_neg hc, if_neg hc]; rfl
  · rfl

/-- C18: with the option off the nearest-valid pass returns the function the
plain pass returns, for every input function; with the option on, the loop
body for a guard whose Protected Operation is not a load returns what the
loop body of the plain pass returns (same function, same memo table), so no
helper call is emitted for it. -/
theorem nearest_off_is_plain :
    (∀ F : Func, cimaNearest false F = cimaPlain F) ∧
    (∀ (F : Func) (memo : TargetMap) (CI : InstId) (CrashBB P : BlockId),
      (∀ M, protectedOp F CrashBB P = some M → M.op.isLoad = false) →
      nearestOne true F memo CI CrashBB P = plainOne F memo CrashBB P) := by
  refine ⟨fun F => nearestCalls_off _ _ _, fun F memo CI CrashBB P h => ?_⟩
  rw [protectedOp_eq] at h
  unfold nearestOne plainOne
  rw [nearestLocate_eq]
  cases hg : plainLocate F CrashBB P with
  | none => rfl
  | some g =>
    rw [hg] at h
    have hl : g.MemInst.op.isLoad = false := h g.MemInst rfl
    simp [nearestTarget_eq, hl]

/-- C18 at `storeGuardFunc`, whose guard protects a store, and at `straight`
with the option off. -/
theorem nearest_off_is_plain_witness :
    cimaNearest false straight = cimaPlain straight ∧
    (protectedOp storeGuardFunc 1 0).map (fun M => M.op) = some (.store (.arg 3) (.arg 0)) ∧
    nearestOne true storeGuardFunc (fun _ => none) 2 1 0 =
      plainOne storeGuardFunc (fun _ => none) 1 0 :=
  ⟨nearest_off_is_plain.1 straight, by decide,
   nearest_off_is_plain.2 storeGuardFunc _ 2 1 0 (by decide)⟩

/-! ## Theorems: the rewrite of one guard -/

theorem replaceUsesExcept_blocks (F : Func) (old new : Value) (except : InstId) :
    F.replaceUsesExcept old new except =
      { F with blocks := F.blocks.map (Block.replaceUsesExcept old new except) } := rfl

theorem getBlock_replaceUsesExcept (F : Func) (old new : Value) (except : InstId) (q : BlockId) :
    (F.replaceUsesExcept old new except).getBlock q =
      (F.getBlock q).map (Block.replaceUsesExcept old new except) := by
  rw [replaceUsesExcept_blocks]
  simp only [Func.getBlock]
  exact find?_map_id F.blocks (Block.replaceUsesExcept old new except) (fun X => rfl) q

theorem getBlock_updateInsts (F : Func) (b : BlockId) (f : List Inst → List Inst) (q : BlockId) :
    (F.updateInsts b f).getBlock q =
      (F.getBlock q).map (fun X => if X.id = b then { X with insts := f X.insts } else X) := by
  simp only [Func.getBlock, Func.updateInsts]
  exact find?_map_id _ _ (fun X => by split <;> rfl) q

theorem getBlock_setSuccessorOf (F : Func) (b : BlockId) (idx : Nat) (t : BlockId) (q : BlockId) :
    (F.setSuccessorOf b idx t).getBlock q =
      (F.getBlock q).map
        (fun X => if X.id = b then { X with term := X.term.setSuccessor idx t } else X) := by
  simp only [Func.getBlock, Func.setSuccessorOf]
  exact find?_map_id _ _ (fun X => by split <;> rfl) q

theorem plainLocate_some (F : Func) (CrashBB P SafeBB : BlockId) (SB : Block) (M : Inst)
    (c : Value) (s0 s1 : BlockId)
    (hP : (F.getBlock P).map (fun X => X.term) = some (Term.condBr c s0 s1))
    (hcr : s0 = CrashBB ∨ s1 = CrashBB) (hsafe : (if s0 = CrashBB then s1 else s0) = SafeBB)
    (hS : F.getBlock SafeBB = some SB) (hfind : SB.insts.find? isMemInstPlain = some M) :
    plainLocate F CrashBB P =
      some { SafeBB := SafeBB, CrashSuccIdx := if s0 = CrashBB then 0 else 1,
             SB := SB, MemInst := M } := by
  unfold plainLocate
  rw [hP]
  simp only
  rw [if_pos hcr, hsafe, hS]
  simp only
  rw [hfind]

theorem find?_first (p : Inst → Bool) (pre post : List Inst) (M : Inst)
    (hpre : ∀ I ∈ pre, p I = false) (hM : p M = true) :
    (pre ++ M :: post).find? p = some M := by
  induction pre with
  | nil => simp [List.find?_cons, hM]
  | cons J pre ih =>
    simp only [List.cons_append, List.find?_cons, hpre J (List.mem_cons_self _ _)]
    exact ih (fun I hI => hpre I (List.mem_cons_of_mem _ hI))

/-- The loop body of the plain pass on a guard whose Protected Operation has
a value and is met for the first time. -/
theorem plainOne_first_eq (F : Func) (memo : TargetMap) (CrashBB P SafeBB : BlockId)
    (SB : Block) (M : Inst) (c : Value) (s0 s1 : BlockId)
    (hP : (F.getBlock P).map (fun X => X.term) = some (Term.condBr c s0 s1))
    (hcr : s0 = CrashBB ∨ s1 = CrashBB) (hsafe : (if s0 = CrashBB then s1 else s0) = SafeBB)
    (hS : F.getBlock SafeBB = some SB) (hfind : SB.insts.find? isMemInstPlain = some M)
    (hv : M.op.isVoid = false) (hmemo : memo M.id = none) (hne : P ≠ SafeBB) :
    plainOne F memo CrashBB P =
      ((((({ ((F.splitBlock SafeBB (SB.indexOf M.id + 1)).1.updateInsts F.nextBlock
              (fun insts => { id := F.nextInst, name := "cima.skipped",
                              op := .phi [(.inst M.id, SafeBB)] } :: insts)) with
            nextInst := F.nextInst + 1 } : Func).replaceUsesExcept
            (.inst M.id) (.inst F.nextInst) F.nextInst).setSuccessorOf P
            (if s0 = CrashBB then 0 else 1) F.nextBlock).updateInsts F.nextBlock
            (addIncomingFront .undef P)),
        memo.set M.id F.nextBlock) := by
  unfold plainOne
  rw [plainLocate_some F CrashBB P SafeBB SB M c s0 s1 hP hcr hsafe hS hfind]
  simp only [plainTarget, hmemo, hv, splitBlock_ret, if_neg hne, Bool.false_eq_true, if_false]
  have hni : (F.splitBlock SafeBB (SB.indexOf M.id + 1)).1.nextInst = F.nextInst := by
    unfold Func.splitBlock
    rw [hS]
  rw [hni]

/-- The loop body of the plain pass on a guard whose Protected Operation has
a value and was met before. -/
theorem plainOne_memo_eq (F : Func) (memo : TargetMap) (CrashBB P SafeBB T : BlockId)
    (SB : Block) (M : Inst) (c : Value) (s0 s1 : BlockId)
    (hP : (F.getBlock P).map (fun X => X.term) = some (Term.condBr c s0 s1))
    (hcr : s0 = CrashBB ∨ s1 = CrashBB) (hsafe : (if s0 = CrashBB then s1 else s0) = SafeBB)
    (hS : F.getBlock SafeBB = some SB) (hfind : SB.insts.find? isMemInstPlain = some M)
    (hv : M.op.isVoid = false) (hmemo : memo M.id = some T) :
    plainOne F memo CrashBB P =
      ((F.setSuccessorOf P (if s0 = CrashBB then 0 else 1) T).updateInsts T
          (addIncomingFront .undef P), memo) := by
  unfold plainOne
  rw [plainLocate_some F CrashBB P SafeBB SB M c s0 s1 hP hcr hsafe hS hfind]
  simp only [plainTarget, hmemo, hv, Bool.false_eq_true, if_false]

theorem setSuccessor_retarget (CrashBB T : BlockId) (c : Value) (s0 s1 : BlockId) :
    (Term.condBr c s0 s1).setSuccessor (if s0 = CrashBB then 0 else 1) T =
      retarget CrashBB T (Term.condBr c s0 s1) := by
  unfold Term.setSuccessor retarget
  by_cases h : s0 = CrashBB <;> simp [h]

theorem addIncomingFront_head (v : Value) (b : BlockId) (L : List Inst) (Phi : Inst)
    (inc : List (Value × BlockId)) (hL : L.head? = some Phi) (hPhi : Phi.op = .phi inc) :
    (addIncomingFront v b L).head? = some { Phi with op := .phi (inc ++ [(v, b)]) } := by
  cases L with
  | nil => simp at hL
  | cons I rest =>
    simp only [List.head?_cons, Option.some.injEq] at hL
    subst hL
    simp [addIncomingFront, hPhi, Op.isPhi, addIncoming]

theorem addIncomingFront_ids (v : Value) (b : BlockId) (L : List Inst) :
    (addIncomingFront v b L).map (fun I => I.id) = L.map (fun I => I.id) := by
  cases L with
  | nil => rfl
  | cons I rest =>
    simp only [addIncomingFront]
    split
    · simp only [List.map_cons, addIncoming]
      split <;> rfl
    · rfl

/-- The memoized rewrite of one guard: what it leaves of every block. -/
theorem memo_step_blocks (G : Func) (P T : BlockId) (idx : Nat) (v : Value) (Q : BlockId) :
    (((G.setSuccessorOf P idx T).updateInsts T (addIncomingFront v P)).getBlock Q).map
        (fun X => X.insts) =
      (if Q = T then ((G.getBlock Q).map (fun X => X.insts)).map (addIncomingFront v P)
        else (G.getBlock Q).map (fun X => X.insts)) ∧
    (((G.setSuccessorOf P idx T).updateInsts T (addIncomingFront v P)).getBlock Q).map
        (fun X => X.term) =
      (if Q = P then ((G.getBlock Q).map (fun X => X.term)).map (Term.setSuccessor idx T)
        else (G.getBlock Q).map (fun X => X.term)) := by
  rw [getBlock_updateInsts, getBlock_setSuccessorOf]
  cases h : G.getBlock Q with
  | none => simp
  | some X =>
    have hid : X.id = Q := (getBlock_some h).2
    subst hid
    simp only [Option.map_some']
    constructor
    · by_cases hP : X.id = P <;> by_cases hT : X.id = T
      · rw [if_pos hP, if_pos hT, if_pos hT]
      · rw [if_pos hP, if_neg hT, if_neg hT]
      · rw [if_neg hP, if_pos hT, if_pos hT]
      · rw [if_neg hP, if_neg hT, if_neg hT]
    · by_cases hP : X.id = P <;> by_cases hT : X.id = T
      · rw [if_pos hP, if_pos hT, if_pos hP]
      · rw [if_pos hP, if_neg hT, if_pos hP]
      · rw [if_neg hP, if_pos hT, if_neg hP]
      · rw [if_neg hP, if_neg hT, if_neg hP]
/-- The memoized phase of the loop over `Preds`: every remaining guard of the
same Protected Operation is retargeted to the memoized block `T` and adds one
placeholder entry to the phi at the front of `T`; nothing else changes. -/
theorem plainPreds_memo (CrashBB SafeBB T : BlockId) (mid : InstId) (R : List BlockId) :
    ∀ (G : Func) (memo : TargetMap) (Phi : Inst) (entries : List (Value × BlockId)),
      memo mid = some T → SafeBB ≠ T →
      (∃ SB M, G.getBlock SafeBB = some SB ∧ SB.insts.find? isMemInstPlain = some M ∧
        M.id = mid ∧ M.op.isVoid = false) →
      ((G.getBlock T).map (fun X => X.insts)).bind List.head? = some Phi →
      Phi.op = .phi entries →
      (∀ P ∈ R, P ≠ T ∧ P ≠ SafeBB ∧ isGuardOf G CrashBB SafeBB P) →
      R.Nodup →
      (plainPreds CrashBB G memo R).2 = memo ∧
      (plainPreds CrashBB G memo R).1.nextBlock = G.nextBlock ∧
      (plainPreds CrashBB G memo R).1.blocks.length = G.blocks.length ∧
      (∀ Q, Q ≠ T → ((plainPreds CrashBB G memo R).1.getBlock Q).map (fun X => X.insts) =
        (G.getBlock Q).map (fun X => X.insts)) ∧
      ((plainPreds CrashBB G memo R).1.getBlock T).map (fun X => X.insts.map (fun I => I.id)) =
        (G.getBlock T).map (fun X => X.insts.map (fun I => I.id)) ∧
      (∀ Q, Q ∉ R → ((plainPreds CrashBB G memo R).1.getBlock Q).map (fun X => X.term) =
        (G.getBlock Q).map (fun X => X.term)) ∧
      (∀ P ∈ R, ((plainPreds CrashBB G memo R).1.getBlock P).map (fun X => X.term) =
        ((G.getBlock P).map (fun X => X.term)).map (retarget CrashBB T)) ∧
      (((plainPreds CrashBB G memo R).1.getBlock T).map (fun X => X.insts)).bind List.head? =
        some { Phi with op := .phi (entries ++ R.map (fun P => (Value.undef, P))) } := by
  induction R with
  | nil =>
    intro G memo Phi entries _ _ _ hT hPhi _ _
    refine ⟨rfl, rfl, rfl, fun _ _ => rfl, rfl, fun _ _ => rfl, fun P hP => ?_, ?_⟩
    · simp at hP
    · simp only [plainPreds, List.map_nil, List.append_nil]
      rw [hT, ← hPhi]
  | cons P rest ih =>
    intro G memo Phi entries hmemo hST hSafe hT hPhi hR hnd
    obtain ⟨SB, M, hS, hfind, hMid, hv⟩ := hSafe
    obtain ⟨hPT, hPS, c, s0, s1, hterm, hcr, hsafe⟩ := hR P (List.mem_cons_self _ _)
    have hstep := plainOne_memo_eq G memo CrashBB P SafeBB T SB M c s0 s1 hterm hcr hsafe hS
      hfind hv (hMid ▸ hmemo)
    have hblocks := memo_step_blocks G P T (if s0 = CrashBB then 0 else 1) Value.undef
    simp only [plainPreds]
    rw [hstep]
    simp only
    generalize hG' : (G.setSuccessorOf P (if s0 = CrashBB then 0 else 1) T).updateInsts T
      (addIncomingFront Value.undef P) = G' at hblocks
    have hnd' : rest.Nodup := (List.nodup_cons.mp hnd).2
    have hPrest : P ∉ rest := (List.nodup_cons.mp hnd).1
    have hS' : ∃ SB' M', G'.getBlock SafeBB = some SB' ∧
        SB'.insts.find? isMemInstPlain = some M' ∧ M'.id = mid ∧ M'.op.isVoid = false := by
      have h1 := (hblocks SafeBB).1
      rw [hS, if_neg hST] at h1
      simp only [Option.map_some', Option.map_eq_some'] at h1
      obtain ⟨SB', hSB', hins⟩ := h1
      exact ⟨SB', M, hSB', by rw [hins]; exact hfind, hMid, hv⟩
    obtain ⟨L, hL, hLhead⟩ : ∃ L, (G.getBlock T).map (fun X => X.insts) = some L ∧
        L.head? = some Phi := by
      cases hX : (G.getBlock T).map (fun X => X.insts) with
      | none => rw [hX] at hT; simp at hT
      | some L => rw [hX] at hT; exact ⟨L, rfl, by simpa using hT⟩
    have hT' : ((G'.getBlock T).map (fun X => X.insts)).bind List.head? =
        some { Phi with op := .phi (entries ++ [(Value.undef, P)]) } := by
      rw [(hblocks T).1, hL, if_pos rfl]
      simp only [Option.map_some', Option.some_bind]
      exact addIncomingFront_head _ _ _ _ _ hLhead hPhi
    have hR' : ∀ P' ∈ rest, P' ≠ T ∧ P' ≠ SafeBB ∧ isGuardOf G' CrashBB SafeBB P' := by
      intro P' hP'
      obtain ⟨h1, h2, c', t0, t1, h3, h4, h5⟩ := hR P' (List.mem_cons_of_mem _ hP')
      have hne : P' ≠ P := fun h => hPrest (h ▸ hP')
      refine ⟨h1, h2, c', t0, t1, ?_, h4, h5⟩
      rw [(hblocks P').2, h3, if_neg hne]
    obtain ⟨i1, i2, i3, i4, i5, i6, i7, i8⟩ :=
      ih G' memo { Phi with op := .phi (entries ++ [(Value.undef, P)]) }
        (entries ++ [(Value.undef, P)]) hmemo hST hS' hT' rfl hR' hnd'
    have hnb : G'.nextBlock = G.nextBlock := by rw [← hG']; rfl
    have hlen : G'.blocks.length = G.blocks.length := by
      rw [← hG']; simp [Func.updateInsts, Func.setSuccessorOf]
    refine ⟨i1, i2.trans hnb, i3.trans hlen, ?_, ?_, ?_, ?_, ?_⟩
    · intro Q hQ
      rw [i4 Q hQ, (hblocks Q).1, if_neg hQ]
    · rw [i5]
      have h1 := (hblocks T).1
      rw [if_pos rfl] at h1
      have h2 := congrArg (Option.map (fun L : List Inst => L.map (fun I => I.id))) h1
      simp only [Option.map_map] at h2
      rw [show ((fun X : Block => X.insts.map (fun I => I.id)) =
        (fun L : List Inst => L.map (fun I => I.id)) ∘ (fun X : Block => X.insts)) from rfl, h2]
      congr 1
      funext X
      simp [addIncomingFront_ids]
    · intro Q hQ
      have hQP : Q ≠ P := fun h => hQ (h ▸ List.mem_cons_self _ _)
      have hQr : Q ∉ rest := fun h => hQ (List.mem_cons_of_mem _ h)
      rw [i6 Q hQr, (hblocks Q).2, if_neg hQP]
    · intro P' hP'
      rcases List.mem_cons.mp hP' with rfl | hP'r
      · rw [i6 P' hPrest, (hblocks P').2, if_pos rfl, hterm]
        simp only [Option.map_some', setSuccessor_retarget]
      · have hne : P' ≠ P := fun h => hPrest (h ▸ hP'r)
        rw [i7 P' hP'r, (hblocks P').2, if_neg hne]
    · rw [i8]
      simp [List.append_assoc]
theorem isMemInstPlain_replaceUses (old new : Value) (except : InstId) (I : Inst) :
    isMemInstPlain (I.replaceUsesExcept old new except) = isMemInstPlain I := by
  unfold Inst.replaceUsesExcept
  split
  · rfl
  · unfold isMemInstPlain
    cases h : I.op <;> simp [Op.mapValues]
    rename_i callee args v
    cases callee <;> rfl

theorem isMemInstPlain_replaceIncoming (old new : BlockId) (I : Inst) :
    isMemInstPlain (replaceIncomingBlockWith old new I) = isMemInstPlain I := by
  unfold replaceIncomingBlockWith
  split
  · rename_i inc h
    simp [isMemInstPlain, h]
  · rfl

theorem isVoid_mapValues (f : Value → Value) (op : Op) : (op.mapValues f).isVoid = op.isVoid := by
  cases op <;> rfl

theorem replaceUses_id (old new : Value) (except : InstId) (I : Inst) :
    (I.replaceUsesExcept old new except).id = I.id := by
  unfold Inst.replaceUsesExcept
  split <;> rfl

theorem replaceUses_isVoid (old new : Value) (except : InstId) (I : Inst) :
    (I.replaceUsesExcept old new except).op.isVoid = I.op.isVoid := by
  unfold Inst.replaceUsesExcept
  split
  · rfl
  · exact isVoid_mapValues _ _

theorem replaceIncoming_id (old new : BlockId) (I : Inst) :
    (replaceIncomingBlockWith old new I).id = I.id := by
  unfold replaceIncomingBlockWith
  split <;> rfl

theorem replaceIncoming_isVoid (old new : BlockId) (I : Inst) :
    (replaceIncomingBlockWith old new I).op.isVoid = I.op.isVoid := by
  unfold replaceIncomingBlockWith
  split
  · rename_i inc h
    simp [h, Op.isVoid]
  · rfl

/-- The instructions of a block after `replacePhiUses` are the images of the
old ones under a map that keeps identifiers, kinds and types. -/
theorem replacePhiUses_insts_map (succs : List BlockId) (old new : BlockId) (X : Block) :
    ∃ f : Inst → Inst, (X.replacePhiUses succs old new).insts = X.insts.map f ∧
      (∀ I, (f I).id = I.id) ∧ (∀ I, isMemInstPlain (f I) = isMemInstPlain I) ∧
      (∀ I, (f I).op.isVoid = I.op.isVoid) := by
  unfold Block.replacePhiUses
  split
  · exact ⟨replaceIncomingBlockWith old new, rfl, replaceIncoming_id old new,
      isMemInstPlain_replaceIncoming old new, replaceIncoming_isVoid old new⟩
  · exact ⟨id, by simp, fun _ => rfl, fun _ => rfl, fun _ => rfl⟩

theorem find?_map_keep (p : Inst → Bool) (f : Inst → Inst) (hf : ∀ I, p (f I) = p I)
    (L : List Inst) : (L.map f).find? p = (L.find? p).map f := by
  induction L with
  | nil => rfl
  | cons I L ih =>
    simp only [List.map_cons, List.find?_cons, hf]
    cases p I <;> simp [ih]

/-- The function after the choice of a new `TargetBB` (lines 93 to 104), block
by block. -/
theorem target_getBlock (F1 : Func) (T : BlockId) (Phi : Inst) (old new : Value) (n : InstId)
    (Q : BlockId) :
    (({ (F1.updateInsts T (fun insts => Phi :: insts)) with nextInst := n } :
        Func).replaceUsesExcept old new Phi.id).getBlock Q =
      (F1.getBlock Q).map (fun X => Block.replaceUsesExcept old new Phi.id
        (if X.id = T then { X with insts := Phi :: X.insts } else X)) := by
  rw [getBlock_replaceUsesExcept]
  have : ({ (F1.updateInsts T (fun insts => Phi :: insts)) with nextInst := n } : Func).getBlock Q
      = (F1.updateInsts T (fun insts => Phi :: insts)).getBlock Q := rfl
  rw [this, getBlock_updateInsts, Option.map_map]
  rfl

theorem replace_atom (old new v : Value) (h : ∀ a b, v ≠ .orOf a b) :
    Value.replace old new v = if v = old then new else v := by
  cases v <;> first | rfl | exact absurd rfl (h _ _)

theorem eval_replace (M Phi : InstId) (σ σ' : State) (h : SameUpTo M Phi σ σ') (v : Value)
    (hv : Value.uses Phi v = false) :
    truth σ' (Value.replace (.inst M) (.inst Phi) v) = truth σ v ∧
    evalV σ' (Value.replace (.inst M) (.inst Phi) v) = evalV σ v := by
  obtain ⟨⟨hmem, hargs, hregs⟩, hphi⟩ := h
  induction v with
  | cbool b => simp [Value.replace, truth, evalV]
  | cint n => simp [Value.replace, truth, evalV]
  | undef => simp [Value.replace, truth, evalV]
  | arg n => simp [Value.replace, truth, evalV, hargs]
  | inst j =>
    simp only [Value.uses, beq_eq_false_iff_ne, ne_eq] at hv
    by_cases hj : j = M
    · subst hj
      simp [Value.replace, truth, evalV, hphi]
    · have : (Value.inst j = Value.inst M) = False := by simp [hj]
      simp [Value.replace, this, truth, evalV, hregs j hv]
  | orOf a b iha ihb =>
    simp only [Value.uses, Bool.or_eq_false_iff] at hv
    have ha := iha hv.1
    have hb := ihb hv.2
    simp [Value.replace, truth, evalV, ha.1, hb.1]
theorem operands_mapValues (f : Value → Value) (op : Op) :
    (op.mapValues f).operands = op.operands.map f := by
  cases op <;> simp [Op.mapValues, Op.operands]

theorem execInst_regs_other (sem : Oracle) (σ : State) (I : Inst) (id : InstId)
    (h : id ≠ I.id) : (execInst sem σ I).regs id = σ.regs id := by
  unfold execInst
  split <;> simp [State.setReg, State.write, h]

theorem agree_setReg (Phi : InstId) (σ σ' : State) (h : AgreeExcept Phi σ σ') (id : InstId)
    (v : Nat) : AgreeExcept Phi (σ.setReg id v) (σ'.setReg id v) := by
  obtain ⟨hmem, hargs, hregs⟩ := h
  refine ⟨hmem, hargs, fun j hj => ?_⟩
  simp only [State.setReg]
  split
  · rfl
  · exact hregs j hj

theorem agree_write (Phi : InstId) (σ σ' : State) (h : AgreeExcept Phi σ σ') (a v : Nat) :
    AgreeExcept Phi (σ.write a v) (σ'.write a v) := by
  obtain ⟨hmem, hargs, hregs⟩ := h
  refine ⟨?_, hargs, hregs⟩
  simp only [State.write, hmem]

/-- An instruction whose operands read the merge node instead of the
Protected Operation computes, in a matching state, what it computed before. -/
theorem execInst_replace (sem : Oracle) (hsem : ∀ I J : Inst, I.id = J.id → sem I = sem J)
    (M Phi : InstId) (σ σ' : State) (h : SameUpTo M Phi σ σ') (I : Inst)
    (hops : ∀ v ∈ I.op.operands, Value.uses Phi v = false) :
    AgreeExcept Phi (execInst sem σ I)
      (execInst sem σ' { I with op := I.op.mapValues (Value.replace (.inst M) (.inst Phi)) }) := by
  have hval : ∀ v ∈ I.op.operands,
      truth σ' (Value.replace (.inst M) (.inst Phi) v) = truth σ v ∧
      evalV σ' (Value.replace (.inst M) (.inst Phi) v) = evalV σ v :=
    fun v hv => eval_replace M Phi σ σ' h v (hops v hv)
  have hvals : (I.op.mapValues (Value.replace (.inst M) (.inst Phi))).operands.map (evalV σ') =
      I.op.operands.map (evalV σ) := by
    rw [operands_mapValues, List.map_map]
    exact List.map_congr_left (fun v hv => (hval v hv).2)
  have hs : sem { I with op := I.op.mapValues (Value.replace (.inst M) (.inst Phi)) } = sem I :=
    hsem _ _ rfl
  have hmem : σ'.mem = σ.mem := h.1.1
  rcases I with ⟨id, name, op⟩
  cases op with
  | store v p =>
    have h1 := hval v (by simp [Op.operands])
    have h2 := hval p (by simp [Op.operands])
    simp only [execInst, Op.mapValues, h1.2, h2.2]
    exact agree_write Phi σ σ' h.1 _ _
  | load p =>
    have h1 := hval p (by simp [Op.operands])
    simp only [execInst, Op.mapValues, h1.2, hmem]
    exact agree_setReg Phi σ σ' h.1 _ _
  | truncTaint a =>
    have h1 := hval a (by simp [Op.operands])
    simp only [execInst, Op.mapValues, h1.2]
    exact agree_setReg Phi σ σ' h.1 _ _
  | zextTaint a =>
    have h1 := hval a (by simp [Op.operands])
    simp only [execInst, Op.mapValues, h1.1]
    exact agree_setReg Phi σ σ' h.1 _ _
  | intToPtr a =>
    have h1 := hval a (by simp [Op.operands])
    simp only [execInst, Op.mapValues, h1.2]
    exact agree_setReg Phi σ σ' h.1 _ _
  | isNull a =>
    have h1 := hval a (by simp [Op.operands])
    simp only [execInst, Op.mapValues, h1.2]
    exact agree_setReg Phi σ σ' h.1 _ _
  | phi inc =>
    simp only [execInst, Op.mapValues]
    exact h.1
  | _ =>
    simp only [execInst, Op.mapValues] at hs hvals ⊢
    (try rw [hs])
    rw [hvals]
    exact agree_setReg Phi σ σ' h.1 _ _
theorem replaceIncoming_eq_rename (old new : BlockId) (I : Inst) :
    replaceIncomingBlockWith old new I =
      renameIncoming (fun b => if b = old then new else b) I := by
  rcases I with ⟨id, name, op⟩
  cases op <;> simp only [replaceIncomingBlockWith, renameIncoming]
  congr 2
  apply List.map_congr_left
  intro e _
  split <;> simp_all

theorem renameIncoming_id (I : Inst) : renameIncoming (fun b => b) I = I := by
  unfold renameIncoming
  split
  · rename_i inc h
    rcases I with ⟨id, name, op⟩
    simp only at h
    subst h
    simp
  · rfl

theorem renameIncoming_nonphi (g : BlockId → BlockId) (I : Inst) (h : I.op.isPhi = false) :
    renameIncoming g I = I := by
  unfold renameIncoming
  split
  · rename_i inc hop
    rw [hop] at h
    simp [Op.isPhi] at h
  · rfl

theorem sameUpTo_setReg (M Phi : InstId) (σ σ' : State) (h : SameUpTo M Phi σ σ')
    (id : InstId) (v : Nat) (h1 : id ≠ M) (h2 : id ≠ Phi) :
    SameUpTo M Phi (σ.setReg id v) (σ'.setReg id v) := by
  refine ⟨agree_setReg Phi σ σ' h.1 id v, ?_⟩
  simp only [State.setReg, if_neg (Ne.symm h1), if_neg (Ne.symm h2)]
  exact h.2

theorem find?_incoming (r : Value → Value) (g : BlockId → BlockId) (p p' : BlockId)
    (inc : List (Value × BlockId)) (h : ∀ e ∈ inc, (g e.2 == p') = (e.2 == p)) :
    (inc.map (fun e => (r e.1, g e.2))).find? (fun e => e.2 == p') =
      (inc.find? (fun e => e.2 == p)).map (fun e => (r e.1, g e.2)) := by
  induction inc with
  | nil => rfl
  | cons e inc ih =>
    simp only [List.map_cons, List.find?_cons, h e (List.mem_cons_self _ _)]
    cases e.2 == p
    · exact ih (fun e' he' => h e' (List.mem_cons_of_mem _ he'))
    · rfl

/-- The phis of a block whose incoming blocks were renamed compatibly and
whose incoming values read the merge node take, in matching states, the
values they took before. -/
theorem execPhis_replace (M Phi : InstId) (g : BlockId → BlockId) (p p' : BlockId)
    (σ0 σ0' : State) (h0 : SameUpTo M Phi σ0 σ0') (L : List Inst)
    (hL : ∀ I ∈ L, I.id ≠ Phi ∧ (I.op.isPhi = true → I.id ≠ M) ∧
      (∀ v ∈ I.op.operands, Value.uses Phi v = false) ∧
      ∀ e ∈ I.op.incoming, (g e.2 == p') = (e.2 == p)) :
    ∀ σ σ', SameUpTo M Phi σ σ' →
      SameUpTo M Phi (execPhis σ0 p σ L)
        (execPhis σ0' p' σ' (L.map (fun I =>
          Inst.replaceUsesExcept (.inst M) (.inst Phi) Phi (renameIncoming g I)))) := by
  induction L with
  | nil => intro σ σ' h; exact h
  | cons I L ih =>
    intro σ σ' h
    obtain ⟨h1, h2, h3, h4⟩ := hL I (List.mem_cons_self _ _)
    have ihL := ih (fun J hJ => hL J (List.mem_cons_of_mem _ hJ))
    rcases I with ⟨id, name, op⟩
    simp only at h1 h2 h3 h4
    simp only [List.map_cons]
    cases op with
    | phi inc =>
      simp only [renameIncoming, Inst.replaceUsesExcept, if_neg h1, Op.mapValues, execPhis,
        List.map_map]
      have hfind := find?_incoming (Value.replace (.inst M) (.inst Phi)) g p p' inc
        (by simpa [Op.incoming] using h4)
      have hcomp : ((fun e : Value × BlockId =>
          (Value.replace (.inst M) (.inst Phi) e.1, e.2)) ∘ fun e : Value × BlockId =>
            (e.1, g e.2)) =
          fun e : Value × BlockId => (Value.replace (.inst M) (.inst Phi) e.1, g e.2) := rfl
      rw [hcomp, hfind]
      cases hf : inc.find? (fun e => e.2 == p) with
      | none => exact ihL σ σ' h
      | some e =>
        simp only [Option.map_some']
        have he : e ∈ inc := List.mem_of_find?_eq_some hf
        have hev := (eval_replace M Phi σ0 σ0' h0 e.1
          (h3 e.1 (by simp only [Op.operands, List.mem_map]; exact ⟨e, he, rfl⟩))).2
        rw [hev]
        exact ihL _ _ (sameUpTo_setReg M Phi σ σ' h id _ (h2 rfl) h1)
    | _ =>
      simp only [renameIncoming, Inst.replaceUsesExcept, if_neg h1, Op.mapValues, execPhis]
      exact ihL σ σ' h

theorem isPhi_mapValues (f : Value → Value) (op : Op) : (op.mapValues f).isPhi = op.isPhi := by
  cases op <;> rfl

theorem execInst_phi (sem : Oracle) (σ : State) (I : Inst) (h : I.op.isPhi = true) :
    execInst sem σ I = σ := by
  rcases I with ⟨id, name, op⟩
  cases op <;> simp_all [Op.isPhi, execInst]

theorem renameIncoming_isPhi (g : BlockId → BlockId) (I : Inst) :
    (renameIncoming g I).op.isPhi = I.op.isPhi := by
  rcases I with ⟨id, name, op⟩
  cases op <;> rfl

theorem renameIncoming_id_eq (g : BlockId → BlockId) (I : Inst) :
    (renameIncoming g I).id = I.id := by
  rcases I with ⟨id, name, op⟩
  cases op <;> rfl

/-- One instruction of a block other than the Protected Operation, in
matching states. -/
theorem execInst_sim (sem : Oracle) (hsem : ∀ I J : Inst, I.id = J.id → sem I = sem J)
    (M Phi : InstId) (g : BlockId → BlockId) (σ σ' : State) (h : SameUpTo M Phi σ σ')
    (I : Inst) (h1 : I.id ≠ Phi)
    (h3 : ∀ v ∈ I.op.operands, Value.uses Phi v = false) :
    AgreeExcept Phi (execInst sem σ I)
      (execInst sem σ'
        (Inst.replaceUsesExcept (.inst M) (.inst Phi) Phi (renameIncoming g I))) ∧
    (I.id ≠ M → SameUpTo M Phi (execInst sem σ I)
      (execInst sem σ'
        (Inst.replaceUsesExcept (.inst M) (.inst Phi) Phi (renameIncoming g I)))) := by
  have hag : AgreeExcept Phi (execInst sem σ I)
      (execInst sem σ'
        (Inst.replaceUsesExcept (.inst M) (.inst Phi) Phi (renameIncoming g I))) := by
    cases hphi : I.op.isPhi with
    | true =>
      rw [execInst_phi sem σ I hphi, execInst_phi]
      · exact h.1
      · unfold Inst.replaceUsesExcept
        split
        · rw [renameIncoming_isPhi]; exact hphi
        · simp only [isPhi_mapValues, renameIncoming_isPhi]; exact hphi
    | false =>
      rw [renameIncoming_nonphi g I hphi]
      unfold Inst.replaceUsesExcept
      rw [if_neg h1]
      exact execInst_replace sem hsem M Phi σ σ' h I h3
  refine ⟨hag, fun h2 => ⟨hag, ?_⟩⟩
  rw [execInst_regs_other, execInst_regs_other]
  · exact h.2
  · exact Ne.symm h2
  · rw [replaceUses_id, renameIncoming_id_eq]; exact Ne.symm h1

theorem execInsts_sim (sem : Oracle) (hsem : ∀ I J : Inst, I.id = J.id → sem I = sem J)
    (M Phi : InstId) (g : BlockId → BlockId) (L : List Inst)
    (hL : ∀ I ∈ L, I.id ≠ Phi ∧ I.id ≠ M ∧ ∀ v ∈ I.op.operands, Value.uses Phi v = false) :
    ∀ σ σ', SameUpTo M Phi σ σ' →
      SameUpTo M Phi (execInsts sem σ L)
        (execInsts sem σ' (L.map (fun I =>
          Inst.replaceUsesExcept (.inst M) (.inst Phi) Phi (renameIncoming g I)))) := by
  induction L with
  | nil => intro σ σ' h; exact h
  | cons I L ih =>
    intro σ σ' h
    obtain ⟨h1, h2, h3⟩ := hL I (List.mem_cons_self _ _)
    simp only [List.map_cons, execInsts]
    exact ih (fun J hJ => hL J (List.mem_cons_of_mem _ hJ)) _ _
      ((execInst_sim sem hsem M Phi g σ σ' h I h1 h3).2 h2)

theorem mem_successors_of_next (σ : State) (t : Term) (n : BlockId)
    (h : t.next σ = some n) : n ∈ t.successors := by
  cases t with
  | br t => simp_all [Term.next, Term.successors]
  | condBr c t f =>
    simp only [Term.next] at h
    split at h <;> simp_all [Term.successors]
  | switch c d cs =>
    simp only [Term.next] at h
    simp only [Term.successors, List.mem_cons]
    cases hg : cs.get? (evalV σ c) with
    | none => rw [hg] at h; simp at h; exact Or.inl h.symm
    | some x =>
      rw [hg] at h
      simp at h
      subst h
      exact Or.inr (List.get?_mem hg)
  | ret v => simp [Term.next] at h
  | unreachable => simp [Term.next] at h

theorem next_replace (M Phi : InstId) (σ σ' : State) (h : SameUpTo M Phi σ σ') (t : Term)
    (ht : ∀ v ∈ t.operands, Value.uses Phi v = false) :
    (t.mapValues (Value.replace (.inst M) (.inst Phi))).next σ' = t.next σ := by
  cases t with
  | br t => rfl
  | condBr c t f =>
    have := (eval_replace M Phi σ σ' h c (ht c (by simp [Term.operands]))).1
    simp only [Term.mapValues, Term.next, this]
  | switch c d cs =>
    have := (eval_replace M Phi σ σ' h c (ht c (by simp [Term.operands]))).2
    simp only [Term.mapValues, Term.next, this]
  | ret v => rfl
  | unreachable => rfl

/-- The blocks of the function after the loop body of the plain pass handled
a guard in block `P` whose Protected Operation `M` has a value and is met for
the first time: the Safe Block up to `M`, the Merge Block with the merge node
in front of what followed `M`, and every other block with its uses of `M`
replaced, the guard's block with its fault arm retargeted. -/
theorem first_blocks (F : Func) (memo : TargetMap) (CrashBB P SafeBB : BlockId)
    (SB : Block) (pre post : List Inst) (M : Inst) (c : Value) (s0 s1 : BlockId)
    (hfresh : ∀ B ∈ F.blocks, B.id < F.nextBlock)
    (hP : (F.getBlock P).map (fun X => X.term) = some (Term.condBr c s0 s1))
    (hcr : s0 = CrashBB ∨ s1 = CrashBB) (hsafe : (if s0 = CrashBB then s1 else s0) = SafeBB)
    (hS : F.getBlock SafeBB = some SB) (hinsts : SB.insts = pre ++ M :: post)
    (hpre : ∀ I ∈ pre, isMemInstPlain I = false ∧ I.id ≠ M.id)
    (hM : isMemInstPlain M = true) (hv : M.op.isVoid = false)
    (hmemo : memo M.id = none) (hne : P ≠ SafeBB) :
    (plainOne F memo CrashBB P).1.getBlock SafeBB =
      some (Block.replaceUsesExcept (.inst M.id) (.inst F.nextInst) F.nextInst
        (Block.replacePhiUses SB.term.successors SafeBB F.nextBlock
          { id := SafeBB, insts := pre ++ [M], term := .br F.nextBlock })) ∧
    (plainOne F memo CrashBB P).1.getBlock F.nextBlock =
      some { id := F.nextBlock,
             insts := { id := F.nextInst, name := "cima.skipped",
                        op := .phi [(.inst M.id, SafeBB), (.undef, P)] } ::
               (Block.replacePhiUses SB.term.successors SafeBB F.nextBlock
                 { id := F.nextBlock, insts := post, term := SB.term }).insts.map
                 (Inst.replaceUsesExcept (.inst M.id) (.inst F.nextInst) F.nextInst),
             term := SB.term.mapValues (Value.replace (.inst M.id) (.inst F.nextInst)) } ∧
    (∀ Q, Q ≠ SafeBB → Q ≠ F.nextBlock →
      (plainOne F memo CrashBB P).1.getBlock Q =
        (F.getBlock Q).map (fun X =>
          if Q = P then
            { id := X.id,
              insts := (Block.replacePhiUses SB.term.successors SafeBB F.nextBlock X).insts.map
                (Inst.replaceUsesExcept (.inst M.id) (.inst F.nextInst) F.nextInst),
              term := (X.term.mapValues (Value.replace (.inst M.id) (.inst F.nextInst))
                ).setSuccessor (if s0 = CrashBB then 0 else 1) F.nextBlock }
          else
            Block.replaceUsesExcept (.inst M.id) (.inst F.nextInst) F.nextInst
              (Block.replacePhiUses SB.term.successors SafeBB F.nextBlock X))) := by
  have hfind : SB.insts.find? isMemInstPlain = some M := by
    rw [hinsts]; exact find?_first _ pre post M (fun I hI => (hpre I hI).1) hM
  have hk : SB.indexOf M.id + 1 = pre.length + 1 := by
    rw [indexOf_append SB pre post M hinsts (fun I hI => (hpre I hI).2)]
  have htake : SB.insts.take (SB.indexOf M.id + 1) = pre ++ [M] := by
    rw [hk, hinsts]
    simp [List.take_append_eq_append_take]
  have hdrop : SB.insts.drop (SB.indexOf M.id + 1) = post := by
    rw [hk, hinsts]
    simp [List.drop_append_eq_append_drop]
  have hlt : SafeBB < F.nextBlock := by
    have := hfresh SB (getBlock_some hS).1
    rw [(getBlock_some hS).2] at this
    exact this
  have hST : SafeBB ≠ F.nextBlock := Nat.ne_of_lt hlt
  have hPT : P ≠ F.nextBlock := by
    cases hX : F.getBlock P with
    | none => rw [hX] at hP; simp at hP
    | some X =>
      have := hfresh X (getBlock_some hX).1
      rw [(getBlock_some hX).2] at this
      exact Nat.ne_of_lt this
  rw [plainOne_first_eq F memo CrashBB P SafeBB SB M c s0 s1 hP hcr hsafe hS hfind hv hmemo hne]
  simp only
  have hget : ∀ Q, (((({ ((F.splitBlock SafeBB (SB.indexOf M.id + 1)).1.updateInsts F.nextBlock
              (fun insts => { id := F.nextInst, name := "cima.skipped",
                              op := .phi [(.inst M.id, SafeBB)] } :: insts)) with
            nextInst := F.nextInst + 1 } : Func).replaceUsesExcept
            (.inst M.id) (.inst F.nextInst) F.nextInst).setSuccessorOf P
            (if s0 = CrashBB then 0 else 1) F.nextBlock).updateInsts F.nextBlock
            (addIncomingFront .undef P)).getBlock Q =
        ((F.splitBlock SafeBB (SB.indexOf M.id + 1)).1.getBlock Q).map (fun X =>
          (fun Z : Block => if Z.id = F.nextBlock then
              { Z with insts := addIncomingFront .undef P Z.insts } else Z)
          ((fun Y : Block => if Y.id = P then
              { Y with term := Y.term.setSuccessor (if s0 = CrashBB then 0 else 1) F.nextBlock }
              else Y)
          (Block.replaceUsesExcept (.inst M.id) (.inst F.nextInst) F.nextInst
            (if X.id = F.nextBlock then
              { X with insts := (⟨F.nextInst, "cima.skipped", .phi [(.inst M.id, SafeBB)]⟩ :
                  Inst) :: X.insts } else X)))) := by
    intro Q
    rw [getBlock_updateInsts, getBlock_setSuccessorOf,
      target_getBlock _ _ (⟨F.nextInst, "cima.skipped", .phi [(.inst M.id, SafeBB)]⟩ : Inst)]
    simp only [Option.map_map]
    rfl
  refine ⟨?_, ?_, ?_⟩
  · rw [hget, splitBlock_getBlock_old F SafeBB _ SB hS, htake]
    simp [replacePhiUses_id, Block.replaceUsesExcept, hST, Ne.symm hne]
  · rw [hget, splitBlock_getBlock_new F SafeBB _ SB hS hfresh, hdrop]
    simp [replacePhiUses_id, Block.replaceUsesExcept, Ne.symm hPT, replacePhiUses_term,
      Inst.replaceUsesExcept, addIncomingFront, Op.isPhi, addIncoming]
  · intro Q hQ1 hQ2
    rw [hget, splitBlock_getBlock_other F SafeBB _ SB hS Q hQ1 hQ2]
    cases hX : F.getBlock Q with
    | none => rfl
    | some X =>
      have hid : X.id = Q := (getBlock_some hX).2
      by_cases hQP : Q = P
      · subst hQP
        simp [replacePhiUses_id, Block.replaceUsesExcept, hid, hQ2, replacePhiUses_term]
      · simp [replacePhiUses_id, Block.replaceUsesExcept, hid, hQ2, hQP]

theorem phi_compat (SafeBB T : BlockId) (succs : List BlockId) (X : Block)
    (hinc : ∀ I ∈ X.insts, ∀ e ∈ I.op.incoming, e.2 < T)
    (pred : Option BlockId)
    (hpred : ∀ p, pred = some p → p < T ∧ (p = SafeBB → X.id ∈ succs)) :
    ∃ g : BlockId → BlockId,
      (X.replacePhiUses succs SafeBB T).insts = X.insts.map (renameIncoming g) ∧
      ∀ p, pred = some p → ∀ I ∈ X.insts, ∀ e ∈ I.op.incoming,
        (g e.2 == (if p = SafeBB then T else p)) = (e.2 == p) := by
  unfold Block.replacePhiUses
  by_cases hmem : X.id ∈ succs
  · refine ⟨fun b => if b = SafeBB then T else b, ?_, ?_⟩
    · rw [if_pos hmem]
      apply List.map_congr_left
      intro I _
      exact replaceIncoming_eq_rename SafeBB T I
    · intro p hp I hI e he
      have hlt := hinc I hI e he
      have hpl := (hpred p hp).1
      by_cases hps : p = SafeBB
      · subst hps
        by_cases hes : e.2 = p
        · simp [hes]
        · simp [hes, Nat.ne_of_lt hlt]
      · by_cases hes : e.2 = SafeBB
        · simp [hes, hps, Ne.symm hps, Ne.symm (Nat.ne_of_lt hpl)]
        · simp [hes, hps]
  · refine ⟨fun b => b, ?_, ?_⟩
    · rw [if_neg hmem, List.map_congr_left (fun I _ => renameIncoming_id I)]
      simp
    · intro p hp I hI e he
      have hps : p ≠ SafeBB := fun h => hmem ((hpred p hp).2 h)
      simp [hps]

theorem execPhis_nonphi (σ0 : State) (p : BlockId) (L : List Inst)
    (hL : ∀ I ∈ L, I.op.isPhi = false) : ∀ σ, execPhis σ0 p σ L = σ := by
  induction L with
  | nil => intro σ; rfl
  | cons I L ih =>
    intro σ
    have h1 := hL I (List.mem_cons_self _ _)
    rcases I with ⟨id, name, op⟩
    cases op <;> simp_all [execPhis, Op.isPhi]

theorem execPhis_append (σ0 : State) (p : BlockId) (L1 L2 : List Inst) :
    ∀ σ, execPhis σ0 p σ (L1 ++ L2) = execPhis σ0 p (execPhis σ0 p σ L1) L2 := by
  induction L1 with
  | nil => intro σ; rfl
  | cons I L ih =>
    intro σ
    rcases I with ⟨id, name, op⟩
    cases op with
    | phi inc =>
      simp only [List.cons_append, execPhis]
      split <;> exact ih _
    | _ => simp only [List.cons_append, execPhis]; exact ih _

theorem execInsts_append (sem : Oracle) (L1 L2 : List Inst) :
    ∀ σ, execInsts sem σ (L1 ++ L2) = execInsts sem (execInsts sem σ L1) L2 := by
  induction L1 with
  | nil => intro σ; rfl
  | cons I L ih => intro σ; simp only [List.cons_append, execInsts]; exact ih _

/-- A block without the Protected Operation, entered from matching
predecessors in matching states. -/
theorem block_sim (sem : Oracle) (hsem : ∀ I J : Inst, I.id = J.id → sem I = sem J)
    (M Phi : InstId) (g : BlockId → BlockId) (B B' : Block)
    (hins : B'.insts = B.insts.map (fun I =>
      Inst.replaceUsesExcept (.inst M) (.inst Phi) Phi (renameIncoming g I)))
    (hL : ∀ I ∈ B.insts, I.id ≠ Phi ∧ I.id ≠ M ∧
      ∀ v ∈ I.op.operands, Value.uses Phi v = false)
    (pred : Option BlockId) (f : BlockId → BlockId)
    (hcompat : ∀ p, pred = some p → ∀ I ∈ B.insts, ∀ e ∈ I.op.incoming,
      (g e.2 == f p) = (e.2 == p))
    (σ σ' : State) (h : SameUpTo M Phi σ σ') :
    SameUpTo M Phi (execBlock sem σ pred B).1 (execBlock sem σ' (pred.map f) B').1 := by
  cases pred with
  | none =>
    simp only [execBlock, Option.map_none']
    rw [hins]
    exact execInsts_sim sem hsem M Phi g B.insts hL σ σ' h
  | some p =>
    simp only [execBlock, Option.map_some']
    rw [hins]
    apply execInsts_sim sem hsem M Phi g B.insts hL
    exact execPhis_replace M Phi g p (f p) σ σ' h B.insts
      (fun I hI => ⟨(hL I hI).1, fun _ => (hL I hI).2.1, (hL I hI).2.2,
        hcompat p rfl I hI⟩) σ σ' h

theorem run_succ (sem : Oracle) (F : Func) (n : Nat) (pred : Option BlockId) (cur : BlockId)
    (σ : State) :
    run sem F (n + 1) pred cur σ =
      match F.getBlock cur with
      | none => none
      | some B =>
        match B.term.next (execBlock sem σ pred B).1 with
        | some nxt => run sem F n (some cur) nxt (execBlock sem σ pred B).1
        | none => some (cur, (execBlock sem σ pred B).1) := by
  simp only [run]
  cases F.getBlock cur with
  | none => rfl
  | some B =>
    simp only [execBlock]
    cases B.term.next _ <;> rfl

/-- A run that enters a block ending in `unreachable` leaves from it. -/
theorem run_crash (sem : Oracle) (F : Func) (CrashBB : BlockId)
    (hcrash : (F.getBlock CrashBB).map (fun X => X.term) = some .unreachable)
    (n : Nat) (pred : Option BlockId) (σ : State) (b : BlockId) (σf : State)
    (h : run sem F n pred CrashBB σ = some (b, σf)) : b = CrashBB := by
  cases n with
  | zero => simp [run] at h
  | succ n =>
    rw [run_succ] at h
    cases hB : F.getBlock CrashBB with
    | none => rw [hB] at hcrash; simp at hcrash
    | some B =>
      rw [hB] at h hcrash
      simp only [Option.map_some', Option.some.injEq] at hcrash
      simp only [hcrash, Term.next] at h
      simp only [Option.some.injEq, Prod.mk.injEq] at h
      exact h.1.symm

/-- One step of the simulation, once the block of the rewritten function that
stands for the current block is known to end in a matching state with the
same successor. -/
theorem sim_finish (sem : Oracle) (F F' : Func) (M Phi : InstId) (CrashBB : BlockId)
    (hcrash : (F.getBlock CrashBB).map (fun X => X.term) = some .unreachable)
    (f : BlockId → BlockId) (n : Nat)
    (ih : ∀ (pred : Option BlockId) (cur : BlockId) (σ σ' : State) (b : BlockId) (σf : State),
      SameUpTo M Phi σ σ' →
      (∀ p, pred = some p → ∃ PB, F.getBlock p = some PB ∧ cur ∈ PB.term.successors) →
      run sem F n pred cur σ = some (b, σf) → b ≠ CrashBB →
      ∃ n' σf', run sem F' n' (pred.map f) cur σ' = some (f b, σf') ∧ SameUpTo M Phi σf σf')
    (cur : BlockId) (B : Block) (hB : F.getBlock cur = some B) (σ1 σ1' : State)
    (h1 : SameUpTo M Phi σ1 σ1') (t' : Term)
    (hnext : t'.next σ1' = B.term.next σ1 ∨ B.term.next σ1 = some CrashBB)
    (b : BlockId) (σf : State)
    (hrun : (match B.term.next σ1 with
      | some nxt => run sem F n (some cur) nxt σ1
      | none => some (cur, σ1)) = some (b, σf))
    (hb : b ≠ CrashBB) :
    ∃ n' σf', (match t'.next σ1' with
      | some nxt => run sem F' n' (some (f cur)) nxt σ1'
      | none => some (f cur, σ1')) = some (f b, σf') ∧ SameUpTo M Phi σf σf' := by
  cases hn : B.term.next σ1 with
  | none =>
    rw [hn] at hrun hnext
    simp only [Option.some.injEq, Prod.mk.injEq] at hrun
    rcases hnext with hnext | hnext
    · rw [hnext]
      exact ⟨0, σ1', by rw [hrun.1], hrun.2 ▸ h1⟩
    · simp at hnext
  | some nxt =>
    rw [hn] at hrun hnext
    simp only at hrun
    rcases hnext with hnext | hnext
    · rw [hnext]
      obtain ⟨n', σf', h2, h3⟩ := ih (some cur) nxt σ1 σ1' b σf h1
        (fun p hp => by
          simp only [Option.some.injEq] at hp
          subst hp
          exact ⟨B, hB, mem_successors_of_next σ1 B.term nxt hn⟩) hrun hb
      exact ⟨n', σf', h2, h3⟩
    · simp only [Option.some.injEq] at hnext
      subst hnext
      exact absurd (run_crash sem F nxt hcrash n _ σ1 b σf hrun) hb

theorem execBlock_split (sem : Oracle) (σ : State) (pred : Option BlockId) (B : Block)
    (pre post : List Inst) (M : Inst) (hinsts : B.insts = pre ++ M :: post)
    (hM : M.op.isPhi = false) (hpost : ∀ I ∈ post, I.op.isPhi = false) (i : BlockId)
    (t : Term) :
    (execBlock sem σ pred B).1 =
      execInsts sem
        (execInst sem (execBlock sem σ pred { id := i, insts := pre, term := t }).1 M) post := by
  have hnp : ∀ I ∈ M :: post, I.op.isPhi = false := by
    intro I hI
    rcases List.mem_cons.mp hI with rfl | h
    · exact hM
    · exact hpost I h
  cases pred with
  | none =>
    simp only [execBlock]
    rw [hinsts, execInsts_append]
    rfl
  | some p =>
    simp only [execBlock]
    rw [hinsts, execInsts_append, execPhis_append, execPhis_nonphi σ p (M :: post) hnp]
    rfl

theorem isProtectable_not_phi (op : Op) (h : isProtectable op = true) : op.isPhi = false := by
  cases op <;> simp_all [isProtectable, Op.isPhi]

theorem replaceUses_isPhi (old new : Value) (except : InstId) (I : Inst) :
    (I.replaceUsesExcept old new except).op.isPhi = I.op.isPhi := by
  unfold Inst.replaceUsesExcept
  split
  · rfl
  · exact isPhi_mapValues _ _

/-- The Safe Block of the original function against the Safe Block followed
by the Merge Block of the rewritten one. -/
theorem safe_block_sim (F : Func) (memo : TargetMap) (CrashBB P SafeBB : BlockId) (SB : Block)
    (pre post : List Inst) (M : Inst) (c : Value) (s0 s1 : BlockId)
    (hs : FirstRewrite F memo CrashBB P SafeBB SB pre post M c s0 s1)
    (sem : Oracle) (hsem : ∀ I J : Inst, I.id = J.id → sem I = sem J)
    (pred : Option BlockId)
    (hedge : ∀ p, pred = some p → ∃ PB, F.getBlock p = some PB ∧ SafeBB ∈ PB.term.successors)
    (σ σ' : State) (hR : SameUpTo M.id F.nextInst σ σ') :
    SameUpTo M.id F.nextInst (execBlock sem σ pred SB).1
      (execBlock sem
        (execBlock sem σ' (pred.map (fun x => if x = SafeBB then F.nextBlock else x))
          (Block.replaceUsesExcept (.inst M.id) (.inst F.nextInst) F.nextInst
            (Block.replacePhiUses SB.term.successors SafeBB F.nextBlock
              { id := SafeBB, insts := pre ++ [M], term := .br F.nextBlock }))).1
        (some SafeBB)
        { id := F.nextBlock,
          insts := { id := F.nextInst, name := "cima.skipped",
                     op := .phi [(.inst M.id, SafeBB), (.undef, P)] } ::
            (Block.replacePhiUses SB.term.successors SafeBB F.nextBlock
              { id := F.nextBlock, insts := post, term := SB.term }).insts.map
              (Inst.replaceUsesExcept (.inst M.id) (.inst F.nextInst) F.nextInst),
          term := SB.term.mapValues (Value.replace (.inst M.id) (.inst F.nextInst)) }).1 := by
  have hSBmem : SB ∈ F.blocks := (getBlock_some hs.hS).1
  have hwfI : ∀ I ∈ SB.insts, I.id < F.nextInst ∧
      (∀ v ∈ I.op.operands, Value.uses F.nextInst v = false) ∧
      ∀ e ∈ I.op.incoming, e.2 < F.nextBlock := (hs.wf SB hSBmem).2.2
  have hpreSB : ∀ I ∈ pre, I ∈ SB.insts := fun I hI => by
    rw [hs.hinsts]; exact List.mem_append_left _ hI
  have hMSB : M ∈ SB.insts := by rw [hs.hinsts]; simp
  have hpostSB : ∀ I ∈ post, I ∈ SB.insts := fun I hI => by
    rw [hs.hinsts]; simp [hI]
  have hMphi : M.op.isPhi = false := isProtectable_not_phi M.op hs.hM
  have hMne : M.id ≠ F.nextInst := Nat.ne_of_lt (hwfI M hMSB).1
  -- the renaming of the phis of the Safe Block
  obtain ⟨g, hg1, hg2⟩ := phi_compat SafeBB F.nextBlock SB.term.successors
    { id := SafeBB, insts := pre ++ [M], term := .br F.nextBlock }
    (fun I hI e he => by
      simp only [List.mem_append, List.mem_singleton] at hI
      rcases hI with hI | rfl
      · exact (hwfI I (hpreSB I hI)).2.2 e he
      · exact (hwfI I hMSB).2.2 e he) pred
    (fun p hp => by
      obtain ⟨PB, hPB, hmem⟩ := hedge p hp
      have hlt : p < F.nextBlock := by
        have := (hs.wf PB (getBlock_some hPB).1).1
        rw [(getBlock_some hPB).2] at this
        exact this
      refine ⟨hlt, fun hpS => ?_⟩
      subst hpS
      rw [hs.hS] at hPB
      simp only [Option.some.injEq] at hPB
      rw [hPB]
      exact hmem)
  obtain ⟨g2, hg3, _⟩ := phi_compat SafeBB F.nextBlock SB.term.successors
    { id := F.nextBlock, insts := post, term := SB.term }
    (fun I hI e he => (hwfI I (hpostSB I hI)).2.2 e he) none (fun p hp => by simp at hp)
  simp only at hg1 hg2 hg3
  -- the Safe Block up to the Protected Operation
  have hpreSim := block_sim sem hsem M.id F.nextInst g
    { id := SafeBB, insts := pre, term := .br F.nextBlock }
    { id := SafeBB, insts := pre.map (fun I => Inst.replaceUsesExcept (.inst M.id)
        (.inst F.nextInst) F.nextInst (renameIncoming g I)), term := .br F.nextBlock } rfl
    (fun I hI => ⟨Nat.ne_of_lt (hwfI I (hpreSB I hI)).1,
      hs.huniq.1 I (List.mem_append_left _ hI), (hwfI I (hpreSB I hI)).2.1⟩)
    pred (fun x => if x = SafeBB then F.nextBlock else x)
    (fun p hp I hI e he => hg2 p hp I (List.mem_append_left _ hI) e he) σ σ' hR
  have hMsim := (execInst_sim sem hsem M.id F.nextInst g _ _ hpreSim M hMne
    (hwfI M hMSB).2.1).1
  have hpostphi : ∀ I ∈ post.map (Inst.replaceUsesExcept (.inst M.id)
      (.inst F.nextInst) F.nextInst ∘ renameIncoming g2), I.op.isPhi = false := by
    intro I hI
    simp only [List.mem_map] at hI
    obtain ⟨J, hJ, rfl⟩ := hI
    simp only [Function.comp]
    rw [replaceUses_isPhi, renameIncoming_isPhi]
    exact hs.hpost J hJ
  -- the original Safe Block
  rw [execBlock_split sem σ pred SB pre post M hs.hinsts hMphi hs.hpost SafeBB (.br F.nextBlock)]
  -- the rewritten Safe Block
  rw [execBlock_split sem σ' _ (Block.replaceUsesExcept (.inst M.id) (.inst F.nextInst)
      F.nextInst (Block.replacePhiUses SB.term.successors SafeBB F.nextBlock
        { id := SafeBB, insts := pre ++ [M], term := .br F.nextBlock }))
    (pre.map (fun I => Inst.replaceUsesExcept (.inst M.id) (.inst F.nextInst) F.nextInst
      (renameIncoming g I))) []
    (Inst.replaceUsesExcept (.inst M.id) (.inst F.nextInst) F.nextInst (renameIncoming g M))
    (by simp only [Block.replaceUsesExcept]; rw [hg1]; simp)
    (by rw [replaceUses_isPhi, renameIncoming_isPhi]; exact hMphi)
    (fun I hI => by simp at hI) SafeBB (.br F.nextBlock)]
  simp only [execInsts]
  generalize execInst sem (execBlock sem σ pred
    { id := SafeBB, insts := pre, term := .br F.nextBlock }).1 M = σc at hMsim ⊢
  generalize execInst sem (execBlock sem σ'
    (pred.map (fun x => if x = SafeBB then F.nextBlock else x))
    { id := SafeBB, insts := pre.map (fun I => Inst.replaceUsesExcept (.inst M.id)
        (.inst F.nextInst) F.nextInst (renameIncoming g I)), term := .br F.nextBlock }).1
    (Inst.replaceUsesExcept (.inst M.id) (.inst F.nextInst) F.nextInst (renameIncoming g M))
    = σc' at hMsim ⊢
  -- the Merge Block
  have hsame : SameUpTo M.id F.nextInst σc (σc'.setReg F.nextInst (σc'.regs M.id)) := by
    obtain ⟨hmem, hargs, hregs⟩ := hMsim
    refine ⟨⟨hmem, hargs, fun id hid => ?_⟩, ?_⟩
    · simp only [State.setReg, if_neg hid]; exact hregs id hid
    · simp only [State.setReg, if_true]; exact hregs M.id hMne
  have hpostSim := execInsts_sim sem hsem M.id F.nextInst g2 post
    (fun I hI => ⟨Nat.ne_of_lt (hwfI I (hpostSB I hI)).1,
      hs.huniq.1 I (List.mem_append_right _ hI), (hwfI I (hpostSB I hI)).2.1⟩) _ _ hsame
  rw [hg3, List.map_map]
  simp only [execBlock, execPhis, execInsts, execInst, List.find?_cons, beq_self_eq_true, evalV]
  rw [execPhis_nonphi _ _ _ hpostphi]
  exact hpostSim

/-- The simulation behind C14: a run of the original function that does not
end in the report block is matched, block by block, by a run of the function
rewritten for one guard. -/
theorem safe_arm_sim (F : Func) (memo : TargetMap) (CrashBB P SafeBB : BlockId) (SB : Block)
    (pre post : List Inst) (M : Inst) (c : Value) (s0 s1 : BlockId)
    (hs : FirstRewrite F memo CrashBB P SafeBB SB pre post M c s0 s1)
    (sem : Oracle) (hsem : ∀ I J : Inst, I.id = J.id → sem I = sem J) :
    ∀ (n : Nat) (pred : Option BlockId) (cur : BlockId) (σ σ' : State) (b : BlockId)
      (σf : State),
      SameUpTo M.id F.nextInst σ σ' →
      (∀ p, pred = some p → ∃ PB, F.getBlock p = some PB ∧ cur ∈ PB.term.successors) →
      run sem F n pred cur σ = some (b, σf) → b ≠ CrashBB →
      ∃ n' σf', run sem (plainOne F memo CrashBB P).1 n'
          (pred.map (fun x => if x = SafeBB then F.nextBlock else x)) cur σ' =
          some (if b = SafeBB then F.nextBlock else b, σf') ∧
        SameUpTo M.id F.nextInst σf σf' := by
  have hfresh : ∀ B ∈ F.blocks, B.id < F.nextBlock := fun B hB => (hs.wf B hB).1
  have hpre' : ∀ I ∈ pre, isMemInstPlain I = false ∧ I.id ≠ M.id := fun I hI =>
    ⟨by rw [isMemInstPlain_eq]; exact hs.hpre I hI,
     hs.huniq.1 I (List.mem_append_left _ hI)⟩
  have hM' : isMemInstPlain M = true := by rw [isMemInstPlain_eq]; exact hs.hM
  obtain ⟨hbS, hbT, hbQ⟩ := first_blocks F memo CrashBB P SafeBB SB pre post M c s0 s1 hfresh
    hs.hP hs.hcr hs.hsafe hs.hS hs.hinsts hpre' hM' hs.hv hs.hmemo hs.hne
  have hSBmem : SB ∈ F.blocks := (getBlock_some hs.hS).1
  have hlt : ∀ p PB, F.getBlock p = some PB → p < F.nextBlock := by
    intro p PB h
    have := hfresh PB (getBlock_some h).1
    rw [(getBlock_some h).2] at this
    exact this
  generalize hF' : (plainOne F memo CrashBB P).1 = F' at hbS hbT hbQ
  intro n
  induction n with
  | zero => intro pred cur σ σ' b σf _ _ hrun; simp [run] at hrun
  | succ n ih =>
    intro pred cur σ σ' b σf hR hedge hrun hb
    rw [run_succ] at hrun
    cases hB : F.getBlock cur with
    | none => rw [hB] at hrun; simp at hrun
    | some B =>
      rw [hB] at hrun
      simp only at hrun
      have hBmem : B ∈ F.blocks := (getBlock_some hB).1
      have hBid : B.id = cur := (getBlock_some hB).2
      have hcT : cur ≠ F.nextBlock := Nat.ne_of_lt (hlt cur B hB)
      by_cases hcS : cur = SafeBB
      · -- the Safe Block
        subst hcS
        have hBS : B = SB := by
          have := hs.hS
          rw [hB] at this
          simpa using this
        subst hBS
        have hsim' := safe_block_sim F memo CrashBB P cur B pre post M c s0 s1 hs sem hsem pred
          hedge σ σ' hR
        have hnext := next_replace M.id F.nextInst _ _ hsim' B.term (hs.wf B hBmem).2.1
        obtain ⟨n', σf', h2, h3⟩ := sim_finish sem F F' M.id F.nextInst CrashBB hs.hcrash
          (fun x => if x = cur then F.nextBlock else x) n ih cur B hB _ _ hsim'
          (B.term.mapValues (Value.replace (.inst M.id) (.inst F.nextInst)))
          (Or.inl hnext) b σf hrun hb
        refine ⟨n' + 2, σf', ?_, h3⟩
        rw [run_succ, hbS]
        simp only [Block.replaceUsesExcept, replacePhiUses_term, Term.mapValues, Term.next]
        rw [run_succ, hbT]
        simp only [if_true] at h2 ⊢
        exact h2
      · -- a block other than the Safe Block
        have hpredc : ∀ p, pred = some p → p < F.nextBlock ∧
            (p = SafeBB → B.id ∈ SB.term.successors) := by
          intro p hp
          obtain ⟨PB, hPB, hmem⟩ := hedge p hp
          refine ⟨hlt p PB hPB, fun hpS => ?_⟩
          subst hpS
          rw [hs.hS] at hPB
          simp only [Option.some.injEq] at hPB
          rw [hPB, hBid]
          exact hmem
        obtain ⟨g, hg1, hg2⟩ := phi_compat SafeBB F.nextBlock SB.term.successors B
          (fun I hI e he => ((hs.wf B hBmem).2.2 I hI).2.2 e he) pred hpredc
        have hL : ∀ I ∈ B.insts, I.id ≠ F.nextInst ∧ I.id ≠ M.id ∧
            ∀ v ∈ I.op.operands, Value.uses F.nextInst v = false := fun I hI =>
          ⟨Nat.ne_of_lt ((hs.wf B hBmem).2.2 I hI).1,
           hs.huniq.2 B hBmem (hBid ▸ hcS) I hI, ((hs.wf B hBmem).2.2 I hI).2.1⟩
        have hmap : (B.replacePhiUses SB.term.successors SafeBB F.nextBlock).insts.map
            (Inst.replaceUsesExcept (.inst M.id) (.inst F.nextInst) F.nextInst) =
            B.insts.map (fun I => Inst.replaceUsesExcept (.inst M.id) (.inst F.nextInst)
              F.nextInst (renameIncoming g I)) := by
          rw [hg1, List.map_map]; rfl
        have hget := hbQ cur hcS hcT
        rw [hB] at hget
        simp only [Option.map_some'] at hget
        have hfc : (if cur = SafeBB then F.nextBlock else cur) = cur := if_neg hcS
        obtain ⟨B', hB'get, hB'ins, hB'term⟩ : ∃ B', F'.getBlock cur = some B' ∧
            B'.insts = B.insts.map (fun I => Inst.replaceUsesExcept (.inst M.id)
              (.inst F.nextInst) F.nextInst (renameIncoming g I)) ∧
            B'.term = (if cur = P then
              (B.term.mapValues (Value.replace (.inst M.id) (.inst F.nextInst))).setSuccessor
                (if s0 = CrashBB then 0 else 1) F.nextBlock
              else B.term.mapValues (Value.replace (.inst M.id) (.inst F.nextInst))) := by
          by_cases hcP : cur = P
          · rw [if_pos hcP] at hget
            exact ⟨_, hget, hmap, by rw [if_pos hcP]⟩
          · rw [if_neg hcP] at hget
            exact ⟨_, hget, hmap, by
              rw [if_neg hcP]; simp only [Block.replaceUsesExcept, replacePhiUses_term]⟩
        have hsim' : SameUpTo M.id F.nextInst (execBlock sem σ pred B).1
            (execBlock sem σ' (pred.map (fun x => if x = SafeBB then F.nextBlock else x)) B').1 := by
          exact block_sim sem hsem M.id F.nextInst g B B' hB'ins hL pred
            (fun x => if x = SafeBB then F.nextBlock else x) hg2 σ σ' hR
        have hnext : B'.term.next
              (execBlock sem σ' (pred.map (fun x => if x = SafeBB then F.nextBlock else x)) B').1 =
              B.term.next (execBlock sem σ pred B).1 ∨
            B.term.next (execBlock sem σ pred B).1 = some CrashBB := by
          rw [hB'term]
          by_cases hcP : cur = P
          · rw [if_pos hcP]
            have hterm : B.term = Term.condBr c s0 s1 := by
              have := hs.hP
              rw [← hcP, hB] at this
              simpa using this
            rw [hterm]
            have htv := (eval_replace M.id F.nextInst _ _ hsim' c
              ((hs.wf B hBmem).2.1 c (by rw [hterm]; simp [Term.operands]))).1
            simp only [Term.mapValues, Term.setSuccessor, Term.next]
            by_cases h0 : s0 = CrashBB
            · simp only [if_pos h0, if_true, Term.next, htv]
              cases truth (execBlock sem σ pred B).1 c
              · left; rfl
              · right; simp [h0]
            · have h1 : s1 = CrashBB := hs.hcr.resolve_left h0
              simp only [if_neg h0, Term.next, htv,
                show ((1 : Nat) = 0) = False from by simp, if_false]
              cases truth (execBlock sem σ pred B).1 c
              · right; simp [h1]
              · left; rfl
          · rw [if_neg hcP]
            left
            exact next_replace M.id F.nextInst _ _ hsim' B.term (hs.wf B hBmem).2.1
        obtain ⟨n', σf', h2, h3⟩ := sim_finish sem F F' M.id F.nextInst CrashBB hs.hcrash
          (fun x => if x = SafeBB then F.nextBlock else x) n ih cur B hB _ _ hsim' B'.term
          hnext b σf hrun hb
        refine ⟨n' + 1, σf', ?_, h3⟩
        rw [run_succ, hB'get]
        simp only
        simp only [hfc] at h2
        exact h2

theorem uses_replace (M Phi : InstId) (h : M ≠ Phi) (v : Value) :
    Value.uses M (Value.replace (.inst M) (.inst Phi) v) = false := by
  induction v with
  | cbool b => simp [Value.replace, Value.uses]
  | cint n => simp [Value.replace, Value.uses]
  | undef => simp [Value.replace, Value.uses]
  | arg n => simp [Value.replace, Value.uses]
  | inst j =>
    by_cases hj : j = M
    · subst hj
      simp [Value.replace, Value.uses, Ne.symm h]
    · have : (Value.inst j = Value.inst M) = False := by simp [hj]
      simp [Value.replace, this, Value.uses, hj]
  | orOf a b iha ihb => simp [Value.replace, Value.uses, iha, ihb]

theorem replaceUses_no_use (M Phi : InstId) (h : M ≠ Phi) (J : Inst)
    (hJ : (J.replaceUsesExcept (.inst M) (.inst Phi) Phi).id ≠ Phi) :
    ∀ v ∈ (J.replaceUsesExcept (.inst M) (.inst Phi) Phi).op.operands,
      Value.uses M v = false := by
  rw [replaceUses_id] at hJ
  unfold Inst.replaceUsesExcept
  rw [if_neg hJ]
  intro v hv
  simp only [operands_mapValues, List.mem_map] at hv
  obtain ⟨w, _, rfl⟩ := hv
  exact uses_replace M Phi h w

theorem term_operands_mapValues (f : Value → Value) (t : Term) :
    (t.mapValues f).operands = t.operands.map f := by
  cases t with
  | ret v => cases v <;> rfl
  | _ => rfl

theorem term_operands_setSuccessor (i : Nat) (b : BlockId) (t : Term) :
    (t.setSuccessor i b).operands = t.operands := by
  cases t with
  | condBr c t f => simp only [Term.setSuccessor]; split <;> rfl
  | _ => rfl

theorem term_no_use (M Phi : InstId) (h : M ≠ Phi) (t : Term) :
    ∀ v ∈ (t.mapValues (Value.replace (.inst M) (.inst Phi))).operands,
      Value.uses M v = false := by
  intro v hv
  simp only [term_operands_mapValues, List.mem_map] at hv
  obtain ⟨w, _, rfl⟩ := hv
  exact uses_replace M Phi h w

theorem exampleSem_by_id : ∀ I J : Inst, I.id = J.id → exampleSem I = exampleSem J := by
  intro I J h
  funext vals
  simp only [exampleSem, h]

/-! ## Theorems: the nearest-valid substitution -/

/-- C19: on `stackLoad`, whose Safe Block (block `2`) begins with the load
`tainted_condition` (instruction `5`) through a pointer with a known shadow
address, load instrumentation records the taint `13` for the load and puts
the shadow-byte read `load.taint` (instruction `12`) in front of it; recovery
injection then splits the Safe Block after the shadow-byte read.  The Safe
Block holds the shadow-byte read alone, the load is in the Merge Block (block
`3`), the value-merge node joins the shadow byte, and the normal incoming
value of the taint-merge node is `false`, not the recorded taint.  With the
checker's test failing, the whole pipeline lets the load execute (it reads
`77`) and the store of the loaded value through `arg 2` is performed. -/
theorem recovery_guards_shadow_read :
    (instrumentLoads (propagateShadowPointers (createShadowAllocas
        (startPass stackLoad)))).ValTaintMap (.inst 5) = some (.inst 13) ∧
    ((instrumentLoads (propagateShadowPointers (createShadowAllocas
        (startPass stackLoad)))).F.getBlock 2).map (fun B => B.insts.map (fun I => I.id)) =
      some [12, 13, 5, 6] ∧
    ((injectRecovery (instrumentLoads (propagateShadowPointers (createShadowAllocas
        (startPass stackLoad))))).F.getBlock 2).map (fun B => (B.insts, B.term)) =
      some ([⟨12, "load.taint", .load (.inst 11)⟩], .br 3) ∧
    ((injectRecovery (instrumentLoads (propagateShadowPointers (createShadowAllocas
        (startPass stackLoad))))).F.getBlock 3).map (fun B => B.insts) =
      some [ ⟨14, "cima.val", .phi [(.inst 12, 2), (.undef, 0)]⟩,
             ⟨15, "cima.taint", .phi [(.cbool false, 2), (.cbool true, 0)]⟩,
             ⟨13, "", .truncTaint (.inst 14)⟩,
             ⟨5, "tainted_condition", .load (.inst 2)⟩,
             ⟨6, "", .store (.inst 5) (.arg 2)⟩ ] ∧
    ((injectRecovery (instrumentLoads (propagateShadowPointers (createShadowAllocas
        (startPass stackLoad))))).F.getBlock 0).map (fun B => B.term) =
      some (.condBr (.inst 3) 3 2) ∧
    (run stackSem (cimaTainted stackLoad).F 10 none 0 stackState).map
        (fun r => (r.1, r.2.regs 5, r.2.mem 200)) = some (5, 77, 77) := by
  decide!

/-- C20: on `twoEdges`, whose phi `x` has three incoming pairs, two of them
from block `0`, SSA taint propagation maps `x` to the taint-merge node
`x.taint` (instruction `5`) of the same block, which has two incoming pairs,
one per distinct block; the execution-taint phi of the block, wired per
predecessor edge, has three. -/
theorem taint_phi_drops_second_edge :
    twoEdges.predecessors 2 = [0, 0, 1] ∧
    (propagateSSA (injectRecovery (instrumentLoads (propagateShadowPointers
        (createShadowAllocas (startPass twoEdges)))))).ValTaintMap (.inst 1) = some (.inst 5) ∧
    ((propagateSSA (injectRecovery (instrumentLoads (propagateShadowPointers
        (createShadowAllocas (startPass twoEdges)))))).F.getBlock 2).map (fun B => B.insts) =
      some [ ⟨4, "exec.taint", .phi [(.cbool false, 0), (.cbool false, 0), (.inst 3, 1)]⟩,
             ⟨5, "x.taint", .phi [(.cbool false, 0), (.cbool false, 1)]⟩,
             ⟨1, "x", .phi [(.cint 10, 0), (.cint 10, 0), (.cint 20, 1)]⟩,
             ⟨2, "", .store (.inst 1) (.arg 2)⟩ ] := by
  decide!

theorem execInsts_addIncomingFront (sem : Oracle) (v : Value) (b : BlockId) (L : List Inst)
    (σ : State) : execInsts sem σ (addIncomingFront v b L) = execInsts sem σ L := by
  cases L with
  | nil => rfl
  | cons I rest =>
    simp only [addIncomingFront]
    split
    · rename_i hphi
      simp only [execInsts]
      rw [execInst_phi sem σ I hphi, execInst_phi]
      rcases I with ⟨id, name, op⟩
      cases op <;> simp_all [Op.isPhi, addIncoming]
    · rfl

theorem execPhis_addIncomingFront (v : Value) (b p : BlockId) (hp : p ≠ b) (L : List Inst)
    (σ0 σ : State) : execPhis σ0 p σ (addIncomingFront v b L) = execPhis σ0 p σ L := by
  cases L with
  | nil => rfl
  | cons I rest =>
    simp only [addIncomingFront]
    split
    · rcases I with ⟨id, name, op⟩
      cases op with
      | phi inc =>
        simp only [addIncoming, execPhis, List.find?_append]
        cases inc.find? (fun e => e.2 == p) with
        | some e => rfl
        | none => simp [hp, Ne.symm hp]
      | _ => simp_all [Op.isPhi]
    · rfl

theorem memo_block (B : Block) (P T : BlockId) (idx : Nat) (v : Value) :
    ((fun Z : Block => if Z.id = T then { Z with insts := addIncomingFront v P Z.insts } else Z)
      (if B.id = P then { B with term := B.term.setSuccessor idx T } else B)).insts =
      (if B.id = T then addIncomingFront v P B.insts else B.insts) ∧
    ((fun Z : Block => if Z.id = T then { Z with insts := addIncomingFront v P Z.insts } else Z)
      (if B.id = P then { B with term := B.term.setSuccessor idx T } else B)).term =
      (if B.id = P then B.term.setSuccessor idx T else B.term) := by
  rcases B with ⟨i, ins, t⟩
  by_cases h1 : i = P <;> by_cases h2 : i = T <;> simp_all

/-- The simulation for a memoized rewrite: retargeting the fault arm of a
further guard and adding its placeholder entry to the merge node changes no
run that does not end in the report block. -/
theorem memo_arm_sim (G : Func) (CrashBB P T : BlockId) (c : Value) (s0 s1 : BlockId)
    (v : Value) (hP : (G.getBlock P).map (fun X => X.term) = some (Term.condBr c s0 s1))
    (hcr : s0 = CrashBB ∨ s1 = CrashBB)
    (hsafeT : (if s0 = CrashBB then s1 else s0) ≠ T) (hCT : CrashBB ≠ T)
    (hcrash : (G.getBlock CrashBB).map (fun X => X.term) = some .unreachable)
    (sem : Oracle) :
    ∀ (n : Nat) (pred : Option BlockId) (cur : BlockId) (σ : State) (r : BlockId × State),
      (∀ p, pred = some p → ∃ PB, G.getBlock p = some PB ∧ cur ∈ PB.term.successors) →
      run sem G n pred cur σ = some r → r.1 ≠ CrashBB →
      run sem ((G.setSuccessorOf P (if s0 = CrashBB then 0 else 1) T).updateInsts T
        (addIncomingFront v P)) n pred cur σ = some r := by
  intro n
  induction n with
  | zero => intro pred cur σ r _ hrun; simp [run] at hrun
  | succ n ih =>
    intro pred cur σ r hedge hrun hr
    rw [run_succ] at hrun
    cases hB : G.getBlock cur with
    | none => rw [hB] at hrun; simp at hrun
    | some B =>
      rw [hB] at hrun
      have hBid : B.id = cur := (getBlock_some hB).2
      simp only at hrun
      -- the block of the rewritten function
      have hget : ((G.setSuccessorOf P (if s0 = CrashBB then 0 else 1) T).updateInsts T
          (addIncomingFront v P)).getBlock cur = some
          ((fun Z : Block =>
            if Z.id = T then { Z with insts := addIncomingFront v P Z.insts } else Z)
          (if B.id = P then
            { B with term := B.term.setSuccessor (if s0 = CrashBB then 0 else 1) T }
            else B)) := by
        rw [getBlock_updateInsts, getBlock_setSuccessorOf, hB]
        rfl
      obtain ⟨hins0, hterm0⟩ := memo_block B P T (if s0 = CrashBB then 0 else 1) v
      generalize (fun Z : Block =>
          if Z.id = T then { Z with insts := addIncomingFront v P Z.insts } else Z)
        (if B.id = P then { B with term := B.term.setSuccessor (if s0 = CrashBB then 0 else 1) T }
          else B) = B' at hget hins0 hterm0
      rw [run_succ, hget]
      simp only
      have hins : B'.insts = if cur = T then addIncomingFront v P B.insts else B.insts := by
        rw [hins0, hBid]
      have hterm : B'.term = if cur = P then
          B.term.setSuccessor (if s0 = CrashBB then 0 else 1) T else B.term := by
        rw [hterm0, hBid]
      have hpredP : cur = T → ∀ p, pred = some p → p ≠ P := by
        intro hcT p hp hpP
        obtain ⟨PB, hPB, hmem⟩ := hedge p hp
        rw [hpP] at hPB
        rw [hPB] at hP
        simp only [Option.map_some', Option.some.injEq] at hP
        rw [hP, hcT] at hmem
        simp only [Term.successors, List.mem_cons, List.mem_singleton, List.not_mem_nil,
          or_false] at hmem
        by_cases h0 : s0 = CrashBB
        · rw [if_pos h0] at hsafeT
          rcases hmem with h | h
          · exact hCT (h0 ▸ h.symm)
          · exact hsafeT h.symm
        · rw [if_neg h0] at hsafeT
          have h1 : s1 = CrashBB := hcr.resolve_left h0
          rcases hmem with h | h
          · exact hsafeT h.symm
          · exact hCT (h1 ▸ h.symm)
      have hstate : (execBlock sem σ pred B').1 = (execBlock sem σ pred B).1 := by
        by_cases hcT : cur = T
        · cases pred with
          | none =>
            simp only [execBlock, hins, if_pos hcT, execInsts_addIncomingFront]
          | some p =>
            simp only [execBlock, hins, if_pos hcT, execInsts_addIncomingFront]
            rw [execPhis_addIncomingFront v P p (hpredP hcT p rfl)]
        · cases pred <;> simp only [execBlock, hins, if_neg hcT]
      rw [hstate]
      have hnext : B'.term.next (execBlock sem σ pred B).1 = B.term.next (execBlock sem σ pred B).1 ∨
          B.term.next (execBlock sem σ pred B).1 = some CrashBB := by
        rw [hterm]
        by_cases hcP : cur = P
        · rw [if_pos hcP]
          have hBt : B.term = Term.condBr c s0 s1 := by
            rw [← hcP, hB] at hP
            simpa using hP
          rw [hBt]
          simp only [Term.setSuccessor, Term.next]
          by_cases h0 : s0 = CrashBB
          · simp only [if_pos h0, if_true, Term.next]
            cases truth (execBlock sem σ pred B).1 c
            · left; rfl
            · right; simp [h0]
          · have h1 : s1 = CrashBB := hcr.resolve_left h0
            simp only [if_neg h0, Term.next, show ((1 : Nat) = 0) = False from by simp, if_false]
            cases truth (execBlock sem σ pred B).1 c
            · right; simp [h1]
            · left; rfl
        · rw [if_neg hcP]; left; rfl
      rcases hnext with hnext | hnext
      · rw [hnext]
        cases hn : B.term.next (execBlock sem σ pred B).1 with
        | none => rw [hn] at hrun; exact hrun
        | some nxt =>
          rw [hn] at hrun
          simp only at hrun ⊢
          exact ih (some cur) nxt _ r (fun p hp => by
            simp only [Option.some.injEq] at hp
            subst hp
            exact ⟨B, hB, mem_successors_of_next _ B.term nxt hn⟩) hrun hr
      · rw [hnext] at hrun
        simp only at hrun
        exact absurd (run_crash sem G CrashBB hcrash n _ _ r.1 r.2 hrun) hr

/-- After the first rewrite of a guard no operand outside the merge node
reads the Protected Operation's result. -/
theorem first_no_use (F : Func) (memo : TargetMap) (CrashBB P SafeBB : BlockId)
    (SB : Block) (pre post : List Inst) (M : Inst) (c : Value) (s0 s1 : BlockId)
    (hs : FirstRewrite F memo CrashBB P SafeBB SB pre post M c s0 s1) :
    NoUseOutside M.id F.nextInst (plainOne F memo CrashBB P).1 := by
  have hfresh : ∀ B ∈ F.blocks, B.id < F.nextBlock := fun B hB => (hs.wf B hB).1
  have hpre' : ∀ I ∈ pre, isMemInstPlain I = false ∧ I.id ≠ M.id := fun I hI =>
    ⟨by rw [isMemInstPlain_eq]; exact hs.hpre I hI,
     hs.huniq.1 I (List.mem_append_left _ hI)⟩
  have hM' : isMemInstPlain M = true := by rw [isMemInstPlain_eq]; exact hs.hM
  obtain ⟨hbS, hbT, hbQ⟩ := first_blocks F memo CrashBB P SafeBB SB pre post M c s0 s1 hfresh
    hs.hP hs.hcr hs.hsafe hs.hS hs.hinsts hpre' hM' hs.hv hs.hmemo hs.hne
  have hMSB : M ∈ SB.insts := by rw [hs.hinsts]; simp
  have hMne : M.id ≠ F.nextInst :=
    Nat.ne_of_lt ((hs.wf SB (getBlock_some hs.hS).1).2.2 M hMSB).1
  have hmapped : ∀ (L : List Inst), ∀ I ∈ L.map
      (Inst.replaceUsesExcept (.inst M.id) (.inst F.nextInst) F.nextInst),
      I.id ≠ F.nextInst → ∀ v ∈ I.op.operands, Value.uses M.id v = false := by
    intro L I hI hid
    simp only [List.mem_map] at hI
    obtain ⟨J, _, rfl⟩ := hI
    exact replaceUses_no_use M.id F.nextInst hMne J hid
  intro Q X hX
  by_cases hQS : Q = SafeBB
  · subst hQS
    rw [hbS] at hX
    simp only [Option.some.injEq] at hX
    subst hX
    exact ⟨hmapped _, term_no_use M.id F.nextInst hMne _⟩
  · by_cases hQT : Q = F.nextBlock
    · subst hQT
      rw [hbT] at hX
      simp only [Option.some.injEq] at hX
      subst hX
      refine ⟨fun I hI hid => ?_, term_no_use M.id F.nextInst hMne _⟩
      simp only [List.mem_cons] at hI
      rcases hI with rfl | hI
      · exact absurd rfl hid
      · exact hmapped _ I hI hid
    · rw [hbQ Q hQS hQT] at hX
      cases hY : F.getBlock Q with
      | none => rw [hY] at hX; simp at hX
      | some Y =>
        rw [hY] at hX
        simp only [Option.map_some', Option.some.injEq] at hX
        subst hX
        by_cases hQP : Q = P
        · rw [if_pos hQP]
          refine ⟨hmapped _, ?_⟩
          simp only [term_operands_setSuccessor]
          exact term_no_use M.id F.nextInst hMne _
        · rw [if_neg hQP]
          exact ⟨hmapped _, term_no_use M.id F.nextInst hMne _⟩

theorem mem_addIncomingFront (v : Value) (b : BlockId) (L : List Inst) (I : Inst)
    (h : I ∈ addIncomingFront v b L) :
    I ∈ L ∨ ∃ J ∈ L, ∃ inc, J.op = .phi inc ∧ I = { J with op := .phi (inc ++ [(v, b)]) } := by
  cases L with
  | nil => simp [addIncomingFront] at h
  | cons J rest =>
    simp only [addIncomingFront] at h
    split at h
    · simp only [List.mem_cons] at h
      rcases h with h | h
      · rcases J with ⟨id, name, op⟩
        cases op with
        | phi inc =>
          right
          exact ⟨_, List.mem_cons_self _ _, inc, rfl, h⟩
        | _ => simp_all [Op.isPhi]
      · left; exact List.mem_cons_of_mem _ h
    · left; exact h

theorem memo_getBlock (G : Func) (P T : BlockId) (idx : Nat) (v : Value) (Q : BlockId) :
    ((G.setSuccessorOf P idx T).updateInsts T (addIncomingFront v P)).getBlock Q =
      (G.getBlock Q).map (fun B =>
        (fun Z : Block => if Z.id = T then { Z with insts := addIncomingFront v P Z.insts } else Z)
          (if B.id = P then { B with term := B.term.setSuccessor idx T } else B)) := by
  rw [getBlock_updateInsts, getBlock_setSuccessorOf, Option.map_map]
  rfl

/-- A memoized rewrite adds no use of the Protected Operation's result. -/
theorem memo_no_use (M Phi : InstId) (G : Func) (P T : BlockId) (idx : Nat)
    (h : NoUseOutside M Phi G) :
    NoUseOutside M Phi ((G.setSuccessorOf P idx T).updateInsts T
      (addIncomingFront .undef P)) := by
  intro Q X hX
  rw [memo_getBlock] at hX
  cases hB : G.getBlock Q with
  | none => rw [hB] at hX; simp at hX
  | some B =>
    rw [hB] at hX
    have hX' := Option.some.inj hX
    obtain ⟨hins, hterm⟩ := memo_block B P T idx .undef
    rw [hX'] at hins hterm
    obtain ⟨h1, h2⟩ := h Q B hB
    constructor
    · intro I hI hid
      rw [hins] at hI
      split at hI
      · rcases mem_addIncomingFront _ _ _ _ hI with hI | ⟨J, hJ, inc, hop, rfl⟩
        · exact h1 I hI hid
        · intro w hw
          simp only [Op.operands, List.map_append, List.map_cons, List.map_nil,
            List.mem_append, List.mem_singleton] at hw
          rcases hw with hw | rfl
          · exact h1 J hJ hid w (by rw [hop]; exact hw)
          · rfl
      · exact h1 I hI hid
    · rw [hterm]
      split
      · rw [term_operands_setSuccessor]; exact h2
      · exact h2

/-- What the first rewrite of a guard leaves for the guards that follow: the
memo entry, the Safe Block still led to its Protected Operation, the merge
node at the head of the Merge Block, the report block, and the other guards of
the same Safe Block. -/
theorem first_invariants (F : Func) (memo : TargetMap) (CrashBB P SafeBB : BlockId)
    (SB : Block) (pre post : List Inst) (M : Inst) (c : Value) (s0 s1 : BlockId)
    (hs : FirstRewrite F memo CrashBB P SafeBB SB pre post M c s0 s1)
    (hCS : CrashBB ≠ SafeBB) (rest : List BlockId)
    (hrest : ∀ Q ∈ rest, Q ≠ P ∧ Q ≠ SafeBB ∧ isGuardOf F CrashBB SafeBB Q) :
    (plainOne F memo CrashBB P).2 M.id = some F.nextBlock ∧
    SafeBB ≠ F.nextBlock ∧ CrashBB ≠ F.nextBlock ∧
    (∃ SB' M', (plainOne F memo CrashBB P).1.getBlock SafeBB = some SB' ∧
      SB'.insts.find? isMemInstPlain = some M' ∧ M'.id = M.id ∧ M'.op.isVoid = false) ∧
    (((plainOne F memo CrashBB P).1.getBlock F.nextBlock).map (fun X => X.insts)).bind
        List.head? =
      some { id := F.nextInst, name := "cima.skipped",
             op := .phi [(.inst M.id, SafeBB), (.undef, P)] } ∧
    ((plainOne F memo CrashBB P).1.getBlock CrashBB).map (fun X => X.term) =
      some .unreachable ∧
    (∀ Q ∈ rest, Q ≠ F.nextBlock ∧ Q ≠ SafeBB ∧
      isGuardOf (plainOne F memo CrashBB P).1 CrashBB SafeBB Q) := by
  have hfresh : ∀ B ∈ F.blocks, B.id < F.nextBlock := fun B hB => (hs.wf B hB).1
  have hpre' : ∀ I ∈ pre, isMemInstPlain I = false ∧ I.id ≠ M.id := fun I hI =>
    ⟨by rw [isMemInstPlain_eq]; exact hs.hpre I hI,
     hs.huniq.1 I (List.mem_append_left _ hI)⟩
  have hM' : isMemInstPlain M = true := by rw [isMemInstPlain_eq]; exact hs.hM
  have hfind : SB.insts.find? isMemInstPlain = some M := by
    rw [hs.hinsts]; exact find?_first _ pre post M (fun I hI => (hpre' I hI).1) hM'
  obtain ⟨hbS, hbT, hbQ⟩ := first_blocks F memo CrashBB P SafeBB SB pre post M c s0 s1 hfresh
    hs.hP hs.hcr hs.hsafe hs.hS hs.hinsts hpre' hM' hs.hv hs.hmemo hs.hne
  have hlt : ∀ q (t : Term), (F.getBlock q).map (fun X => X.term) = some t → q < F.nextBlock := by
    intro q t h
    cases hX : F.getBlock q with
    | none => rw [hX] at h; simp at h
    | some X =>
      have := hfresh X (getBlock_some hX).1
      rw [(getBlock_some hX).2] at this
      exact this
  have hST : SafeBB ≠ F.nextBlock := by
    have := hfresh SB (getBlock_some hs.hS).1
    rw [(getBlock_some hs.hS).2] at this
    exact Nat.ne_of_lt this
  have hCT : CrashBB ≠ F.nextBlock := Nat.ne_of_lt (hlt CrashBB _ hs.hcrash)
  have hCP : CrashBB ≠ P := by
    intro h
    have h1 := hs.hcrash
    rw [h, hs.hP] at h1
    simp at h1
  refine ⟨?_, hST, hCT, ?_, by rw [hbT]; rfl, ?_, ?_⟩
  · rw [plainOne_first_eq F memo CrashBB P SafeBB SB M c s0 s1 hs.hP hs.hcr hs.hsafe hs.hS hfind
      hs.hv hs.hmemo hs.hne]
    simp [TargetMap.set]
  · obtain ⟨f, hf, hfid, hfmem, hfvoid⟩ := replacePhiUses_insts_map SB.term.successors SafeBB
      F.nextBlock { id := SafeBB, insts := pre ++ [M], term := .br F.nextBlock }
    refine ⟨_, (f M).replaceUsesExcept (.inst M.id) (.inst F.nextInst) F.nextInst, hbS, ?_, ?_, ?_⟩
    · simp only [Block.replaceUsesExcept]
      rw [hf, find?_map_keep _ _ (isMemInstPlain_replaceUses _ _ _), find?_map_keep _ _ hfmem,
        find?_first isMemInstPlain pre [] M (fun I hI => (hpre' I hI).1) hM']
      rfl
    · rw [replaceUses_id, hfid]
    · rw [replaceUses_isVoid, hfvoid, hs.hv]
  · rw [hbQ CrashBB hCS hCT]
    simp only [if_neg hCP]
    cases hX : F.getBlock CrashBB with
    | none => have := hs.hcrash; rw [hX] at this; simp at this
    | some X =>
      have := hs.hcrash
      rw [hX] at this
      simp only [Option.map_some', Option.some.injEq] at this
      simp [Block.replaceUsesExcept, replacePhiUses_term, this, Term.mapValues]
  · intro Q hQ
    obtain ⟨hQP, hQS, c', t0, t1, h1, h2, h3⟩ := hrest Q hQ
    have hQT : Q ≠ F.nextBlock := Nat.ne_of_lt (hlt Q _ h1)
    refine ⟨hQT, hQS, Value.replace (.inst M.id) (.inst F.nextInst) c', t0, t1, ?_, h2, h3⟩
    rw [hbQ Q hQS hQT]
    simp only [if_neg hQP]
    cases hX : F.getBlock Q with
    | none => rw [hX] at h1; simp at h1
    | some X =>
      rw [hX] at h1
      simp only [Option.map_some', Option.some.injEq] at h1
      simp [Block.replaceUsesExcept, replacePhiUses_term, h1, Term.mapValues]

/-- The memoized phase of the loop over `Preds` changes no run that does not
end in the report block, and adds no use of the Protected Operation's
result. -/
theorem plainPreds_memo_sim (CrashBB SafeBB T : BlockId) (mid Mi Phi : InstId)
    (R : List BlockId) :
    ∀ (G : Func) (memo : TargetMap),
      memo mid = some T → SafeBB ≠ T → CrashBB ≠ T →
      (∃ SB M, G.getBlock SafeBB = some SB ∧ SB.insts.find? isMemInstPlain = some M ∧
        M.id = mid ∧ M.op.isVoid = false) →
      (G.getBlock CrashBB).map (fun X => X.term) = some .unreachable →
      (∀ P ∈ R, P ≠ T ∧ P ≠ SafeBB ∧ isGuardOf G CrashBB SafeBB P) →
      R.Nodup →
      (∀ (sem : Oracle) (n : Nat) (cur : BlockId) (σ : State) (r : BlockId × State),
        run sem G n none cur σ = some r → r.1 ≠ CrashBB →
        run sem (plainPreds CrashBB G memo R).1 n none cur σ = some r) ∧
      (NoUseOutside Mi Phi G → NoUseOutside Mi Phi (plainPreds CrashBB G memo R).1) := by
  induction R with
  | nil => intro G memo _ _ _ _ _ _ _; exact ⟨fun _ _ _ _ _ h _ => h, fun h => h⟩
  | cons P rest ih =>
    intro G memo hmemo hST hCT hSafe hcrash hR hnd
    obtain ⟨SB, M, hS, hfind, hMid, hv⟩ := hSafe
    obtain ⟨hPT, hPS, c, s0, s1, hterm, hcr, hsafe⟩ := hR P (List.mem_cons_self _ _)
    have hstep := plainOne_memo_eq G memo CrashBB P SafeBB T SB M c s0 s1 hterm hcr hsafe hS
      hfind hv (hMid ▸ hmemo)
    have hblocks := memo_step_blocks G P T (if s0 = CrashBB then 0 else 1) Value.undef
    have hsim := memo_arm_sim G CrashBB P T c s0 s1 Value.undef hterm hcr (hsafe ▸ hST) hCT
      hcrash
    have hnouse := memo_no_use Mi Phi G P T (if s0 = CrashBB then 0 else 1)
    simp only [plainPreds]
    rw [hstep]
    simp only
    generalize (G.setSuccessorOf P (if s0 = CrashBB then 0 else 1) T).updateInsts T
      (addIncomingFront Value.undef P) = G' at hblocks hsim hnouse
    have hnd' : rest.Nodup := (List.nodup_cons.mp hnd).2
    have hPrest : P ∉ rest := (List.nodup_cons.mp hnd).1
    have hCP : CrashBB ≠ P := by
      intro h
      rw [h, hterm] at hcrash
      simp at hcrash
    have hS' : ∃ SB' M', G'.getBlock SafeBB = some SB' ∧
        SB'.insts.find? isMemInstPlain = some M' ∧ M'.id = mid ∧ M'.op.isVoid = false := by
      have h1 := (hblocks SafeBB).1
      rw [hS, if_neg hST] at h1
      simp only [Option.map_some', Option.map_eq_some'] at h1
      obtain ⟨SB', hSB', hins⟩ := h1
      exact ⟨SB', M, hSB', by rw [hins]; exact hfind, hMid, hv⟩
    have hcrash' : (G'.getBlock CrashBB).map (fun X => X.term) = some .unreachable := by
      rw [(hblocks CrashBB).2, if_neg hCP]
      exact hcrash
    have hR' : ∀ P' ∈ rest, P' ≠ T ∧ P' ≠ SafeBB ∧ isGuardOf G' CrashBB SafeBB P' := by
      intro P' hP'
      obtain ⟨h1, h2, c', t0, t1, h3, h4, h5⟩ := hR P' (List.mem_cons_of_mem _ hP')
      have hne : P' ≠ P := fun h => hPrest (h ▸ hP')
      refine ⟨h1, h2, c', t0, t1, ?_, h4, h5⟩
      rw [(hblocks P').2, h3, if_neg hne]
    obtain ⟨i1, i2⟩ := ih G' memo hmemo hST hCT hS' hcrash' hR' hnd'
    refine ⟨fun sem n cur σ r hrun hr => ?_, fun h => i2 (hnouse h)⟩
    exact i1 sem n cur σ r (hsim sem n none cur σ r (fun p hp => by simp at hp) hrun hr) hr

/-- C14: the loop over `Preds` of the plain pass on the guards `P :: rest` of
one report block that share the Safe Block `SafeBB`, whose value-producing
Protected Operation `M` is met for the first time (`FirstRewrite` for `P`).
The merge node at the head of the Merge Block takes `M`'s result on the edge
from the Safe Block and a placeholder on each guard's edge; outside the merge
node no operand of the rewritten function reads `M`'s result any more (every
former use reads the merge node); and every run of the original function
that does not end in the report block, hence takes no fault arm, is matched
by a run of the rewritten function from the same block that ends in the
corresponding block with the same memory, the same arguments and the same
value for every instruction of the original function, `M` included, the
merge node holding `M`'s value. -/
theorem plain_safe_arm_unaltered (F : Func) (memo : TargetMap) (CrashBB P SafeBB : BlockId)
    (SB : Block) (pre post : List Inst) (M : Inst) (c : Value) (s0 s1 : BlockId)
    (rest : List BlockId)
    (hs : FirstRewrite F memo CrashBB P SafeBB SB pre post M c s0 s1)
    (hCS : CrashBB ≠ SafeBB) (hnd : (P :: rest).Nodup) (hself : SafeBB ∉ rest)
    (hguards : ∀ Q ∈ rest, isGuardOf F CrashBB SafeBB Q) :
    (((plainPreds CrashBB F memo (P :: rest)).1.getBlock F.nextBlock).map
        (fun X => X.insts)).bind List.head? =
      some { id := F.nextInst, name := "cima.skipped",
             op := .phi ((.inst M.id, SafeBB) ::
               (P :: rest).map (fun Q => (Value.undef, Q))) } ∧
    NoUseOutside M.id F.nextInst (plainPreds CrashBB F memo (P :: rest)).1 ∧
    (∀ sem : Oracle, (∀ I J : Inst, I.id = J.id → sem I = sem J) →
      ∀ (n : Nat) (cur : BlockId) (σ σ' : State) (r : BlockId × State),
        SameUpTo M.id F.nextInst σ σ' →
        run sem F n none cur σ = some r → r.1 ≠ CrashBB →
        ∃ n' r', run sem (plainPreds CrashBB F memo (P :: rest)).1 n' none cur σ' = some r' ∧
          r'.1 = (if r.1 = SafeBB then F.nextBlock else r.1) ∧
          SameUpTo M.id F.nextInst r.2 r'.2) := by
  have hrest : ∀ Q ∈ rest, Q ≠ P ∧ Q ≠ SafeBB ∧ isGuardOf F CrashBB SafeBB Q := fun Q hQ =>
    ⟨fun h => (List.nodup_cons.mp hnd).1 (h ▸ hQ), fun h => hself (h ▸ hQ), hguards Q hQ⟩
  obtain ⟨m1, hST, hCT, hS1, hT1, hcrash1, hR1⟩ :=
    first_invariants F memo CrashBB P SafeBB SB pre post M c s0 s1 hs hCS rest hrest
  have hno := first_no_use F memo CrashBB P SafeBB SB pre post M c s0 s1 hs
  have hsim := safe_arm_sim F memo CrashBB P SafeBB SB pre post M c s0 s1 hs
  simp only [plainPreds]
  generalize (plainOne F memo CrashBB P).1 = F1 at hS1 hT1 hcrash1 hR1 hno hsim
  generalize (plainOne F memo CrashBB P).2 = memo1 at m1
  obtain ⟨_, _, _, _, _, _, _, i8⟩ := plainPreds_memo CrashBB SafeBB F.nextBlock M.id rest F1
    memo1 { id := F.nextInst, name := "cima.skipped",
            op := .phi [(.inst M.id, SafeBB), (.undef, P)] }
    [(.inst M.id, SafeBB), (.undef, P)] m1 hST hS1 hT1 rfl hR1 (List.nodup_cons.mp hnd).2
  obtain ⟨j1, j2⟩ := plainPreds_memo_sim CrashBB SafeBB F.nextBlock M.id M.id F.nextInst rest F1
    memo1 m1 hST hCT hS1 hcrash1 hR1 (List.nodup_cons.mp hnd).2
  refine ⟨by rw [i8]; rfl, j2 hno, ?_⟩
  intro sem hsem n cur σ σ' r hR hrun hr
  obtain ⟨n', σf', h1, h2⟩ := hsim sem hsem n none cur σ σ' r.1 r.2 hR
    (fun p hp => by simp at hp) hrun hr
  refine ⟨n', _, j1 sem n' cur σ' _ h1 ?_, rfl, h2⟩
  simp only
  split
  · exact Ne.symm hCT
  · exact hr

/-- C14 at `twoGuards` with both checks passing: the original function
leaves from the Safe Block 3 with `42` stored at address `200`, and the
rewritten function leaves from the Merge Block 5 with the same memory. -/
theorem plain_safe_arm_unaltered_witness :
    (run exampleSem twoGuards 3 none 0 passState).map (fun r => (r.1, r.2.mem 200)) =
      some (3, 42) ∧
    ∃ n' r', run exampleSem (plainPreds 4 twoGuards (fun _ => none) [1, 2]).1 n' none 0
        passState = some r' ∧ r'.1 = 5 ∧ r'.2.mem 200 = 42 := by
  have hrun : (run exampleSem twoGuards 3 none 0 passState).map
      (fun r => (r.1, r.2.mem 200)) = some (3, 42) := by decide
  refine ⟨hrun, ?_⟩
  obtain ⟨r, hr⟩ : ∃ r, run exampleSem twoGuards 3 none 0 passState = some r := ⟨_, rfl⟩
  rw [hr] at hrun
  simp only [Option.map_some', Option.some.injEq, Prod.mk.injEq] at hrun
  obtain ⟨n', r', h1, h2, h3⟩ :=
    (plain_safe_arm_unaltered twoGuards (fun _ => none) 4 1 3
      { id := 3, insts := [⟨4, "v", .load (.arg 0)⟩, ⟨5, "", .store (.inst 4) (.arg 2)⟩],
        term := .ret none }
      [] [⟨5, "", .store (.inst 4) (.arg 2)⟩] ⟨4, "v", .load (.arg 0)⟩ (.inst 2) 4 3 [2]
      { wf := by decide, hP := by decide, hcr := Or.inl rfl, hsafe := by decide,
        hS := by decide, hinsts := rfl, hpre := by simp, hM := by decide, hv := rfl,
        hmemo := rfl, hne := by decide, huniq := ⟨by decide, by decide⟩,
        hpost := by decide, hcrash := by decide }
      (by decide) (by decide) (by decide)
      (fun Q hQ => by
        simp only [List.mem_singleton] at hQ
        subst hQ
        exact ⟨.inst 3, 3, 4, by decide, Or.inr rfl, by decide⟩)).2.2
      exampleSem exampleSem_by_id 3 0 passState passState r
      ⟨⟨rfl, rfl, fun _ _ => rfl⟩, rfl⟩ hr (by rw [hrun.1]; decide)
  refine ⟨n', r', h1, ?_, ?_⟩
  · rw [h2, hrun.1]; rfl
  · rw [h3.1.1, hrun.2]

/-- C25: the plain pass on `pingPong`, whose report block holds nothing but
the report call.  The first run rewrites the guard of the entry block by
splitting its Safe Block `1` after the load, which moves the guard branch of
block `1` into the Merge Block `4`; the snapshot of predecessors still names
block `1`, which now ends in an unconditional branch and is skipped.  After
the run block `4` is the one predecessor of the report block and ends in a
guard branch whose Safe Block `2` starts with a load.  A second run rewrites
that guard, so its output differs from the output of the first run. -/
theorem plain_pass_not_idempotent :
    (∀ B ∈ pingPong.blocks,
      B.insts.any isAsanReportCall = true → B.insts.any isMemInstPlain = false) ∧
    (cimaPlain pingPong).predecessors 3 = [4] ∧
    ((cimaPlain pingPong).getBlock 4).map (fun B => B.term) = some (.condBr (.inst 3) 3 2) ∧
    protectedOp (cimaPlain pingPong) 3 4 = some ⟨4, "b", .load (.arg 2)⟩ ∧
    ((cimaPlain (cimaPlain pingPong)).getBlock 4).map (fun B => B.term) =
      some (.condBr (.inst 3) 5 2) ∧
    cimaPlain (cimaPlain pingPong) ≠ cimaPlain pingPong := by
  decide!

/-- C26: the plain pass on `reportAfterLoad`, in which no block branches to
itself.  The guard of block `0` is rewritten for the first report call: block
`2` is split after the load and the Merge Block `3` receives the rest, the
second report call included.  For that call block `3` is the report block and
block `0` one of its predecessors, with the same Safe Block `2` and the same
memoized load, so the merge node gets a second entry for block `0`.  The merge
node names the blocks `2`, `0`, `0`, while the predecessor edges of the Merge
Block come from `0` and `2`, one each. -/
theorem merge_node_duplicate_entry :
    (∀ B ∈ reportAfterLoad.blocks, B.id ∉ B.term.successors) ∧
    ((cimaPlain reportAfterLoad).getBlock 3).map (fun B => B.insts.head?.map (fun I => I.op)) =
      some (some (.phi [(.inst 3, 2), (.undef, 0), (.undef, 0)])) ∧
    (cimaPlain reportAfterLoad).predecessors 3 = [0, 2] := by
  decide!

theorem evalV_write (σ : State) (a b : Nat) (v : Value) :
    evalV (σ.write a b) v = evalV σ v ∧ truth (σ.write a b) v = truth σ v := by
  induction v with
  | orOf x y ihx ihy => simp [evalV, truth, ihx.2, ihy.2]
  | _ => simp [evalV, truth, State.write]

/-- A value that does not read the register `n` is not affected by setting
it. -/
theorem evalV_setReg (σ : State) (n : InstId) (x : Nat) (v : Value)
    (h : Value.uses n v = false) :
    evalV (σ.setReg n x) v = evalV σ v ∧ truth (σ.setReg n x) v = truth σ v := by
  induction v with
  | inst j =>
    simp only [Value.uses, beq_eq_false_iff_ne, ne_eq] at h
    simp [evalV, truth, State.setReg, h]
  | orOf a b iha ihb =>
    simp only [Value.uses, Bool.or_eq_false_iff] at h
    simp [evalV, truth, (iha h.1).2, (ihb h.2).2]
  | _ => simp [evalV, truth, State.setReg]

/-- The shadow write changes the memory at the shadow address only, where it
leaves the taint bit as `0` or `1`, and no register but its own `zext`. -/
theorem shadowWrite_mem (sem : Oracle) (σ : State) (T sp : Value) (next : InstId) :
    (execInsts sem σ (shadowWrite T sp next).1).mem
        (evalV (execInsts sem σ (shadowWrite T sp next).1) sp) =
      (if truth σ T then 1 else 0) ∧
    (∀ x, x ≠ evalV (execInsts sem σ (shadowWrite T sp next).1) sp →
      (execInsts sem σ (shadowWrite T sp next).1).mem x = σ.mem x) ∧
    (execInsts sem σ (shadowWrite T sp next).1).args = σ.args ∧
    (∀ id, id ≠ next → (execInsts sem σ (shadowWrite T sp next).1).regs id = σ.regs id) := by
  have key : ∃ σ₁ : State, σ₁.mem = σ.mem ∧ σ₁.args = σ.args ∧
      (∀ id, id ≠ next → σ₁.regs id = σ.regs id) ∧
      execInsts sem σ (shadowWrite T sp next).1 =
        σ₁.write (evalV σ₁ sp) (if truth σ T then 1 else 0) := by
    have hset : ∀ x : Nat, ∀ id, id ≠ next → (σ.setReg next x).regs id = σ.regs id := by
      intro x id hid
      simp [State.setReg, hid]
    cases T with
    | cbool b =>
      refine ⟨σ, rfl, rfl, fun _ _ => rfl, ?_⟩
      cases b <;> simp [shadowWrite, execInsts, execInst, evalV, truth]
    | cint n =>
      exact ⟨σ.setReg next (if truth σ (.cint n) then 1 else 0), rfl, rfl, hset _, by
        simp [shadowWrite, execInsts, execInst, evalV, State.setReg]⟩
    | undef =>
      exact ⟨σ.setReg next (if truth σ .undef then 1 else 0), rfl, rfl, hset _, by
        simp [shadowWrite, execInsts, execInst, evalV, State.setReg]⟩
    | arg n =>
      exact ⟨σ.setReg next (if truth σ (.arg n) then 1 else 0), rfl, rfl, hset _, by
        simp [shadowWrite, execInsts, execInst, evalV, State.setReg]⟩
    | inst id =>
      exact ⟨σ.setReg next (if truth σ (.inst id) then 1 else 0), rfl, rfl, hset _, by
        simp [shadowWrite, execInsts, execInst, evalV, State.setReg]⟩
    | orOf a b =>
      exact ⟨σ.setReg next (if truth σ (.orOf a b) then 1 else 0), rfl, rfl, hset _, by
        simp [shadowWrite, execInsts, execInst, evalV, State.setReg]⟩
  obtain ⟨σ₁, hm, ha, hr, he⟩ := key
  rw [he, (evalV_write σ₁ _ _ sp).1]
  refine ⟨by simp [State.write], fun x hx => by simp [State.write, hx, hm], by simp [State.write, ha],
    fun id hid => by simp [State.write, hr id hid]⟩

/-- The taint that load instrumentation records: the low bit of the shadow
byte. -/
theorem loadTaintCode_exec (sem : Oracle) (σ : State) (sp : Value) (n : InstId) :
    truth (execInsts sem σ (loadTaintCode sp n)) (.inst (n + 1)) =
      (σ.mem (evalV σ sp) % 2 == 1) ∧
    (execInsts sem σ (loadTaintCode sp n)).mem = σ.mem := by
  simp [loadTaintCode, execInsts, execInst, truth, State.setReg, evalV]

/-- Load instrumentation changes the Taint Map at the results of the loads it
visits only. -/
theorem instrumentLoadInsts_frame (shadow : ValueMap) (L : List Inst) (next : InstId)
    (vt : ValueMap) (k : Value) (h : ∀ J ∈ L, k ≠ .inst J.id) :
    (instrumentLoadInsts shadow L next vt).2.2 k = vt k := by
  induction L generalizing next vt with
  | nil => rfl
  | cons I rest ih =>
    have hrest : ∀ J ∈ rest, k ≠ .inst J.id := fun J hJ => h J (List.mem_cons_of_mem _ hJ)
    have hI := h I (List.mem_cons_self _ _)
    simp only [instrumentLoadInsts]
    split
    · split
      · simp only []
        rw [ih _ _ hrest]
        simp [ValueMap.set, hI]
      · exact ih _ _ hrest
    · exact ih _ _ hrest

/-- What load instrumentation does at a load whose pointer has a shadow
address. -/
theorem instrumentLoadInsts_load (shadow : ValueMap) (L : Inst) (rest : List Inst)
    (next : InstId) (vt : ValueMap) (Ptr sp : Value) (hL : L.op = .load Ptr)
    (hs : shadow Ptr = some sp) (huniq : ∀ J ∈ rest, J.id ≠ L.id) :
    (instrumentLoadInsts shadow (L :: rest) next vt).1 =
      loadTaintCode sp next ++ L ::
        (instrumentLoadInsts shadow rest (next + 2) (vt.set (.inst L.id) (.inst (next + 1)))).1 ∧
    (instrumentLoadInsts shadow (L :: rest) next vt).2.2 (.inst L.id) =
      some (.inst (next + 1)) := by
  simp only [instrumentLoadInsts, hL, hs, loadTaintCode]
  refine ⟨rfl, ?_⟩
  rw [instrumentLoadInsts_frame shadow rest _ _ _ (fun J hJ h => huniq J hJ (by
    injection h with h; exact h.symm))]
  simp [ValueMap.set]
/-- C22: an instrumented store through a pointer with the shadow address `sp`
and an instrumented load through a pointer with the shadow address `sp'`.
The first loop of `instrumentStores` puts the shadow write in front of the
store, load instrumentation puts `loadTaintCode` in front of the load and
records the result of its truncation as the load's taint.  In every state `σ0`
the shadow write leaves the store's taint bit at the address `sp` evaluates
to; whenever the load's code later runs in a state `σ2` in which that byte
has not been written since and `sp'` evaluates to the same address, the
recorded taint evaluates to the taint the store had; and an instrumented store
in between whose shadow address and target are other addresses leaves the
byte as it is, so the same holds after it. -/
theorem shadow_round_trip (sem : Oracle) (F : Func) (vt shadow vt0 : ValueMap)
    (ValOp PtrOp sp Ptr sp' : Value) (S L : Inst) (srest lrest : List Inst)
    (snext lnext : InstId)
    (hS : S.op = .store ValOp PtrOp) (hs : shadow PtrOp = some sp)
    (hL : L.op = .load Ptr) (hl : shadow Ptr = some sp')
    (huniq : ∀ J ∈ lrest, J.id ≠ L.id) :
    (∃ insts, (collectStores F vt shadow (S :: srest) snext).1 =
      (shadowWrite (storeTaint F vt ValOp PtrOp) sp snext).1 ++ S :: insts) ∧
    (∃ insts, (instrumentLoadInsts shadow (L :: lrest) lnext vt0).1 =
      loadTaintCode sp' lnext ++ L :: insts) ∧
    (instrumentLoadInsts shadow (L :: lrest) lnext vt0).2.2 (.inst L.id) =
      some (.inst (lnext + 1)) ∧
    ∀ (σ0 σ1 : State) (a : Nat),
      σ1 = execInsts sem σ0 (shadowWrite (storeTaint F vt ValOp PtrOp) sp snext).1 →
      a = evalV σ1 sp →
      σ1.mem a = (if truth σ0 (storeTaint F vt ValOp PtrOp) then 1 else 0) ∧
      (∀ σ2 : State, σ2.mem a = σ1.mem a → evalV σ2 sp' = a →
        truth (execInsts sem σ2 (loadTaintCode sp' lnext)) (.inst (lnext + 1)) =
          truth σ0 (storeTaint F vt ValOp PtrOp)) ∧
      (∀ (S2 : Inst) (v2 p2 sp2 t2 : Value) (n2 : InstId) (σ2 : State),
        S2.op = .store v2 p2 →
        σ2 = execInsts sem σ1 ((shadowWrite t2 sp2 n2).1 ++ [S2]) →
        evalV (execInsts sem σ1 (shadowWrite t2 sp2 n2).1) sp2 ≠ a →
        evalV (execInsts sem σ1 (shadowWrite t2 sp2 n2).1) p2 ≠ a →
        σ2.mem a = σ1.mem a ∧
        (evalV σ2 sp' = a →
          truth (execInsts sem σ2 (loadTaintCode sp' lnext)) (.inst (lnext + 1)) =
            truth σ0 (storeTaint F vt ValOp PtrOp))) := by
  have hround : ∀ (σ0 σ1 : State) (a : Nat),
      σ1 = execInsts sem σ0 (shadowWrite (storeTaint F vt ValOp PtrOp) sp snext).1 →
      a = evalV σ1 sp →
      σ1.mem a = (if truth σ0 (storeTaint F vt ValOp PtrOp) then 1 else 0) ∧
      ∀ σ2 : State, σ2.mem a = σ1.mem a → evalV σ2 sp' = a →
        truth (execInsts sem σ2 (loadTaintCode sp' lnext)) (.inst (lnext + 1)) =
          truth σ0 (storeTaint F vt ValOp PtrOp) := by
    intro σ0 σ1 a h1 ha
    have hw := (shadowWrite_mem sem σ0 (storeTaint F vt ValOp PtrOp) sp snext).1
    rw [← h1, ← ha] at hw
    refine ⟨hw, fun σ2 hm he => ?_⟩
    rw [(loadTaintCode_exec sem σ2 sp' lnext).1, he, hm, hw]
    split <;> simp_all
  refine ⟨?_, ⟨_, (instrumentLoadInsts_load shadow L lrest lnext vt0 Ptr sp' hL hl huniq).1⟩,
    (instrumentLoadInsts_load shadow L lrest lnext vt0 Ptr sp' hL hl huniq).2, ?_⟩
  · rcases S with ⟨id, name, op⟩
    simp only at hS
    subst hS
    exact ⟨_, by simp only [collectStores, hs]; rfl⟩
  · intro σ0 σ1 a h1 ha
    obtain ⟨hw, hr⟩ := hround σ0 σ1 a h1 ha
    refine ⟨hw, hr, ?_⟩
    intro S2 v2 p2 sp2 t2 n2 σ2 hS2 h2 hsp hp
    have hm : σ2.mem a = σ1.mem a := by
      rw [h2, execInsts_append]
      simp only [execInsts, execInst, hS2, State.write]
      rw [if_neg (fun h => hp h.symm)]
      exact (shadowWrite_mem sem σ1 t2 sp2 n2).2.1 a (fun h => hsp h.symm)
    exact ⟨hm, fun he => hr σ2 hm he⟩
/-- C22 on the example after `taint_struct.c`: the recovered value `7`, whose
taint is true, is stored to field `a`, then the constant `50` is stored to
field `b`, then field `a` is loaded: the taint recorded for the load is
true. -/
theorem shadow_round_trip_witness :
    truth (execInsts exampleSem
        (execInsts exampleSem
          (execInsts exampleSem structState (shadowWrite (.inst 8) (.inst 12) 30).1)
          ((shadowWrite (.cbool false) (.inst 13) 32).1 ++
            [⟨22, "", .store (.cint 50) (.inst 3)⟩]))
        (loadTaintCode (.inst 12) 40)) (.inst 41) = true :=
  ((((shadow_round_trip exampleSem chainFunc recoveredMap structShadow ValueMap.empty
      (.inst 7) (.inst 2) (.inst 12) (.inst 2) (.inst 12)
      ⟨20, "", .store (.inst 7) (.inst 2)⟩ ⟨21, "x", .load (.inst 2)⟩ [] [] 30 40
      rfl (by decide) rfl (by decide) (by simp)).2.2.2
    structState _ 300 rfl (by decide)).2.2
    ⟨22, "", .store (.cint 50) (.inst 3)⟩ (.cint 50) (.inst 3) (.inst 13) (.cbool false) 32 _
    rfl rfl (by decide) (by decide)).2 (by decide)).trans (by decide)

/-- Two states with the same arguments and the same registers, `n` apart,
give a value that does not read `n` the same meaning. -/
theorem evalV_agree (σ σ' : State) (n : InstId) (v : Value)
    (ha : σ'.args = σ.args) (hr : ∀ id, id ≠ n → σ'.regs id = σ.regs id)
    (h : Value.uses n v = false) :
    evalV σ' v = evalV σ v ∧ truth σ' v = truth σ v := by
  induction v with
  | inst j =>
    simp only [Value.uses, beq_eq_false_iff_ne, ne_eq] at h
    simp [evalV, truth, hr j h]
  | arg k => simp [evalV, truth, ha]
  | orOf a b iha ihb =>
    simp only [Value.uses, Bool.or_eq_false_iff] at h
    simp [evalV, truth, (iha h.1).2, (ihb h.2).2]
  | _ => simp [evalV, truth]

/-- The first loop of `instrumentStores` passes over instructions that are
not stores. -/
theorem collectStores_before (F : Func) (vt shadow : ValueMap) (pre rest : List Inst)
    (next : InstId) (hpre : ∀ I ∈ pre, I.op.isStore = false) :
    collectStores F vt shadow (pre ++ rest) next =
      (pre ++ (collectStores F vt shadow rest next).1,
        (collectStores F vt shadow rest next).2.1,
        (collectStores F vt shadow rest next).2.2) := by
  induction pre with
  | nil => rfl
  | cons I pre ih =>
    have hI := hpre I (List.mem_cons_self _ _)
    have ih' := ih (fun J hJ => hpre J (List.mem_cons_of_mem _ hJ))
    rcases I with ⟨id, name, op⟩
    cases op with
    | store a b => simp [Op.isStore] at hI
    | _ =>
      simp only [List.cons_append, collectStores]
      show (_ :: (collectStores F vt shadow (pre ++ rest) next).1,
        (collectStores F vt shadow (pre ++ rest) next).2.1,
        (collectStores F vt shadow (pre ++ rest) next).2.2) = _
      rw [ih']

/-- The first loop of `instrumentStores` at a store whose pointer has a
shadow address. -/
theorem collectStores_store (F : Func) (vt shadow : ValueMap) (SI : Inst) (rest : List Inst)
    (next : InstId) (v p sp : Value) (hop : SI.op = .store v p) (hs : shadow p = some sp) :
    collectStores F vt shadow (SI :: rest) next =
      ((shadowWrite (storeTaint F vt v p) sp next).1 ++ SI ::
          (collectStores F vt shadow rest (shadowWrite (storeTaint F vt v p) sp next).2).1,
        (collectStores F vt shadow rest (shadowWrite (storeTaint F vt v p) sp next).2).2.1,
        (if storeTaint F vt v p ≠ .cbool false then [(SI.id, storeTaint F vt v p)] else []) ++
          (collectStores F vt shadow rest (shadowWrite (storeTaint F vt v p) sp next).2).2.2) := by
  rcases SI with ⟨id, name, op⟩
  simp only at hop
  subst hop
  simp only [collectStores, hs]

theorem shadowWrite_ids (T sp : Value) (next : InstId) :
    ∀ I ∈ (shadowWrite T sp next).1, next ≤ I.id := by
  intro I hI
  unfold shadowWrite at hI
  split at hI <;> simp at hI
  · rw [hI]
  · rcases hI with rfl | rfl <;> simp
/-- C24: a store `SI` of `v` through `p`, the first store of its block, whose
pointer has the shadow address `sp`; `t` is its taint `storeTaint F vt v p`
and `F1` the function as the first loop of `instrumentStores` leaves it.  The
loop puts the shadow write right in front of the store.  Executed from any
state, the shadow write leaves the taint bit at the shadow address, changes no
other memory and does not change the truth of `t`; when `t` is true a later
instrumented load through a pointer with that shadow address is tainted.
When `t` is not the literal false the store is queued and guarded: the block
keeps the shadow write in front of the branch on `t`, so on every execution
the state at the branch is the one the shadow write left; when `t` is true
control goes on to the continuation block in that very state, the store not
executed, and when `t` is false the store executes in its own block.  When
`t` is the literal false the shadow write is the store of the constant `0` and
nothing is queued for the store. -/
theorem shadow_write_not_suppressed (sem : Oracle) (F F1 : Func) (vt shadow : ValueMap)
    (B : Block) (pre post : List Inst) (SI : Inst) (v p sp : Value) (next : InstId)
    (hop : SI.op = .store v p) (hs : shadow p = some sp)
    (hfirst : ∀ I ∈ pre, I.op.isStore = false)
    (hB : F1.getBlock B.id = some B) (hpar : F1.parentOf SI.id = some B.id)
    (hinsts : B.insts = (collectStores F vt shadow (pre ++ SI :: post) next).1)
    (hpre : ∀ I ∈ pre, I.id ≠ SI.id) (hnext : SI.id < next)
    (hfresh : ∀ X ∈ F1.blocks, X.id < F1.nextBlock)
    (ht : Value.uses next (storeTaint F vt v p) = false) :
    (∃ post1, B.insts =
      pre ++ (shadowWrite (storeTaint F vt v p) sp next).1 ++ SI :: post1) ∧
    (∀ (σp σw : State) (a : Nat),
      σw = execInsts sem σp (shadowWrite (storeTaint F vt v p) sp next).1 →
      a = evalV σw sp →
      σw.mem a = (if truth σp (storeTaint F vt v p) then 1 else 0) ∧
      (∀ x, x ≠ a → σw.mem x = σp.mem x) ∧
      truth σw (storeTaint F vt v p) = truth σp (storeTaint F vt v p) ∧
      (truth σp (storeTaint F vt v p) = true →
        ∀ (σ2 : State) (sp' : Value) (n : InstId), σ2.mem a = σw.mem a → evalV σ2 sp' = a →
          truth (execInsts sem σ2 (loadTaintCode sp' n)) (.inst (n + 1)) = true)) ∧
    (storeTaint F vt v p ≠ .cbool false →
      (∃ items, (collectStores F vt shadow (pre ++ SI :: post) next).2.2 =
        (SI.id, storeTaint F vt v p) :: items) ∧
      ∃ O : Block,
        (guardStore F1 SI.id (storeTaint F vt v p)).getBlock B.id = some O ∧
        O.term = .condBr (storeTaint F vt v p) (F1.nextBlock + 1) F1.nextBlock ∧
        (guardStore F1 SI.id (storeTaint F vt v p)).getBlock F1.nextBlock =
          some ⟨F1.nextBlock, [SI], .br (F1.nextBlock + 1)⟩ ∧
        ∀ (σ : State) (pred : Option BlockId) (fuel : Nat), ∃ σp σw : State,
          σw = execInsts sem σp (shadowWrite (storeTaint F vt v p) sp next).1 ∧
          (execBlock sem σ pred O).1 = σw ∧
          (truth σp (storeTaint F vt v p) = true →
            run sem (guardStore F1 SI.id (storeTaint F vt v p)) (fuel + 2) pred B.id σ =
              run sem (guardStore F1 SI.id (storeTaint F vt v p)) (fuel + 1) (some B.id)
                (F1.nextBlock + 1) σw) ∧
          (truth σp (storeTaint F vt v p) = false →
            run sem (guardStore F1 SI.id (storeTaint F vt v p)) (fuel + 2) pred B.id σ =
              run sem (guardStore F1 SI.id (storeTaint F vt v p)) fuel (some F1.nextBlock)
                (F1.nextBlock + 1) (σw.write (evalV σw p) (evalV σw v)))) ∧
    (storeTaint F vt v p = .cbool false →
      (shadowWrite (storeTaint F vt v p) sp next).1 =
        [⟨next, "", .store (.cint 0) sp⟩] ∧
      (collectStores F vt shadow (pre ++ SI :: post) next).2.2 =
        (collectStores F vt shadow post (next + 1)).2.2) := by
  have hcs : collectStores F vt shadow (pre ++ SI :: post) next = _ :=
    (collectStores_before F vt shadow pre (SI :: post) next hfirst).trans
      (by rw [collectStores_store F vt shadow SI post next v p sp hop hs])
  have hshape : B.insts =
      (pre ++ (shadowWrite (storeTaint F vt v p) sp next).1) ++ SI ::
        (collectStores F vt shadow post (shadowWrite (storeTaint F vt v p) sp next).2).1 := by
    rw [hinsts, hcs, List.append_assoc]
  have hsem : ∀ (σp σw : State) (a : Nat),
      σw = execInsts sem σp (shadowWrite (storeTaint F vt v p) sp next).1 →
      a = evalV σw sp →
      σw.mem a = (if truth σp (storeTaint F vt v p) then 1 else 0) ∧
      (∀ x, x ≠ a → σw.mem x = σp.mem x) ∧
      truth σw (storeTaint F vt v p) = truth σp (storeTaint F vt v p) := by
    intro σp σw a hw ha
    obtain ⟨h1, h2, h3, h4⟩ := shadowWrite_mem sem σp (storeTaint F vt v p) sp next
    rw [← hw, ← ha] at h1 h2
    rw [← hw] at h3 h4
    exact ⟨h1, h2, (evalV_agree σp σw next _ h3 h4 ht).2⟩
  refine ⟨⟨_, hshape⟩, ?_, ?_, ?_⟩
  · intro σp σw a hw ha
    obtain ⟨h1, h2, h3⟩ := hsem σp σw a hw ha
    refine ⟨h1, h2, h3, fun htrue σ2 sp' n hm he => ?_⟩
    rw [(loadTaintCode_exec sem σ2 sp' n).1, he, hm, h1, htrue]
    rfl
  · intro hne
    refine ⟨⟨_, by rw [hcs]; simp only [hne, ne_eq, not_false_eq_true, if_true]; rfl⟩, ?_⟩
    have hpre' : ∀ I ∈ pre ++ (shadowWrite (storeTaint F vt v p) sp next).1, I.id ≠ SI.id := by
      intro I hI
      rcases List.mem_append.mp hI with h | h
      · exact hpre I h
      · exact Nat.ne_of_gt (Nat.lt_of_lt_of_le hnext (shadowWrite_ids _ _ _ I h))
    obtain ⟨O, C, hO, hOt, hOi, hE, -, -, -⟩ :=
      guardStore_blocks F1 B _ _ SI v p (storeTaint F vt v p) hB hpar hshape hpre' hop hfresh
    refine ⟨O, hO, hOt, hE, ?_⟩
    intro σ pred fuel
    have hnext' : ∀ σ', O.term.next σ' =
        if truth σ' (storeTaint F vt v p) then some (F1.nextBlock + 1)
        else some F1.nextBlock := by
      intro σ'; rw [hOt]; rfl
    have hstep : execBlock sem σ pred O =
        ((execBlock sem σ pred O).1, O.term.next (execBlock sem σ pred O).1) := rfl
    have hex : ∃ σ1, (execBlock sem σ pred O).1 = execInsts sem σ1 O.insts := by
      cases pred with
      | none => exact ⟨_, rfl⟩
      | some q => exact ⟨_, rfl⟩
    obtain ⟨σ1, hσ1⟩ := hex
    rw [hOi sem σ1, execInsts_append] at hσ1
    refine ⟨execInsts sem σ1 pre, _, rfl, hσ1, ?_, ?_⟩
    · intro htrue
      have ht' : truth (execBlock sem σ pred O).1 (storeTaint F vt v p) = true := by
        rw [hσ1, (hsem _ _ _ rfl rfl).2.2, htrue]
      rw [run, hO]
      simp only []
      rw [hstep, hnext', ht', ← hσ1]
      rfl
    · intro hfalse
      have ht' : truth (execBlock sem σ pred O).1 (storeTaint F vt v p) = false := by
        rw [hσ1, (hsem _ _ _ rfl rfl).2.2, hfalse]
      rw [run, hO]
      simp only []
      rw [hstep, hnext', ht']
      simp only [Bool.false_eq_true, if_false]
      rw [run, hE, ← hσ1]
      simp [execBlock, execPhis, execInsts, execInst, hop, Term.next]
  · intro hfalse
    refine ⟨by rw [hfalse]; rfl, ?_⟩
    rw [hcs, hfalse]
    rfl
/-- C24 on `flagFunc`: the store of the recovered value to `crucial_flag` is
guarded by its taint `8`, the shadow write stays in front of the branch, and
a run of block `1` in which the taint is true leaves `crucial_flag` (address
`200`) at `100` and its shadow byte (address `300`) at `1`. -/
theorem shadow_write_not_suppressed_witness :
    (∃ O : Block, (guardStore flagShadowed 9 (.inst 8)).getBlock 1 = some O ∧
      O.term = .condBr (.inst 8) 3 2) ∧
    (run exampleSem (guardStore flagShadowed 9 (.inst 8)) 3 (some 0) 1 structState).map
      (fun r => (r.2.mem 200, r.2.mem 300)) = some (100, 1) := by
  refine ⟨?_, by decide!⟩
  obtain ⟨O, h1, h2, _⟩ :=
    ((shadow_write_not_suppressed exampleSem flagFunc flagShadowed recoveredMap structShadow
      { id := 1,
        insts := [ ⟨11, "exec.taint", .phi []⟩, ⟨7, "cima.val", .phi []⟩,
                   ⟨8, "cima.taint", .phi []⟩, ⟨14, "", .zextTaint (.inst 8)⟩,
                   ⟨15, "", .store (.inst 14) (.inst 12)⟩,
                   ⟨9, "", .store (.inst 7) (.inst 2)⟩ ],
        term := .ret none }
      [⟨11, "exec.taint", .phi []⟩, ⟨7, "cima.val", .phi []⟩, ⟨8, "cima.taint", .phi []⟩] []
      ⟨9, "", .store (.inst 7) (.inst 2)⟩ (.inst 7) (.inst 2) (.inst 12) 14
      rfl (by decide) (by decide) (by decide) (by decide) (by decide) (by decide) (by decide)
      (by decide) (by decide)).2.2.1 (by decide)).2
  exact ⟨O, h1, h2⟩

theorem shadowAllocas_isSome (insts : List Inst) (next : InstId) (m : ValueMap) (k : Value)
    (h : (m k).isSome = true) : ((shadowAllocas insts next m).2.2 k).isSome = true := by
  induction insts generalizing next m with
  | nil => exact h
  | cons I rest ih =>
    rcases I with ⟨id, name, op⟩
    cases op with
    | alloca ty c =>
      simp only [shadowAllocas]
      apply ih
      simp only [ValueMap.set]
      split
      · rfl
      · exact h
    | _ => simp only [shadowAllocas]; exact ih next m h

/-- The loop of `createShadowAllocas`: every alloca is mapped, and every new
entry of the map is an alloca with its shadow alloca. -/
theorem shadowAllocas_spec (insts : List Inst) (next : InstId) (m : ValueMap) :
    next ≤ (shadowAllocas insts next m).2.1 ∧
    (∀ I ∈ (shadowAllocas insts next m).1, next ≤ I.id ∧ I.id < (shadowAllocas insts next m).2.1 ∧
      I.op.isAlloca = true) ∧
    (∀ A ∈ insts, A.op.isAlloca = true →
      ((shadowAllocas insts next m).2.2 (.inst A.id)).isSome = true) ∧
    (∀ k s, (shadowAllocas insts next m).2.2 k = some s → m k = some s ∨
      ∃ (A : Inst) (ty : String) (c : Value) (sa : InstId), A ∈ insts ∧ A.op = .alloca ty c ∧
        k = .inst A.id ∧ s = .inst sa ∧ next ≤ sa ∧ sa < (shadowAllocas insts next m).2.1 ∧
        ({ id := sa, name := A.name ++ ".shadow", op := .alloca ty c } : Inst) ∈
          (shadowAllocas insts next m).1) := by
  induction insts generalizing next m with
  | nil => exact ⟨Nat.le_refl _, by simp [shadowAllocas], by simp, fun k s h => Or.inl h⟩
  | cons I rest ih =>
    rcases I with ⟨id, name, op⟩
    cases op with
    | alloca ty c =>
      obtain ⟨h1, h2, h3, h4⟩ := ih (next + 1) (m.set (.inst id) (.inst next))
      simp only [shadowAllocas]
      refine ⟨Nat.le_of_succ_le h1, ?_, ?_, ?_⟩
      · intro J hJ
        rcases List.mem_cons.mp hJ with rfl | hJ
        · exact ⟨Nat.le_refl _, h1, rfl⟩
        · have := h2 J hJ
          exact ⟨Nat.le_of_succ_le this.1, this.2.1, this.2.2⟩
      · intro A hA hAop
        rcases List.mem_cons.mp hA with rfl | hA
        · exact shadowAllocas_isSome rest (next + 1) _ _ (by simp [ValueMap.set])
        · exact h3 A hA hAop
      · intro k s hk
        rcases h4 k s hk with h | ⟨A, ty', c', sa, hA, hAop, rfl, rfl, hle, hlt, hmem⟩
        · simp only [ValueMap.set] at h
          split at h
          · rename_i hkeq
            injection h with h
            subst h
            exact Or.inr ⟨⟨id, name, .alloca ty c⟩, ty, c, next, List.mem_cons_self _ _, rfl, hkeq,
              rfl, Nat.le_refl _, h1, List.mem_cons_self _ _⟩
          · exact Or.inl h
        · exact Or.inr ⟨A, ty', c', sa, List.mem_cons_of_mem _ hA, hAop, rfl, rfl,
            Nat.le_of_succ_le hle, hlt, List.mem_cons_of_mem _ hmem⟩
    | _ =>
      obtain ⟨h1, h2, h3, h4⟩ := ih next m
      simp only [shadowAllocas]
      refine ⟨h1, h2, ?_, ?_⟩
      · intro A hA hAop
        rcases List.mem_cons.mp hA with rfl | hA
        · simp [Op.isAlloca] at hAop
        · exact h3 A hA hAop
      · intro k s hk
        rcases h4 k s hk with h | ⟨A, ty', c', sa, hA, hAop, rfl, rfl, hle, hlt, hmem⟩
        · exact Or.inl h
        · exact Or.inr ⟨A, ty', c', sa, List.mem_cons_of_mem _ hA, hAop, rfl, rfl, hle, hlt, hmem⟩
theorem MapOK_mono (bound next next' : InstId) (m : ValueMap) (h : MapOK bound next m)
    (hle : next ≤ next') : MapOK bound next' m := by
  intro k s hk
  obtain ⟨h1, j, hj, h2, h3⟩ := h k s hk
  exact ⟨h1, j, hj, h2, Nat.lt_of_lt_of_le h3 hle⟩

theorem MapOK_set (bound next : InstId) (m : ValueMap) (h : MapOK bound next m)
    (i j : InstId) (hi : i < bound) (hj : bound ≤ j) (hjn : j < next) :
    MapOK bound next (m.set (.inst i) (.inst j)) := by
  intro k s hk
  simp only [ValueMap.set] at hk
  split at hk
  · rename_i hkeq
    injection hk with hk
    exact ⟨⟨i, hkeq, hi⟩, j, hk.symm, hj, hjn⟩
  · exact h k s hk

/-- The loop of `propagateShadowPointers` passes over an instruction that is
neither a `getelementptr` nor a `bitcast` with a shadowed operand. -/
theorem propagateShadowInsts_skip (fuel : Nat) (I : Inst) (rest : List Inst) (next : InstId)
    (m : ValueMap)
    (hg : ∀ p idx, I.op = .gep p idx → m p = none)
    (hb : ∀ a, I.op = .bitcast a → m a = none) :
    propagateShadowInsts (fuel + 1) (I :: rest) next m =
      (I :: (propagateShadowInsts fuel rest next m).1,
        (propagateShadowInsts fuel rest next m).2.1,
        (propagateShadowInsts fuel rest next m).2.2) := by
  rcases I with ⟨id, name, op⟩
  cases op with
  | gep p idx =>
    have := hg p idx rfl
    simp only [propagateShadowInsts, this]
  | bitcast a =>
    have := hb a rfl
    simp only [propagateShadowInsts, this]
  | _ => simp only [propagateShadowInsts]

theorem propagateShadowInsts_gep (fuel : Nat) (I : Inst) (rest : List Inst) (next : InstId)
    (m : ValueMap) (p : Value) (idx : List Value) (sb : Value)
    (hop : I.op = .gep p idx) (hm : m p = some sb) :
    propagateShadowInsts (fuel + 1) (I :: rest) next m =
      (I :: (propagateShadowInsts fuel (shadowGep I p sb next ++ rest) (next + 4)
              (m.set (.inst I.id) (.inst (next + 3)))).1,
        (propagateShadowInsts fuel (shadowGep I p sb next ++ rest) (next + 4)
              (m.set (.inst I.id) (.inst (next + 3)))).2.1,
        (propagateShadowInsts fuel (shadowGep I p sb next ++ rest) (next + 4)
              (m.set (.inst I.id) (.inst (next + 3)))).2.2) := by
  rcases I with ⟨id, name, op⟩
  simp only at hop
  subst hop
  simp only [propagateShadowInsts, hm]

theorem propagateShadowInsts_bitcast (fuel : Nat) (I : Inst) (rest : List Inst) (next : InstId)
    (m : ValueMap) (a s : Value) (hop : I.op = .bitcast a) (hm : m a = some s) :
    propagateShadowInsts (fuel + 1) (I :: rest) next m =
      (I :: (propagateShadowInsts fuel rest next (m.set (.inst I.id) s)).1,
        (propagateShadowInsts fuel rest next (m.set (.inst I.id) s)).2.1,
        (propagateShadowInsts fuel rest next (m.set (.inst I.id) s)).2.2) := by
  rcases I with ⟨id, name, op⟩
  simp only at hop
  subst hop
  simp only [propagateShadowInsts, hm]
theorem visitCost_append (bound : InstId) (a b : List Inst) :
    visitCost bound (a ++ b) = visitCost bound a + visitCost bound b := by
  induction a with
  | nil => simp [visitCost]
  | cons I a ih =>
    show (if I.id < bound then 5 else 1) + visitCost bound (a ++ b) = _
    rw [ih]
    simp only [visitCost, Nat.add_assoc]

theorem propagateShadowInsts_spec (bound : InstId) :
    ∀ (fuel : Nat) (insts : List Inst) (next : InstId) (m : ValueMap),
      visitCost bound insts < fuel →
      MapOK bound next m → bound ≤ next →
      (∀ I ∈ insts, bound ≤ I.id → emittedOK bound I) →
      (∀ I ∈ insts, I.id < bound → I.op.isGepOrBitcast = true → m (.inst I.id) = none) →
      ((insts.filter (fun I => decide (I.id < bound))).map (fun I => I.id)).Nodup →
      ShadowLoopOK bound insts next m (propagateShadowInsts fuel insts next m) := by
  intro fuel
  induction fuel with
  | zero => intro insts next m hc; exact absurd hc (Nat.not_lt_zero _)
  | succ fuel ih =>
    intro insts next m hc hok hle hem hnone hnd
    cases insts with
    | nil =>
      exact ⟨hok, Nat.le_refl _, fun k s h => h, by simp, fun k s h => Or.inl h, fun k _ => rfl⟩
    | cons I rest =>
      have hcost : (if I.id < bound then 5 else 1) + visitCost bound rest < fuel + 1 := hc
      have hemr : ∀ J ∈ rest, bound ≤ J.id → emittedOK bound J :=
        fun J hJ => hem J (List.mem_cons_of_mem _ hJ)
      have hndr : ((rest.filter (fun I => decide (I.id < bound))).map (fun I => I.id)).Nodup := by
        by_cases hI : I.id < bound
        · simp only [List.filter_cons, hI, decide_True, if_true, List.map_cons,
            List.nodup_cons] at hnd
          exact hnd.2
        · simpa only [List.filter_cons, hI, decide_False, Bool.false_eq_true, if_false] using hnd
      have hfreshI : I.id < bound → ∀ J ∈ rest, J.id < bound → J.id ≠ I.id := by
        intro hI J hJ hJb heq
        simp only [List.filter_cons, hI, decide_True, if_true, List.map_cons,
          List.nodup_cons] at hnd
        apply hnd.1
        rw [← heq]
        exact List.mem_map.mpr ⟨J, List.mem_filter.mpr ⟨hJ, by simpa using hJb⟩, rfl⟩
      -- an instruction that enters the map is one of the input function
      have horig : ∀ (p : Value), (m p).isSome = true → (∃ idx, I.op = .gep p idx) →
          I.id < bound := by
        intro p hp ⟨idx, hop⟩
        by_contra hge
        have := hem I (List.mem_cons_self _ _) (Nat.le_of_not_lt hge)
        simp only [emittedOK, hop] at this
        obtain ⟨j, rfl, hj⟩ := this
        cases hmp : m (.inst j) with
        | none => simp [hmp] at hp
        | some s =>
          obtain ⟨⟨i, hi, hlt⟩, _⟩ := hok _ _ hmp
          injection hi with hi
          subst hi
          exact absurd hlt (Nat.not_lt.mpr hj)
      by_cases hg : ∃ p idx sb, I.op = .gep p idx ∧ m p = some sb
      · obtain ⟨p, idx, sb, hop, hm⟩ := hg
        have hI : I.id < bound := horig p (by simp [hm]) ⟨idx, hop⟩
        obtain ⟨_, j, rfl, hj, hjn⟩ := hok _ _ hm
        rw [propagateShadowInsts_gep fuel I rest next m p idx _ hop hm]
        have hc' : visitCost bound (shadowGep I p (.inst j) next ++ rest) < fuel := by
          have e1 : ¬ (next < bound) := Nat.not_lt.mpr hle
          have e2 : ¬ (next + 1 < bound) := Nat.not_lt.mpr (Nat.le_succ_of_le hle)
          have e3 : ¬ (next + 2 < bound) := Nat.not_lt.mpr (Nat.le_trans hle (Nat.le_add_right _ _))
          have e4 : ¬ (next + 3 < bound) := Nat.not_lt.mpr (Nat.le_trans hle (Nat.le_add_right _ _))
          have e5 : visitCost bound (shadowGep I p (.inst j) next) = 4 := by
            simp only [shadowGep, visitCost, e1, e2, e3, e4, if_false]
          rw [visitCost_append, e5]
          simp only [hI, if_true] at hcost
          omega
        have hset : MapOK bound (next + 4) (m.set (.inst I.id) (.inst (next + 3))) :=
          MapOK_set bound (next + 4) m (MapOK_mono bound next _ m hok (Nat.le_add_right _ _))
            I.id (next + 3) hI (Nat.le_trans hle (Nat.le_add_right _ _)) (Nat.lt_succ_self _)
        have r := ih (shadowGep I p (.inst j) next ++ rest) (next + 4)
          (m.set (.inst I.id) (.inst (next + 3))) hc' hset
          (Nat.le_trans hle (Nat.le_add_right _ _))
          (by
            intro J hJ hJb
            rcases List.mem_append.mp hJ with h | h
            · simp only [shadowGep, List.mem_cons, List.mem_singleton, List.not_mem_nil,
                or_false] at h
              rcases h with rfl | rfl | rfl | rfl
              · simp [emittedOK]
              · simp [emittedOK]
              · simp [emittedOK]
              · exact ⟨j, rfl, hj⟩
            · exact hemr J h hJb)
          (by
            intro J hJ hJb hJop
            rcases List.mem_append.mp hJ with h | h
            · simp only [shadowGep, List.mem_cons, List.mem_singleton, List.not_mem_nil,
                or_false] at h
              have hge : bound ≤ J.id := by
                rcases h with rfl | rfl | rfl | rfl
                · exact hle
                · exact Nat.le_succ_of_le hle
                · exact Nat.le_trans hle (Nat.le_add_right _ _)
                · exact Nat.le_trans hle (Nat.le_add_right _ _)
              exact absurd hJb (Nat.not_lt.mpr hge)
            · simp only [ValueMap.set]
              rw [if_neg (fun heq => hfreshI hI J h hJb (by injection heq))]
              exact hnone J (List.mem_cons_of_mem _ h) hJb hJop)
          (by
            have e1 : ¬ (next < bound) := Nat.not_lt.mpr hle
            have e2 : ¬ (next + 1 < bound) := Nat.not_lt.mpr (Nat.le_succ_of_le hle)
            have e3 : ¬ (next + 2 < bound) :=
              Nat.not_lt.mpr (Nat.le_trans hle (Nat.le_add_right _ _))
            have e4 : ¬ (next + 3 < bound) :=
              Nat.not_lt.mpr (Nat.le_trans hle (Nat.le_add_right _ _))
            simpa only [shadowGep, List.cons_append, List.nil_append, List.filter_cons, e1, e2,
              e3, e4, decide_False, Bool.false_eq_true, if_false] using hndr)
        have hkey : (propagateShadowInsts fuel (shadowGep I p (.inst j) next ++ rest) (next + 4)
            (m.set (.inst I.id) (.inst (next + 3)))).2.2 (.inst I.id) =
              some (.inst (next + 3)) := r.mono _ _ (by simp [ValueMap.set])
        have hmono : ∀ k s, m k = some s →
            (propagateShadowInsts fuel (shadowGep I p (.inst j) next ++ rest) (next + 4)
              (m.set (.inst I.id) (.inst (next + 3)))).2.2 k = some s := by
          intro k s hk
          apply r.mono
          simp only [ValueMap.set]
          split
          · rename_i hkeq
            rw [hkeq, hnone I (List.mem_cons_self _ _) hI (by simp [hop, Op.isGepOrBitcast])] at hk
            exact absurd hk (by simp)
          · exact hk
        refine ⟨r.ok, Nat.le_trans (Nat.le_add_right _ _) r.le, hmono, ?_, ?_, ?_⟩
        · intro J hJ
          rcases List.mem_cons.mp hJ with rfl | hJ
          · exact List.mem_cons_self _ _
          · exact List.mem_cons_of_mem _ (r.keep J (List.mem_append_right _ hJ))
        · intro k s hk
          rcases r.just k s hk with h | ⟨G, hG, hGb, rfl, hcase⟩
          · simp only [ValueMap.set] at h
            split at h
            · rename_i hkeq
              injection h with h
              subst h
              refine Or.inr ⟨I, List.mem_cons_self _ _, hI, hkeq, Or.inl ⟨p, idx, .inst j, next,
                hle, hop, hmono _ _ hm, rfl, fun J hJ => ?_⟩⟩
              exact List.mem_cons_of_mem _ (r.keep J (List.mem_append_left _ hJ))
            · exact Or.inl h
          · have hGr : G ∈ rest := by
              rcases List.mem_append.mp hG with h | h
              · simp only [shadowGep, List.mem_cons, List.mem_singleton, List.not_mem_nil,
                  or_false] at h
                have hge : bound ≤ G.id := by
                  rcases h with rfl | rfl | rfl | rfl
                  · exact hle
                  · exact Nat.le_succ_of_le hle
                  · exact Nat.le_trans hle (Nat.le_add_right _ _)
                  · exact Nat.le_trans hle (Nat.le_add_right _ _)
                exact absurd hGb (Nat.not_lt.mpr hge)
              · exact h
            refine Or.inr ⟨G, List.mem_cons_of_mem _ hGr, hGb, rfl, ?_⟩
            rcases hcase with ⟨P', idx', SB', n', h0, h1, h2, h3, h4⟩ | ⟨a, h1, h2⟩
            · exact Or.inl ⟨P', idx', SB', n', h0, h1, h2, h3,
                fun J hJ => List.mem_cons_of_mem _ (h4 J hJ)⟩
            · exact Or.inr ⟨a, h1, h2⟩
        · intro k hk
          rw [r.frame k (fun J hJ hJb hJop => by
            rcases List.mem_append.mp hJ with h | h
            · simp only [shadowGep, List.mem_cons, List.mem_singleton, List.not_mem_nil,
                or_false] at h
              have hge : bound ≤ J.id := by
                rcases h with rfl | rfl | rfl | rfl
                · exact hle
                · exact Nat.le_succ_of_le hle
                · exact Nat.le_trans hle (Nat.le_add_right _ _)
                · exact Nat.le_trans hle (Nat.le_add_right _ _)
              exact absurd hJb (Nat.not_lt.mpr hge)
            · exact hk J (List.mem_cons_of_mem _ h) hJb hJop)]
          simp only [ValueMap.set]
          rw [if_neg (hk I (List.mem_cons_self _ _) hI (by simp [hop, Op.isGepOrBitcast]))]
      · by_cases hb : ∃ a s, I.op = .bitcast a ∧ m a = some s
        · obtain ⟨a, s, hop, hm⟩ := hb
          have hI : I.id < bound := by
            by_contra hge
            have := hem I (List.mem_cons_self _ _) (Nat.le_of_not_lt hge)
            simp [emittedOK, hop] at this
          obtain ⟨_, j, rfl, hj, hjn⟩ := hok _ _ hm
          rw [propagateShadowInsts_bitcast fuel I rest next m a _ hop hm]
          have hc' : visitCost bound rest < fuel := by
            simp only [hI, if_true] at hcost
            omega
          have r := ih rest next (m.set (.inst I.id) (.inst j)) hc'
            (MapOK_set bound next m hok I.id j hI hj hjn) hle hemr
            (by
              intro J hJ hJb hJop
              simp only [ValueMap.set]
              rw [if_neg (fun heq => hfreshI hI J hJ hJb (by injection heq))]
              exact hnone J (List.mem_cons_of_mem _ hJ) hJb hJop)
            hndr
          have hmono : ∀ k s, m k = some s →
              (propagateShadowInsts fuel rest next (m.set (.inst I.id) (.inst j))).2.2 k =
                some s := by
            intro k s hk
            apply r.mono
            simp only [ValueMap.set]
            split
            · rename_i hkeq
              rw [hkeq, hnone I (List.mem_cons_self _ _) hI
                (by simp [hop, Op.isGepOrBitcast])] at hk
              exact absurd hk (by simp)
            · exact hk
          refine ⟨r.ok, r.le, hmono, ?_, ?_, ?_⟩
          · intro J hJ
            rcases List.mem_cons.mp hJ with rfl | hJ
            · exact List.mem_cons_self _ _
            · exact List.mem_cons_of_mem _ (r.keep J hJ)
          · intro k s' hk
            rcases r.just k s' hk with h | ⟨G, hG, hGb, rfl, hcase⟩
            · simp only [ValueMap.set] at h
              split at h
              · rename_i hkeq
                injection h with h
                subst h
                exact Or.inr ⟨I, List.mem_cons_self _ _, hI, hkeq,
                  Or.inr ⟨a, hop, hmono _ _ hm⟩⟩
              · exact Or.inl h
            · refine Or.inr ⟨G, List.mem_cons_of_mem _ hG, hGb, rfl, ?_⟩
              rcases hcase with ⟨P', idx', SB', n', h0, h1, h2, h3, h4⟩ | ⟨a', h1, h2⟩
              · exact Or.inl ⟨P', idx', SB', n', h0, h1, h2, h3,
                  fun J hJ => List.mem_cons_of_mem _ (h4 J hJ)⟩
              · exact Or.inr ⟨a', h1, h2⟩
          · intro k hk
            rw [r.frame k (fun J hJ hJb hJop => hk J (List.mem_cons_of_mem _ hJ) hJb hJop)]
            simp only [ValueMap.set]
            rw [if_neg (hk I (List.mem_cons_self _ _) hI (by simp [hop, Op.isGepOrBitcast]))]
        · have hg' : ∀ p idx, I.op = .gep p idx → m p = none := by
            intro p idx hop
            cases hmp : m p with
            | none => rfl
            | some sb => exact absurd ⟨p, idx, sb, hop, hmp⟩ hg
          have hb' : ∀ a, I.op = .bitcast a → m a = none := by
            intro a hop
            cases hmp : m a with
            | none => rfl
            | some s => exact absurd ⟨a, s, hop, hmp⟩ hb
          rw [propagateShadowInsts_skip fuel I rest next m hg' hb']
          have hc' : visitCost bound rest < fuel := by
            by_cases hI : I.id < bound
            · simp only [hI, if_true] at hcost
              omega
            · simp only [hI, if_false] at hcost
              omega
          have r := ih rest next m hc' hok hle hemr
            (fun J hJ => hnone J (List.mem_cons_of_mem _ hJ)) hndr
          refine ⟨r.ok, r.le, r.mono, ?_, ?_, ?_⟩
          · intro J hJ
            rcases List.mem_cons.mp hJ with rfl | hJ
            · exact List.mem_cons_self _ _
            · exact List.mem_cons_of_mem _ (r.keep J hJ)
          · intro k s' hk
            rcases r.just k s' hk with h | ⟨G, hG, hGb, rfl, hcase⟩
            · exact Or.inl h
            · refine Or.inr ⟨G, List.mem_cons_of_mem _ hG, hGb, rfl, ?_⟩
              rcases hcase with ⟨P', idx', SB', n', h0, h1, h2, h3, h4⟩ | ⟨a', h1, h2⟩
              · exact Or.inl ⟨P', idx', SB', n', h0, h1, h2, h3,
                  fun J hJ => List.mem_cons_of_mem _ (h4 J hJ)⟩
              · exact Or.inr ⟨a', h1, h2⟩
          · intro k hk
            exact r.frame k (fun J hJ hJb hJop => hk J (List.mem_cons_of_mem _ hJ) hJb hJop)
theorem visitCost_le (bound : InstId) (l : List Inst) : visitCost bound l ≤ 5 * l.length := by
  induction l with
  | nil => simp [visitCost]
  | cons I l ih =>
    simp only [visitCost, List.length_cons]
    split <;> omega

theorem propagateShadowBlocks_ids (blocks : List Block) (next : InstId) (m : ValueMap) :
    (propagateShadowBlocks blocks next m).1.map (fun B => (B.id, B.term)) =
      blocks.map (fun B => (B.id, B.term)) := by
  induction blocks generalizing next m with
  | nil => rfl
  | cons B rest ih => simp only [propagateShadowBlocks, List.map_cons, ih]

theorem propagateShadowBlocks_spec (bound : InstId) :
    ∀ (blocks : List Block) (next : InstId) (m : ValueMap),
      MapOK bound next m → bound ≤ next →
      (∀ I ∈ blocks.flatMap (fun B => B.insts), bound ≤ I.id → emittedOK bound I) →
      (∀ I ∈ blocks.flatMap (fun B => B.insts), I.id < bound → I.op.isGepOrBitcast = true →
        m (.inst I.id) = none) →
      (((blocks.flatMap (fun B => B.insts)).filter (fun I => decide (I.id < bound))).map
        (fun I => I.id)).Nodup →
      ShadowLoopOK bound (blocks.flatMap (fun B => B.insts)) next m
        ((propagateShadowBlocks blocks next m).1.flatMap (fun B => B.insts),
          (propagateShadowBlocks blocks next m).2.1, (propagateShadowBlocks blocks next m).2.2) := by
  intro blocks
  induction blocks with
  | nil =>
    intro next m hok hle _ _ _
    exact ⟨hok, Nat.le_refl _, fun k s h => h, by simp, fun k s h => Or.inl h, fun k _ => rfl⟩
  | cons B rest ih =>
    intro next m hok hle hem hnone hnd
    simp only [List.flatMap_cons, List.filter_append, List.map_append] at hnd
    have hndB := (List.nodup_append.mp hnd).1
    have hndR := (List.nodup_append.mp hnd).2.1
    have hdis := (List.nodup_append.mp hnd).2.2
    have r1 := propagateShadowInsts_spec bound (5 * B.insts.length + 1) B.insts next m
      (Nat.lt_succ_of_le (visitCost_le bound B.insts)) hok hle
      (fun I hI => hem I (by simp only [List.flatMap_cons, List.mem_append]; exact Or.inl hI))
      (fun I hI => hnone I (by simp only [List.flatMap_cons, List.mem_append]; exact Or.inl hI))
      hndB
    have r2 := ih (propagateShadowInsts (5 * B.insts.length + 1) B.insts next m).2.1
      (propagateShadowInsts (5 * B.insts.length + 1) B.insts next m).2.2 r1.ok
      (Nat.le_trans hle r1.le)
      (fun I hI => hem I (by simp only [List.flatMap_cons, List.mem_append]; exact Or.inr hI))
      (by
        intro I hI hIb hIop
        rw [r1.frame _ (fun J hJ hJb _ heq => by
          injection heq with heq
          exact hdis
            (List.mem_map.mpr ⟨J, List.mem_filter.mpr ⟨hJ, by simpa using hJb⟩, rfl⟩)
            (List.mem_map.mpr ⟨I, List.mem_filter.mpr ⟨hI, by simpa using hIb⟩, heq⟩))]
        exact hnone I (by simp only [List.flatMap_cons, List.mem_append]; exact Or.inr hI) hIb
          hIop)
      hndR
    simp only [propagateShadowBlocks, List.flatMap_cons]
    refine ⟨r2.ok, Nat.le_trans r1.le r2.le, fun k s h => r2.mono k s (r1.mono k s h), ?_, ?_, ?_⟩
    · intro I hI
      rcases List.mem_append.mp hI with h | h
      · exact List.mem_append_left _ (r1.keep I h)
      · exact List.mem_append_right _ (r2.keep I h)
    · intro k s hk
      rcases r2.just k s hk with h | ⟨G, hG, hGb, rfl, hcase⟩
      · rcases r1.just k s h with h' | ⟨G, hG, hGb, rfl, hcase⟩
        · exact Or.inl h'
        · refine Or.inr ⟨G, List.mem_append_left _ hG, hGb, rfl, ?_⟩
          rcases hcase with ⟨P', idx', SB', n', h0, h1, h2, h3, h4⟩ | ⟨a', h1, h2⟩
          · exact Or.inl ⟨P', idx', SB', n', h0, h1, r2.mono _ _ h2, h3,
              fun J hJ => List.mem_append_left _ (h4 J hJ)⟩
          · exact Or.inr ⟨a', h1, r2.mono _ _ h2⟩
      · refine Or.inr ⟨G, List.mem_append_right _ hG, hGb, rfl, ?_⟩
        rcases hcase with ⟨P', idx', SB', n', h0, h1, h2, h3, h4⟩ | ⟨a', h1, h2⟩
        · exact Or.inl ⟨P', idx', SB', n', h0, h1, h2, h3,
            fun J hJ => List.mem_append_right _ (h4 J hJ)⟩
        · exact Or.inr ⟨a', h1, h2⟩
    · intro k hk
      rw [r2.frame k (fun J hJ => hk J (List.mem_append_right _ hJ)),
        r1.frame k (fun J hJ => hk J (List.mem_append_left _ hJ))]
theorem nodup_id_inj (l : List Inst) (h : (l.map (fun I => I.id)).Nodup) (A B : Inst)
    (hA : A ∈ l) (hB : B ∈ l) (heq : A.id = B.id) : A = B :=
  List.inj_on_of_nodup_map h hA hB heq

/-- The phases 1 and 1.5 on a function with the entry block `E`. -/
theorem shadowPhases_eq (F : Func) (E : Block) (rest : List Block) (hF : F.blocks = E :: rest) :
    (propagateShadowPointers (createShadowAllocas (startPass F))).PtrToShadowPtr =
      (propagateShadowBlocks
        ({ E with insts := (shadowAllocas E.insts F.nextInst ValueMap.empty).1 ++ E.insts } :: rest)
        (shadowAllocas E.insts F.nextInst ValueMap.empty).2.1
        (shadowAllocas E.insts F.nextInst ValueMap.empty).2.2).2.2 ∧
    (propagateShadowPointers (createShadowAllocas (startPass F))).F.blocks =
      (propagateShadowBlocks
        ({ E with insts := (shadowAllocas E.insts F.nextInst ValueMap.empty).1 ++ E.insts } :: rest)
        (shadowAllocas E.insts F.nextInst ValueMap.empty).2.1
        (shadowAllocas E.insts F.nextInst ValueMap.empty).2.2).1 := by
  simp [propagateShadowPointers, createShadowAllocas, startPass, hF]

/-- Every entry of the Shadow-Pointer Map after the phases 1 and 1.5 is
justified, and every alloca of the entry block has one. -/
theorem shadowPhases_justified (F : Func) (E : Block) (rest : List Block)
    (hF : F.blocks = E :: rest)
    (hlt : ∀ I ∈ F.blocks.flatMap (fun B => B.insts), I.id < F.nextInst)
    (hnd : ((F.blocks.flatMap (fun B => B.insts)).map (fun I => I.id)).Nodup) :
    (∀ k s, (propagateShadowPointers (createShadowAllocas (startPass F))).PtrToShadowPtr k =
        some s →
      Justified F.nextInst (F.blocks.flatMap (fun B => B.insts))
        ((propagateShadowPointers (createShadowAllocas (startPass F))).F.blocks.flatMap
          (fun B => B.insts))
        (propagateShadowPointers (createShadowAllocas (startPass F))).PtrToShadowPtr k s ∧
      ∃ j, s = .inst j) ∧
    (∀ A ∈ E.insts, A.op.isAlloca = true →
      ((propagateShadowPointers (createShadowAllocas (startPass F))).PtrToShadowPtr
        (.inst A.id)).isSome = true) := by
  obtain ⟨e1, e2⟩ := shadowPhases_eq F E rest hF
  rw [e1, e2]
  clear e1 e2
  obtain ⟨a1, a2, a3, a4⟩ := shadowAllocas_spec E.insts F.nextInst ValueMap.empty
  have horigs : F.blocks.flatMap (fun B => B.insts) =
      E.insts ++ rest.flatMap (fun B => B.insts) := by rw [hF]; rfl
  have hins : (({ E with insts := (shadowAllocas E.insts F.nextInst ValueMap.empty).1 ++ E.insts }
      :: rest : List Block).flatMap (fun B => B.insts)) =
      (shadowAllocas E.insts F.nextInst ValueMap.empty).1 ++
        F.blocks.flatMap (fun B => B.insts) := by
    rw [horigs]
    simp only [List.flatMap_cons, List.append_assoc]
  have hEmem : ∀ A ∈ E.insts, A ∈ F.blocks.flatMap (fun B => B.insts) := by
    intro A hA
    rw [horigs]
    exact List.mem_append_left _ hA
  have hok : MapOK F.nextInst (shadowAllocas E.insts F.nextInst ValueMap.empty).2.1
      (shadowAllocas E.insts F.nextInst ValueMap.empty).2.2 := by
    intro k s hk
    rcases a4 k s hk with h | ⟨A, ty, c, sa, hA, hAop, rfl, rfl, hle, hlt', _⟩
    · simp [ValueMap.empty] at h
    · exact ⟨⟨A.id, rfl, hlt A (hEmem A hA)⟩, sa, rfl, hle, hlt'⟩
  have r := propagateShadowBlocks_spec F.nextInst _ _ _ hok a1
    (by
      intro I hI hIb
      rw [hins] at hI
      rcases List.mem_append.mp hI with h | h
      · have := (a2 I h).2.2
        unfold emittedOK
        cases hop : I.op <;> simp_all [Op.isAlloca]
      · exact absurd (hlt I h) (Nat.not_lt.mpr hIb))
    (by
      intro I hI hIb hIop
      rw [hins] at hI
      rcases List.mem_append.mp hI with h | h
      · exact absurd hIb (Nat.not_lt.mpr (a2 I h).1)
      · cases hm : (shadowAllocas E.insts F.nextInst ValueMap.empty).2.2 (.inst I.id) with
        | none => rfl
        | some s =>
          rcases a4 _ s hm with h' | ⟨A, ty, c, sa, hA, hAop, hk, _⟩
          · simp [ValueMap.empty] at h'
          · injection hk with hk
            have := nodup_id_inj _ hnd I A h (hEmem A hA) hk
            subst this
            simp [hAop, Op.isGepOrBitcast] at hIop)
    (by
      rw [hins, List.filter_append, List.map_append]
      have : (shadowAllocas E.insts F.nextInst ValueMap.empty).1.filter
          (fun I => decide (I.id < F.nextInst)) = [] := by
        rw [List.filter_eq_nil_iff]
        intro I hI
        simpa using (a2 I hI).1
      rw [this, List.map_nil, List.nil_append]
      exact List.Nodup.sublist (List.Sublist.map _ (List.filter_sublist _)) hnd)
  rw [hins] at r
  refine ⟨?_, ?_⟩
  · intro k s hk
    obtain ⟨_, j, hj, _, _⟩ := r.ok k s hk
    refine ⟨?_, j, hj⟩
    rcases r.just k s hk with h | ⟨G, hG, hGb, rfl, hcase⟩
    · rcases a4 k s h with h' | ⟨A, ty, c, sa, hA, hAop, rfl, rfl, _, _, hmem⟩
      · simp [ValueMap.empty] at h'
      · exact Or.inl ⟨A, ty, c, sa, hEmem A hA, hAop, rfl, rfl,
          r.keep _ (List.mem_append_left _ hmem)⟩
    · have hGo : G ∈ F.blocks.flatMap (fun B => B.insts) := by
        rcases List.mem_append.mp hG with h | h
        · exact absurd hGb (Nat.not_lt.mpr (a2 G h).1)
        · exact h
      rcases hcase with ⟨P', idx', SB', n', h0, h1, h2, h3, h4⟩ | ⟨a', h1, h2⟩
      · exact Or.inr (Or.inl ⟨G, P', idx', SB', n', hGo, h0, h1, rfl, h2, h3, h4⟩)
      · exact Or.inr (Or.inr ⟨G, a', hGo, h1, rfl, h2⟩)
  · intro A hA hAop
    obtain ⟨s, hs⟩ := Option.isSome_iff_exists.mp (a3 A hA hAop)
    rw [r.mono _ _ hs]
    rfl
theorem subU64_self (x : Nat) : subU64 x x = 0 := by
  unfold subU64
  have hM : (2 : Nat) ^ 64 = 18446744073709551616 := by norm_num
  rw [hM]
  omega

/-- The step of the offset invariant at a `getelementptr`: when the shadow of
the base is as far from the shadow allocation as the base is from the
allocation, so is the sum of the shadow of the base and the difference of the
two addresses. -/
theorem subU64_step (sb po g sa a sp : Nat)
    (h : sp = (sb + subU64 (g % 2 ^ 64) (po % 2 ^ 64)) % 2 ^ 64)
    (ih : subU64 sb sa = subU64 po a) : subU64 sp sa = subU64 g a := by
  unfold subU64 at *
  have hM : (2 : Nat) ^ 64 = 18446744073709551616 := by norm_num
  rw [hM] at *
  omega

/-- In a state that holds the four instructions emitted for a
`getelementptr`, the shadow address is the shadow of the base plus the
difference of the derived address and the base, modulo `2 ^ 64`. -/
theorem shadowGep_holds (sem : Oracle) (bound : InstId) (hsem : PointerArith bound sem)
    (σ : State) (G : Inst) (PtrOp ShadowBase : Value) (n : InstId) (hn : bound ≤ n)
    (h : ∀ J ∈ shadowGep G PtrOp ShadowBase n, J.holdsIn sem σ) :
    σ.regs (n + 3) =
      (evalV σ ShadowBase + subU64 (σ.regs G.id % 2 ^ 64) (evalV σ PtrOp % 2 ^ 64)) % 2 ^ 64 := by
  obtain ⟨s1, s2, s3, _⟩ := hsem
  have h1 := h ⟨n, "", .cast PtrOp⟩ (by simp [shadowGep])
  have h2 := h ⟨n + 1, "", .cast (.inst G.id)⟩ (by simp [shadowGep])
  have h3 := h ⟨n + 2, "", .binop (.inst (n + 1)) (.inst n)⟩ (by simp [shadowGep])
  have h4 := h ⟨n + 3, G.name ++ ".shadow", .gep ShadowBase [.inst (n + 2)]⟩ (by simp [shadowGep])
  simp only [Inst.holdsIn, execInst, State.setReg, Op.operands, List.map_cons, List.map_nil,
    evalV, if_true] at h1 h2 h3 h4
  rw [s1 _ PtrOp _ hn rfl] at h1
  rw [s1 _ (.inst G.id) _ (Nat.le_succ_of_le hn) rfl] at h2
  rw [s2 _ _ _ _ _ (Nat.le_trans hn (Nat.le_add_right _ _)) rfl] at h3
  rw [s3 _ _ _ _ _ (Nat.le_trans hn (Nat.le_add_right _ _)) rfl] at h4
  rw [← h4, ← h3, ← h2, ← h1]
  simp only [evalV]
/-- The offset invariant along a chain of derived pointers, for a map all of
whose entries are justified. -/
theorem chain_offset (bound : InstId) (origs all : List Inst) (m : ValueMap)
    (hnd : (origs.map (fun I => I.id)).Nodup)
    (hJ : ∀ k s, m k = some s → Justified bound origs all m k s ∧ ∃ j, s = .inst j)
    (A : InstId) :
    ∀ (chain : List Inst) (p : InstId) (s : Value), derives A chain p = true →
      (∀ I ∈ chain, I ∈ origs) → m (.inst p) = some s →
      ∃ sa sp, m (.inst A) = some (.inst sa) ∧ s = .inst sp ∧
        ∀ (sem : Oracle) (σ : State), PointerArith bound sem → chainCurrent sem σ m chain →
          subU64 (σ.regs sp) (σ.regs sa) = subU64 (σ.regs p) (σ.regs A) := by
  intro chain
  induction chain with
  | nil =>
    intro p s hd _ hm
    simp only [derives, beq_iff_eq] at hd
    subst hd
    obtain ⟨_, j, rfl⟩ := hJ _ _ hm
    exact ⟨j, j, hm, rfl, fun sem σ _ _ => by rw [subU64_self, subU64_self]⟩
  | cons I rest ih =>
    intro p s hd hmem hm
    have hI : I ∈ origs := hmem I (List.mem_cons_self _ _)
    have hrest : ∀ J ∈ rest, J ∈ origs := fun J hJ' => hmem J (List.mem_cons_of_mem _ hJ')
    simp only [derives, Bool.and_eq_true, beq_iff_eq] at hd
    obtain ⟨hid, hd⟩ := hd
    subst hid
    obtain ⟨hj, _⟩ := hJ _ _ hm
    cases hop : I.op with
    | gep ptr idx =>
      cases ptr with
      | inst q =>
        rw [hop] at hd
        simp only at hd
        rcases hj with ⟨A', ty, c, sa, hA', hA'op, hk, _⟩ |
          ⟨G, PtrOp, idx', SB, n, hG, hn, hGop, hk, hmP, hs, hcode⟩ | ⟨BC, a, hBC, hBCop, hk, _⟩
        · injection hk with hk
          have := nodup_id_inj origs hnd I A' hI hA' hk
          subst this
          rw [hop] at hA'op
          exact absurd hA'op (by simp)
        · injection hk with hk
          have := nodup_id_inj origs hnd I G hI hG hk
          subst this
          rw [hop] at hGop
          injection hGop with e1 e2
          subst e1
          obtain ⟨sa, sq, hA, hSB, hinv⟩ := ih q SB hd hrest hmP
          refine ⟨sa, n + 3, hA, hs, ?_⟩
          intro sem σ hsem hcur
          have hcurI := (hcur I (List.mem_cons_self _ _)).2 (.inst q) idx SB n hop hmP
            (by rw [hm, hs])
          have hstep := shadowGep_holds sem bound hsem σ I (.inst q) SB n hn hcurI
          have hih := hinv sem σ hsem (fun J hJ' => hcur J (List.mem_cons_of_mem _ hJ'))
          rw [hSB] at hstep
          exact subU64_step (σ.regs sq) (σ.regs q) (σ.regs I.id) (σ.regs sa) (σ.regs A)
            (σ.regs (n + 3)) hstep hih
        · injection hk with hk
          have := nodup_id_inj origs hnd I BC hI hBC hk
          subst this
          rw [hop] at hBCop
          exact absurd hBCop (by simp)
      | _ => rw [hop] at hd; simp at hd
    | bitcast ptr =>
      cases ptr with
      | inst q =>
        rw [hop] at hd
        simp only at hd
        rcases hj with ⟨A', ty, c, sa, hA', hA'op, hk, _⟩ |
          ⟨G, PtrOp, idx', SB, n, hG, hn, hGop, hk, hmP, hs, hcode⟩ | ⟨BC, a, hBC, hBCop, hk, hma⟩
        · injection hk with hk
          have := nodup_id_inj origs hnd I A' hI hA' hk
          subst this
          rw [hop] at hA'op
          exact absurd hA'op (by simp)
        · injection hk with hk
          have := nodup_id_inj origs hnd I G hI hG hk
          subst this
          rw [hop] at hGop
          exact absurd hGop (by simp)
        · injection hk with hk
          have := nodup_id_inj origs hnd I BC hI hBC hk
          subst this
          rw [hop] at hBCop
          injection hBCop with e1
          subst e1
          obtain ⟨sa, sq, hA, hSB, hinv⟩ := ih q s hd hrest hma
          refine ⟨sa, sq, hA, hSB, ?_⟩
          intro sem σ hsem hcur
          have hcurI := (hcur I (List.mem_cons_self _ _)).1 (.inst q) hop
          have hih := hinv sem σ hsem (fun J hJ' => hcur J (List.mem_cons_of_mem _ hJ'))
          simp only [Inst.holdsIn, execInst, hop, State.setReg, Op.operands, List.map_cons,
            List.map_nil, evalV, if_true] at hcurI
          rw [hsem.2.2.2 I (.inst q) _ hop] at hcurI
          rw [← hcurI]
          exact hih
      | _ => rw [hop] at hd; simp at hd
    | _ => rw [hop] at hd; simp at hd
/-- The offset part of the shadow-pointer invariant: the phases 1 and 1.5 of
the taint-aware pass on a function with the entry block `E`, whose instruction identifiers are distinct and below the
counter.  Every alloca of the entry block is mapped to a shadow alloca of the
same allocated type and array size; a `bitcast` entered in the map has the
shadow address of its operand; a `getelementptr` entered in the map has the
last of the four instructions emitted for it, which are in the function.  For
every pointer `p` entered in the map that derives from an alloca `A` of the
entry block through a chain of `getelementptr` and `bitcast` instructions,
and every state in which the definitions along the chain are current, the
shadow address of `p` minus the shadow allocation equals `p` minus `A`
modulo `2 ^ 64`; so `p` is less than `size` bytes into the allocation exactly
when its shadow address is less than `size` bytes into the shadow
allocation. -/
theorem shadow_offset_chain (F : Func) (E : Block) (rest : List Block)
    (hF : F.blocks = E :: rest)
    (hlt : ∀ I ∈ F.blocks.flatMap (fun B => B.insts), I.id < F.nextInst)
    (hnd : ((F.blocks.flatMap (fun B => B.insts)).map (fun I => I.id)).Nodup) :
    (∀ A ∈ E.insts, ∀ (ty : String) (c : Value), A.op = .alloca ty c →
      ∃ sa, (propagateShadowPointers (createShadowAllocas (startPass F))).PtrToShadowPtr
          (.inst A.id) = some (.inst sa) ∧
        ({ id := sa, name := A.name ++ ".shadow", op := .alloca ty c } : Inst) ∈
          (propagateShadowPointers (createShadowAllocas (startPass F))).F.blocks.flatMap
            (fun B => B.insts)) ∧
    (∀ BC ∈ F.blocks.flatMap (fun B => B.insts), ∀ (a s : Value), BC.op = .bitcast a →
      (propagateShadowPointers (createShadowAllocas (startPass F))).PtrToShadowPtr
        (.inst BC.id) = some s →
      (propagateShadowPointers (createShadowAllocas (startPass F))).PtrToShadowPtr a = some s) ∧
    (∀ G ∈ F.blocks.flatMap (fun B => B.insts), ∀ (PtrOp : Value) (idx : List Value) (s : Value),
      G.op = .gep PtrOp idx →
      (propagateShadowPointers (createShadowAllocas (startPass F))).PtrToShadowPtr
        (.inst G.id) = some s →
      ∃ (ShadowBase : Value) (n : InstId),
        (propagateShadowPointers (createShadowAllocas (startPass F))).PtrToShadowPtr PtrOp =
          some ShadowBase ∧
        s = .inst (n + 3) ∧
        ∀ J ∈ shadowGep G PtrOp ShadowBase n,
          J ∈ (propagateShadowPointers (createShadowAllocas (startPass F))).F.blocks.flatMap
            (fun B => B.insts)) ∧
    (∀ A ∈ E.insts, A.op.isAlloca = true →
      ∀ (chain : List Inst) (p : InstId) (s : Value), derives A.id chain p = true →
        (∀ I ∈ chain, I ∈ F.blocks.flatMap (fun B => B.insts)) →
        (propagateShadowPointers (createShadowAllocas (startPass F))).PtrToShadowPtr
          (.inst p) = some s →
        ∃ sa sp,
          (propagateShadowPointers (createShadowAllocas (startPass F))).PtrToShadowPtr
            (.inst A.id) = some (.inst sa) ∧
          s = .inst sp ∧
          ∀ (sem : Oracle) (σ : State), PointerArith F.nextInst sem →
            chainCurrent sem σ
              (propagateShadowPointers (createShadowAllocas (startPass F))).PtrToShadowPtr
              chain →
            subU64 (σ.regs sp) (σ.regs sa) = subU64 (σ.regs p) (σ.regs A.id) ∧
            ∀ size : Nat, subU64 (σ.regs p) (σ.regs A.id) < size ↔
              subU64 (σ.regs sp) (σ.regs sa) < size) := by
  obtain ⟨hJ, hsome⟩ := shadowPhases_justified F E rest hF hlt hnd
  have hEmem : ∀ A ∈ E.insts, A ∈ F.blocks.flatMap (fun B => B.insts) := by
    intro A hA
    rw [hF]
    simp only [List.flatMap_cons, List.mem_append]
    exact Or.inl hA
  refine ⟨?_, ?_, ?_, ?_⟩
  · intro A hA ty c hop
    obtain ⟨s, hs⟩ := Option.isSome_iff_exists.mp (hsome A hA (by simp [hop, Op.isAlloca]))
    rcases (hJ _ _ hs).1 with ⟨A', ty', c', sa, hA', hA'op, hk, rfl, hmem⟩ |
      ⟨G, PtrOp, idx', SB, n, hG, hn, hGop, hk, _⟩ | ⟨BC, a, hBC, hBCop, hk, _⟩
    · injection hk with hk
      have := nodup_id_inj _ hnd A A' (hEmem A hA) hA' hk
      subst this
      rw [hop] at hA'op
      injection hA'op with e1 e2
      subst e1 e2
      exact ⟨sa, hs, hmem⟩
    · injection hk with hk
      have := nodup_id_inj _ hnd A G (hEmem A hA) hG hk
      subst this
      rw [hop] at hGop
      exact absurd hGop (by simp)
    · injection hk with hk
      have := nodup_id_inj _ hnd A BC (hEmem A hA) hBC hk
      subst this
      rw [hop] at hBCop
      exact absurd hBCop (by simp)
  · intro BC hBC a s hop hs
    rcases (hJ _ _ hs).1 with ⟨A', ty', c', sa, hA', hA'op, hk, _⟩ |
      ⟨G, PtrOp, idx', SB, n, hG, hn, hGop, hk, _⟩ | ⟨BC', a', hBC', hBCop, hk, hma⟩
    · injection hk with hk
      have := nodup_id_inj _ hnd BC A' hBC hA' hk
      subst this
      rw [hop] at hA'op
      exact absurd hA'op (by simp)
    · injection hk with hk
      have := nodup_id_inj _ hnd BC G hBC hG hk
      subst this
      rw [hop] at hGop
      exact absurd hGop (by simp)
    · injection hk with hk
      have := nodup_id_inj _ hnd BC BC' hBC hBC' hk
      subst this
      rw [hop] at hBCop
      injection hBCop with e1
      subst e1
      exact hma
  · intro G hG PtrOp idx s hop hs
    rcases (hJ _ _ hs).1 with ⟨A', ty', c', sa, hA', hA'op, hk, _⟩ |
      ⟨G', PtrOp', idx', SB, n, hG', hn, hGop, hk, hmP, hs', hcode⟩ | ⟨BC', a', hBC', hBCop, hk, _⟩
    · injection hk with hk
      have := nodup_id_inj _ hnd G A' hG hA' hk
      subst this
      rw [hop] at hA'op
      exact absurd hA'op (by simp)
    · injection hk with hk
      have := nodup_id_inj _ hnd G G' hG hG' hk
      subst this
      rw [hop] at hGop
      injection hGop with e1 e2
      subst e1
      exact ⟨SB, n, hmP, hs', hcode⟩
    · injection hk with hk
      have := nodup_id_inj _ hnd G BC' hG hBC' hk
      subst this
      rw [hop] at hBCop
      exact absurd hBCop (by simp)
  · intro A hA _ chain p s hd hmem hs
    obtain ⟨sa, sp, h1, h2, h3⟩ := chain_offset F.nextInst _ _ _ hnd hJ A.id chain p s hd hmem hs
    refine ⟨sa, sp, h1, h2, fun sem σ hsem hcur => ?_⟩
    have := h3 sem σ hsem hcur
    exact ⟨this, fun size => by rw [this]⟩
theorem ptrSem_arith (bound : InstId) : PointerArith bound ptrSem := by
  refine ⟨?_, ?_, ?_, ?_⟩
  · intro J a x _ h
    simp [ptrSem, h]
  · intro J a b x y _ h
    simp [ptrSem, h]
  · intro J b o x y _ h
    simp [ptrSem, h]
  · intro J a x h
    simp [ptrSem, h]

/-- The offset equation on `ptrChain`: the pointer `r` derives from the array through `q`
and `p`; at the end of the entry block its shadow address is as far from the
shadow allocation as `r` is from the array. -/
theorem shadow_offset_chain_example :
    ∃ sa sp,
      (propagateShadowPointers (createShadowAllocas (startPass ptrChain))).PtrToShadowPtr
        (.inst 1) = some (.inst sa) ∧
      (propagateShadowPointers (createShadowAllocas (startPass ptrChain))).PtrToShadowPtr
        (.inst 4) = some (.inst sp) ∧
      subU64 (ptrChainState.regs sp) (ptrChainState.regs sa) =
        subU64 (ptrChainState.regs 4) (ptrChainState.regs 1) := by
  have m3 : (propagateShadowPointers (createShadowAllocas (startPass ptrChain))).PtrToShadowPtr
      (.inst 3) = some (.inst 9) := by decide!
  have m2 : (propagateShadowPointers (createShadowAllocas (startPass ptrChain))).PtrToShadowPtr
      (.inst 2) = some (.inst 9) := by decide!
  have m1 : (propagateShadowPointers (createShadowAllocas (startPass ptrChain))).PtrToShadowPtr
      (.inst 1) = some (.inst 5) := by decide!
  have m4 : (propagateShadowPointers (createShadowAllocas (startPass ptrChain))).PtrToShadowPtr
      (.inst 4) = some (.inst 13) := by decide!
  obtain ⟨sa, sp, h1, h2, h3⟩ :=
    (shadow_offset_chain ptrChain
      { id := 0,
        insts := [ ⟨1, "arr", .alloca "[4 x i32]" (.cint 1)⟩,
                   ⟨2, "p", .gep (.inst 1) [.cint 8]⟩,
                   ⟨3, "q", .bitcast (.inst 2)⟩,
                   ⟨4, "r", .gep (.inst 3) [.arg 0]⟩ ],
        term := .ret none } [] rfl (by decide) (by decide)).2.2.2
      ⟨1, "arr", .alloca "[4 x i32]" (.cint 1)⟩ (by decide) rfl
      [⟨4, "r", .gep (.inst 3) [.arg 0]⟩, ⟨3, "q", .bitcast (.inst 2)⟩,
        ⟨2, "p", .gep (.inst 1) [.cint 8]⟩] 4 (.inst 13) (by decide) (by decide) m4
  injection h2 with h2
  subst h2
  refine ⟨sa, 13, h1, m4, (h3 ptrSem ptrChainState (ptrSem_arith _) ?_).1⟩
  intro I hI
  simp only [List.mem_cons, List.mem_singleton, List.not_mem_nil, or_false] at hI
  rcases hI with rfl | rfl | rfl
  · refine ⟨fun a h => by simp at h, ?_⟩
    intro PtrOp idx SB n hop hm hk
    injection hop with e1 e2
    subst e1 e2
    rw [m3] at hm
    injection hm with hm
    subst hm
    rw [m4] at hk
    injection hk with hk
    injection hk with hk
    have hn : n = 10 := (@Nat.add_right_cancel 10 3 n hk).symm
    subst hn
    decide!
  · exact ⟨fun a _ => by decide!, fun PtrOp idx SB n h => by simp at h⟩
  · refine ⟨fun a h => by simp at h, ?_⟩
    intro PtrOp idx SB n hop hm hk
    injection hop with e1 e2
    subst e1 e2
    rw [m1] at hm
    injection hm with hm
    subst hm
    rw [m2] at hk
    injection hk with hk
    injection hk with hk
    have hn : n = 6 := (@Nat.add_right_cancel 6 3 n hk).symm
    subst hn
    decide!

theorem execPhis_regs_other (σ0 : State) (p : BlockId) (L : List Inst) (id : InstId)
    (h : ∀ I ∈ L, I.id ≠ id) : ∀ σ, (execPhis σ0 p σ L).regs id = σ.regs id := by
  induction L with
  | nil => intro σ; rfl
  | cons I L ih =>
    intro σ
    have hI := h I (List.mem_cons_self _ _)
    have hL := ih (fun J hJ => h J (List.mem_cons_of_mem _ hJ))
    rcases I with ⟨i, name, op⟩
    cases op with
    | phi inc =>
      simp only [execPhis]
      split
      · rw [hL]
        simp only [State.setReg]
        rw [if_neg (fun e => hI e.symm)]
      · exact hL σ
    | _ => simp only [execPhis]; exact hL σ

theorem execInsts_regs_other (sem : Oracle) (L : List Inst) (id : InstId)
    (h : ∀ I ∈ L, I.id ≠ id) : ∀ σ, (execInsts sem σ L).regs id = σ.regs id := by
  induction L with
  | nil => intro σ; rfl
  | cons I L ih =>
    intro σ
    simp only [execInsts]
    rw [ih (fun J hJ => h J (List.mem_cons_of_mem _ hJ)),
      execInst_regs_other sem σ I id (fun e => h I (List.mem_cons_self _ _) e.symm)]

/-- The incoming list of an execution-taint phi depends on the identifiers
and the terminators of the blocks only. -/
theorem execIncoming_map (F : Func) (m : ValueMap) (exec : BlockMap) (h : Block → Block)
    (hid : ∀ X, (h X).id = X.id) (hterm : ∀ X, (h X).term = X.term) (b : BlockId) :
    execIncoming { F with blocks := F.blocks.map h } m exec b = execIncoming F m exec b := by
  have hentry : ({ F with blocks := F.blocks.map h } : Func).entry = F.entry := by
    simp only [Func.entry]
    cases F.blocks with
    | nil => rfl
    | cons X L => simp [hid]
  have hedge : ∀ P, edgeTaint { F with blocks := F.blocks.map h } m exec (h P) =
      edgeTaint F m exec P := by
    intro P
    simp only [edgeTaint, getBlockTaint, getTerminatorConditionTaint, hentry, hid, hterm]
  have key : ∀ L : List Block,
      ((L.map h).flatMap (fun P => (P.term.successors.filter (· == b)).map (fun _ => P))).map
          (fun Pred => (edgeTaint { F with blocks := F.blocks.map h } m exec Pred, Pred.id)) =
        (L.flatMap (fun P => (P.term.successors.filter (· == b)).map (fun _ => P))).map
          (fun Pred => (edgeTaint F m exec Pred, Pred.id)) := by
    intro L
    induction L with
    | nil => rfl
    | cons X L ih =>
      simp only [List.map_cons, List.flatMap_cons, List.map_append, ih, List.map_map, hterm]
      congr 1
      apply List.map_congr_left
      intro _ _
      simp only [Function.comp, hedge, hid]
  exact key F.blocks
theorem wireExecPhis_cons_inst (m : ValueMap) (exec : BlockMap) (F : Func) (b : BlockId)
    (rest : List BlockId) (e : InstId) (hb : exec b = some (.inst e)) :
    wireExecPhis m exec F (b :: rest) =
      wireExecPhis m exec (F.updateInst e (appendIncoming (execIncoming F m exec b))) rest := by
  simp only [wireExecPhis, hb]
  congr 1

/-- The wiring loop acts on every instruction of the function as
`wireInst`. -/
theorem wireExecPhis_eq (F : Func) (m : ValueMap) (exec : BlockMap) :
    ∀ (ids : List BlockId) (h : Block → Block), (∀ X, (h X).id = X.id) →
      (∀ X, (h X).term = X.term) →
      wireExecPhis m exec { F with blocks := F.blocks.map h } ids =
        { F with blocks := F.blocks.map (fun B =>
            { h B with insts := (h B).insts.map (wireInst F m exec ids) }) } := by
  intro ids
  induction ids with
  | nil =>
    intro h _ _
    simp only [wireExecPhis]
    congr 1
    apply List.map_congr_left
    intro B _
    have : wireInst F m exec [] = fun I => I := by funext I; rfl
    rw [this, List.map_id']
  | cons b rest ih =>
    intro h hid hterm
    have hskip : wireExecPhis m exec { F with blocks := F.blocks.map h } rest =
        { F with blocks := F.blocks.map (fun B =>
            { h B with insts := (h B).insts.map (wireInst F m exec rest) }) } := ih h hid hterm
    cases hb : exec b with
    | none =>
      simp only [wireExecPhis, hb, hskip]
      congr 1
      apply List.map_congr_left
      intro B _
      congr 1
      apply List.map_congr_left
      intro I _
      simp only [wireInst, hb]
    | some v =>
      cases v with
      | inst e =>
        rw [wireExecPhis_cons_inst m exec _ b rest e hb, execIncoming_map F m exec h hid hterm b]
        have := ih (fun B => { h B with insts := (h B).insts.map (fun I =>
          if I.id = e then appendIncoming (execIncoming F m exec b) I else I) })
          (fun X => hid X) (fun X => hterm X)
        simp only [Func.updateInst, List.map_map, Function.comp_def] at this ⊢
        rw [this]
        congr 1
        apply List.map_congr_left
        intro B _
        congr 1
        apply List.map_congr_left
        intro I _
        simp only [wireInst, hb]
      | _ =>
        simp only [wireExecPhis, hb, hskip]
        congr 1
        apply List.map_congr_left
        intro B _
        congr 1
        apply List.map_congr_left
        intro I _
        simp only [wireInst, hb]
theorem appendIncoming_id (inc : List (Value × BlockId)) (I : Inst) :
    (appendIncoming inc I).id = I.id := by
  unfold appendIncoming
  split <;> rfl

theorem wireInst_id (F : Func) (m : ValueMap) (exec : BlockMap) (ids : List BlockId) :
    ∀ I, (wireInst F m exec ids I).id = I.id := by
  induction ids with
  | nil => intro I; rfl
  | cons b rest ih =>
    intro I
    simp only [wireInst]
    split
    · rw [ih]
      split
      · exact appendIncoming_id _ I
      · rfl
    · exact ih I

/-- The wiring loop leaves an instruction that is no execution-taint phi of a
visited block as it is. -/
theorem wireInst_other (F : Func) (m : ValueMap) (exec : BlockMap) (ids : List BlockId)
    (I : Inst) (h : ∀ b ∈ ids, exec b ≠ some (.inst I.id)) : wireInst F m exec ids I = I := by
  induction ids with
  | nil => rfl
  | cons b rest ih =>
    have hb := h b (List.mem_cons_self _ _)
    have hrest := ih (fun b' hb' => h b' (List.mem_cons_of_mem _ hb'))
    simp only [wireInst]
    split
    · rename_i e he
      have hne : I.id ≠ e := fun heq => hb (by rw [he, heq])
      rw [if_neg hne]
      exact hrest
    · exact hrest

/-- The wiring loop gives the execution-taint phi of the visited block `bB`
the incoming list of `bB`. -/
theorem wireInst_head (F : Func) (m : ValueMap) (exec : BlockMap) (ids : List BlockId)
    (bB : BlockId) (e : InstId) (name : String) (old : List (Value × BlockId))
    (hmem : bB ∈ ids) (hnd : ids.Nodup) (he : exec bB = some (.inst e))
    (hothers : ∀ b ∈ ids, b ≠ bB → exec b ≠ some (.inst e)) :
    wireInst F m exec ids ⟨e, name, .phi old⟩ =
      ⟨e, name, .phi (old ++ execIncoming F m exec bB)⟩ := by
  induction ids with
  | nil => simp at hmem
  | cons b rest ih =>
    have hndr := (List.nodup_cons.mp hnd).2
    have hnot := (List.nodup_cons.mp hnd).1
    by_cases hb : b = bB
    · subst hb
      simp only [wireInst, he, if_true, appendIncoming]
      exact wireInst_other F m exec rest _ (fun b' hb' =>
        hothers b' (List.mem_cons_of_mem _ hb') (fun heq => hnot (heq ▸ hb')))
    · have hmem' : bB ∈ rest := by
        rcases List.mem_cons.mp hmem with h | h
        · exact absurd h.symm hb
        · exact h
      have hne := hothers b (List.mem_cons_self _ _) hb
      have hrest := ih hmem' hndr (fun b' hb' => hothers b' (List.mem_cons_of_mem _ hb'))
      simp only [wireInst]
      split
      · rename_i e' he'
        have : e ≠ e' := fun heq => hne (by rw [he', heq])
        rw [if_neg this]
        exact hrest
      · exact hrest

/-- Instructions of two different blocks have different identifiers. -/
theorem nodup_across (L : List Block)
    (h : ((L.flatMap (fun B => B.insts)).map (fun I => I.id)).Nodup) (B B' : Block)
    (hB : B ∈ L) (hB' : B' ∈ L) (hne : B ≠ B') (I I' : Inst) (hI : I ∈ B.insts)
    (hI' : I' ∈ B'.insts) : I.id ≠ I'.id := by
  induction L with
  | nil => simp at hB
  | cons X L ih =>
    simp only [List.flatMap_cons, List.map_append] at h
    obtain ⟨h1, h2, h3⟩ := List.nodup_append.mp h
    have hin : ∀ Y ∈ L, ∀ J ∈ Y.insts, J.id ∈ (L.flatMap (fun B => B.insts)).map (fun I => I.id) :=
      fun Y hY J hJ => List.mem_map.mpr ⟨J, List.mem_flatMap.mpr ⟨Y, hY, hJ⟩, rfl⟩
    rcases List.mem_cons.mp hB with hBX | hBL
    · rcases List.mem_cons.mp hB' with hBX' | hBL'
      · exact absurd (hBX.trans hBX'.symm) hne
      · intro heq
        subst hBX
        exact h3 (List.mem_map.mpr ⟨I, hI, rfl⟩) (heq ▸ hin B' hBL' I' hI')
    · rcases List.mem_cons.mp hB' with hBX' | hBL'
      · intro heq
        subst hBX'
        exact h3 (List.mem_map.mpr ⟨I', hI', rfl⟩) (heq ▸ hin B hBL I hI)
      · exact ih h2 hBL hBL'
theorem nodup_within (L : List Block)
    (h : ((L.flatMap (fun B => B.insts)).map (fun I => I.id)).Nodup) (B : Block) (hB : B ∈ L) :
    (B.insts.map (fun I => I.id)).Nodup := by
  induction L with
  | nil => simp at hB
  | cons X L ih =>
    simp only [List.flatMap_cons, List.map_append] at h
    obtain ⟨h1, h2, _⟩ := List.nodup_append.mp h
    rcases List.mem_cons.mp hB with hX | hL
    · subst hX; exact h1
    · exact ih h2 hL

theorem find?_of_mem (L : List Block) (h : (L.map (fun B => B.id)).Nodup) (B : Block)
    (hB : B ∈ L) : L.find? (fun X => X.id == B.id) = some B := by
  induction L with
  | nil => simp at hB
  | cons X L ih =>
    simp only [List.map_cons, List.nodup_cons] at h
    rcases List.mem_cons.mp hB with hX | hL
    · subst hX
      simp [List.find?_cons]
    · have hne : X.id ≠ B.id := fun heq => h.1 (heq ▸ List.mem_map.mpr ⟨B, hL, rfl⟩)
      have hb : (X.id == B.id) = false := by simpa using hne
      simp only [List.find?_cons, hb]
      exact ih h.2 hL

theorem getBlock_of_mem (F : Func) (h : (F.blocks.map (fun B => B.id)).Nodup) (B : Block)
    (hB : B ∈ F.blocks) : F.getBlock B.id = some B :=
  find?_of_mem F.blocks h B hB

/-- The function the wiring loop returns. -/
theorem wireExecPhis_blocks (F : Func) (m : ValueMap) (exec : BlockMap) (ids : List BlockId) :
    wireExecPhis m exec F ids =
      { F with blocks := F.blocks.map (fun B =>
          { B with insts := B.insts.map (wireInst F m exec ids) }) } := by
  have k := wireExecPhis_eq F m exec ids (fun X => X) (fun _ => rfl) (fun _ => rfl)
  simp only [List.map_id'] at k
  exact k

theorem wireExecPhis_getBlock (F : Func) (m : ValueMap) (exec : BlockMap) (ids : List BlockId)
    (b : BlockId) :
    (wireExecPhis m exec F ids).getBlock b =
      (F.getBlock b).map (fun B => { B with insts := B.insts.map (wireInst F m exec ids) }) := by
  rw [wireExecPhis_blocks]
  exact find?_map_id F.blocks
    (fun B => { B with insts := B.insts.map (wireInst F m exec ids) }) (fun _ => rfl) b


/-- After the wiring loop a block after the entry starts with its
execution-taint phi, wired with the incoming list of the block, and no other
instruction of the block has the phi's identifier. -/
theorem wired_block (F : Func) (m : ValueMap) (exec : BlockMap) (E : Block)
    (others : List Block) (hF : F.blocks = E :: others) (hentry : exec E.id = none)
    (hblocks : (F.blocks.map (fun B => B.id)).Nodup)
    (hinsts : ((F.blocks.flatMap (fun B => B.insts)).map (fun I => I.id)).Nodup)
    (hphis : ∀ B ∈ others, hasExecPhi exec B = true) (B : Block) (hB : B ∈ others) :
    ∃ (e : InstId) (name : String) (rest : List Inst), exec B.id = some (.inst e) ∧
      (∀ I ∈ rest, I.id ≠ e) ∧
      (wireExecPhis m exec F (F.blocks.map (fun B => B.id))).getBlock B.id =
        some ⟨B.id, ⟨e, name, .phi (execIncoming F m exec B.id)⟩ :: rest, B.term⟩ := by
  have hBF : B ∈ F.blocks := by rw [hF]; exact List.mem_cons_of_mem _ hB
  have hhead : ∀ X ∈ others, ∃ (I : Inst) (rest : List Inst), X.insts = I :: rest ∧
      I.op = .phi [] ∧ exec X.id = some (.inst I.id) := by
    intro X hX
    have := hphis X hX
    unfold hasExecPhi at this
    split at this
    · rename_i I rest hins
      simp only [Bool.and_eq_true, beq_iff_eq] at this
      exact ⟨I, rest, hins, this.1, this.2⟩
    · exact absurd this (by simp)
  obtain ⟨I, rest, hins, hop, hexec⟩ := hhead B hB
  rcases I with ⟨e, name, op⟩
  simp only at hop hexec
  subst hop
  have hrest : ∀ J ∈ rest, J.id ≠ e := by
    have := nodup_within F.blocks hinsts B hBF
    rw [hins, List.map_cons, List.nodup_cons] at this
    intro J hJ heq
    exact this.1 (List.mem_map.mpr ⟨J, hJ, heq⟩)
  refine ⟨e, name, rest.map (wireInst F m exec (F.blocks.map (fun B => B.id))), hexec, ?_, ?_⟩
  · intro J hJ
    obtain ⟨J', hJ', rfl⟩ := List.mem_map.mp hJ
    rw [wireInst_id]
    exact hrest J' hJ'
  · rw [wireExecPhis_getBlock, getBlock_of_mem F hblocks B hBF]
    simp only [Option.map_some', hins, List.map_cons]
    rw [wireInst_head F m exec _ B.id e name [] (List.mem_map.mpr ⟨B, hBF, rfl⟩) hblocks hexec]
    · rfl
    · intro b hb hne hcontra
      obtain ⟨X, hX, rfl⟩ := List.mem_map.mp hb
      rw [hF] at hX
      rcases List.mem_cons.mp hX with hXE | hXo
      · subst hXE
        rw [hentry] at hcontra
        exact absurd hcontra (by simp)
      · obtain ⟨I', rest', hins', _, hexec'⟩ := hhead X hXo
        rw [hexec'] at hcontra
        injection hcontra with hcontra
        injection hcontra with hcontra
        have hXF : X ∈ F.blocks := by rw [hF]; exact List.mem_cons_of_mem _ hXo
        exact nodup_across F.blocks hinsts X B hXF hBF (fun h => hne (by rw [h]))
          I' ⟨e, name, .phi []⟩ (by rw [hins']; exact List.mem_cons_self _ _)
          (by rw [hins]; exact List.mem_cons_self _ _) hcontra
theorem mem_predBlocks (F : Func) (b : BlockId) (P : Block) :
    P ∈ F.predBlocks b ↔ P ∈ F.blocks ∧ b ∈ P.term.successors := by
  unfold Func.predBlocks
  simp only [List.mem_flatMap, List.mem_map, List.mem_filter, beq_iff_eq]
  constructor
  · rintro ⟨X, hX, a, ⟨ha, rfl⟩, rfl⟩
    exact ⟨hX, ha⟩
  · rintro ⟨hP, hb⟩
    exact ⟨P, hP, b, ⟨hb, rfl⟩, rfl⟩

theorem runTrace_succ (sem : Oracle) (G : Func) (fuel : Nat) (pred : Option BlockId)
    (cur : BlockId) (σ : State) (B : Block) (hB : G.getBlock cur = some B) :
    runTrace sem G (fuel + 1) pred cur σ =
      (cur, (execBlock sem σ pred B).1) ::
        (match B.term.next (execBlock sem σ pred B).1 with
          | some nxt => runTrace sem G fuel (some cur) nxt (execBlock sem σ pred B).1
          | none => []) := by
  rw [runTrace, hB]
  simp only []
  have hpair : execBlock sem σ pred B =
      ((execBlock sem σ pred B).1, B.term.next (execBlock sem σ pred B).1) := rfl
  rw [hpair]
  cases B.term.next (execBlock sem σ pred B).1 <;> rfl

theorem FreshIds_refl (inp : List InstId) (n : InstId) : FreshIds inp n inp n :=
  ⟨Nat.le_refl _, fun _ h => Or.inl h, fun _ h => h⟩

theorem FreshIds_append (inp1 inp2 out1 out2 : List InstId) (n0 n1 n2 : InstId)
    (h1 : FreshIds inp1 n0 out1 n1) (h2 : FreshIds inp2 n1 out2 n2) :
    FreshIds (inp1 ++ inp2) n0 (out1 ++ out2) n2 := by
  obtain ⟨l1, m1, d1⟩ := h1
  obtain ⟨l2, m2, d2⟩ := h2
  refine ⟨Nat.le_trans l1 l2, ?_, ?_⟩
  · intro id hid
    rcases List.mem_append.mp hid with h | h
    · rcases m1 id h with h | ⟨ha, hb⟩
      · exact Or.inl (List.mem_append_left _ h)
      · exact Or.inr ⟨ha, Nat.lt_of_lt_of_le hb l2⟩
    · rcases m2 id h with h | ⟨ha, hb⟩
      · exact Or.inl (List.mem_append_right _ h)
      · exact Or.inr ⟨Nat.le_trans l1 ha, hb⟩
  · intro hlt hnd
    rw [List.nodup_append] at hnd ⊢
    obtain ⟨nd1, nd2, hdis⟩ := hnd
    have lt1 : ∀ id ∈ inp1, id < n0 := fun id h => hlt id (List.mem_append_left _ h)
    have lt2 : ∀ id ∈ inp2, id < n0 := fun id h => hlt id (List.mem_append_right _ h)
    refine ⟨d1 lt1 nd1, d2 (fun id h => Nat.lt_of_lt_of_le (lt2 id h) l1) nd2, ?_⟩
    intro x hx1 hx2
    rcases m1 x hx1 with h | ⟨ha, hb⟩
    · rcases m2 x hx2 with h' | ⟨ha', _⟩
      · exact hdis h h'
      · have := lt1 x h
        unfold InstId at *
        omega
    · rcases m2 x hx2 with h' | ⟨ha', _⟩
      · have := lt2 x h'
        unfold InstId at *
        omega
      · unfold InstId at *
        omega

theorem FreshIds_cons_fresh (inp out : List InstId) (n n2 : InstId)
    (h : FreshIds inp (n + 1) out n2) : FreshIds inp n (n :: out) n2 := by
  obtain ⟨l, m, d⟩ := h
  refine ⟨Nat.le_of_succ_le l, ?_, ?_⟩
  · intro id hid
    rcases List.mem_cons.mp hid with h | h
    · subst h
      exact Or.inr ⟨Nat.le_refl _, l⟩
    · rcases m id h with h | ⟨ha, hb⟩
      · exact Or.inl h
      · exact Or.inr ⟨Nat.le_of_succ_le ha, hb⟩
  · intro hlt hnd
    rw [List.nodup_cons]
    refine ⟨?_, d (fun id h => Nat.lt_succ_of_lt (hlt id h)) hnd⟩
    intro hn
    rcases m n hn with h | ⟨ha, _⟩
    · exact Nat.lt_irrefl _ (hlt n h)
    · exact Nat.not_succ_le_self _ ha

theorem FreshIds_cons_same (inp out : List InstId) (a n n2 : InstId)
    (h : FreshIds inp n out n2) : FreshIds (a :: inp) n (a :: out) n2 :=
  FreshIds_append [a] inp [a] out n n n2 (FreshIds_refl [a] n) h

theorem FreshIds_trans (a b c : List InstId) (n0 n1 n2 : InstId)
    (h1 : FreshIds a n0 b n1) (h2 : FreshIds b n1 c n2) : FreshIds a n0 c n2 := by
  obtain ⟨l1, m1, d1⟩ := h1
  obtain ⟨l2, m2, d2⟩ := h2
  refine ⟨Nat.le_trans l1 l2, ?_, ?_⟩
  · intro id hid
    rcases m2 id hid with h | ⟨ha, hb⟩
    · rcases m1 id h with h | ⟨ha, hb⟩
      · exact Or.inl h
      · exact Or.inr ⟨ha, Nat.lt_of_lt_of_le hb l2⟩
    · exact Or.inr ⟨Nat.le_trans l1 ha, hb⟩
  · intro hlt hnd
    refine d2 ?_ (d1 hlt hnd)
    intro id hid
    rcases m1 id hid with h | ⟨_, hb⟩
    · exact Nat.lt_of_lt_of_le (hlt id h) l1
    · exact hb

theorem instIds_cons (B : Block) (L : List Block) :
    instIds (B :: L) = B.insts.map (fun I => I.id) ++ instIds L := by
  simp [instIds, List.flatMap_cons]

theorem createExecPhis_ids (L : List Block) : ∀ (next : InstId) (m : BlockMap),
    FreshIds (instIds L) next (instIds (createExecPhis L next m).1)
      (createExecPhis L next m).2.1 := by
  induction L with
  | nil => intro next m; exact FreshIds_refl _ _
  | cons B L ih =>
    intro next m
    simp only [createExecPhis, instIds_cons, List.map_cons]
    exact FreshIds_append _ _ _ _ next (next + 1) _
      (FreshIds_cons_fresh _ _ _ _ (FreshIds_refl _ _)) (ih (next + 1) _)

theorem createShadowPhis_ids (L : List Inst) : ∀ (next : InstId) (m : ValueMap),
    FreshIds (L.map (fun I => I.id)) next ((createShadowPhis L next m).1.map (fun I => I.id))
      (createShadowPhis L next m).2.1 := by
  induction L with
  | nil => intro next m; exact FreshIds_refl _ _
  | cons I L ih =>
    intro next m
    rw [createShadowPhis]
    split
    · simp only [List.map_cons]
      exact FreshIds_cons_fresh _ _ _ _ (FreshIds_cons_same _ _ _ _ _ (ih (next + 1) _))
    · simp only [List.map_cons]
      exact FreshIds_cons_same _ _ _ _ _ (ih next m)

theorem createShadowPhisAll_ids (L : List Block) : ∀ (next : InstId) (m : ValueMap),
    FreshIds (instIds L) next (instIds (createShadowPhisAll L next m).1)
      (createShadowPhisAll L next m).2.1 := by
  induction L with
  | nil => intro next m; exact FreshIds_refl _ _
  | cons B L ih =>
    intro next m
    simp only [createShadowPhisAll, instIds_cons]
    exact FreshIds_append _ _ _ _ next _ _ (createShadowPhis_ids B.insts next m) (ih _ _)

theorem createExecPhis_sig (L : List Block) : ∀ (next : InstId) (m : BlockMap),
    (createExecPhis L next m).1.map (fun B => (B.id, B.term)) =
      L.map (fun B => (B.id, B.term)) := by
  induction L with
  | nil => intro next m; rfl
  | cons B L ih =>
    intro next m
    simp only [createExecPhis, List.map_cons, ih]

theorem createShadowPhisAll_sig (L : List Block) : ∀ (next : InstId) (m : ValueMap),
    (createShadowPhisAll L next m).1.map (fun B => (B.id, B.term)) =
      L.map (fun B => (B.id, B.term)) := by
  induction L with
  | nil => intro next m; rfl
  | cons B L ih =>
    intro next m
    simp only [createShadowPhisAll, List.map_cons, ih]

theorem createExecPhis_map_other (L : List Block) : ∀ (next : InstId) (m : BlockMap)
    (b : BlockId), b ∉ L.map (fun B => B.id) → (createExecPhis L next m).2.2 b = m b := by
  induction L with
  | nil => intro next m b _; rfl
  | cons B L ih =>
    intro next m b hb
    simp only [List.map_cons, List.mem_cons, not_or] at hb
    simp only [createExecPhis]
    rw [ih _ _ b hb.2]
    simp only [BlockMap.set, if_neg hb.1]

/-- After the first loop every block starts with an empty phi named
`exec.taint` that the Block Execution-Taint Map records for the block. -/
theorem createExecPhis_head (L : List Block) : ∀ (next : InstId) (m : BlockMap),
    (L.map (fun B => B.id)).Nodup → ∀ X ∈ (createExecPhis L next m).1,
      ∃ (k : InstId) (rest : List Inst), X.insts = ⟨k, "exec.taint", .phi []⟩ :: rest ∧
        (createExecPhis L next m).2.2 X.id = some (.inst k) := by
  induction L with
  | nil => intro next m _ X hX; simp [createExecPhis] at hX
  | cons B L ih =>
    intro next m hnd X hX
    rw [List.map_cons, List.nodup_cons] at hnd
    simp only [createExecPhis, List.mem_cons] at hX ⊢
    rcases hX with hX | hX
    · subst hX
      refine ⟨next, B.insts, rfl, ?_⟩
      simp only
      rw [createExecPhis_map_other L _ _ B.id hnd.1]
      simp [BlockMap.set]
    · exact ih _ _ hnd.2 X hX

theorem createShadowPhis_head (k : InstId) (rest : List Inst) (next : InstId) (m : ValueMap) :
    (createShadowPhis (⟨k, "exec.taint", .phi []⟩ :: rest) next m).1 =
      ⟨k, "exec.taint", .phi []⟩ :: (createShadowPhis rest next m).1 := by
  rw [createShadowPhis]
  have h : starts_with "exec.taint" "exec.taint" = true := by decide
  simp [h]

/-- The second loop keeps the execution-taint phi at the head of its block. -/
theorem createShadowPhisAll_head (exec : BlockMap) (L : List Block) :
    ∀ (next : InstId) (m : ValueMap),
    (∀ B ∈ L, ∃ (k : InstId) (rest : List Inst), B.insts = ⟨k, "exec.taint", .phi []⟩ :: rest ∧
        exec B.id = some (.inst k)) →
    ∀ X ∈ (createShadowPhisAll L next m).1, hasExecPhi exec X = true := by
  induction L with
  | nil => intro next m _ X hX; simp [createShadowPhisAll] at hX
  | cons B L ih =>
    intro next m h X hX
    simp only [createShadowPhisAll, List.mem_cons] at hX
    rcases hX with hX | hX
    · subst hX
      obtain ⟨k, rest, hins, hexec⟩ := h B (List.mem_cons_self _ _)
      simp only [hasExecPhi, hins, createShadowPhis_head, hexec]
      simp
    · exact ih _ _ (fun B hB => h B (List.mem_cons_of_mem _ hB)) X hX

theorem appendIncoming_isPhi (inc : List (Value × BlockId)) (I : Inst) :
    (appendIncoming inc I).op.isPhi = I.op.isPhi := by
  unfold appendIncoming
  split
  · rename_i old h
    rw [h]
    rfl
  · rfl

theorem appendIncoming_nonphi (inc : List (Value × BlockId)) (I : Inst)
    (h : I.op.isPhi = false) : appendIncoming inc I = I := by
  unfold appendIncoming
  split
  · rename_i old ho
    rw [ho] at h
    simp [Op.isPhi] at h
  · rfl

theorem wireInst_nonphi (F : Func) (m : ValueMap) (exec : BlockMap) (ids : List BlockId) :
    ∀ I, I.op.isPhi = false → wireInst F m exec ids I = I := by
  induction ids with
  | nil => intro I _; rfl
  | cons b rest ih =>
    intro I h
    simp only [wireInst]
    split
    · split
      · rw [appendIncoming_nonphi _ I h]
        exact ih I h
      · exact ih I h
    · exact ih I h

theorem wireInst_isPhi (F : Func) (m : ValueMap) (exec : BlockMap) (ids : List BlockId) :
    ∀ I, (wireInst F m exec ids I).op.isPhi = I.op.isPhi := by
  induction ids with
  | nil => intro I; rfl
  | cons b rest ih =>
    intro I
    simp only [wireInst]
    split
    · rw [ih]
      split
      · exact appendIncoming_isPhi _ I
      · rfl
    · exact ih I

/-- Entering a block whose execution-taint phi `e` starts with the incoming
list of the block, from a predecessor whose execution taint is true: the phi
is true at the block's terminator. -/
theorem wired_step (sem : Oracle) (F : Func) (m : ValueMap) (exec : BlockMap) (σ : State)
    (p cur : BlockId) (e : InstId) (name : String) (extra : List (Value × BlockId))
    (rest : List Inst) (t : Term)
    (hedge : ∃ P ∈ F.predBlocks cur, P.id = p) (hrest : ∀ I ∈ rest, I.id ≠ e)
    (htrue : truth σ (getBlockTaint F exec p) = true) :
    truth (execBlock sem σ (some p)
      ⟨cur, ⟨e, name, .phi (execIncoming F m exec cur ++ extra)⟩ :: rest, t⟩).1 (.inst e) =
      true := by
  obtain ⟨P, hP, hPid⟩ := hedge
  have hfind : ∃ en, (execIncoming F m exec cur ++ extra).find? (fun x => x.2 == p) = some en ∧
      truth σ en.1 = true := by
    cases hf : (execIncoming F m exec cur).find? (fun x => x.2 == p) with
    | none =>
      rw [List.find?_eq_none] at hf
      have := hf (edgeTaint F m exec P, P.id) (List.mem_map.mpr ⟨P, hP, rfl⟩)
      simp [hPid] at this
    | some en =>
      refine ⟨en, by rw [List.find?_append, hf]; rfl, ?_⟩
      have hmem := List.mem_of_find?_eq_some hf
      have hp := List.find?_some hf
      simp only [beq_iff_eq] at hp
      obtain ⟨P', _, rfl⟩ := List.mem_map.mp hmem
      simp only at hp ⊢
      rw [truth_edgeTaint, hp, htrue]
      rfl
  obtain ⟨en, hen, htr⟩ := hfind
  simp only [execBlock, execPhis, hen, execInsts, execInst]
  simp only [truth]
  rw [execInsts_regs_other sem rest e hrest, execPhis_regs_other σ p rest e hrest]
  simp only [State.setReg, if_true]
  rw [truth_evalV]
  exact htr

theorem sig_mem (L1 L2 : List Block)
    (h : L1.map (fun B => (B.id, B.term)) = L2.map (fun B => (B.id, B.term))) (B : Block)
    (hB : B ∈ L1) : ∃ P ∈ L2, P.id = B.id ∧ P.term = B.term := by
  have : (B.id, B.term) ∈ L2.map (fun B => (B.id, B.term)) := by
    rw [← h]
    exact List.mem_map.mpr ⟨B, hB, rfl⟩
  obtain ⟨P, hP, hPe⟩ := List.mem_map.mp this
  simp only [Prod.mk.injEq] at hPe
  exact ⟨P, hP, hPe.1, hPe.2⟩

theorem sig_entry (F H : Func)
    (h : H.blocks.map (fun B => (B.id, B.term)) = F.blocks.map (fun B => (B.id, B.term))) :
    H.entry = F.entry := by
  have h2 := congrArg (fun L => (L.map Prod.fst).head?) h
  simp only [List.map_map] at h2
  simp only [Func.entry, ← List.head?_map]
  exact h2

/-- Once a block is entered along an edge from a predecessor whose execution
taint is true, every block of the rest of the run has a true execution
taint. -/
theorem tainted_trace (sem : Oracle) (F H : Func) (m : ValueMap) (exec : BlockMap) (E : BlockId)
    (hnopred : ∀ B ∈ F.blocks, E ∉ B.term.successors) (hent : F.entry = some E)
    (hW : ExecWired F m exec E H) :
    ∀ (fuel : Nat) (p cur : BlockId) (σ : State), (∃ P ∈ F.predBlocks cur, P.id = p) →
      truth σ (getBlockTaint F exec p) = true →
      ∀ x ∈ runTrace sem H fuel (some p) cur σ,
        truth x.2 (getBlockTaint F exec x.1) = true := by
  intro fuel
  induction fuel with
  | zero => intro p cur σ _ _ x hx; simp [runTrace] at hx
  | succ fuel ih =>
    intro p cur σ hedge htrue x hx
    cases hG : H.getBlock cur with
    | none => simp [runTrace, hG] at hx
    | some Bw =>
      rw [runTrace_succ sem _ fuel (some p) cur σ Bw hG] at hx
      obtain ⟨hBH, hBid⟩ := getBlock_some hG
      obtain ⟨P, hP, hPid⟩ := hedge
      obtain ⟨hPF, hcur⟩ := (mem_predBlocks F cur P).mp hP
      have hne : cur ≠ E := fun h => hnopred P hPF (h ▸ hcur)
      obtain ⟨e, name, extra, rest, hexec, hins, hrest⟩ := hW.2.1 Bw hBH (by rw [hBid]; exact hne)
      have hwb : Bw = ⟨cur, ⟨e, name, .phi (execIncoming F m exec cur ++ extra)⟩ :: rest,
          Bw.term⟩ := by
        rcases Bw with ⟨bid, bins, bt⟩
        simp only at hBid hins
        subst hBid
        subst hins
        rfl
      have htaint : getBlockTaint F exec cur = .inst e := by
        simp only [getBlockTaint, hent, Option.some.injEq]
        rw [if_neg (fun h => hne h.symm), ← hBid, hexec]
      have hstep : truth (execBlock sem σ (some p) Bw).1 (getBlockTaint F exec cur) = true := by
        rw [htaint, hwb]
        exact wired_step sem F m exec σ p cur e name extra rest Bw.term ⟨P, hP, hPid⟩ hrest htrue
      rcases List.mem_cons.mp hx with rfl | hx
      · exact hstep
      · cases hn : Bw.term.next (execBlock sem σ (some p) Bw).1 with
        | none => simp [hn] at hx
        | some nxt =>
          rw [hn] at hx
          obtain ⟨Q, hQ, hQid, hQt⟩ := sig_mem H.blocks F.blocks hW.1 Bw hBH
          refine ih cur nxt _ ⟨Q, (mem_predBlocks F nxt Q).mpr ⟨hQ, ?_⟩, by rw [hQid, hBid]⟩
            hstep x hx
          rw [hQt]
          exact mem_successors_of_next _ _ _ hn

/-- Stickiness along a run of a function whose execution-taint phis are
wired. -/
theorem sticky_trace (sem : Oracle) (F H : Func) (m : ValueMap) (exec : BlockMap) (E : BlockId)
    (hnopred : ∀ B ∈ F.blocks, E ∉ B.term.successors) (hent : F.entry = some E)
    (hW : ExecWired F m exec E H) :
    ∀ (fuel : Nat) (pred : Option BlockId) (cur : BlockId) (σ : State) (i j : Nat)
      (bi bj : BlockId) (σi σj : State), i ≤ j →
      (runTrace sem H fuel pred cur σ)[i]? = some (bi, σi) →
      (runTrace sem H fuel pred cur σ)[j]? = some (bj, σj) →
      truth σi (getBlockTaint F exec bi) = true → truth σj (getBlockTaint F exec bj) = true := by
  intro fuel
  induction fuel with
  | zero => intro pred cur σ i j bi bj σi σj _ hi; simp [runTrace] at hi
  | succ fuel ih =>
    intro pred cur σ i j bi bj σi σj hij hi hj htrue
    cases hG : H.getBlock cur with
    | none => simp [runTrace, hG] at hi
    | some Bw =>
      rw [runTrace_succ sem _ fuel pred cur σ Bw hG] at hi hj
      cases i with
      | zero =>
        simp only [List.getElem?_cons_zero, Option.some.injEq, Prod.mk.injEq] at hi
        obtain ⟨rfl, rfl⟩ := hi
        cases j with
        | zero =>
          simp only [List.getElem?_cons_zero, Option.some.injEq, Prod.mk.injEq] at hj
          obtain ⟨rfl, rfl⟩ := hj
          exact htrue
        | succ j =>
          simp only [List.getElem?_cons_succ] at hj
          cases hn : Bw.term.next (execBlock sem σ pred Bw).1 with
          | none => simp [hn] at hj
          | some nxt =>
            rw [hn] at hj
            obtain ⟨hBH, hBid⟩ := getBlock_some hG
            obtain ⟨Q, hQ, hQid, hQt⟩ := sig_mem H.blocks F.blocks hW.1 Bw hBH
            have hmem : (bj, σj) ∈ runTrace sem H fuel (some cur) nxt
                (execBlock sem σ pred Bw).1 := List.getElem?_mem hj
            exact tainted_trace sem F H m exec E hnopred hent hW
              fuel cur nxt _ ⟨Q, (mem_predBlocks F nxt Q).mpr ⟨hQ, by
                rw [hQt]; exact mem_successors_of_next _ _ _ hn⟩, by rw [hQid, hBid]⟩ htrue _ hmem
      | succ i =>
        cases j with
        | zero => exact absurd hij (Nat.not_succ_le_zero _)
        | succ j =>
          simp only [List.getElem?_cons_succ] at hi hj
          cases hn : Bw.term.next (execBlock sem σ pred Bw).1 with
          | none => simp [hn] at hi
          | some nxt =>
            rw [hn] at hi hj
            exact ih (some cur) nxt _ i j bi bj σi σj (Nat.le_of_succ_le_succ hij) hi hj htrue

/-- The wiring loop establishes `ExecWired`. -/
theorem ExecWired_wire (F : Func) (m : ValueMap) (exec : BlockMap) (E : Block)
    (others : List Block) (hF : F.blocks = E :: others) (hentry : exec E.id = none)
    (hblocks : (F.blocks.map (fun B => B.id)).Nodup)
    (hinsts : ((F.blocks.flatMap (fun B => B.insts)).map (fun I => I.id)).Nodup)
    (hphis : ∀ B ∈ others, hasExecPhi exec B = true) :
    ExecWired F m exec E.id (wireExecPhis m exec F (F.blocks.map (fun B => B.id))) := by
  refine ⟨?_, ?_, ?_⟩
  · rw [wireExecPhis_blocks]
    simp only [List.map_map]
    rfl
  rotate_left
  · intro Bw hBw I hI hp
    rw [wireExecPhis_blocks] at hBw
    obtain ⟨B, hBF, hBe⟩ := List.mem_map.mp hBw
    subst hBe
    obtain ⟨J, hJ, hJe⟩ := List.mem_map.mp hI
    have hJp : J.op.isPhi = false := by
      rw [← wireInst_isPhi F m exec _ J, hJe]
      exact hp
    rw [wireInst_nonphi F m exec _ J hJp] at hJe
    exact ⟨B, hBF, rfl, hJe ▸ hJ⟩
  · intro Bw hBw hne
    have hmem := hBw
    rw [wireExecPhis_blocks] at hmem
    obtain ⟨B, hBF, hBe⟩ := List.mem_map.mp hmem
    have hid : Bw.id = B.id := by rw [← hBe]
    have hBo : B ∈ others := by
      rw [hF] at hBF
      rcases List.mem_cons.mp hBF with h | h
      · exact absurd (by rw [hid, h]) hne
      · exact h
    obtain ⟨e, name, rest, hexec, hrest, hwb⟩ :=
      wired_block F m exec E others hF hentry hblocks hinsts hphis B hBo
    rw [wireExecPhis_getBlock, getBlock_of_mem F hblocks B hBF] at hwb
    simp only [Option.map_some', Option.some.injEq] at hwb
    rw [hBe] at hwb
    refine ⟨e, name, [], rest, by rw [hid]; exact hexec, ?_, hrest⟩
    rw [hwb, List.append_nil]

theorem backfillIncoming_ext (F : Func) (m : ValueMap) (L : List (Value × BlockId)) :
    ∀ acc, ∃ extra, backfillIncoming F m acc L = acc ++ extra := by
  induction L with
  | nil => intro acc; exact ⟨[], by simp [backfillIncoming]⟩
  | cons x L ih =>
    intro acc
    rcases x with ⟨v, b⟩
    simp only [backfillIncoming]
    split
    · exact ih acc
    · obtain ⟨extra, he⟩ := ih (acc ++ [(getTaint F m v, b)])
      exact ⟨(getTaint F m v, b) :: extra, by rw [he]; simp⟩

/-- Replacing an instruction by one that has the same identifier and, for a
phi, a longer incoming list, keeps `ExecWired`. -/
theorem ExecWired_updateInst (F : Func) (m : ValueMap) (exec : BlockMap) (E : BlockId)
    (H : Func) (sid : InstId) (f : Inst → Inst) (hid : ∀ I, (f I).id = I.id)
    (hop : ∀ I old, I.op = .phi old → ∃ extra, (f I).op = .phi (old ++ extra))
    (hnp : ∀ I, (f I).op.isPhi = false → f I = I)
    (hW : ExecWired F m exec E H) : ExecWired F m exec E (H.updateInst sid f) := by
  refine ⟨?_, ?_, ?_⟩
  · rw [← hW.1]
    simp only [Func.updateInst, List.map_map]
    rfl
  rotate_left
  · intro Bw hBw I hI hp
    simp only [Func.updateInst] at hBw
    obtain ⟨B, hBH, hBe⟩ := List.mem_map.mp hBw
    subst hBe
    obtain ⟨J, hJ, hJe⟩ := List.mem_map.mp hI
    have hJI : J = I := by
      by_cases hs : J.id = sid
      · rw [if_pos hs] at hJe
        rw [← hJe] at hp
        rw [← hJe]
        exact (hnp J hp).symm
      · rw [if_neg hs] at hJe
        exact hJe
    subst hJI
    exact hW.2.2 B hBH J hJ hp
  · intro Bw hBw hne
    simp only [Func.updateInst] at hBw
    obtain ⟨B, hBH, hBe⟩ := List.mem_map.mp hBw
    have hidB : Bw.id = B.id := by rw [← hBe]
    obtain ⟨e, name, extra, rest, hexec, hins, hrest⟩ := hW.2.1 B hBH (by rw [← hidB]; exact hne)
    have hinsw : Bw.insts = B.insts.map (fun I => if I.id = sid then f I else I) := by
      rw [← hBe]
    rw [hins, List.map_cons] at hinsw
    have hrest2 : ∀ I ∈ rest.map (fun I => if I.id = sid then f I else I), I.id ≠ e := by
      intro I hI
      obtain ⟨J, hJ, rfl⟩ := List.mem_map.mp hI
      split
      · rw [hid]; exact hrest J hJ
      · exact hrest J hJ
    by_cases hs : e = sid
    · obtain ⟨extra2, hx⟩ := hop ⟨e, name, .phi (execIncoming F m exec B.id ++ extra)⟩ _ rfl
      have hidf := hid ⟨e, name, .phi (execIncoming F m exec B.id ++ extra)⟩
      refine ⟨e, (f ⟨e, name, .phi (execIncoming F m exec B.id ++ extra)⟩).name,
        extra ++ extra2, _, by rw [hidB]; exact hexec, ?_, hrest2⟩
      rw [hinsw, hidB]
      simp only [hs, if_true]
      congr 1
      cases hfi : f ⟨sid, name, .phi (execIncoming F m exec B.id ++ extra)⟩ with
      | mk i n o =>
        rw [hs] at hx hidf
        rw [hfi] at hx hidf
        simp only at hx hidf
        rw [hx, hidf, List.append_assoc]
    · refine ⟨e, name, extra, _, by rw [hidB]; exact hexec, ?_, hrest2⟩
      rw [hinsw, hidB]
      simp only [if_neg hs]

/-- The backfill loop keeps `ExecWired`. -/
theorem ExecWired_backfill (F : Func) (m m2 : ValueMap) (exec : BlockMap) (E : BlockId)
    (L : List Inst) : ∀ (H : Func), ExecWired F m exec E H →
      ExecWired F m exec E (backfill m2 H L) := by
  induction L with
  | nil => intro H hW; exact hW
  | cons PN L ih =>
    intro H hW
    rw [backfill]
    split
    · split
      · exact ih H hW
      · split
        · refine ih _ (ExecWired_updateInst F m exec E H _ _ ?_ ?_ ?_ hW)
          · intro I
            split <;> rfl
          rotate_left
          · intro I hI
            split at hI
            · simp [Op.isPhi] at hI
            · rfl
          · intro I old hI
            simp only [hI]
            exact (backfillIncoming_ext H m2 _ old).imp (fun _ h => congrArg Op.phi h)
        · exact ih H hW
    · exact ih H hW

/-- Recording the taint of instruction `J` keeps what the Taint Map covers. -/
theorem covers_step (F : Func) (exec : BlockMap) (m : ValueMap)
    (hinsts : ((F.blocks.flatMap (fun B => B.insts)).map (fun I => I.id)).Nodup)
    (B : Block) (J : Inst) (hB : B ∈ F.blocks) (hJ : J ∈ B.insts)
    (B2 : Block) (I : Inst) (hB2 : B2 ∈ F.blocks) (hI : I ∈ B2.insts)
    (h : I.id ≠ J.id → TaintCovers F exec m B2.id I) :
    TaintCovers F exec (m.set (.inst J.id) (instTaint F m J (getBlockTaint F exec B.id)))
      B2.id I := by
  by_cases hid : I.id = J.id
  · have hBB : B2 = B := by
      by_contra hne
      exact nodup_across F.blocks hinsts B2 B hB2 hB hne I J hI hJ hid
    subst hBB
    refine ⟨instTaint F m J (getBlockTaint F exec B2.id), ?_, ?_⟩
    · simp [ValueMap.set, hid]
    · intro σ hσ
      rw [truth_instTaint, hσ]
      simp
  · obtain ⟨T, hT, hcov⟩ := h hid
    refine ⟨T, ?_, hcov⟩
    have hne : (Value.inst I.id) ≠ .inst J.id := by
      intro heq
      injection heq with heq
      exact hid heq
    simp only [ValueMap.set, if_neg hne]
    exact hT

/-- The traversal of the instructions `L` of block `B` keeps what the Taint
Map covers and covers the non-phi, value-producing instructions of `L`. -/
theorem propagateInsts_covers (F : Func) (exec : BlockMap)
    (hinsts : ((F.blocks.flatMap (fun B => B.insts)).map (fun I => I.id)).Nodup)
    (B : Block) (hB : B ∈ F.blocks) (B2 : Block) (I : Inst) (hB2 : B2 ∈ F.blocks)
    (hI : I ∈ B2.insts) (L : List Inst) : ∀ (m : ValueMap), (∀ J ∈ L, J ∈ B.insts) →
      (TaintCovers F exec m B2.id I ∨
        (B2 = B ∧ I ∈ L ∧ I.op.isPhi = false ∧ I.op.isVoid = false)) →
      TaintCovers F exec (propagateInsts F (getBlockTaint F exec B.id) m L) B2.id I := by
  induction L with
  | nil =>
    intro m _ h
    rcases h with h | ⟨_, h, _⟩
    · exact h
    · simp at h
  | cons J L ih =>
    intro m hL h
    have hLrest : ∀ J2 ∈ L, J2 ∈ B.insts := fun J2 h2 => hL J2 (List.mem_cons_of_mem _ h2)
    have hJB : J ∈ B.insts := hL J (List.mem_cons_self _ _)
    rw [propagateInsts]
    by_cases hphi : J.op.isPhi = true
    · rw [if_pos hphi]
      refine ih m hLrest ?_
      rcases h with h | ⟨hBB, hIL, hp, hv⟩
      · exact Or.inl h
      · rcases List.mem_cons.mp hIL with hIJ | hIL
        · rw [hIJ, hphi] at hp
          exact absurd hp (by simp)
        · exact Or.inr ⟨hBB, hIL, hp, hv⟩
    · rw [if_neg hphi]
      by_cases hvoid : J.op.isVoid = true
      · rw [if_pos hvoid]
        refine ih m hLrest ?_
        rcases h with h | ⟨hBB, hIL, hp, hv⟩
        · exact Or.inl h
        · rcases List.mem_cons.mp hIL with hIJ | hIL
          · rw [hIJ, hvoid] at hv
            exact absurd hv (by simp)
          · exact Or.inr ⟨hBB, hIL, hp, hv⟩
      · rw [if_neg hvoid]
        refine ih _ hLrest ?_
        rcases h with h | ⟨hBB, hIL, hp, hv⟩
        · exact Or.inl (covers_step F exec m hinsts B J hB hJB B2 I hB2 hI (fun _ => h))
        · rcases List.mem_cons.mp hIL with hIJ | hIL
          · refine Or.inl (covers_step F exec m hinsts B J hB hJB B2 I hB2 hI ?_)
            intro hne
            exact absurd (by rw [hIJ]) hne
          · exact Or.inr ⟨hBB, hIL, hp, hv⟩

/-- The traversal of the blocks `bs` covers the non-phi, value-producing
instructions of the blocks it visits. -/
theorem propagateBlocks_covers (F : Func) (exec : BlockMap)
    (hinsts : ((F.blocks.flatMap (fun B => B.insts)).map (fun I => I.id)).Nodup)
    (B2 : Block) (I : Inst) (hB2 : F.getBlock B2.id = some B2) (hI : I ∈ B2.insts)
    (hp : I.op.isPhi = false) (hv : I.op.isVoid = false) (bs : List BlockId) :
    ∀ (m : ValueMap), (TaintCovers F exec m B2.id I ∨ B2.id ∈ bs) →
      TaintCovers F exec (propagateBlocks F exec m bs) B2.id I := by
  have hB2F : B2 ∈ F.blocks := (getBlock_some hB2).1
  induction bs with
  | nil =>
    intro m h
    rcases h with h | h
    · exact h
    · simp at h
  | cons b bs ih =>
    intro m h
    rw [propagateBlocks]
    cases hb : F.getBlock b with
    | none =>
      simp only
      refine ih m ?_
      rcases h with h | h
      · exact Or.inl h
      · rcases List.mem_cons.mp h with h | h
        · rw [← h, hB2] at hb
          exact absurd hb (by simp)
        · exact Or.inr h
    | some B =>
      simp only
      obtain ⟨hBF, hBid⟩ := getBlock_some hb
      have hkeep : ∀ (c : TaintCovers F exec m B2.id I ∨
          (B2 = B ∧ I ∈ B.insts ∧ I.op.isPhi = false ∧ I.op.isVoid = false)),
          TaintCovers F exec (propagateInsts F (getBlockTaint F exec b) m B.insts) B2.id I := by
        intro c
        rw [← hBid]
        exact propagateInsts_covers F exec hinsts B hBF B2 I hB2F hI B.insts m (fun _ h => h) c
      rcases h with h | h
      · exact ih _ (Or.inl (hkeep (Or.inl h)))
      · by_cases hbb : B2.id = b
        · refine ih _ (Or.inl (hkeep (Or.inr ?_)))
          rw [← hbb, hB2] at hb
          injection hb with hb
          exact ⟨hb, hb ▸ hI, hp, hv⟩
        · rcases List.mem_cons.mp h with h | h
          · exact absurd h hbb
          · exact ih _ (Or.inr h)

/-- Phase 4 as its loops: the backfill of the wired function. -/
theorem propagateSSA_eq (st : Pass) (E : Block) (others : List Block)
    (hF : st.F.blocks = E :: others) :
    propagateSSA st =
      { st with
        F := backfill (stageTaints st) (stageWired st)
          ((stageWired st).blocks.flatMap (fun B => B.insts)),
        ValTaintMap := stageTaints st,
        BlockExecTaintMap := (execPhiStage st).2.1 } := by
  simp only [propagateSSA, execPhiStage, stageTaints, stageWired, hF]

/-- The function that the first two loops of `propagateSSA` leave, for a
function whose block and instruction identifiers are distinct and in use
below `nextInst`, and whose entry block has no predecessor. -/
theorem execPhiStage_ok (st : Pass) (E : Block) (others : List Block)
    (hF : st.F.blocks = E :: others)
    (hnopred : ∀ B ∈ st.F.blocks, E.id ∉ B.term.successors)
    (hblocks : (st.F.blocks.map (fun B => B.id)).Nodup)
    (hinsts : ((st.F.blocks.flatMap (fun B => B.insts)).map (fun I => I.id)).Nodup)
    (hlt : ∀ B ∈ st.F.blocks, ∀ I ∈ B.insts, I.id < st.F.nextInst) :
    ∃ (E2 : Block) (others2 : List Block),
      (execPhiStage st).1.blocks = E2 :: others2 ∧ E2.id = E.id ∧
      (execPhiStage st).2.1 E2.id = none ∧
      (∀ B ∈ (execPhiStage st).1.blocks, E2.id ∉ B.term.successors) ∧
      ((execPhiStage st).1.blocks.map (fun B => B.id)).Nodup ∧
      (((execPhiStage st).1.blocks.flatMap (fun B => B.insts)).map (fun I => I.id)).Nodup ∧
      (∀ B ∈ others2, hasExecPhi (execPhiStage st).2.1 B = true) := by
  have hS : execPhiStage st =
      ({ st.F with
          blocks := (createShadowPhisAll
            (E :: (createExecPhis others st.F.nextInst BlockMap.empty).1)
            (createExecPhis others st.F.nextInst BlockMap.empty).2.1 st.ValTaintMap).1,
          nextInst := (createShadowPhisAll
            (E :: (createExecPhis others st.F.nextInst BlockMap.empty).1)
            (createExecPhis others st.F.nextInst BlockMap.empty).2.1 st.ValTaintMap).2.1 },
        (createExecPhis others st.F.nextInst BlockMap.empty).2.2,
        (createShadowPhisAll
            (E :: (createExecPhis others st.F.nextInst BlockMap.empty).1)
            (createExecPhis others st.F.nextInst BlockMap.empty).2.1 st.ValTaintMap).2.2) := by
    simp only [execPhiStage, hF]
  have hsig : (execPhiStage st).1.blocks.map (fun B => (B.id, B.term)) =
      st.F.blocks.map (fun B => (B.id, B.term)) := by
    rw [hS, hF]
    simp only [createShadowPhisAll_sig, List.map_cons, createExecPhis_sig]
  have hndo : (others.map (fun B => B.id)).Nodup ∧ E.id ∉ others.map (fun B => B.id) := by
    rw [hF, List.map_cons, List.nodup_cons] at hblocks
    exact ⟨hblocks.2, hblocks.1⟩
  have hids : (execPhiStage st).1.blocks.map (fun B => B.id) =
      st.F.blocks.map (fun B => B.id) := by
    have := congrArg (fun L => L.map Prod.fst) hsig
    simpa [List.map_map, Function.comp_def] using this
  have hfresh : FreshIds (instIds st.F.blocks) st.F.nextInst (instIds (execPhiStage st).1.blocks)
      (execPhiStage st).1.nextInst := by
    rw [hS, hF]
    refine FreshIds_trans _ (instIds (E :: (createExecPhis others st.F.nextInst BlockMap.empty).1))
      _ _ (createExecPhis others st.F.nextInst BlockMap.empty).2.1 _ ?_
      (createShadowPhisAll_ids _ _ _)
    rw [instIds_cons, instIds_cons]
    exact FreshIds_append _ _ _ _ _ _ _ (FreshIds_refl _ _) (createExecPhis_ids others _ _)
  refine ⟨{ E with insts := (createShadowPhis E.insts
      (createExecPhis others st.F.nextInst BlockMap.empty).2.1 st.ValTaintMap).1 },
    (createShadowPhisAll (createExecPhis others st.F.nextInst BlockMap.empty).1
      (createShadowPhis E.insts
        (createExecPhis others st.F.nextInst BlockMap.empty).2.1 st.ValTaintMap).2.1
      (createShadowPhis E.insts
        (createExecPhis others st.F.nextInst BlockMap.empty).2.1 st.ValTaintMap).2.2).1,
    ?_, rfl, ?_, ?_, ?_, ?_, ?_⟩
  · rw [hS]
    simp only [createShadowPhisAll]
  · rw [hS]
    simp only
    rw [createExecPhis_map_other others _ _ E.id hndo.2]
    rfl
  · intro B hB hcontra
    obtain ⟨P, hP, _, hPt⟩ := sig_mem _ _ hsig B hB
    exact hnopred P hP (by rw [hPt]; exact hcontra)
  · rw [hids]
    exact hblocks
  · refine hfresh.2.2 ?_ hinsts
    intro id hid
    obtain ⟨I, hI, rfl⟩ := List.mem_map.mp hid
    obtain ⟨B, hB, hIB⟩ := List.mem_flatMap.mp hI
    exact hlt B hB I hIB
  · rw [hS]
    simp only
    exact createShadowPhisAll_head _ _ _ _
      (createExecPhis_head others st.F.nextInst BlockMap.empty hndo.1)

/-- C23: execution taint is sticky in the function that `propagateSSA`
returns.  The phase is handed a function whose block and instruction
identifiers are distinct and in use below `nextInst`, and whose entry block
`E` has no predecessor.  Along every run of the returned function, from any
block and state: once the execution taint of an executed block is true at its
terminator, the execution taint of every block executed later is true at its
terminator, and so is the taint that the returned Taint Map records for every
non-phi, value-producing instruction of such a block, provided the traversal
of lines 269 to 318 visits the block. -/
theorem exec_taint_sticky (sem : Oracle) (st : Pass) (E : Block) (others : List Block)
    (hF : st.F.blocks = E :: others)
    (hnopred : ∀ B ∈ st.F.blocks, E.id ∉ B.term.successors)
    (hblocks : (st.F.blocks.map (fun B => B.id)).Nodup)
    (hinsts : ((st.F.blocks.flatMap (fun B => B.insts)).map (fun I => I.id)).Nodup)
    (hlt : ∀ B ∈ st.F.blocks, ∀ I ∈ B.insts, I.id < st.F.nextInst)
    (fuel : Nat) (pred : Option BlockId) (cur : BlockId) (σ : State) (i j : Nat)
    (bi bj : BlockId) (σi σj : State) (hij : i ≤ j)
    (hi : (runTrace sem (propagateSSA st).F fuel pred cur σ)[i]? = some (bi, σi))
    (hj : (runTrace sem (propagateSSA st).F fuel pred cur σ)[j]? = some (bj, σj))
    (htrue : truth σi
      (getBlockTaint (propagateSSA st).F (propagateSSA st).BlockExecTaintMap bi) = true) :
    truth σj (getBlockTaint (propagateSSA st).F (propagateSSA st).BlockExecTaintMap bj) = true ∧
    ∀ (B : Block) (I : Inst), (propagateSSA st).F.getBlock bj = some B → I ∈ B.insts →
      I.op.isPhi = false → I.op.isVoid = false → bj ∈ (execPhiStage st).1.rpo →
      ∃ T, (propagateSSA st).ValTaintMap (.inst I.id) = some T ∧ truth σj T = true := by
  obtain ⟨E2, others2, hF2, hE2, hentry, hnopred2, hblocks2, hinsts2, hphis⟩ :=
    execPhiStage_ok st E others hF hnopred hblocks hinsts hlt
  have hW : ExecWired (execPhiStage st).1 (stageTaints st) (execPhiStage st).2.1 E2.id
      (propagateSSA st).F := by
    rw [propagateSSA_eq st E others hF]
    exact ExecWired_backfill _ _ _ _ _ _ _
      (ExecWired_wire (execPhiStage st).1 (stageTaints st) (execPhiStage st).2.1 E2 others2 hF2
        hentry hblocks2 hinsts2 hphis)
  have hent : (execPhiStage st).1.entry = some E2.id := by simp [Func.entry, hF2]
  have hexec : (propagateSSA st).BlockExecTaintMap = (execPhiStage st).2.1 := by
    rw [propagateSSA_eq st E others hF]
  have hmap : (propagateSSA st).ValTaintMap = stageTaints st := by
    rw [propagateSSA_eq st E others hF]
  have hgbt : ∀ b, getBlockTaint (propagateSSA st).F (propagateSSA st).BlockExecTaintMap b =
      getBlockTaint (execPhiStage st).1 (execPhiStage st).2.1 b := by
    intro b
    simp only [getBlockTaint, hexec, sig_entry _ _ hW.1]
  rw [hgbt] at htrue ⊢
  have hsticky := sticky_trace sem (execPhiStage st).1 (propagateSSA st).F (stageTaints st)
    (execPhiStage st).2.1 E2.id hnopred2 hent hW fuel pred cur σ i j bi bj σi σj hij hi hj htrue
  refine ⟨hsticky, ?_⟩
  intro B I hB hI hp hv hrpo
  obtain ⟨hBH, hBid⟩ := getBlock_some hB
  obtain ⟨B0, hB0, hB0id, hIB0⟩ := hW.2.2 B hBH I hI hp
  have hget : (execPhiStage st).1.getBlock B0.id = some B0 :=
    getBlock_of_mem _ hblocks2 B0 hB0
  have hbj : B0.id = bj := by rw [hB0id, hBid]
  obtain ⟨T, hT, hcov⟩ := propagateBlocks_covers (execPhiStage st).1 (execPhiStage st).2.1
    hinsts2 B0 I hget hIB0 hp hv (execPhiStage st).1.rpo (execPhiStage st).2.2
    (Or.inr (by rw [hbj]; exact hrpo))
  refine ⟨T, by rw [hmap]; exact hT, hcov σj ?_⟩
  rw [hbj]
  exact hsticky

theorem exec_taint_sticky_witness :
    (runTrace exampleSem (propagateSSA (injectRecovery (startPass stickyDiamond))).F 10 none 0
        faultState).map
      (fun x => (x.1, truth x.2
        (getBlockTaint (propagateSSA (injectRecovery (startPass stickyDiamond))).F
          (propagateSSA (injectRecovery (startPass stickyDiamond))).BlockExecTaintMap x.1))) =
      [(0, false), (6, false), (4, true), (5, true)] ∧
    ∀ (bj : BlockId) (σj : State),
      (runTrace exampleSem (propagateSSA (injectRecovery (startPass stickyDiamond))).F 10 none 0
        faultState)[3]? = some (bj, σj) →
      ∃ T, (propagateSSA (injectRecovery (startPass stickyDiamond))).ValTaintMap (.inst 6) =
          some T ∧ truth σj T = true := by
  refine ⟨by decide!, ?_⟩
  intro bj σj hTj
  have hsome : ((runTrace exampleSem (propagateSSA (injectRecovery (startPass stickyDiamond))).F
      10 none 0 faultState)[2]?).isSome = true := by decide!
  obtain ⟨x, hx⟩ := Option.isSome_iff_exists.mp hsome
  have htrue : ((runTrace exampleSem (propagateSSA (injectRecovery (startPass stickyDiamond))).F
      10 none 0 faultState)[2]?).map
      (fun x => truth x.2
        (getBlockTaint (propagateSSA (injectRecovery (startPass stickyDiamond))).F
          (propagateSSA (injectRecovery (startPass stickyDiamond))).BlockExecTaintMap x.1)) =
      some true := by decide!
  rw [hx] at htrue
  have htrue2 : truth x.2
      (getBlockTaint (propagateSSA (injectRecovery (startPass stickyDiamond))).F
        (propagateSSA (injectRecovery (startPass stickyDiamond))).BlockExecTaintMap x.1) =
      true := by simpa using htrue
  have hbj : ((runTrace exampleSem (propagateSSA (injectRecovery (startPass stickyDiamond))).F
      10 none 0 faultState)[3]?).map Prod.fst = some 5 := by decide!
  rw [hTj] at hbj
  simp only [Option.map_some', Option.some.injEq] at hbj
  subst hbj
  exact (exec_taint_sticky exampleSem (injectRecovery (startPass stickyDiamond))
    { id := 0, insts := [⟨1, "bad", .cmp (.arg 1) (.cint 0)⟩], term := .condBr (.inst 1) 6 2 }
    (injectRecovery (startPass stickyDiamond)).F.blocks.tail
    (by decide!) (by decide!) (by decide!) (by decide!) (by decide!)
    10 none 0 faultState 2 3 x.1 5 x.2 σj (by decide) hx hTj htrue2).2
    { id := 5,
      insts := [ ⟨15, "exec.taint", .phi [(.inst 13, 3), (.inst 14, 4)]⟩,
                 ⟨16, "calc.taint", .phi [(.cbool false, 3), (.cbool false, 4)]⟩,
                 ⟨5, "calc", .phi [(.cint 25, 3), (.cint 9, 4)]⟩,
                 ⟨6, "sum", .binop (.cint 2) (.cint 3)⟩,
                 ⟨7, "", .store (.inst 6) (.arg 2)⟩ ],
      term := .ret none }
    ⟨6, "sum", .binop (.cint 2) (.cint 3)⟩ (by decide!) (by decide) rfl rfl (by decide!)

/-- C3: the pipeline on `negStore` and on `subStore`, run with a failing
check.  The taint of the recovered value (instruction `6`) is true in both.
For the unary negation of `negStore` the Taint Map records the execution taint
of the block alone, which is false, and the store of the negated value
executes: the variable at address `200` changes from `100` to `0`.  For the
same negation written as a binary subtraction the recorded taint contains the
operand's taint, is true, and the store is suppressed. -/
theorem fneg_drops_operand_taint :
    (propagateSSA (injectRecovery (startPass negStore))).ValTaintMap (.inst 6) =
      some (.inst 7) ∧
    (propagateSSA (injectRecovery (startPass negStore))).ValTaintMap (.inst 4) =
      some (.inst 10) ∧
    (propagateSSA (injectRecovery (startPass negStore))).BlockExecTaintMap 3 =
      some (.inst 10) ∧
    (propagateSSA (injectRecovery (startPass subStore))).ValTaintMap (.inst 4) =
      some (.orOf (.inst 7) (.inst 10)) ∧
    (run negSem (instrument negStore).F 20 none 0 faultState).map
      (fun r =>
        (truth r.2 (getTaint (instrument negStore).F (instrument negStore).ValTaintMap (.inst 6)),
         truth r.2 (getTaint (instrument negStore).F (instrument negStore).ValTaintMap (.inst 4)),
         faultState.mem 200, r.2.mem 200)) =
      some (true, false, 100, 0) ∧
    (run negSem (instrument subStore).F 20 none 0 faultState).map
      (fun r =>
        (truth r.2 (getTaint (instrument subStore).F (instrument subStore).ValTaintMap (.inst 6)),
         truth r.2 (getTaint (instrument subStore).F (instrument subStore).ValTaintMap (.inst 4)),
         faultState.mem 200, r.2.mem 200)) =
      some (true, true, 100, 100) := by
  decide!

/-- C21: shadow allocation on `vlaFunc`.  The shadow alloca of `vla`
(instruction `3`) is put at the head of the entry block, before instruction
`1`, which defines the element count both allocas name.  Run from cleared
registers with `arg 0 = 4`, the shadow alloca is executed with the count `0`
and the original with the count `5`. -/
theorem shadow_alloca_before_count :
    (createShadowAllocas (startPass vlaFunc)).F.blocks =
      [ { id := 0,
          insts := [ ⟨3, "vla.shadow", .alloca "i32" (.inst 1)⟩,
                     ⟨1, "n", .binop (.arg 0) (.cint 1)⟩,
                     ⟨2, "vla", .alloca "i32" (.inst 1)⟩ ],
          term := .ret none } ] ∧
    (createShadowAllocas (startPass vlaFunc)).PtrToShadowPtr (.inst 2) = some (.inst 3) ∧
    (propagateShadowPointers (createShadowAllocas (startPass vlaFunc))).F.blocks =
      (createShadowAllocas (startPass vlaFunc)).F.blocks ∧
    ((run vlaSem (createShadowAllocas (startPass vlaFunc)).F 5 none 0 vlaState).map
      (fun r => (r.2.regs 3, r.2.regs 2))) = some (0, 5) := by
  decide!

end Cima
